import Mathlib

/-!
The compiler `pl0c`: one pass from PL/0 to C.

A shallow embedding of `src/pl0c.c`.  The global variables of the C program
(`raw`, `token`, `depth`, `proc`, `type`, `line`, `head`) and the text written
to standard output are the fields of one `State` record that every function
receives and returns.  `error(...)`, which prints a message with the current
line and exits, is the `fatal` outcome.
-/

namespace Pl0c

/-! ## Outcomes -/

/-- Outcome of running a piece of the compiler: normal return, the fatal exit
of `error()` (the value of `line` and the formatted message), a chain of nested
calls that goes deeper than the call stack admits (`fuel`: the C program is
killed there, it neither returns nor reports an error), or a step that is
undefined in C.

The grammar rules of the C program call each other without any bound of their
own: `factor`, `expression`, `term` and `factor` again for every parenthesis,
`statement` for every `begin`, `if` and `while`.  Here each rule takes the
number of nested calls that the stack still admits as its first argument and
passes one less to the rules it calls; a `while` loop of the source is a
function of its own that calls itself for the next pass, so that the passes of
a loop count like nested calls. -/
inductive Result (α : Type) where
  | ok (a : α)
  | fatal (line : Nat) (msg : String)
  | fuel
  | undef
deriving DecidableEq, Repr

/-- Sequencing: the first outcome that is not a normal return ends the run. -/
def Result.bind {α β : Type} (r : Result α) (f : α → Result β) : Result β :=
  match r with
  | .ok a => f a
  | .fatal l m => .fatal l m
  | .fuel => .fuel
  | .undef => .undef

instance : Monad Result where
  pure := Result.ok
  bind := Result.bind

/-- Normal return test. -/
def Result.isOk {α : Type} : Result α → Bool
  | .ok _ => true
  | _ => false

/-! ## Constants of the source (`#define`s) -/

abbrev CHECK_LHS : Nat := 0
abbrev CHECK_RHS : Nat := 1
abbrev CHECK_CALL : Nat := 2

abbrev TOK_IDENT : Char := 'I'
abbrev TOK_NUMBER : Char := 'N'
abbrev TOK_CONST : Char := 'C'
abbrev TOK_VAR : Char := 'V'
abbrev TOK_PROCEDURE : Char := 'P'
abbrev TOK_CALL : Char := 'c'
abbrev TOK_BEGIN : Char := 'B'
abbrev TOK_END : Char := 'E'
abbrev TOK_IF : Char := 'i'
abbrev TOK_THEN : Char := 'T'
abbrev TOK_WHILE : Char := 'W'
abbrev TOK_DO : Char := 'D'
abbrev TOK_ODD : Char := 'O'
abbrev TOK_DOT : Char := '.'
abbrev TOK_EQUAL : Char := '='
abbrev TOK_COMMA : Char := ','
abbrev TOK_SEMICOLON : Char := ';'
abbrev TOK_ASSIGN : Char := ':'
abbrev TOK_HASH : Char := '#'
abbrev TOK_LESSTHAN : Char := '<'
abbrev TOK_GREATERTHAN : Char := '>'
abbrev TOK_PLUS : Char := '+'
abbrev TOK_MINUS : Char := '-'
abbrev TOK_MULTIPLY : Char := '*'
abbrev TOK_DIVIDE : Char := '/'
abbrev TOK_LPAREN : Char := '('
abbrev TOK_RPAREN : Char := ')'
abbrev TOK_WRITEINT : Char := 'w'
abbrev TOK_WRITECHAR : Char := 'H'
abbrev TOK_READINT : Char := 'R'
abbrev TOK_READCHAR : Char := 'h'
abbrev TOK_INTO : Char := 'n'

/-- The value `0` that `lexer` returns at the terminating NUL. -/
abbrev TOK_EOF : Char := '\x00'

/-- The value of `LONG_MAX` on an LP64 platform. -/
abbrev LONG_MAX : Nat := 2 ^ 63 - 1

/-! ## Data model -/

/-- One `struct symtab` node, without its `next` pointer: the linked list
starting at `head` is the Lean list of its nodes, in list order. -/
structure Symtab where
  depth : Int
  type : Char
  name : String
deriving DecidableEq, Repr

/-- The global variables of the program and the standard output.
`buf` is the source buffer (the bytes before the terminating NUL written by
`readin`), `raw` the offset of the C pointer `raw` into it; reading at an offset
that is not inside `buf` yields the NUL.  `token` is `""` while the C pointer is
still `NULL`.  `out` lists the texts written by the calls of `aout`, in order. -/
structure State where
  buf : List Char
  raw : Nat
  token : String
  depth : Int
  proc : Int
  type : Char
  line : Nat
  head : List Symtab
  out : List String
deriving DecidableEq, Repr

/-- The character `*raw`. -/
def State.cur (s : State) : Char := s.buf.getD s.raw '\x00'

/-- The call `error(msg)`: report `msg` at the current line and exit. -/
def error {α : Type} (s : State) (msg : String) : Result α := .fatal s.line msg

/-! ## Lexer -/

/-- The loop of `comment`: `while ((current = *raw++) != '}')`, run on the
characters from `raw` on.  Returns the new offset and line, or the line of the
"unterminated comment" error. -/
def commentLoop : List Char → Nat → Nat → Nat ⊕ (Nat × Nat)
  | [], _, line => .inl line
  | c :: cs, raw, line =>
    if c = '}' then .inr (raw + 1, line)
    else if c = '\x00' then .inl line
    else commentLoop cs (raw + 1) (if c = '\n' then line + 1 else line)

/-- The function `comment`. -/
def comment (s : State) : Result State :=
  match commentLoop (s.buf.drop s.raw) s.raw s.line with
  | .inl line => .fatal line "unterminated comment"
  | .inr (raw, line) => .ok { s with raw := raw, line := line }

/-- Number of characters passed by `while (isalnum(*raw) || *raw == '_') raw++`. -/
def identRun : List Char → Nat
  | [] => 0
  | c :: cs => if c.isAlphanum || c == '_' then identRun cs + 1 else 0

/-- The keyword comparisons at the end of `ident`. -/
def keyword (token : String) : Char :=
  if token = "const" then TOK_CONST
  else if token = "var" then TOK_VAR
  else if token = "procedure" then TOK_PROCEDURE
  else if token = "call" then TOK_CALL
  else if token = "begin" then TOK_BEGIN
  else if token = "end" then TOK_END
  else if token = "if" then TOK_IF
  else if token = "then" then TOK_THEN
  else if token = "while" then TOK_WHILE
  else if token = "do" then TOK_DO
  else if token = "odd" then TOK_ODD
  else if token = "writeInt" then TOK_WRITEINT
  else if token = "writeChar" then TOK_WRITECHAR
  else if token = "readInt" then TOK_READINT
  else if token = "readChar" then TOK_READCHAR
  else if token = "into" then TOK_INTO
  else TOK_IDENT

/-- The function `ident`: scans the run, steps `raw` back by one (the caller
`next` steps it forward again), copies the run into `token` and classifies it. -/
def ident (s : State) : Char × State :=
  let p := s.raw
  let length := identRun (s.buf.drop p)
  let token := String.mk ((s.buf.drop p).take length)
  (keyword token, { s with raw := p + length - 1, token := token })

/-- Number of characters passed by `while (isdigit(*raw) || *raw == '_') raw++`. -/
def numberRun : List Char → Nat
  | [] => 0
  | c :: cs => if c.isDigit || c == '_' then numberRun cs + 1 else 0

/-- Value of a string of decimal digits. -/
def digitsValue (ds : List Char) : Nat :=
  ds.foldl (fun acc c => 10 * acc + (c.toNat - '0'.toNat)) 0

/-- The library call `strtonum(token, 0, LONG_MAX, &errstr)` leaves `errstr`
non-NULL when `token` is not a decimal numeral or its value is outside
`0 .. LONG_MAX`; this is that test. -/
def strtonumFails (token : String) : Bool :=
  token.data.isEmpty || !token.data.all Char.isDigit || decide (LONG_MAX < digitsValue token.data)

/-- The function `number`: scans the run of digits and underscores, keeps the
digits as `token` and checks the value. -/
def number (s : State) : Result (Char × State) :=
  let p := s.raw
  let length := numberRun (s.buf.drop p)
  let token := String.mk (((s.buf.drop p).take length).filter Char.isDigit)
  let s1 : State := { s with raw := p + length - 1, token := token }
  if strtonumFails token then error s1 ("invalid number: " ++ token)
  else .ok (TOK_NUMBER, s1)

/-- The whitespace loop at the head of `lexer`: offsets passed and newlines
counted. -/
def skipWhitespace : List Char → Nat → Nat → Nat × Nat
  | [], raw, line => (raw, line)
  | c :: cs, raw, line =>
    if c = ' ' ∨ c = '\t' ∨ c = '\n' then
      skipWhitespace cs (raw + 1) (if c = '\n' then line + 1 else line)
    else (raw, line)

/-- The characters that `lexer` returns as their own token kind. -/
def punctuation : List Char :=
  ['.', '=', ',', ';', '#', '<', '>', '+', '-', '*', '/', '(', ')']

/-- The function `lexer`; the budget counts the passes through `again:`. -/
def lexerLoop : Nat → State → Result (Char × State)
  | 0, _ => .fuel
  | n + 1, s =>
    let (raw, line) := skipWhitespace (s.buf.drop s.raw) s.raw s.line
    let s : State := { s with raw := raw, line := line }
    if s.cur.isAlpha || s.cur == '_' then .ok (ident s)
    else if s.cur.isDigit then number s
    else if s.cur = '{' then (comment s).bind (lexerLoop n)
    else if s.cur ∈ punctuation then .ok (s.cur, s)
    else if s.cur = ':' then
      let s : State := { s with raw := s.raw + 1 }
      if s.cur ≠ '=' then error s ("unknown token: ':" ++ String.singleton s.cur ++ "'")
      else .ok (TOK_ASSIGN, s)
    else if s.cur = '\x00' then .ok (TOK_EOF, s)
    else error s ("unknown token: '" ++ String.singleton s.cur ++ "'")

/-- The function `lexer`: every pass through `again:` after the first follows a
comment, which is at least two characters long. -/
def lexer (s : State) : Result (Char × State) := lexerLoop (s.buf.length + 1) s

/-- The function `next`: `type = lexer(); raw++`. -/
def next (s : State) : Result State :=
  (lexer s).bind fun (t, s) => .ok { s with type := t, raw := s.raw + 1 }

/-- Compiler state at the start of `main`, for the source text `src`. -/
def initial (src : String) : State :=
  { buf := src.data, raw := 0, token := "", depth := 0, proc := 0, type := '\x00',
    line := 1, head := [], out := [] }

/-! ## Code generator -/

/-- The function `aout`, after formatting: appends one text to the output. -/
def aout (frag : String) (s : State) : State := { s with out := s.out ++ [frag] }

def cg_call (s : State) : State := aout (s.token ++ "();\n") s

def cg_const (s : State) : State := aout ("const long " ++ s.token ++ "=") s

def cg_newline (s : State) : State := aout "\n" s

def cg_epilogue (s : State) : State :=
  let s := aout ";" s
  let s := if s.proc = 0 then aout "return 0;" s else s
  aout "\n\x7d\n\n" s

def cg_init (s : State) : State :=
  let s := aout "#include <limits.h>\n" s
  let s := aout "#include <stdio.h>\n" s
  let s := aout "#include <stdlib.h>\n" s
  let s := aout "#include <string.h>\n\n" s
  let s := aout "static char __stdin[24];\n" s
  aout "static const char *__errstr;\n\n" s

def cg_odd (s : State) : State := aout ")&1" s

def cg_procedure (s : State) : State :=
  let s :=
    if s.proc = 0 then aout "main(int argc, char *argv[])\n" (aout "int\n" s)
    else aout (s.token ++ "(void)\n") (aout "void\n" s)
  aout "\x7b\n" s

def cg_readchar (s : State) : State :=
  aout (s.token ++ "=(unsigned char) fgetc(stdin);") s

def cg_readint (s : State) : State :=
  let s := aout "(void) fgets(__stdin, sizeof(__stdin), stdin);\n" s
  let s := aout "if(__stdin[strlen(__stdin) - 1] == '\\n')" s
  let s := aout "__stdin[strlen(__stdin) - 1] = '\\0';" s
  let s := aout (s.token ++ "=(long) strtonum(__stdin, LONG_MIN, LONG_MAX, &__errstr);\n") s
  let s := aout "if(__errstr!=NULL)\x7b" s
  let s := aout "(void) fprintf(stderr, \"invalid number: %s\\n\", __stdin);" s
  let s := aout "exit(1);" s
  aout "\x7d" s

def cg_semicolon (s : State) : State := aout ";\n" s

/-- The function `cg_symbol`: the `switch (type)`; a kind without a case
writes nothing. -/
def cg_symbol (s : State) : State :=
  if s.type = TOK_IDENT ∨ s.type = TOK_NUMBER then aout s.token s
  else if s.type = TOK_BEGIN then aout "\x7b\n" s
  else if s.type = TOK_END then aout ";\n\x7d\n" s
  else if s.type = TOK_IF then aout "if(" s
  else if s.type = TOK_THEN ∨ s.type = TOK_DO then aout ")" s
  else if s.type = TOK_ODD then aout "(" s
  else if s.type = TOK_WHILE then aout "while(" s
  else if s.type = TOK_EQUAL then aout "==" s
  else if s.type = TOK_COMMA then aout "," s
  else if s.type = TOK_ASSIGN then aout "=" s
  else if s.type = TOK_HASH then aout "!=" s
  else if s.type = TOK_LESSTHAN then aout "<" s
  else if s.type = TOK_GREATERTHAN then aout ">" s
  else if s.type = TOK_PLUS then aout "+" s
  else if s.type = TOK_MINUS then aout "-" s
  else if s.type = TOK_MULTIPLY then aout "*" s
  else if s.type = TOK_DIVIDE then aout "/" s
  else if s.type = TOK_LPAREN then aout "(" s
  else if s.type = TOK_RPAREN then aout ")" s
  else s

def cg_var (s : State) : State := aout ("long " ++ s.token ++ ";\n") s

def cg_writechar (s : State) : State :=
  aout ("(void) fprintf(stdout, \"%c\", (unsigned char) " ++ s.token ++ ");") s

def cg_writeint (s : State) : State :=
  aout ("(void) fprintf(stdout, \"%ld\", (long) " ++ s.token ++ ");") s

/-! ## Semantics: the symbol table -/

/-- The `while (current != NULL)` loop of `symcheck`: `ret` is overwritten at
every node whose name equals `token`. -/
def symcheckLoop (token : String) : List Symtab → Option Symtab → Option Symtab
  | [], ret => ret
  | current :: rest, ret =>
    symcheckLoop token rest (if token = current.name then some current else ret)

/-- The `switch (check)` of `symcheck`, on the node `ret` found by the loop. -/
def rolecheck (check : Nat) (ret : Symtab) (s : State) : Result State :=
  if check = CHECK_LHS then
    if ret.type ≠ TOK_VAR then error s ("must be a variable: " ++ s.token) else .ok s
  else if check = CHECK_RHS then
    if ret.type = TOK_PROCEDURE then error s ("must not be a procedure: " ++ s.token) else .ok s
  else if check = CHECK_CALL then
    if ret.type ≠ TOK_PROCEDURE then error s ("must be a procedure: " ++ s.token) else .ok s
  else .ok s

/-- The function `symcheck`. -/
def symcheck (check : Nat) (s : State) : Result State :=
  match symcheckLoop s.token s.head none with
  | none => error s ("undefined symbol: " ++ s.token)
  | some ret => rolecheck check ret s

/-- The `while (1)` loop of `addsymbol`: does some node carry the name `token`
at depth `d`? (the loop then calls `error`). -/
def addsymbolLoop (token : String) (d : Int) : List Symtab → Bool
  | [] => false
  | current :: rest =>
    if current.name = token ∧ current.depth = d then true else addsymbolLoop token d rest

/-- The function `addsymbol`.  With `head == NULL` the first `current->name`
dereferences a null pointer. -/
def addsymbol (type : Char) (s : State) : Result State :=
  if s.head = [] then .undef
  else if addsymbolLoop s.token (s.depth - 1) s.head then
    error s ("duplicate symbol: " ++ s.token)
  else .ok { s with head := s.head ++ [{ depth := s.depth - 1, type := type, name := s.token }] }

/-- The loop `again: ... goto again` of `destroysymbols` on the list of nodes:
`current` is the last node; when its kind is not `TOK_PROCEDURE` it is unlinked
from `prev`, which is uninitialised when the list has a single node. -/
def destroyLoop : Nat → List Symtab → Result (List Symtab)
  | 0, _ => .fuel
  | n + 1, l =>
    match l.getLast? with
    | none => .undef
    | some current =>
      if current.type ≠ TOK_PROCEDURE then
        if l.length = 1 then .undef else destroyLoop n l.dropLast
      else .ok l

/-- The function `destroysymbols`; each pass removes one node, so the number of
nodes bounds the number of passes. -/
def destroysymbols (s : State) : Result State :=
  (destroyLoop s.head.length s.head).bind fun l => .ok { s with head := l }

/-- The node created by `initsymtab`. -/
def sentinel : Symtab := { depth := 0, type := TOK_PROCEDURE, name := "main" }

/-- The function `initsymtab`. -/
def initsymtab (s : State) : State := { s with head := [sentinel] }

/-! ## Parser -/

/-- The function `expect`. -/
def expect (m : Char) (s : State) : Result State :=
  if m ≠ s.type then error s "syntax error" else next s

mutual

/-- The function `factor`.  The `TOK_IDENT` case falls through into the
`TOK_NUMBER` case; a kind without a case leaves the `switch` at once.  The
first argument is the number of nested calls that the call stack still admits:
the call of `expression` for a parenthesis gets one less, and with none left
the outcome is `fuel`. -/
def factor : Nat → State → Result State
  | 0, _ => .fuel
  | n + 1, s =>
    if s.type = TOK_IDENT then do
      let s ← symcheck CHECK_RHS s
      next (cg_symbol s)
    else if s.type = TOK_NUMBER then
      next (cg_symbol s)
    else if s.type = TOK_LPAREN then do
      let s ← expect TOK_LPAREN (cg_symbol s)
      let s ← expression n s
      let s := if s.type = TOK_RPAREN then cg_symbol s else s
      expect TOK_RPAREN s
    else pure s

/-- The `while` loop of `term`. -/
def termLoop : Nat → State → Result State
  | 0, _ => .fuel
  | n + 1, s =>
    if s.type = TOK_MULTIPLY ∨ s.type = TOK_DIVIDE then do
      let s ← next (cg_symbol s)
      let s ← factor n s
      termLoop n s
    else pure s

/-- The function `term`. -/
def term : Nat → State → Result State
  | 0, _ => .fuel
  | n + 1, s => do
    let s ← factor n s
    termLoop n s

/-- The `while` loop of `expression`. -/
def expressionLoop : Nat → State → Result State
  | 0, _ => .fuel
  | n + 1, s =>
    if s.type = TOK_PLUS ∨ s.type = TOK_MINUS then do
      let s ← next (cg_symbol s)
      let s ← term n s
      expressionLoop n s
    else pure s

/-- The function `expression`. -/
def expression : Nat → State → Result State
  | 0, _ => .fuel
  | n + 1, s => do
    let s ← if s.type = TOK_PLUS ∨ s.type = TOK_MINUS then next (cg_symbol s) else pure s
    let s ← term n s
    expressionLoop n s

end

/-- The function `condition`. -/
def condition (n : Nat) (s : State) : Result State :=
  if s.type = TOK_ODD then do
    let s ← expect TOK_ODD (cg_symbol s)
    let s ← expression n s
    pure (cg_odd s)
  else do
    let s ← expression n s
    let s ←
      if s.type = TOK_EQUAL ∨ s.type = TOK_HASH ∨ s.type = TOK_LESSTHAN
          ∨ s.type = TOK_GREATERTHAN then next (cg_symbol s)
      else error s "invalid conditional"
    expression n s

mutual

/-- The `while (type == TOK_SEMICOLON)` loop of the `TOK_BEGIN` case. -/
def statementLoop : Nat → State → Result State
  | 0, _ => .fuel
  | n + 1, s =>
    if s.type = TOK_SEMICOLON then do
      let s ← expect TOK_SEMICOLON (cg_semicolon s)
      let s ← statement n s
      statementLoop n s
    else pure s

/-- The function `statement`; a kind without a case leaves the `switch` at
once (the empty statement).  The first argument is the number of nested calls
that the call stack still admits, as in `factor`. -/
def statement : Nat → State → Result State
  | 0, _ => .fuel
  | n + 1, s =>
    if s.type = TOK_IDENT then do
      let s ← symcheck CHECK_LHS s
      let s ← expect TOK_IDENT (cg_symbol s)
      let s := if s.type = TOK_ASSIGN then cg_symbol s else s
      let s ← expect TOK_ASSIGN s
      expression n s
    else if s.type = TOK_CALL then do
      let s ← expect TOK_CALL s
      let s ← if s.type = TOK_IDENT then (symcheck CHECK_CALL s).bind (fun s => pure (cg_call s))
              else pure s
      expect TOK_IDENT s
    else if s.type = TOK_BEGIN then do
      let s ← expect TOK_BEGIN (cg_symbol s)
      let s ← statement n s
      let s ← statementLoop n s
      let s := if s.type = TOK_END then cg_symbol s else s
      expect TOK_END s
    else if s.type = TOK_IF then do
      let s ← expect TOK_IF (cg_symbol s)
      let s ← condition n s
      let s := if s.type = TOK_THEN then cg_symbol s else s
      let s ← expect TOK_THEN s
      statement n s
    else if s.type = TOK_WHILE then do
      let s ← expect TOK_WHILE (cg_symbol s)
      let s ← condition n s
      let s := if s.type = TOK_DO then cg_symbol s else s
      let s ← expect TOK_DO s
      statement n s
    else if s.type = TOK_WRITEINT then do
      let s ← expect TOK_WRITEINT s
      let s ←
        if s.type = TOK_IDENT ∨ s.type = TOK_NUMBER then do
          let s ← if s.type = TOK_IDENT then symcheck CHECK_RHS s else pure s
          pure (cg_writeint s)
        else pure s
      if s.type = TOK_IDENT then expect TOK_IDENT s
      else if s.type = TOK_NUMBER then expect TOK_NUMBER s
      else error s "writeInt takes an identifier or a number"
    else if s.type = TOK_WRITECHAR then do
      let s ← expect TOK_WRITECHAR s
      let s ←
        if s.type = TOK_IDENT ∨ s.type = TOK_NUMBER then do
          let s ← if s.type = TOK_IDENT then symcheck CHECK_RHS s else pure s
          pure (cg_writechar s)
        else pure s
      if s.type = TOK_IDENT then expect TOK_IDENT s
      else if s.type = TOK_NUMBER then expect TOK_NUMBER s
      else error s "writeChar takes an identifier or a number"
    else if s.type = TOK_READINT then do
      let s ← expect TOK_READINT s
      let s ← if s.type = TOK_INTO then expect TOK_INTO s else pure s
      let s ← if s.type = TOK_IDENT then (symcheck CHECK_LHS s).bind (fun s => pure (cg_readint s))
              else pure s
      expect TOK_IDENT s
    else if s.type = TOK_READCHAR then do
      let s ← expect TOK_READCHAR s
      let s ← if s.type = TOK_INTO then expect TOK_INTO s else pure s
      let s ← if s.type = TOK_IDENT then (symcheck CHECK_LHS s).bind (fun s => pure (cg_readchar s))
              else pure s
      expect TOK_IDENT s
    else pure s

end

/-- One declarator `ident "=" number` of the `const` part of `block`
(it occurs twice in the source, before and inside the `while` loop). -/
def constItem (s : State) : Result State := do
  let s ← if s.type = TOK_IDENT then (addsymbol TOK_CONST s).bind (fun s => pure (cg_const s))
          else pure s
  let s ← expect TOK_IDENT s
  let s ← expect TOK_EQUAL s
  let s := if s.type = TOK_NUMBER then cg_semicolon (cg_symbol s) else s
  expect TOK_NUMBER s

/-- The `while (type == TOK_COMMA)` loop of the `const` part of `block`. -/
def constLoop : Nat → State → Result State
  | 0, _ => .fuel
  | n + 1, s =>
    if s.type = TOK_COMMA then do
      let s ← expect TOK_COMMA s
      let s ← constItem s
      constLoop n s
    else pure s

/-- The `if (type == TOK_CONST)` part of `block`. -/
def constPart (n : Nat) (s : State) : Result State :=
  if s.type = TOK_CONST then do
    let s ← expect TOK_CONST s
    let s ← constItem s
    let s ← constLoop n s
    expect TOK_SEMICOLON s
  else pure s

/-- One declarator `ident` of the `var` part of `block`. -/
def varItem (s : State) : Result State := do
  let s ← if s.type = TOK_IDENT then (addsymbol TOK_VAR s).bind (fun s => pure (cg_var s))
          else pure s
  expect TOK_IDENT s

/-- The `while (type == TOK_COMMA)` loop of the `var` part of `block`. -/
def varLoop : Nat → State → Result State
  | 0, _ => .fuel
  | n + 1, s =>
    if s.type = TOK_COMMA then do
      let s ← expect TOK_COMMA s
      let s ← varItem s
      varLoop n s
    else pure s

/-- The `if (type == TOK_VAR)` part of `block`. -/
def varPart (n : Nat) (s : State) : Result State :=
  if s.type = TOK_VAR then do
    let s ← expect TOK_VAR s
    let s ← varItem s
    let s ← varLoop n s
    let s ← expect TOK_SEMICOLON s
    pure (cg_newline s)
  else pure s

/-- The body of the `while (type == TOK_PROCEDURE)` loop of `block`: one
procedure declaration `"procedure" ident ";" block ";"`, with `blk` standing
for the recursive call of `block`. -/
def procDecl (blk : State → Result State) (s : State) : Result State := do
  let s : State := { s with proc := 1 }
  let s ← expect TOK_PROCEDURE s
  let s ← if s.type = TOK_IDENT then (addsymbol TOK_PROCEDURE s).bind (fun s => pure (cg_procedure s))
          else pure s
  let s ← expect TOK_IDENT s
  let s ← expect TOK_SEMICOLON s
  let s ← blk s
  let s ← expect TOK_SEMICOLON s
  let s : State := { s with proc := 0 }
  destroysymbols s

mutual

/-- The `while (type == TOK_PROCEDURE)` loop of `block`. -/
def procLoop : Nat → State → Result State
  | 0, _ => .fuel
  | n + 1, s =>
    if s.type = TOK_PROCEDURE then do
      let s ← procDecl (block n) s
      procLoop n s
    else pure s

/-- The function `block`; the first argument is the number of nested calls
that the call stack still admits, as in `factor`. -/
def block : Nat → State → Result State
  | 0, _ => .fuel
  | n + 1, s =>
    let d := s.depth
    let s : State := { s with depth := s.depth + 1 }
    if d > 1 then error s "nesting depth exceeded"
    else do
      let s ← constPart n s
      let s ← varPart n s
      let s ← procLoop n s
      let s := if s.proc = 0 then cg_procedure s else s
      let s ← statement n s
      let s := cg_epilogue s
      let s : State := { s with depth := s.depth - 1 }
      if s.depth < 0 then error s "nesting depth fell below 0" else pure s

end

/-- The function `parse`. -/
def parse (n : Nat) (s : State) : Result State := do
  let s ← next (cg_init s)
  let s ← block n s
  let s ← expect TOK_DOT s
  if s.type ≠ TOK_EOF then error s "extra tokens at end of file" else pure s

/-- Depth of the call stack on which `compile` runs `parse` for the source
`src`: deep enough for every source of this length, and the outcome is the
same on every stack that admits `3 * src.length + 5` nested calls. -/
def budget (src : String) : Nat := 8 * src.length + 16

/-- The function `main` once `readin` has loaded the text `src`:
`initsymtab(); parse();`, on a call stack that is deep enough for `src`. -/
def compile (src : String) : Result State :=
  parse (budget src) (initsymtab (initial src))

/-! ## Reachable symbol tables -/

/-- States that arise from `initsymtab` by declarations (`addsymbol`), scope
teardowns (`destroysymbols`) and steps that leave the symbol table alone. -/
inductive Reachable : State → Prop
  | init (s : State) : Reachable (initsymtab s)
  | declare {s s' : State} (ty : Char) : Reachable s → addsymbol ty s = .ok s' → Reachable s'
  | teardown {s s' : State} : Reachable s → destroysymbols s = .ok s' → Reachable s'
  | other {s s' : State} : Reachable s → s'.head = s.head → Reachable s'

/-- A state with the given symbol table, current identifier and depth counter;
the remaining fields are those of an empty source. -/
def tableState (head : List Symtab) (token : String) (depth : Int) : State :=
  { buf := [], raw := 0, token := token, depth := depth, proc := 0, type := TOK_IDENT,
    line := 1, head := head, out := [] }

/-! ## The documented grammar -/

/-- Kinds of the tokens that `next` delivers from the state `s` on, up to the
end of the input. -/
def tokenKinds : Nat → State → Result (List Char)
  | 0, _ => .fuel
  | n + 1, s =>
    (next s).bind fun s =>
      if s.type = TOK_EOF then .ok []
      else (tokenKinds n s).bind fun ts => .ok (s.type :: ts)

/-- The token sequence of a source text (every token takes at least one
character). -/
def sourceTokens (src : String) : Result (List Char) :=
  tokenKinds (src.length + 1) (initial src)

/-- The nonterminals of the grammar in the comment at the head of `pl0c.c`,
with one extra name for each bracketed group. -/
inductive Nonterminal where
  | program | block | constItems | constPart | varItems | varPart | procedures
  | statement | statements | condition | expression | term | factor
deriving DecidableEq, Repr

/-- Derivability of a sequence of token kinds from a nonterminal of the grammar
in the comment at the head of `pl0c.c`.  A repetition `{ x }` after `y` is
read as the left-recursive pair `y` and `(y { x }) x`. -/
inductive Derives : Nonterminal → List Char → Prop
  | program {b : List Char} : Derives .block b → Derives .program (b ++ [TOK_DOT])
  | block {c v p s : List Char} : Derives .constPart c → Derives .varPart v →
      Derives .procedures p → Derives .statement s → Derives .block (c ++ v ++ p ++ s)
  | constItem : Derives .constItems [TOK_IDENT, TOK_EQUAL, TOK_NUMBER]
  | constItems {l : List Char} : Derives .constItems l →
      Derives .constItems (l ++ [TOK_COMMA, TOK_IDENT, TOK_EQUAL, TOK_NUMBER])
  | constNone : Derives .constPart []
  | constSome {l : List Char} : Derives .constItems l →
      Derives .constPart (TOK_CONST :: (l ++ [TOK_SEMICOLON]))
  | varItem : Derives .varItems [TOK_IDENT]
  | varItems {l : List Char} : Derives .varItems l →
      Derives .varItems (l ++ [TOK_COMMA, TOK_IDENT])
  | varNone : Derives .varPart []
  | varSome {l : List Char} : Derives .varItems l →
      Derives .varPart (TOK_VAR :: (l ++ [TOK_SEMICOLON]))
  | procNone : Derives .procedures []
  | procSome {p b : List Char} : Derives .procedures p → Derives .block b →
      Derives .procedures (p ++ TOK_PROCEDURE :: TOK_IDENT :: TOK_SEMICOLON :: (b ++ [TOK_SEMICOLON]))
  | stmtEmpty : Derives .statement []
  | stmtAssign {e : List Char} : Derives .expression e →
      Derives .statement (TOK_IDENT :: TOK_ASSIGN :: e)
  | stmtCall : Derives .statement [TOK_CALL, TOK_IDENT]
  | stmtBegin {l : List Char} : Derives .statements l →
      Derives .statement (TOK_BEGIN :: (l ++ [TOK_END]))
  | stmtIf {c s : List Char} : Derives .condition c → Derives .statement s →
      Derives .statement (TOK_IF :: (c ++ TOK_THEN :: s))
  | stmtWhile {c s : List Char} : Derives .condition c → Derives .statement s →
      Derives .statement (TOK_WHILE :: (c ++ TOK_DO :: s))
  | stmtReadInt : Derives .statement [TOK_READINT, TOK_IDENT]
  | stmtReadIntInto : Derives .statement [TOK_READINT, TOK_INTO, TOK_IDENT]
  | stmtWriteIntIdent : Derives .statement [TOK_WRITEINT, TOK_IDENT]
  | stmtWriteIntNumber : Derives .statement [TOK_WRITEINT, TOK_NUMBER]
  | stmtReadChar : Derives .statement [TOK_READCHAR, TOK_IDENT]
  | stmtReadCharInto : Derives .statement [TOK_READCHAR, TOK_INTO, TOK_IDENT]
  | stmtWriteCharIdent : Derives .statement [TOK_WRITECHAR, TOK_IDENT]
  | stmtWriteCharNumber : Derives .statement [TOK_WRITECHAR, TOK_NUMBER]
  | stmtsOne {s : List Char} : Derives .statement s → Derives .statements s
  | stmtsMore {l s : List Char} : Derives .statements l → Derives .statement s →
      Derives .statements (l ++ TOK_SEMICOLON :: s)
  | condOdd {e : List Char} : Derives .expression e → Derives .condition (TOK_ODD :: e)
  | condRel {e1 e2 : List Char} (op : Char) : Derives .expression e1 →
      op ∈ [TOK_EQUAL, TOK_HASH, TOK_LESSTHAN, TOK_GREATERTHAN] → Derives .expression e2 →
      Derives .condition (e1 ++ op :: e2)
  | exprTerm {t : List Char} : Derives .term t → Derives .expression t
  | exprSigned {t : List Char} (sign : Char) : sign ∈ [TOK_PLUS, TOK_MINUS] → Derives .term t →
      Derives .expression (sign :: t)
  | exprMore {e t : List Char} (op : Char) : Derives .expression e →
      op ∈ [TOK_PLUS, TOK_MINUS] → Derives .term t → Derives .expression (e ++ op :: t)
  | termFactor {f : List Char} : Derives .factor f → Derives .term f
  | termMore {t f : List Char} (op : Char) : Derives .term t →
      op ∈ [TOK_MULTIPLY, TOK_DIVIDE] → Derives .factor f → Derives .term (t ++ op :: f)
  | factorIdent : Derives .factor [TOK_IDENT]
  | factorNumber : Derives .factor [TOK_NUMBER]
  | factorParen {e : List Char} : Derives .expression e →
      Derives .factor (TOK_LPAREN :: (e ++ [TOK_RPAREN]))

/-! ## Relations between states used in the proofs -/

/-- The fields that the lexer never writes keep their values from `s` to `s'`. -/
def LexFrame (s s' : State) : Prop :=
  s'.head = s.head ∧ s'.depth = s.depth ∧ s'.proc = s.proc ∧ s'.out = s.out ∧ s'.buf = s.buf

/-- The texts without a token in them that the code generator can write. -/
def fixedFragments : List String :=
  [ "\x7b\n", ";\n\x7d\n", "if(", ")", "(", "while(", "==", ",", "=", "!=", "<", ">",
    "+", "-", "*", "/", ")&1", ";\n", "\n", ";", "return 0;", "\n\x7d\n\n",
    "int\n", "main(int argc, char *argv[])\n", "void\n",
    "#include <limits.h>\n", "#include <stdio.h>\n", "#include <stdlib.h>\n",
    "#include <string.h>\n\n", "static char __stdin[24];\n", "static const char *__errstr;\n\n",
    "(void) fgets(__stdin, sizeof(__stdin), stdin);\n",
    "if(__stdin[strlen(__stdin) - 1] == '\\n')",
    "__stdin[strlen(__stdin) - 1] = '\\0';",
    "if(__errstr!=NULL)\x7b",
    "(void) fprintf(stderr, \"invalid number: %s\\n\", __stdin);",
    "exit(1);", "\x7d" ]

/-- The texts built from the current token text that the code generator can
write, other than the call `token();` of `cg_call` and the subroutine header
`token(void)` of `cg_procedure`. -/
def tokenFragments (token : String) : List String :=
  [ token, "const long " ++ token ++ "=", "long " ++ token ++ ";\n",
    token ++ "=(unsigned char) fgetc(stdin);",
    token ++ "=(long) strtonum(__stdin, LONG_MIN, LONG_MAX, &__errstr);\n",
    "(void) fprintf(stdout, \"%c\", (unsigned char) " ++ token ++ ");",
    "(void) fprintf(stdout, \"%ld\", (long) " ++ token ++ ");" ]

/-- The texts that the code generator can write while `token` is the current
token text, other than a call and a subroutine header. -/
def plainFragments (token : String) : List String :=
  tokenFragments token ++ fixedFragments

/-- The texts without a token in them that the grammar rules `factor` to
`statement` can write. -/
def stmtFixed : List String :=
  [ "\x7b\n", ";\n\x7d\n", "if(", ")", "(", "while(", "==", ",", "=", "!=", "<", ">",
    "+", "-", "*", "/", ")&1", ";\n",
    "(void) fgets(__stdin, sizeof(__stdin), stdin);\n",
    "if(__stdin[strlen(__stdin) - 1] == '\\n')",
    "__stdin[strlen(__stdin) - 1] = '\\0';",
    "if(__errstr!=NULL)\x7b",
    "(void) fprintf(stderr, \"invalid number: %s\\n\", __stdin);",
    "exit(1);", "\x7d" ]

/-- The texts built from the current token text that the grammar rules `factor`
to `statement` can write, other than the call `token();` of `cg_call`. -/
def stmtToken (token : String) : List String :=
  [ token,
    token ++ "=(unsigned char) fgetc(stdin);",
    token ++ "=(long) strtonum(__stdin, LONG_MIN, LONG_MAX, &__errstr);\n",
    "(void) fprintf(stdout, \"%c\", (unsigned char) " ++ token ++ ");",
    "(void) fprintf(stdout, \"%ld\", (long) " ++ token ++ ");" ]

/-- The texts that the grammar rules `factor` to `statement` can write while
`token` is the current token text, other than a call. -/
def stmtFragments (token : String) : List String :=
  stmtToken token ++ stmtFixed

/-- A relation between states that holds along every basic step of the whole
compiler when the texts written are not told apart: reading a token, writing
any text of `plainFragments`, writing a call after its check. -/
structure PlainRel (R : State → State → Prop) : Prop where
  refl : ∀ s, R s s
  trans : ∀ a b c, R a b → R b c → R a c
  lex : ∀ s s', next s = .ok s' → R s s'
  emit : ∀ s f, f ∈ plainFragments s.token → R s (aout f s)
  call : ∀ s, symcheck CHECK_CALL s = .ok s → R s (cg_call s)

/-- A relation between states that holds along every basic step taken by the
grammar rules `factor` to `statement`: reading a token, writing one of their
texts, writing a call after its check. -/
structure StepRel (R : State → State → Prop) : Prop where
  refl : ∀ s, R s s
  trans : ∀ a b c, R a b → R b c → R a c
  lex : ∀ s s', next s = .ok s' → R s s'
  emit : ∀ s f, f ∈ stmtFragments s.token → R s (aout f s)
  call : ∀ s, symcheck CHECK_CALL s = .ok s → R s (cg_call s)

/-- A relation between states that holds along every basic step taken by the
`const` and `var` parts of `block`: the steps of `StepRel`, the declaration of a
constant or variable, and the texts of `cg_const`, `cg_var`, `cg_newline`. -/
structure DeclRel (R : State → State → Prop) : Prop where
  step : StepRel R
  declare : ∀ ty s s', ty = TOK_CONST ∨ ty = TOK_VAR → addsymbol ty s = .ok s' → R s s'
  cgConst : ∀ s, R s (cg_const s)
  cgVar : ∀ s, R s (cg_var s)
  cgNewline : ∀ s, R s (cg_newline s)

/-- A relation between states that holds along every basic step taken by the
body of the `while (type == TOK_PROCEDURE)` loop of `block` outside the
recursive call: the steps of `DeclRel`, the procedure header after its
declaration, the updates of `proc`, scope teardown. -/
structure ProcRel (R : State → State → Prop) : Prop where
  decl : DeclRel R
  header : ∀ s s', s.proc = 1 → addsymbol TOK_PROCEDURE s = .ok s' → R s (cg_procedure s')
  procOn : ∀ s, R s { s with proc := 1 }
  procOff : ∀ s, R s { s with proc := 0 }
  destroy : ∀ s s', destroysymbols s = .ok s' → R s s'

/-- A relation between states that holds along every basic step taken by
`block` and `parse`: the steps of `ProcRel`, the updates of `depth`, the header
of the entry point, the epilogue and the preamble. -/
structure BlockRel (R : State → State → Prop) : Prop where
  proc : ProcRel R
  enter : ∀ s, s.depth ≤ 1 → R s { s with depth := s.depth + 1 }
  leave : ∀ s, 0 ≤ s.depth - 1 → R s { s with depth := s.depth - 1 }
  mainHeader : ∀ s, s.proc = 0 → R s (cg_procedure s)
  epilogue : ∀ s, R s (cg_epilogue s)
  init : ∀ s, R s (cg_init s)

/-- The fields that only `block` and the symbol-table functions write keep
their values from `s` to `s'`. -/
def TableFrame (s s' : State) : Prop :=
  s'.head = s.head ∧ s'.depth = s.depth ∧ s'.proc = s.proc

/-- From `s` to `s'` the symbol table has grown at its end by symbols that are
not procedures, and `depth` and `proc` keep their values. -/
def Extends (s s' : State) : Prop :=
  s'.depth = s.depth ∧ s'.proc = s.proc ∧
    ∃ ext, s'.head = s.head ++ ext ∧ ∀ x ∈ ext, x.type ≠ TOK_PROCEDURE

/-- The state of a normal return, `d` otherwise. -/
def Result.getD {α : Type} (r : Result α) (d : α) : α :=
  match r with
  | .ok a => a
  | _ => d

/-- The state in which `block` reaches its `while (type == TOK_PROCEDURE)` loop
when the source text `src` starts with a procedure declaration: the first token
is read and `depth` is 1. -/
def atFirstProcedure (src : String) : State :=
  { (next (initsymtab (initial src))).getD (initial src) with depth := 1 }

/-! ## Calls and subroutine headers in the output -/

/-- The text that `cg_call` writes for a call of `X`. -/
def callText (X : String) : String := X ++ "();\n"

/-- The text with the name that `cg_procedure` writes at the head of the
subroutine for procedure `X`. -/
def headerText (X : String) : String := X ++ "(void)\n"

/-- Every call of a name other than `main` in the output `out` comes after
the subroutine header of that name. -/
def CallsDeclared (out : List String) : Prop :=
  ∀ pre post X, out = pre ++ callText X :: post → X = "main" ∨ headerText X ∈ pre

/-- The token text consists of letters, digits and underscores. -/
def TokenOK (token : String) : Prop :=
  ∀ c ∈ token.data, c.isAlphanum = true ∨ c = '_'

/-- The last four characters of the text are those of a call, `();` and the
newline. -/
def endsLikeCall (f : String) : Bool :=
  f.data.reverse.take 4 == ['\n', ';', ')', '(']

/-- The invariant behind `CallsDeclared`: the token text is a word, the calls
written so far come after their headers, and every procedure in the symbol
table is `main` or has its header written. -/
def CallInv (s : State) : Prop :=
  TokenOK s.token ∧ CallsDeclared s.out ∧
    ∀ c ∈ s.head, c.type = TOK_PROCEDURE → c.name = "main" ∨ headerText c.name ∈ s.out

/-- The invariant `CallInv` is kept from `s` to `s'`. -/
def CallRel (s s' : State) : Prop := CallInv s → CallInv s'

/-! ## Numeric literals -/

/-- The maximal run of digits and underscores that starts at the cursor. -/
def State.numberRunText (s : State) : List Char :=
  (s.buf.drop s.raw).take (numberRun (s.buf.drop s.raw))

/-- A run of characters with its underscores removed. -/
def stripUnderscores (run : List Char) : List Char := run.filter (· ≠ '_')

/-! ## Fatal errors of the grammar rules -/

/-- The messages of the calls of `error` in `expect`, `condition` and
`statement`. -/
def stmtMessages : List String :=
  [ "syntax error", "invalid conditional", "writeInt takes an identifier or a number",
    "writeChar takes an identifier or a number" ]

/-- An invariant `I` of the states and a property `E` of the line and message
of a fatal error: `I` is kept along the basic steps of the grammar rules `factor`
to `statement`, and `E` holds of every error that one of these steps raises in a
state with `I`. -/
structure StepErr (I : State → Prop) (E : Nat → String → Prop) : Prop where
  keep : StepRel (fun s s' => I s → I s')
  lex : ∀ s l m, I s → next s = .fatal l m → E l m
  sym : ∀ c s l m, I s → s.type = TOK_IDENT → symcheck c s = .fatal l m → E l m
  msg : ∀ s m, I s → m ∈ stmtMessages → E s.line m

/-- The same for the `const` and `var` parts of `block` and the procedure
header, where `addsymbol` can fail. -/
structure DeclErr (I : State → Prop) (E : Nat → String → Prop) : Prop where
  step : StepErr I E
  keep : ProcRel (fun s s' => I s → I s')
  add : ∀ ty s l m, I s → s.type = TOK_IDENT → addsymbol ty s = .fatal l m → E l m

/-- The outcome `r` of a run from `s`: when `I` holds of `s`, it holds of the
state of a normal return, and `E` holds of a fatal error. -/
def Sound (I : State → Prop) (E : Nat → String → Prop) (s : State) (r : Result State) : Prop :=
  I s → (∀ s', r = .ok s' → I s') ∧ ∀ l m, r = .fatal l m → E l m

/-- The body of the `while (type == TOK_PROCEDURE)` loop of `block` up to the
recursive call: `"procedure" ident ";"`. -/
def procHeader (s : State) : Result State := do
  let s : State := { s with proc := 1 }
  let s ← expect TOK_PROCEDURE s
  let s ← if s.type = TOK_IDENT then (addsymbol TOK_PROCEDURE s).bind (fun s => pure (cg_procedure s))
          else pure s
  let s ← expect TOK_IDENT s
  expect TOK_SEMICOLON s

/-- The body of the `while (type == TOK_PROCEDURE)` loop of `block` after the
recursive call: `";"` and the teardown of the scope. -/
def procFooter (s : State) : Result State := do
  let s ← expect TOK_SEMICOLON s
  let s : State := { s with proc := 0 }
  destroysymbols s

/-- The first three characters of a message. -/
def msgHead (m : String) : List Char := m.data.take 3

/-- The first three characters of the messages of the errors raised by the
lexer. -/
def lexHeads : List (List Char) := [ "unt".data, "inv".data, "unk".data ]

/-- The first three characters of the messages of the errors raised below
`block`: by the lexer, `symcheck`, `addsymbol`, `expect`, `condition` and
`statement`. -/
def lowHeads : List (List Char) :=
  [ "unt".data, "inv".data, "unk".data, "und".data, "mus".data, "dup".data, "syn".data,
    "wri".data ]

/-! ## The blocks that a call of `block` enters -/

/-- `LoopReaches n s k y`: the `while (type == TOK_PROCEDURE)` loop of `block`,
started in state `s` with budget `n`, goes through zero or more complete
procedure declarations and then through the header `"procedure" ident ";"` of
one more, after which `block` is called in state `y` with budget `k`. -/
inductive LoopReaches : Nat → State → Nat → State → Prop
  | here {n : Nat} {s y : State} :
      s.type = TOK_PROCEDURE → procHeader s = .ok y → LoopReaches (n + 1) s n y
  | later {n k : Nat} {s s' y : State} :
      s.type = TOK_PROCEDURE → procDecl (block n) s = .ok s' → LoopReaches n s' k y →
      LoopReaches (n + 1) s k y

/-- `BlockReaches n s k y`: the call of `block` in state `s` with budget `n`
passes the depth check and its `const` and `var` parts, and its procedure loop
reaches the call of `block` in state `y` with budget `k`: `y` is the state at
the start of the block of a procedure declared in the block entered at `s`. -/
def BlockReaches (n : Nat) (s : State) (k : Nat) (y : State) : Prop :=
  ∃ m s1 s2, n = m + 1 ∧ s.depth ≤ 1 ∧
    constPart m { s with depth := s.depth + 1 } = .ok s1 ∧ varPart m s1 = .ok s2 ∧
    LoopReaches m s2 k y

/-! ## The procedures of a symbol table -/

/-- The names of the procedure symbols of a symbol table, in the order of the
table. -/
def procNames (l : List Symtab) : List String :=
  (l.filter (fun x => x.type = TOK_PROCEDURE)).map (fun x => x.name)

/-- A symbol table as it is in the top-level block: the first node is the
sentinel, every procedure symbol has depth 0, and no two procedure symbols
share a name. -/
def TopTable (l : List Symtab) : Prop :=
  l.head? = some sentinel ∧ (∀ x ∈ l, x.type = TOK_PROCEDURE → x.depth = 0) ∧ (procNames l).Nodup

/-! ## Line numbers -/

/-- The line of the character at offset `raw` of `buf`: 1 plus the number of
newline characters before it. -/
def lineAt (buf : List Char) (raw : Nat) : Nat := 1 + (buf.take raw).count '\n'

/-- The text `token` is an identifier run of `buf` that ends just before offset
`raw`: it stands between a text `pre` and a text `post`, and the scan of
`ident` from its first character passes exactly `token`. -/
def TokenAt (buf : List Char) (raw : Nat) (token : String) : Prop :=
  ∃ pre post, buf = pre ++ token.data ++ post ∧ raw = pre.length + token.length ∧
    identRun (token.data ++ post) = token.length

/-- The state `s` is in step with the source text `B`: the line counter is the
line of the scan position, and an identifier that is the current token is the
identifier run that ends at the scan position. -/
def InStep (B : List Char) (s : State) : Prop :=
  s.buf = B ∧ s.line = lineAt s.buf s.raw ∧ (s.type = TOK_IDENT → TokenAt s.buf s.raw s.token)

/-- The fields that only the lexer writes keep their values from `s` to `s'`. -/
def LexSame (s s' : State) : Prop :=
  s'.buf = s.buf ∧ s'.raw = s.raw ∧ s'.line = s.line ∧ s'.type = s.type ∧ s'.token = s.token

/-- The messages of the calls of `error` in `block` and `parse`. -/
def blockMessages : List String :=
  [ "nesting depth exceeded", "nesting depth fell below 0", "extra tokens at end of file" ]

/-- An invariant `I` of the states and a property `E` of fatal errors, as in
`StepErr` and `DeclErr`, for all of `block` and `parse`. -/
structure BlockErr (I : State → Prop) (E : Nat → String → Prop) : Prop where
  decl : DeclErr I E
  keep : BlockRel (fun s s' => I s → I s')
  msg : ∀ s m, I s → m ∈ blockMessages → E s.line m

/-- The error at line `l` with message `m`, when it is "undefined symbol: N",
is reported at the line of an occurrence of the identifier `N` in the source
text `B`: `N` stands in `B` after a text `pre` with `l - 1` newline characters,
and the scan of `ident` from there passes exactly `N`. -/
def UndefinedAt (B : List Char) (l : Nat) (m : String) : Prop :=
  ∀ N : String, m = "undefined symbol: " ++ N →
    ∃ pre post, B = pre ++ N.data ++ post ∧ l = 1 + pre.count '\n' ∧
      identRun (N.data ++ post) = N.length

/-! ## The text written for expressions and conditions -/

/-- The kinds of the tokens of an expression. -/
def exprKinds : List Char :=
  [ TOK_IDENT, TOK_NUMBER, TOK_PLUS, TOK_MINUS, TOK_MULTIPLY, TOK_DIVIDE, TOK_LPAREN,
    TOK_RPAREN ]

/-- The text of one token of an expression, in the words of the specification:
the text of an identifier or number, the operator, the parenthesis. -/
def exprText (type : Char) (token : String) : String :=
  if type = TOK_IDENT ∨ type = TOK_NUMBER then token
  else if type = TOK_PLUS then "+"
  else if type = TOK_MINUS then "-"
  else if type = TOK_MULTIPLY then "*"
  else if type = TOK_DIVIDE then "/"
  else if type = TOK_LPAREN then "("
  else ")"

/-- The text of a relational operator, in the words of the specification. -/
def relText (type : Char) : Option String :=
  if type = TOK_EQUAL then some "=="
  else if type = TOK_HASH then some "!="
  else if type = TOK_LESSTHAN then some "<"
  else if type = TOK_GREATERTHAN then some ">"
  else none

/-- `Emits s fs s'`: from `s` to `s'` the tokens of an expression are passed
one by one, in the order of the source text; at each one its text is written
and the next token is read.  `fs` lists the texts. -/
inductive Emits : State → List String → State → Prop
  | nil (s : State) : Emits s [] s
  | cons {s s1 s' : State} {fs : List String} :
      s.type ∈ exprKinds → next (aout (exprText s.type s.token) s) = .ok s1 → Emits s1 fs s' →
      Emits s (exprText s.type s.token :: fs) s'

/-- The state after the first token of the source text `src` is read, with the
symbol table of `initsymtab`. -/
def atFirstToken (src : String) : State :=
  (next (initsymtab (initial src))).getD (initial src)

/-! ## The structure of the output -/

/-- The texts that mark the structure of the output, recognised by their last
two characters: `void` and `int` on a line of their own, a line that ends with
`)` (the subroutine header `X(void)` and the header of `main`), and
`return 0;`. -/
def isMark (f : String) : Bool :=
  match f.data.reverse with
  | '\n' :: 'd' :: _ => true
  | '\n' :: 't' :: _ => true
  | '\n' :: ')' :: _ => true
  | ';' :: '0' :: _ => true
  | _ => false

/-- The marks of the output, in the order in which they were written. -/
def marks (out : List String) : List String := out.filter isMark

/-- From `s` to `s'` no mark is written, and the token text stays a word. -/
def MarkRel (s s' : State) : Prop :=
  TokenOK s.token → TokenOK s'.token ∧ marks s'.out = marks s.out

/-- The texts of `cg_init`. -/
def preamble : List String :=
  [ "#include <limits.h>\n", "#include <stdio.h>\n", "#include <stdlib.h>\n",
    "#include <string.h>\n\n", "static char __stdin[24];\n",
    "static const char *__errstr;\n\n" ]

/-- The marks of the subroutines for the procedures `ps`: for each one `void`
and the header. -/
def subroutineMarks (ps : List String) : List String :=
  ps.flatMap fun p => ["void\n", headerText p]

/-! ## Termination -/

/-- The number of characters from the scan position to the end of the buffer,
the terminator included. -/
def remaining (s : State) : Nat := s.buf.length + 1 - s.raw

/-- The scan position is inside the buffer or one past its terminator, and it
is past the terminator only when the current token is the end of input. -/
def InBuffer (s : State) : Prop :=
  s.raw ≤ s.buf.length + 1 ∧ (s.type ≠ TOK_EOF → s.raw ≤ s.buf.length)

/-- The state is one in which the parser can go on: the scan position is in the
buffer and the symbol table starts with the sentinel. -/
def Safe (s : State) : Prop := InBuffer s ∧ ∃ rest, s.head = sentinel :: rest

/-- The state `a` is safe, and since the state `s0` at least `c` characters
were passed. -/
def Within (s0 : State) (c : Nat) (a : State) : Prop :=
  Safe a ∧ remaining a + c ≤ remaining s0

/-- Under the condition `p`, the outcome `r` is a normal return in a state
with `Q` or a fatal error: the budget of the model is not used up and no
undefined behaviour is met. -/
def Finishes (p : Prop) (r : Result State) (Q : State → Prop) : Prop :=
  p → (∀ s', r = .ok s' → Q s') ∧ r ≠ Result.fuel ∧ r ≠ Result.undef


/-! ## The depth of the call stack -/

/-- The function `main` on a call stack that admits `stack` nested calls of the
grammar rules: `initsymtab(); parse();` with the outcome `fuel` when a chain of
calls goes deeper. -/
def compileWith (stack : Nat) (src : String) : Result State :=
  parse stack (initsymtab (initial src))

/-- The source text `if(` followed by `k` more opening parentheses. -/
def deepNesting (k : Nat) : String := ⟨'i' :: 'f' :: '(' :: List.replicate k '('⟩

/-- The outcome `r` on a smaller stack against the outcome `r'` on a larger
one: the smaller stack was used up, or the outcomes are the same. -/
def StackLe {α : Type} (r r' : Result α) : Prop := r = Result.fuel ∨ r = r'

/-! ## The part of the source that a run has read -/

/-- The state `s` with the source buffer replaced by `B`. -/
@[reducible] def withBuf (s : State) (B : List Char) : State := { s with buf := B }

/-- The buffers `B` and `B'` have the same first `k` characters (and the same
end, when one of them ends before). -/
def Agree (B B' : List Char) (k : Nat) : Prop := B.take k = B'.take k

/-- The run `C` from the state `s`, which is in step with its buffer, depends
only on the part of the buffer that it has read.  A normal return in the state
`a` leaves `a` in step and the scan position not before that of `s`, and the
run from `s` over any buffer with the same characters up to and including the
one at the scan position of `a` returns in the same state over that buffer.
An error "undefined symbol: N" at line `l` is raised at a scan position `p`
where the identifier `N` ends and whose line is `l`, and the run from `s` over
any buffer with the same characters up to and including the one at `p` raises
the same error at the same line. -/
def Stable (C : State → Result State) (s : State) : Prop :=
  InStep s.buf s →
    (∀ a, C s = .ok a → InStep s.buf a ∧ s.raw ≤ a.raw ∧
      ∀ B', Agree s.buf B' (a.raw + 1) → C (withBuf s B') = .ok (withBuf a B')) ∧
    (∀ l N, C s = .fatal l ("undefined symbol: " ++ N) →
      ∃ p, s.raw ≤ p ∧ TokenAt s.buf p N ∧ l = lineAt s.buf p ∧
        ∀ B', Agree s.buf B' (p + 1) →
          C (withBuf s B') = .fatal l ("undefined symbol: " ++ N))

/-- A function on states that leaves the fields of the lexer alone and does
not look at the buffer. -/
def QuietFn (g : State → State) : Prop :=
  ∀ s, LexSame s (g s) ∧ ∀ B', g (withBuf s B') = withBuf (g s) B'

/-! ## The token sequence of a source text -/

/-- The state of the lexer when token number `i` of the source text `src` has
been read; tokens are counted from 0, and once the end-of-input token is read
the lexer is not called again. -/
def scanned (src : String) : Nat → Result State
  | 0 => next (initial src)
  | i + 1 => (scanned src i).bind fun a => if a.type = TOK_EOF then .ok a else next a

/-- Token number `i` of `src` is of kind `kind`, and the token after it is the
identifier `X`. -/
def FollowedBy (src : String) (kind : Char) (i : Nat) (X : String) : Prop :=
  ∃ a b, scanned src i = .ok a ∧ a.type = kind ∧ scanned src (i + 1) = .ok b ∧
    b.type = TOK_IDENT ∧ b.token = X

/-- The state `s` with the fields that the lexer does not write replaced by
those of `o`. -/
@[reducible] def withRest (s o : State) : State :=
  { s with depth := o.depth, proc := o.proc, head := o.head, out := o.out }

/-- The current token of the state `s` is token number `i` of `src`. -/
def AtToken (src : String) (i : Nat) (s : State) : Prop :=
  ∃ a, scanned src i = .ok a ∧ LexSame a s

/-- The name `X` is `main`, or it follows the keyword `procedure` at a token
before token number `i` of `src`. -/
def DeclaredBefore (src : String) (i : Nat) (X : String) : Prop :=
  X = "main" ∨ ∃ j, j < i ∧ FollowedBy src TOK_PROCEDURE j X

/-- The invariant behind the order of calls and declarations: the current
token is token number `i` of the source, every identifier that follows a
`call` before the current token is declared before that `call`, every
procedure of the symbol table is declared before the current token, and the
token before the current one is not `call`. -/
def TokInv (src : String) (s : State) : Prop :=
  ∃ i, AtToken src i s ∧
    (∀ k X, k + 1 < i → FollowedBy src TOK_CALL k X → DeclaredBefore src k X) ∧
    (∀ c ∈ s.head, c.type = TOK_PROCEDURE → DeclaredBefore src i c.name) ∧
    (∀ k b, k + 1 = i → scanned src k = .ok b → b.type ≠ TOK_CALL)

/-- A run with outcome `r` from the state `s` keeps the invariant `TokInv`. -/
def Keeps (src : String) (s : State) (r : Result State) : Prop :=
  TokInv src s → ∀ s', r = .ok s' → TokInv src s'
/-! ## Symbol table: resolution, declaration, teardown -/

theorem symcheckLoop_absent (tok : String) (l : List Symtab) (ret : Option Symtab)
    (h : ∀ c ∈ l, c.name ≠ tok) : symcheckLoop tok l ret = ret := by
  induction l generalizing ret with
  | nil => rfl
  | cons a l ih =>
    have ha : ¬ tok = a.name := fun e => h a (List.mem_cons_self _ _) e.symm
    simp only [symcheckLoop, if_neg ha]
    exact ih ret fun c hc => h c (List.mem_cons_of_mem _ hc)

theorem symcheckLoop_last (tok : String) (pre : List Symtab) (c : Symtab) (suf : List Symtab)
    (ret : Option Symtab) (hc : c.name = tok) (hsuf : ∀ x ∈ suf, x.name ≠ tok) :
    symcheckLoop tok (pre ++ c :: suf) ret = some c := by
  induction pre generalizing ret with
  | nil =>
    simp only [List.nil_append, symcheckLoop, if_pos hc.symm]
    exact symcheckLoop_absent tok suf _ hsuf
  | cons a pre ih =>
    simp only [List.cons_append, symcheckLoop]
    exact ih _

theorem exists_last_named (tok : String) (l : List Symtab) (h : ∃ c ∈ l, c.name = tok) :
    ∃ pre c suf, l = pre ++ c :: suf ∧ c.name = tok ∧ ∀ x ∈ suf, x.name ≠ tok := by
  induction l with
  | nil => obtain ⟨c, hc, _⟩ := h; cases hc
  | cons a l ih =>
    by_cases hl : ∃ c ∈ l, c.name = tok
    · obtain ⟨pre, c, suf, e, hc, hs⟩ := ih hl
      exact ⟨a :: pre, c, suf, by rw [e]; rfl, hc, hs⟩
    · obtain ⟨c, hc, hn⟩ := h
      rcases List.mem_cons.1 hc with e | hc'
      · subst e
        exact ⟨[], c, l, rfl, hn, fun x hx hxn => hl ⟨x, hx, hxn⟩⟩
      · exact absurd ⟨c, hc', hn⟩ hl

theorem addsymbolLoop_iff (tok : String) (d : Int) (l : List Symtab) :
    addsymbolLoop tok d l = true ↔ ∃ c ∈ l, c.name = tok ∧ c.depth = d := by
  induction l with
  | nil => simp [addsymbolLoop]
  | cons a l ih =>
    by_cases ha : a.name = tok ∧ a.depth = d
    · simp only [addsymbolLoop, if_pos ha, true_iff]
      exact ⟨a, List.mem_cons_self _ _, ha⟩
    · simp only [addsymbolLoop, if_neg ha, ih, List.mem_cons]
      constructor
      · rintro ⟨c, hc, h⟩
        exact ⟨c, Or.inr hc, h⟩
      · rintro ⟨c, hc | hc, h⟩
        · subst hc; exact absurd h ha
        · exact ⟨c, hc, h⟩

theorem destroyLoop_spec (n : Nat) (kept : List Symtab) (p : Symtab) (removed : List Symtab)
    (hp : p.type = TOK_PROCEDURE) (hr : ∀ x ∈ removed, x.type ≠ TOK_PROCEDURE)
    (hn : removed.length < n) :
    destroyLoop n (kept ++ p :: removed) = .ok (kept ++ [p]) := by
  induction n generalizing removed with
  | zero => omega
  | succ n ih =>
    rcases List.eq_nil_or_concat removed with e | ⟨r, x, e⟩
    · subst e
      have hl : (kept ++ [p]).getLast? = some p := by simp
      simp only [destroyLoop, hl, hp, ne_eq, not_true_eq_false, if_false]
    · rw [List.concat_eq_append] at e
      subst e
      have hx : x.type ≠ TOK_PROCEDURE := hr x (by simp)
      have hl : (kept ++ p :: (r ++ [x])).getLast? = some x := by
        rw [show kept ++ p :: (r ++ [x]) = (kept ++ p :: r) ++ [x] by simp]
        exact List.getLast?_concat _
      have hlen : ¬ (kept ++ p :: (r ++ [x])).length = 1 := by
        simp only [List.length_append, List.length_cons, List.length_nil]; omega
      have hd : (kept ++ p :: (r ++ [x])).dropLast = kept ++ p :: r := by
        rw [show kept ++ p :: (r ++ [x]) = (kept ++ p :: r) ++ [x] by simp]
        exact List.dropLast_concat
      simp only [destroyLoop, hl, if_pos hx, if_neg hlen, hd]
      refine ih r (fun y hy => hr y (by simp [hy])) ?_
      simp only [List.length_append, List.length_cons, List.length_nil] at hn
      omega

theorem exists_last_procedure (l : List Symtab) (h : ∃ c ∈ l, c.type = TOK_PROCEDURE) :
    ∃ kept p removed, l = kept ++ p :: removed ∧ p.type = TOK_PROCEDURE ∧
      ∀ x ∈ removed, x.type ≠ TOK_PROCEDURE := by
  induction l with
  | nil => obtain ⟨c, hc, _⟩ := h; cases hc
  | cons a l ih =>
    by_cases hl : ∃ c ∈ l, c.type = TOK_PROCEDURE
    · obtain ⟨kept, p, removed, e, hp, hs⟩ := ih hl
      exact ⟨a :: kept, p, removed, by rw [e]; rfl, hp, hs⟩
    · obtain ⟨c, hc, hn⟩ := h
      rcases List.mem_cons.1 hc with e | hc'
      · subst e
        exact ⟨[], c, l, rfl, hn, fun x hx hxn => hl ⟨x, hx, hxn⟩⟩
      · exact absurd ⟨c, hc', hn⟩ hl

theorem destroysymbols_spec (s : State) (kept : List Symtab) (p : Symtab) (removed : List Symtab)
    (e : s.head = kept ++ p :: removed) (hp : p.type = TOK_PROCEDURE)
    (hr : ∀ x ∈ removed, x.type ≠ TOK_PROCEDURE) :
    destroysymbols s = .ok { s with head := kept ++ [p] } := by
  have hl : destroyLoop s.head.length s.head = .ok (kept ++ [p]) := by
    rw [e]
    exact destroyLoop_spec _ kept p removed hp hr (by simp; omega)
  simp only [destroysymbols, hl, Result.bind]

/-- C2: the lookup of `symcheck` fails with "undefined symbol" when no symbol
carries the name in `token`; when some symbol does, the lookup selects the last
node of the table with that name, and that node is the one whose role is
checked. -/
theorem symcheck_resolves_last_appended (check : Nat) (s : State) :
    ((∀ c ∈ s.head, c.name ≠ s.token) →
      symcheck check s = .fatal s.line ("undefined symbol: " ++ s.token)) ∧
    ((∃ c ∈ s.head, c.name = s.token) →
      ∃ pre c suf, s.head = pre ++ c :: suf ∧ c.name = s.token ∧
        (∀ x ∈ suf, x.name ≠ s.token) ∧
        symcheckLoop s.token s.head none = some c ∧
        symcheck check s = rolecheck check c s) := by
  constructor
  · intro h
    simp only [symcheck, symcheckLoop_absent s.token s.head none h, error]
  · intro h
    obtain ⟨pre, c, suf, e, hc, hs⟩ := exists_last_named s.token s.head h
    have hl : symcheckLoop s.token s.head none = some c := by
      rw [e]; exact symcheckLoop_last s.token pre c suf none hc hs
    exact ⟨pre, c, suf, e, hc, hs, hl, by simp only [symcheck, hl]⟩

/-- C2 on two tables: `y` is undefined; of the two symbols named `x` the later one (depth 1, variable) is the one checked. -/
theorem symcheck_resolves_last_appended_witness :
    symcheck CHECK_RHS (tableState [sentinel, ⟨0, TOK_VAR, "x"⟩] "y" 1)
        = .fatal 1 "undefined symbol: y" ∧
    ∃ pre c suf, [sentinel, ⟨0, TOK_CONST, "x"⟩, ⟨0, TOK_VAR, "y"⟩, ⟨1, TOK_VAR, "x"⟩]
          = pre ++ c :: suf ∧ c.name = "x" ∧ (∀ x ∈ suf, x.name ≠ "x") ∧
        symcheckLoop "x" [sentinel, ⟨0, TOK_CONST, "x"⟩, ⟨0, TOK_VAR, "y"⟩, ⟨1, TOK_VAR, "x"⟩] none
          = some c ∧
        symcheck CHECK_LHS
            (tableState [sentinel, ⟨0, TOK_CONST, "x"⟩, ⟨0, TOK_VAR, "y"⟩, ⟨1, TOK_VAR, "x"⟩] "x" 2)
          = rolecheck CHECK_LHS c
            (tableState [sentinel, ⟨0, TOK_CONST, "x"⟩, ⟨0, TOK_VAR, "y"⟩, ⟨1, TOK_VAR, "x"⟩] "x" 2) :=
  ⟨(symcheck_resolves_last_appended CHECK_RHS
      (tableState [sentinel, ⟨0, TOK_VAR, "x"⟩] "y" 1)).1 (by decide),
   (symcheck_resolves_last_appended CHECK_LHS
      (tableState [sentinel, ⟨0, TOK_CONST, "x"⟩, ⟨0, TOK_VAR, "y"⟩, ⟨1, TOK_VAR, "x"⟩] "x" 2)).2
      ⟨⟨1, TOK_VAR, "x"⟩, by decide, by decide⟩⟩

/-- C3: on a table with at least the sentinel, `addsymbol` fails with
"duplicate symbol" exactly when some symbol has the name in `token` and the
depth `depth - 1`; otherwise it returns with the old table followed by the one
new symbol (depth `depth - 1`, the given role, the name in `token`). -/
theorem addsymbol_duplicate_iff (ty : Char) (s : State) (h : s.head ≠ []) :
    (addsymbol ty s = .fatal s.line ("duplicate symbol: " ++ s.token) ↔
      ∃ c ∈ s.head, c.name = s.token ∧ c.depth = s.depth - 1) ∧
    ((¬ ∃ c ∈ s.head, c.name = s.token ∧ c.depth = s.depth - 1) →
      addsymbol ty s = .ok { s with
        head := s.head ++ [{ depth := s.depth - 1, type := ty, name := s.token }] }) := by
  by_cases hd : addsymbolLoop s.token (s.depth - 1) s.head = true
  · have hex := (addsymbolLoop_iff _ _ _).1 hd
    refine ⟨⟨fun _ => hex, fun _ => ?_⟩, fun hn => absurd hex hn⟩
    simp only [addsymbol, if_neg h, hd, if_true, error]
  · have hex : ¬ ∃ c ∈ s.head, c.name = s.token ∧ c.depth = s.depth - 1 :=
      fun hx => hd ((addsymbolLoop_iff _ _ _).2 hx)
    have hok : addsymbol ty s = .ok { s with
        head := s.head ++ [{ depth := s.depth - 1, type := ty, name := s.token }] } := by
      simp only [addsymbol, if_neg h, hd]
      rfl
    refine ⟨⟨fun hf => ?_, fun hx => absurd hx hex⟩, fun _ => hok⟩
    rw [hok] at hf
    cases hf

/-- C3 on the table with the sentinel and a constant `x` at depth 0, declaring `x` with the depth counter at 1. -/
theorem addsymbol_duplicate_iff_witness :
    (addsymbol TOK_VAR (tableState [sentinel, ⟨0, TOK_CONST, "x"⟩] "x" 1)
        = .fatal 1 "duplicate symbol: x" ↔
      ∃ c ∈ [sentinel, ⟨0, TOK_CONST, "x"⟩], c.name = "x" ∧ c.depth = (1 : Int) - 1) ∧
    ((¬ ∃ c ∈ [sentinel, ⟨0, TOK_CONST, "x"⟩], c.name = "x" ∧ c.depth = (1 : Int) - 1) →
      addsymbol TOK_VAR (tableState [sentinel, ⟨0, TOK_CONST, "x"⟩] "x" 1)
        = .ok (tableState [sentinel, ⟨0, TOK_CONST, "x"⟩, ⟨0, TOK_VAR, "x"⟩] "x" 1)) :=
  addsymbol_duplicate_iff TOK_VAR (tableState [sentinel, ⟨0, TOK_CONST, "x"⟩] "x" 1) (by decide)

/-- C4: right after a declaration that succeeds, the lookup of the declared
name yields the new symbol, so every role check is made against the declared
role, whatever symbols of the same name the table held before. -/
theorem resolve_after_declare (ty : Char) (s s' : State) (h : addsymbol ty s = .ok s') :
    s'.token = s.token ∧
    symcheckLoop s'.token s'.head none
      = some { depth := s.depth - 1, type := ty, name := s.token } ∧
    ∀ check, symcheck check s'
      = rolecheck check { depth := s.depth - 1, type := ty, name := s.token } s' := by
  have e : s' = { s with
      head := s.head ++ [{ depth := s.depth - 1, type := ty, name := s.token }] } := by
    unfold addsymbol at h
    split at h
    · cases h
    · split at h
      · cases h
      · cases h; rfl
  have hl : symcheckLoop s'.token s'.head none
      = some { depth := s.depth - 1, type := ty, name := s.token } := by
    rw [e]
    exact symcheckLoop_last s.token s.head _ [] none rfl (fun x hx => by cases hx)
  exact ⟨by rw [e], hl, fun check => by simp only [symcheck, hl]⟩

/-- C4 when a variable `x` is declared at depth 1 over a constant `x` of depth 0: the variable is resolved. -/
theorem resolve_after_declare_witness :
    (tableState [sentinel, ⟨0, TOK_CONST, "x"⟩, ⟨1, TOK_VAR, "x"⟩] "x" 2).token = "x" ∧
    symcheckLoop "x" [sentinel, ⟨0, TOK_CONST, "x"⟩, ⟨1, TOK_VAR, "x"⟩] none
      = some ⟨1, TOK_VAR, "x"⟩ ∧
    ∀ check, symcheck check (tableState [sentinel, ⟨0, TOK_CONST, "x"⟩, ⟨1, TOK_VAR, "x"⟩] "x" 2)
      = rolecheck check ⟨1, TOK_VAR, "x"⟩
          (tableState [sentinel, ⟨0, TOK_CONST, "x"⟩, ⟨1, TOK_VAR, "x"⟩] "x" 2) :=
  resolve_after_declare TOK_VAR (tableState [sentinel, ⟨0, TOK_CONST, "x"⟩] "x" 2)
    (tableState [sentinel, ⟨0, TOK_CONST, "x"⟩, ⟨1, TOK_VAR, "x"⟩] "x" 2) (by decide)

/-- C5: on a table whose first symbol has the procedure role, `destroysymbols`
returns; the table splits into a kept part that ends with a procedure-role
symbol and a removed part without any procedure-role symbol, and the table
afterwards is the kept part, unchanged and in the same order. -/
theorem destroysymbols_removes_trailing_run (s : State) (first : Symtab) (rest : List Symtab)
    (h : s.head = first :: rest) (hf : first.type = TOK_PROCEDURE) :
    ∃ kept p removed, s.head = (kept ++ [p]) ++ removed ∧ p.type = TOK_PROCEDURE ∧
      (∀ x ∈ removed, x.type ≠ TOK_PROCEDURE) ∧
      destroysymbols s = .ok { s with head := kept ++ [p] } := by
  obtain ⟨kept, p, removed, e, hp, hr⟩ :=
    exists_last_procedure s.head ⟨first, by rw [h]; exact List.mem_cons_self _ _, hf⟩
  exact ⟨kept, p, removed, by rw [e]; simp, hp, hr, destroysymbols_spec s kept p removed e hp hr⟩

/-- C5 on a table with two local symbols after the procedure `p`. -/
theorem destroysymbols_removes_trailing_run_witness :
    ∃ kept p removed,
      [sentinel, ⟨0, TOK_VAR, "a"⟩, ⟨0, TOK_PROCEDURE, "p"⟩, ⟨1, TOK_CONST, "b"⟩, ⟨1, TOK_VAR, "c"⟩]
        = (kept ++ [p]) ++ removed ∧ p.type = TOK_PROCEDURE ∧
      (∀ x ∈ removed, x.type ≠ TOK_PROCEDURE) ∧
      destroysymbols (tableState [sentinel, ⟨0, TOK_VAR, "a"⟩, ⟨0, TOK_PROCEDURE, "p"⟩,
          ⟨1, TOK_CONST, "b"⟩, ⟨1, TOK_VAR, "c"⟩] "c" 1)
        = .ok (tableState (kept ++ [p]) "c" 1) :=
  destroysymbols_removes_trailing_run
    (tableState [sentinel, ⟨0, TOK_VAR, "a"⟩, ⟨0, TOK_PROCEDURE, "p"⟩,
      ⟨1, TOK_CONST, "b"⟩, ⟨1, TOK_VAR, "c"⟩] "c" 1) sentinel _ rfl rfl

/-! ## Sequencing lemmas -/

theorem bind_def {α β : Type} (r : Result α) (f : α → Result β) : (r >>= f) = r.bind f := rfl

theorem pure_def {α : Type} (a : α) : (pure a : Result α) = .ok a := rfl

@[simp] theorem ok_bind {α β : Type} (a : α) (f : α → Result β) : (Result.ok a).bind f = f a := rfl

@[simp] theorem fatal_bind {α β : Type} (l : Nat) (m : String) (f : α → Result β) :
    (Result.fatal l m).bind f = .fatal l m := rfl

@[simp] theorem fuel_bind {α β : Type} (f : α → Result β) :
    (Result.fuel : Result α).bind f = .fuel := rfl

@[simp] theorem undef_bind {α β : Type} (f : α → Result β) :
    (Result.undef : Result α).bind f = .undef := rfl

theorem bind_eq_ok {α β : Type} {r : Result α} {f : α → Result β} {b : β} :
    r.bind f = .ok b ↔ ∃ a, r = .ok a ∧ f a = .ok b := by
  cases r <;> simp

/-! ## The sentinel -/

theorem destroysymbols_keeps_first (s : State) (first : Symtab) (rest : List Symtab)
    (h : s.head = first :: rest) (hf : first.type = TOK_PROCEDURE) :
    ∃ kept removed, s.head = first :: kept ++ removed ∧
      (∀ x ∈ removed, x.type ≠ TOK_PROCEDURE) ∧
      destroysymbols s = .ok { s with head := first :: kept } := by
  obtain ⟨kept, p, removed, e, hp, hr⟩ :=
    exists_last_procedure s.head ⟨first, by rw [h]; exact List.mem_cons_self _ _, hf⟩
  have hd := destroysymbols_spec s kept p removed e hp hr
  cases kept with
  | nil =>
    have e1 : first = p := by
      rw [h] at e; simp only [List.nil_append, List.cons.injEq] at e; exact e.1
    subst e1
    exact ⟨[], removed, by rw [e]; rfl, hr, hd⟩
  | cons k ks =>
    have e1 : first = k := by
      rw [h] at e; simp only [List.cons_append, List.cons.injEq] at e; exact e.1
    subst e1
    exact ⟨ks ++ [p], removed, by rw [e]; simp, hr, hd⟩

theorem addsymbol_ok_eq (ty : Char) (s s' : State) (h : addsymbol ty s = .ok s') :
    s.head ≠ [] ∧
    s' = { s with head := s.head ++ [{ depth := s.depth - 1, type := ty, name := s.token }] } := by
  unfold addsymbol at h
  split at h
  · cases h
  · rename_i hne
    split at h
    · cases h
    · cases h; exact ⟨hne, rfl⟩

theorem reachable_head (s : State) (h : Reachable s) : ∃ rest, s.head = sentinel :: rest := by
  induction h with
  | init s => exact ⟨[], rfl⟩
  | declare ty _ hadd ih =>
    obtain ⟨rest, e⟩ := ih
    obtain ⟨_, e'⟩ := addsymbol_ok_eq _ _ _ hadd
    exact ⟨rest ++ [_], by rw [e', e]; rfl⟩
  | teardown _ hd ih =>
    obtain ⟨rest, e⟩ := ih
    obtain ⟨kept, removed, _, _, hk⟩ := destroysymbols_keeps_first _ sentinel rest e rfl
    rw [hk] at hd
    cases hd
    exact ⟨kept, rfl⟩
  | other _ hh ih =>
    obtain ⟨rest, e⟩ := ih
    exact ⟨rest, by rw [hh, e]⟩

/-- C7: in every state reached from `initsymtab` by declarations and scope
teardowns, the first symbol of the table is the sentinel (`main`, procedure,
depth 0); a teardown in such a state returns, removes only symbols that come
after the sentinel, none of them a procedure, and leaves the sentinel first. -/
theorem sentinel_invariant (s : State) (h : Reachable s) :
    s.head.head? = some sentinel ∧
    ∃ kept removed, s.head = sentinel :: kept ++ removed ∧
      (∀ x ∈ removed, x.type ≠ TOK_PROCEDURE) ∧
      destroysymbols s = .ok { s with head := sentinel :: kept } := by
  obtain ⟨rest, e⟩ := reachable_head s h
  exact ⟨by rw [e]; rfl, destroysymbols_keeps_first s sentinel rest e rfl⟩

/-- C7 in the state reached by declaring the variable `x` after `initsymtab`. -/
theorem sentinel_invariant_witness :
    (tableState [sentinel, ⟨0, TOK_VAR, "x"⟩] "x" 1).head.head? = some sentinel ∧
    ∃ kept removed, [sentinel, ⟨0, TOK_VAR, "x"⟩] = sentinel :: kept ++ removed ∧
      (∀ x ∈ removed, x.type ≠ TOK_PROCEDURE) ∧
      destroysymbols (tableState [sentinel, ⟨0, TOK_VAR, "x"⟩] "x" 1)
        = .ok (tableState (sentinel :: kept) "x" 1) :=
  sentinel_invariant (tableState [sentinel, ⟨0, TOK_VAR, "x"⟩] "x" 1)
    (Reachable.declare TOK_VAR
      (Reachable.other (Reachable.init (initial "")) (rfl : (tableState [sentinel] "x" 1).head = _))
      (by decide))

/-! ## Role checks -/

theorem symcheck_of_resolved (check : Nat) (s : State) (ret : Symtab)
    (h : symcheckLoop s.token s.head none = some ret) :
    symcheck check s = rolecheck check ret s := by
  simp only [symcheck, h]

theorem symcheck_lhs (s : State) (ret : Symtab)
    (h : symcheckLoop s.token s.head none = some ret) :
    symcheck CHECK_LHS s =
      if ret.type = TOK_VAR then .ok s else .fatal s.line ("must be a variable: " ++ s.token) := by
  rw [symcheck_of_resolved _ _ _ h]
  by_cases hv : ret.type = TOK_VAR <;> simp [rolecheck, hv, error]

theorem symcheck_rhs (s : State) (ret : Symtab)
    (h : symcheckLoop s.token s.head none = some ret) :
    symcheck CHECK_RHS s =
      if ret.type ≠ TOK_PROCEDURE then .ok s
      else .fatal s.line ("must not be a procedure: " ++ s.token) := by
  rw [symcheck_of_resolved _ _ _ h]
  by_cases hv : ret.type = TOK_PROCEDURE <;> simp [rolecheck, hv, error]

theorem symcheck_call (s : State) (ret : Symtab)
    (h : symcheckLoop s.token s.head none = some ret) :
    symcheck CHECK_CALL s =
      if ret.type = TOK_PROCEDURE then .ok s
      else .fatal s.line ("must be a procedure: " ++ s.token) := by
  rw [symcheck_of_resolved _ _ _ h]
  by_cases hv : ret.type = TOK_PROCEDURE <;> simp [rolecheck, hv, error]

theorem statement_assign_target (n : Nat) (s : State) (ret : Symtab) (ht : s.type = TOK_IDENT)
    (h : symcheckLoop s.token s.head none = some ret) (hv : ret.type ≠ TOK_VAR) :
    statement (n + 1) s = .fatal s.line ("must be a variable: " ++ s.token) := by
  simp only [statement, ht, if_true, bind_def, symcheck_lhs s ret h, if_neg hv, fatal_bind]

theorem factor_ident (n : Nat) (s : State) (ret : Symtab) (ht : s.type = TOK_IDENT)
    (h : symcheckLoop s.token s.head none = some ret) (hv : ret.type = TOK_PROCEDURE) :
    factor (n + 1) s = .fatal s.line ("must not be a procedure: " ++ s.token) := by
  simp only [factor, ht, if_true, bind_def, symcheck_rhs s ret h, hv, ne_eq, not_true_eq_false,
    if_false, fatal_bind]

theorem statement_call_target (n : Nat) (s0 s : State) (ret : Symtab) (h0 : s0.type = TOK_CALL)
    (he : expect TOK_CALL s0 = .ok s) (ht : s.type = TOK_IDENT)
    (h : symcheckLoop s.token s.head none = some ret) (hv : ret.type ≠ TOK_PROCEDURE) :
    statement (n + 1) s0 = .fatal s.line ("must be a procedure: " ++ s.token) := by
  have h1 : ¬ (TOK_CALL = TOK_IDENT) := by decide
  simp only [statement, h0, h1, if_false, if_true, bind_def, he, ok_bind, ht,
    symcheck_call s ret h, if_neg hv, fatal_bind]

theorem statement_writeint_arg (n : Nat) (s0 s : State) (ret : Symtab)
    (h0 : s0.type = TOK_WRITEINT) (he : expect TOK_WRITEINT s0 = .ok s) (ht : s.type = TOK_IDENT)
    (h : symcheckLoop s.token s.head none = some ret) (hv : ret.type = TOK_PROCEDURE) :
    statement (n + 1) s0 = .fatal s.line ("must not be a procedure: " ++ s.token) := by
  simp +decide [statement, h0, bind_def, he, ht, symcheck_rhs s ret h, hv]

theorem statement_writechar_arg (n : Nat) (s0 s : State) (ret : Symtab)
    (h0 : s0.type = TOK_WRITECHAR) (he : expect TOK_WRITECHAR s0 = .ok s) (ht : s.type = TOK_IDENT)
    (h : symcheckLoop s.token s.head none = some ret) (hv : ret.type = TOK_PROCEDURE) :
    statement (n + 1) s0 = .fatal s.line ("must not be a procedure: " ++ s.token) := by
  simp +decide [statement, h0, bind_def, he, ht, symcheck_rhs s ret h, hv]

theorem statement_readint_target (n : Nat) (s0 s1 s : State) (ret : Symtab)
    (h0 : s0.type = TOK_READINT) (he : expect TOK_READINT s0 = .ok s1)
    (hinto : (if s1.type = TOK_INTO then expect TOK_INTO s1 else .ok s1) = .ok s)
    (ht : s.type = TOK_IDENT)
    (h : symcheckLoop s.token s.head none = some ret) (hv : ret.type ≠ TOK_VAR) :
    statement (n + 1) s0 = .fatal s.line ("must be a variable: " ++ s.token) := by
  by_cases hi : s1.type = TOK_INTO
  · rw [if_pos hi] at hinto
    simp +decide [statement, h0, bind_def, pure_def, he, hi, hinto, ht, symcheck_lhs s ret h, hv]
  · rw [if_neg hi] at hinto
    cases hinto
    simp +decide [statement, h0, bind_def, pure_def, he, hi, ht, symcheck_lhs s1 ret h, hv]

theorem statement_readchar_target (n : Nat) (s0 s1 s : State) (ret : Symtab)
    (h0 : s0.type = TOK_READCHAR) (he : expect TOK_READCHAR s0 = .ok s1)
    (hinto : (if s1.type = TOK_INTO then expect TOK_INTO s1 else .ok s1) = .ok s)
    (ht : s.type = TOK_IDENT)
    (h : symcheckLoop s.token s.head none = some ret) (hv : ret.type ≠ TOK_VAR) :
    statement (n + 1) s0 = .fatal s.line ("must be a variable: " ++ s.token) := by
  by_cases hi : s1.type = TOK_INTO
  · rw [if_pos hi] at hinto
    simp +decide [statement, h0, bind_def, pure_def, he, hi, hinto, ht, symcheck_lhs s ret h, hv]
  · rw [if_neg hi] at hinto
    cases hinto
    simp +decide [statement, h0, bind_def, pure_def, he, hi, ht, symcheck_lhs s1 ret h, hv]

theorem statement_assign_eq (n : Nat) (s : State) (ret : Symtab) (ht : s.type = TOK_IDENT)
    (h : symcheckLoop s.token s.head none = some ret) :
    statement (n + 1) s =
      if ret.type = TOK_VAR then
        (expect TOK_IDENT (cg_symbol s)).bind fun s =>
          (expect TOK_ASSIGN (if s.type = TOK_ASSIGN then cg_symbol s else s)).bind fun s =>
            expression n s
      else .fatal s.line ("must be a variable: " ++ s.token) := by
  by_cases hv : ret.type = TOK_VAR
  · simp only [statement, ht, if_true, bind_def, symcheck_lhs s ret h, if_pos hv, ok_bind]
  · simp only [statement, ht, if_true, bind_def, symcheck_lhs s ret h, if_neg hv, fatal_bind]

theorem factor_ident_eq (n : Nat) (s : State) (ret : Symtab) (ht : s.type = TOK_IDENT)
    (h : symcheckLoop s.token s.head none = some ret) :
    factor (n + 1) s =
      if ret.type ≠ TOK_PROCEDURE then next (cg_symbol s)
      else .fatal s.line ("must not be a procedure: " ++ s.token) := by
  by_cases hv : ret.type = TOK_PROCEDURE
  · simp only [factor, ht, if_true, bind_def, symcheck_rhs s ret h, hv, ne_eq, not_true_eq_false,
      if_false, fatal_bind]
  · simp only [factor, ht, if_true, bind_def, symcheck_rhs s ret h, hv, ne_eq, not_false_eq_true,
      if_true, ok_bind]

theorem statement_call_eq (n : Nat) (s0 s : State) (ret : Symtab) (h0 : s0.type = TOK_CALL)
    (he : expect TOK_CALL s0 = .ok s) (ht : s.type = TOK_IDENT)
    (h : symcheckLoop s.token s.head none = some ret) :
    statement (n + 1) s0 =
      if ret.type = TOK_PROCEDURE then expect TOK_IDENT (cg_call s)
      else .fatal s.line ("must be a procedure: " ++ s.token) := by
  have h1 : ¬ (TOK_CALL = TOK_IDENT) := by decide
  by_cases hv : ret.type = TOK_PROCEDURE
  · simp only [statement, h0, h1, if_false, if_true, bind_def, pure_def, he, ok_bind, ht,
      symcheck_call s ret h, if_pos hv]
  · simp only [statement, h0, h1, if_false, if_true, bind_def, he, ok_bind, ht,
      symcheck_call s ret h, if_neg hv, fatal_bind]

theorem cg_writeint_type (s : State) : (cg_writeint s).type = s.type := rfl

theorem cg_writechar_type (s : State) : (cg_writechar s).type = s.type := rfl

theorem statement_writeint_eq (n : Nat) (s0 s : State) (ret : Symtab)
    (h0 : s0.type = TOK_WRITEINT) (he : expect TOK_WRITEINT s0 = .ok s) (ht : s.type = TOK_IDENT)
    (h : symcheckLoop s.token s.head none = some ret) :
    statement (n + 1) s0 =
      if ret.type ≠ TOK_PROCEDURE then expect TOK_IDENT (cg_writeint s)
      else .fatal s.line ("must not be a procedure: " ++ s.token) := by
  by_cases hv : ret.type = TOK_PROCEDURE
  · simp +decide [statement, h0, bind_def, he, ht, symcheck_rhs s ret h, hv]
  · simp +decide [statement, h0, bind_def, pure_def, he, ht, symcheck_rhs s ret h, hv,
      cg_writeint_type]

theorem statement_writechar_eq (n : Nat) (s0 s : State) (ret : Symtab)
    (h0 : s0.type = TOK_WRITECHAR) (he : expect TOK_WRITECHAR s0 = .ok s) (ht : s.type = TOK_IDENT)
    (h : symcheckLoop s.token s.head none = some ret) :
    statement (n + 1) s0 =
      if ret.type ≠ TOK_PROCEDURE then expect TOK_IDENT (cg_writechar s)
      else .fatal s.line ("must not be a procedure: " ++ s.token) := by
  by_cases hv : ret.type = TOK_PROCEDURE
  · simp +decide [statement, h0, bind_def, he, ht, symcheck_rhs s ret h, hv]
  · simp +decide [statement, h0, bind_def, pure_def, he, ht, symcheck_rhs s ret h, hv,
      cg_writechar_type]

theorem statement_readint_eq (n : Nat) (s0 s1 s : State) (ret : Symtab)
    (h0 : s0.type = TOK_READINT) (he : expect TOK_READINT s0 = .ok s1)
    (hinto : (if s1.type = TOK_INTO then expect TOK_INTO s1 else .ok s1) = .ok s)
    (ht : s.type = TOK_IDENT)
    (h : symcheckLoop s.token s.head none = some ret) :
    statement (n + 1) s0 =
      if ret.type = TOK_VAR then expect TOK_IDENT (cg_readint s)
      else .fatal s.line ("must be a variable: " ++ s.token) := by
  by_cases hv : ret.type = TOK_VAR
  · by_cases hi : s1.type = TOK_INTO
    · rw [if_pos hi] at hinto
      simp +decide [statement, h0, bind_def, pure_def, he, hi, hinto, ht, symcheck_lhs s ret h, hv]
    · rw [if_neg hi] at hinto
      cases hinto
      simp +decide [statement, h0, bind_def, pure_def, he, hi, ht, symcheck_lhs s1 ret h, hv]
  · rw [if_neg hv]
    exact statement_readint_target n s0 s1 s ret h0 he hinto ht h hv

theorem statement_readchar_eq (n : Nat) (s0 s1 s : State) (ret : Symtab)
    (h0 : s0.type = TOK_READCHAR) (he : expect TOK_READCHAR s0 = .ok s1)
    (hinto : (if s1.type = TOK_INTO then expect TOK_INTO s1 else .ok s1) = .ok s)
    (ht : s.type = TOK_IDENT)
    (h : symcheckLoop s.token s.head none = some ret) :
    statement (n + 1) s0 =
      if ret.type = TOK_VAR then expect TOK_IDENT (cg_readchar s)
      else .fatal s.line ("must be a variable: " ++ s.token) := by
  by_cases hv : ret.type = TOK_VAR
  · by_cases hi : s1.type = TOK_INTO
    · rw [if_pos hi] at hinto
      simp +decide [statement, h0, bind_def, pure_def, he, hi, hinto, ht, symcheck_lhs s ret h, hv]
    · rw [if_neg hi] at hinto
      cases hinto
      simp +decide [statement, h0, bind_def, pure_def, he, hi, ht, symcheck_lhs s1 ret h, hv]
  · rw [if_neg hv]
    exact statement_readchar_target n s0 s1 s ret h0 he hinto ht h hv

/-- C8: for a name that resolves to the symbol `ret`, the check of a
left-hand-side use returns exactly when the role of `ret` is variable and
otherwise fails with "must be a variable"; the check of a value use returns
exactly when the role is not procedure and otherwise fails with "must not be a
procedure"; the check of a call target returns exactly when the role is
procedure and otherwise fails with "must be a procedure".  At each place of
use the grammar rule does the same: with the accepted role it carries on with
the rest of the rule (it writes the code of the use and asks for the next
token), with any other role its outcome is the failure of the check.  The
places are the assignment target, the `readInt` and `readChar` targets, the
factor, the `writeInt` and `writeChar` arguments and the call target. -/
theorem role_checks (s : State) (ret : Symtab)
    (h : symcheckLoop s.token s.head none = some ret) :
    (symcheck CHECK_LHS s =
      if ret.type = TOK_VAR then .ok s
      else .fatal s.line ("must be a variable: " ++ s.token)) ∧
    (symcheck CHECK_RHS s =
      if ret.type ≠ TOK_PROCEDURE then .ok s
      else .fatal s.line ("must not be a procedure: " ++ s.token)) ∧
    (symcheck CHECK_CALL s =
      if ret.type = TOK_PROCEDURE then .ok s
      else .fatal s.line ("must be a procedure: " ++ s.token)) ∧
    (∀ n, s.type = TOK_IDENT →
      statement (n + 1) s =
        if ret.type = TOK_VAR then
          (expect TOK_IDENT (cg_symbol s)).bind fun s =>
            (expect TOK_ASSIGN (if s.type = TOK_ASSIGN then cg_symbol s else s)).bind fun s =>
              expression n s
        else .fatal s.line ("must be a variable: " ++ s.token)) ∧
    (∀ n s0 s1, s0.type = TOK_READINT → expect TOK_READINT s0 = .ok s1 →
      (if s1.type = TOK_INTO then expect TOK_INTO s1 else .ok s1) = .ok s →
      s.type = TOK_IDENT →
      statement (n + 1) s0 =
        if ret.type = TOK_VAR then expect TOK_IDENT (cg_readint s)
        else .fatal s.line ("must be a variable: " ++ s.token)) ∧
    (∀ n s0 s1, s0.type = TOK_READCHAR → expect TOK_READCHAR s0 = .ok s1 →
      (if s1.type = TOK_INTO then expect TOK_INTO s1 else .ok s1) = .ok s →
      s.type = TOK_IDENT →
      statement (n + 1) s0 =
        if ret.type = TOK_VAR then expect TOK_IDENT (cg_readchar s)
        else .fatal s.line ("must be a variable: " ++ s.token)) ∧
    (∀ n, s.type = TOK_IDENT →
      factor (n + 1) s =
        if ret.type ≠ TOK_PROCEDURE then next (cg_symbol s)
        else .fatal s.line ("must not be a procedure: " ++ s.token)) ∧
    (∀ n s0, s0.type = TOK_WRITEINT → expect TOK_WRITEINT s0 = .ok s →
      s.type = TOK_IDENT →
      statement (n + 1) s0 =
        if ret.type ≠ TOK_PROCEDURE then expect TOK_IDENT (cg_writeint s)
        else .fatal s.line ("must not be a procedure: " ++ s.token)) ∧
    (∀ n s0, s0.type = TOK_WRITECHAR → expect TOK_WRITECHAR s0 = .ok s →
      s.type = TOK_IDENT →
      statement (n + 1) s0 =
        if ret.type ≠ TOK_PROCEDURE then expect TOK_IDENT (cg_writechar s)
        else .fatal s.line ("must not be a procedure: " ++ s.token)) ∧
    (∀ n s0, s0.type = TOK_CALL → expect TOK_CALL s0 = .ok s →
      s.type = TOK_IDENT →
      statement (n + 1) s0 =
        if ret.type = TOK_PROCEDURE then expect TOK_IDENT (cg_call s)
        else .fatal s.line ("must be a procedure: " ++ s.token)) :=
  ⟨symcheck_lhs s ret h, symcheck_rhs s ret h, symcheck_call s ret h,
   fun n ht => statement_assign_eq n s ret ht h,
   fun n s0 s1 h0 he hi ht => statement_readint_eq n s0 s1 s ret h0 he hi ht h,
   fun n s0 s1 h0 he hi ht => statement_readchar_eq n s0 s1 s ret h0 he hi ht h,
   fun n ht => factor_ident_eq n s ret ht h,
   fun n s0 h0 he ht => statement_writeint_eq n s0 s ret h0 he ht h,
   fun n s0 h0 he ht => statement_writechar_eq n s0 s ret h0 he ht h,
   fun n s0 h0 he ht => statement_call_eq n s0 s ret h0 he ht h⟩

/-- C8 for the constant `c`: not a target, a value, not a call target; as
the target of an assignment it makes the statement fail, as a factor it is
accepted and the factor goes on to the next token. -/
theorem role_checks_witness :
    symcheck CHECK_LHS (tableState [sentinel, ⟨0, TOK_CONST, "c"⟩] "c" 1)
      = .fatal 1 "must be a variable: c" ∧
    symcheck CHECK_RHS (tableState [sentinel, ⟨0, TOK_CONST, "c"⟩] "c" 1)
      = .ok (tableState [sentinel, ⟨0, TOK_CONST, "c"⟩] "c" 1) ∧
    symcheck CHECK_CALL (tableState [sentinel, ⟨0, TOK_CONST, "c"⟩] "c" 1)
      = .fatal 1 "must be a procedure: c" ∧
    statement 1 (tableState [sentinel, ⟨0, TOK_CONST, "c"⟩] "c" 1)
      = .fatal 1 "must be a variable: c" ∧
    factor 1 (tableState [sentinel, ⟨0, TOK_CONST, "c"⟩] "c" 1)
      = next (cg_symbol (tableState [sentinel, ⟨0, TOK_CONST, "c"⟩] "c" 1)) :=
  have h := role_checks (tableState [sentinel, ⟨0, TOK_CONST, "c"⟩] "c" 1) ⟨0, TOK_CONST, "c"⟩
    (by decide)
  ⟨h.1, h.2.1, h.2.2.1, (h.2.2.2.1 0 rfl).trans (if_neg (by decide)),
   (h.2.2.2.2.2.2.1 0 rfl).trans (if_pos (by decide))⟩

/-- C9 (as stated, refuted): the program `const c = 1; c := 2.` is rejected:
compilation stops at line 1 with "must be a variable: c". -/
theorem const_assignment_is_rejected :
    compile "const c = 1; c := 2." = .fatal 1 "must be a variable: c" := by
  decide!

/-- C9 (amended): the check of an assignment target rejects a constant: when
the statement starts with an identifier that resolves to a symbol of role
constant, `statement` fails with "must be a variable". -/
theorem assignment_to_constant_fails (n : Nat) (s : State) (ret : Symtab)
    (ht : s.type = TOK_IDENT) (h : symcheckLoop s.token s.head none = some ret)
    (hc : ret.type = TOK_CONST) :
    statement (n + 1) s = .fatal s.line ("must be a variable: " ++ s.token) :=
  statement_assign_target n s ret ht h (by rw [hc]; decide)

/-- C9 (amended) for the constant `c` declared after the variable `x`. -/
theorem assignment_to_constant_fails_witness :
    statement 5 (tableState [sentinel, ⟨0, TOK_VAR, "x"⟩, ⟨0, TOK_CONST, "c"⟩] "c" 1)
      = .fatal 1 "must be a variable: c" :=
  assignment_to_constant_fails 4 (tableState [sentinel, ⟨0, TOK_VAR, "x"⟩, ⟨0, TOK_CONST, "c"⟩] "c" 1)
    ⟨0, TOK_CONST, "c"⟩ rfl (by decide) rfl

/-! ## The parser and the documented grammar -/

theorem derives_operand_ne_nil (nt : Nonterminal) (ts : List Char) (h : Derives nt ts)
    (hnt : nt = .factor ∨ nt = .term ∨ nt = .expression) : ts ≠ [] := by
  induction h with
  | exprTerm _ ih => exact ih (by simp)
  | termFactor _ ih => exact ih (by simp)
  | factorIdent => simp
  | factorNumber => simp
  | factorParen _ _ => simp
  | exprSigned _ _ _ _ => simp
  | exprMore _ _ _ _ _ _ => simp
  | termMore _ _ _ _ _ _ => simp
  | _ => simp at hnt

theorem derives_condition_length (ts : List Char) (h : Derives .condition ts) :
    2 ≤ ts.length := by
  generalize hn : Nonterminal.condition = nt at h
  cases h <;> try cases hn
  · rename_i e he
    have := List.length_pos.2 (derives_operand_ne_nil _ _ he (by simp))
    simp only [List.length_cons]
    omega
  · rename_i e1 e2 op h1 hop h2
    have := List.length_pos.2 (derives_operand_ne_nil _ _ h1 (by simp))
    simp only [List.length_append, List.length_cons]
    omega

theorem derives_constPart_head (c : List Char) (h : Derives .constPart c) :
    c = [] ∨ ∃ r, c = TOK_CONST :: r := by
  generalize hn : Nonterminal.constPart = nt at h
  cases h <;> try cases hn
  · exact Or.inl rfl
  · exact Or.inr ⟨_, rfl⟩

theorem derives_varPart_head (v : List Char) (h : Derives .varPart v) :
    v = [] ∨ ∃ r, v = TOK_VAR :: r := by
  generalize hn : Nonterminal.varPart = nt at h
  cases h <;> try cases hn
  · exact Or.inl rfl
  · exact Or.inr ⟨_, rfl⟩

theorem derives_procedures_head (nt : Nonterminal) (p : List Char) (h : Derives nt p)
    (hnt : nt = .procedures) : p = [] ∨ ∃ r, p = TOK_PROCEDURE :: r := by
  induction h with
  | procNone => exact Or.inl rfl
  | procSome _ _ ih _ =>
    rcases ih rfl with e | ⟨r, e⟩
    · subst e; exact Or.inr ⟨_, rfl⟩
    · subst e; exact Or.inr ⟨_, rfl⟩
  | _ => cases hnt

theorem derives_statement_if (rest : List Char) (h : Derives .statement (TOK_IF :: rest)) :
    ∃ c s, Derives .condition c ∧ Derives .statement s ∧ rest = c ++ TOK_THEN :: s := by
  generalize hn : Nonterminal.statement = nt at h
  generalize hts : TOK_IF :: rest = ts at h
  cases h <;> try cases hn
  all_goals first
    | (rename_i c s hc hs
       simp only [List.cons.injEq, true_and] at hts
       exact ⟨c, s, hc, hs, hts⟩)
    | (exfalso; revert hts; simp +decide)

/-- The token sequence `if = then .` is not a sentence of the documented
grammar: its condition has no expression on either side of `=`. -/
theorem not_derives_if_eq_then :
    ¬ Derives .program [TOK_IF, TOK_EQUAL, TOK_THEN, TOK_DOT] := by
  intro h
  generalize hn : Nonterminal.program = nt at h
  generalize hts : [TOK_IF, TOK_EQUAL, TOK_THEN, TOK_DOT] = ts at h
  cases h <;> try cases hn
  rename_i b hb
  have hb' : b = [TOK_IF, TOK_EQUAL, TOK_THEN] := by
    have := List.append_inj_left' (show [TOK_IF, TOK_EQUAL, TOK_THEN] ++ [TOK_DOT] = b ++ [TOK_DOT] from hts) rfl
    exact this.symm
  subst hb'
  clear hts
  generalize hn : Nonterminal.block = nt at hb
  generalize hts : [TOK_IF, TOK_EQUAL, TOK_THEN] = ts at hb
  cases hb <;> try cases hn
  rename_i c v p s hc hv hp hs
  rcases derives_constPart_head c hc with e | ⟨r, e⟩
  swap
  · subst e; revert hts; simp +decide
  subst e
  rcases derives_varPart_head v hv with e | ⟨r, e⟩
  swap
  · subst e; revert hts; simp +decide
  subst e
  rcases derives_procedures_head _ p hp rfl with e | ⟨r, e⟩
  swap
  · subst e; revert hts; simp +decide
  subst e
  simp only [List.nil_append] at hts
  subst hts
  obtain ⟨c, s, hc, _, e⟩ := derives_statement_if _ hs
  have h2 := derives_condition_length c hc
  have h3 := congrArg List.length e
  simp only [List.length_cons, List.length_nil, List.length_append] at h3
  omega

/-- C1 (checked at the failing input): `if = then .` is compiled without error,
its tokens are `if`, `=`, `then`, `.`, and this sequence is not derivable from
`program`. -/
theorem parse_accepts_underivable :
    (compile "if = then .").isOk = true ∧
    sourceTokens "if = then ." = .ok [TOK_IF, TOK_EQUAL, TOK_THEN, TOK_DOT] ∧
    ¬ Derives .program [TOK_IF, TOK_EQUAL, TOK_THEN, TOK_DOT] :=
  ⟨by decide!, by decide!, not_derives_if_eq_then⟩

/-! ## What the lexer leaves alone -/

theorem lexFrame_refl (s : State) : LexFrame s s := ⟨rfl, rfl, rfl, rfl, rfl⟩

theorem lexFrame_trans {a b c : State} (h1 : LexFrame a b) (h2 : LexFrame b c) : LexFrame a c :=
  ⟨h2.1.trans h1.1, h2.2.1.trans h1.2.1, h2.2.2.1.trans h1.2.2.1, h2.2.2.2.1.trans h1.2.2.2.1,
    h2.2.2.2.2.trans h1.2.2.2.2⟩

theorem comment_frame (s s' : State) (h : comment s = .ok s') : LexFrame s s' := by
  unfold comment at h
  split at h
  · cases h
  · cases h; exact ⟨rfl, rfl, rfl, rfl, rfl⟩

theorem number_frame (s s' : State) (t : Char) (h : number s = .ok (t, s')) : LexFrame s s' := by
  unfold number at h
  simp only at h
  split at h
  · cases h
  · cases h; exact ⟨rfl, rfl, rfl, rfl, rfl⟩

theorem lexerLoop_frame (n : Nat) (s s' : State) (t : Char) (h : lexerLoop n s = .ok (t, s')) :
    LexFrame s s' := by
  induction n generalizing s with
  | zero => cases h
  | succ n ih =>
    unfold lexerLoop at h
    simp only at h
    split_ifs at h
    · cases h; exact ⟨rfl, rfl, rfl, rfl, rfl⟩
    · have hf := number_frame _ _ _ h
      exact hf
    · obtain ⟨s1, h1, h2⟩ := bind_eq_ok.1 h
      have hf := lexFrame_trans (comment_frame _ _ h1) (ih _ h2)
      exact hf
    · cases h; exact ⟨rfl, rfl, rfl, rfl, rfl⟩
    · cases h
    · cases h; exact ⟨rfl, rfl, rfl, rfl, rfl⟩
    · cases h; exact ⟨rfl, rfl, rfl, rfl, rfl⟩
    · cases h

theorem next_frame (s s' : State) (h : next s = .ok s') : LexFrame s s' := by
  unfold next lexer at h
  obtain ⟨⟨t, s1⟩, h1, h2⟩ := bind_eq_ok.1 h
  cases h2
  have hf := lexerLoop_frame _ _ _ _ h1
  exact hf

theorem expect_ok (m : Char) (s s' : State) (h : expect m s = .ok s') :
    s.type = m ∧ next s = .ok s' := by
  unfold expect at h
  split at h
  · cases h
  · rename_i hne
    exact ⟨(not_not.1 hne).symm, h⟩

theorem expect_frame (m : Char) (s s' : State) (h : expect m s = .ok s') : LexFrame s s' :=
  next_frame s s' (expect_ok m s s' h).2

theorem symcheck_ok (check : Nat) (s s' : State) (h : symcheck check s = .ok s') : s' = s := by
  unfold symcheck at h
  split at h
  · cases h
  · unfold rolecheck at h
    split_ifs at h <;> first | cases h; rfl | cases h

/-! ## Basic steps of the grammar rules -/

section StepRel

variable {R : State → State → Prop}

theorem mem_plain_of_fixed {f : String} (token : String) (h : f ∈ fixedFragments) :
    f ∈ plainFragments token :=
  List.mem_append_right _ h

theorem mem_plain_of_token {f : String} (token : String) (h : f ∈ tokenFragments token) :
    f ∈ plainFragments token :=
  List.mem_append_left _ h

theorem mem_stmt_of_fixed {f : String} (token : String) (h : f ∈ stmtFixed) :
    f ∈ stmtFragments token :=
  List.mem_append_right _ h

theorem mem_stmt_of_token {f : String} (token : String) (h : f ∈ stmtToken token) :
    f ∈ stmtFragments token :=
  List.mem_append_left _ h

theorem StepRel.of_expect (hR : StepRel R) (m : Char) (s s' : State) (h : expect m s = .ok s') :
    R s s' :=
  hR.lex s s' (expect_ok m s s' h).2

theorem StepRel.fixed (hR : StepRel R) (s : State) (f : String) (hf : f ∈ stmtFixed) :
    R s (aout f s) :=
  hR.emit s f (mem_stmt_of_fixed _ hf)

theorem rel_ite {c : Prop} [Decidable c] {s a b : State} (ha : R s a) (hb : R s b) :
    R s (if c then a else b) := by
  split <;> assumption

theorem StepRel.of_cg_symbol (hR : StepRel R) (s : State) : R s (cg_symbol s) := by
  unfold cg_symbol
  refine rel_ite (hR.emit s _ (mem_stmt_of_token _ (List.mem_cons_self _ _))) ?_
  iterate 18 refine rel_ite (hR.fixed s _ (by decide)) ?_
  exact hR.refl s

theorem StepRel.of_cg_odd (hR : StepRel R) (s : State) : R s (cg_odd s) :=
  hR.fixed s _ (by decide)

theorem StepRel.of_cg_semicolon (hR : StepRel R) (s : State) : R s (cg_semicolon s) :=
  hR.fixed s _ (by decide)

theorem StepRel.of_cg_writeint (hR : StepRel R) (s : State) : R s (cg_writeint s) :=
  hR.emit s _ (mem_stmt_of_token _ (by simp [stmtToken]))

theorem StepRel.of_cg_writechar (hR : StepRel R) (s : State) : R s (cg_writechar s) :=
  hR.emit s _ (mem_stmt_of_token _ (by simp [stmtToken]))

theorem StepRel.of_cg_readchar (hR : StepRel R) (s : State) : R s (cg_readchar s) :=
  hR.emit s _ (mem_stmt_of_token _ (by simp [stmtToken]))

theorem StepRel.of_cg_readint (hR : StepRel R) (s : State) : R s (cg_readint s) := by
  unfold cg_readint
  have h1 := hR.fixed s "(void) fgets(__stdin, sizeof(__stdin), stdin);\n" (by decide)
  have h2 := hR.fixed (aout "(void) fgets(__stdin, sizeof(__stdin), stdin);\n" s)
    "if(__stdin[strlen(__stdin) - 1] == '\\n')" (by decide)
  refine hR.trans _ _ _ (hR.trans _ _ _ (hR.trans _ _ _ (hR.trans _ _ _ (hR.trans _ _ _
    (hR.trans _ _ _ (hR.trans _ _ _ h1 h2) (hR.fixed _ _ (by decide)))
    (hR.emit _ _ (mem_stmt_of_token _ ?_))) (hR.fixed _ _ (by decide)))
    (hR.fixed _ _ (by decide))) (hR.fixed _ _ (by decide))) (hR.fixed _ _ (by decide))
  simp [stmtToken, aout]

end StepRel

section StepRel

variable {R : State → State → Prop}

theorem symcheck_bind_ok (check : Nat) (f : State → State) (s s' : State)
    (h : (symcheck check s).bind (fun s => .ok (f s)) = .ok s') :
    symcheck check s = .ok s ∧ s' = f s := by
  obtain ⟨s1, h1, h2⟩ := bind_eq_ok.1 h
  have e := symcheck_ok _ _ _ h1
  subst e
  cases h2
  exact ⟨h1, rfl⟩

theorem symcheck_then (check : Nat) (f : State → State) (s s' : State)
    (hf : R s (f s)) (h : (symcheck check s).bind (fun s => .ok (f s)) = .ok s') : R s s' := by
  obtain ⟨s1, h1, h2⟩ := bind_eq_ok.1 h
  cases symcheck_ok _ _ _ h1
  cases h2
  exact hf

theorem StepRel.expression_rules (hR : StepRel R) (n : Nat) :
    (∀ s s', factor n s = .ok s' → R s s') ∧ (∀ s s', termLoop n s = .ok s' → R s s') ∧
    (∀ s s', term n s = .ok s' → R s s') ∧ (∀ s s', expressionLoop n s = .ok s' → R s s') ∧
    (∀ s s', expression n s = .ok s' → R s s') := by
  induction n with
  | zero =>
    refine ⟨?_, ?_, ?_, ?_, ?_⟩ <;> intro s s' h
    · simp [factor] at h
    · simp [termLoop] at h
    · simp [term] at h
    · simp [expressionLoop] at h
    · simp [expression] at h
  | succ n ih =>
    obtain ⟨ihf, ihtl, iht, ihel, ihe⟩ := ih
    refine ⟨?_, ?_, ?_, ?_, ?_⟩ <;> intro s s' h
    · rw [factor] at h
      simp only [bind_def, pure_def] at h
      by_cases h1 : s.type = TOK_IDENT
      · rw [if_pos h1] at h
        obtain ⟨s1, hs, hn⟩ := bind_eq_ok.1 h
        cases symcheck_ok _ _ _ hs
        exact hR.trans _ _ _ (hR.of_cg_symbol s) (hR.lex _ _ hn)
      · rw [if_neg h1] at h
        by_cases h2 : s.type = TOK_NUMBER
        · rw [if_pos h2] at h
          exact hR.trans _ _ _ (hR.of_cg_symbol s) (hR.lex _ _ h)
        · rw [if_neg h2] at h
          by_cases h3 : s.type = TOK_LPAREN
          · rw [if_pos h3] at h
            obtain ⟨s1, hs1, h⟩ := bind_eq_ok.1 h
            obtain ⟨s2, hs2, h⟩ := bind_eq_ok.1 h
            refine hR.trans _ _ _ (hR.of_cg_symbol s) (hR.trans _ _ _ (hR.of_expect _ _ _ hs1)
              (hR.trans _ _ _ (ihe _ _ hs2) (hR.trans _ _ _ ?_ (hR.of_expect _ _ _ h))))
            exact rel_ite (hR.of_cg_symbol s2) (hR.refl s2)
          · rw [if_neg h3] at h
            cases h
            exact hR.refl s
    · rw [termLoop] at h
      simp only [bind_def, pure_def] at h
      by_cases h1 : s.type = TOK_MULTIPLY ∨ s.type = TOK_DIVIDE
      · rw [if_pos h1] at h
        obtain ⟨s1, hs1, h⟩ := bind_eq_ok.1 h
        obtain ⟨s2, hs2, h⟩ := bind_eq_ok.1 h
        exact hR.trans _ _ _ (hR.of_cg_symbol s) (hR.trans _ _ _ (hR.lex _ _ hs1)
          (hR.trans _ _ _ (ihf _ _ hs2) (ihtl _ _ h)))
      · rw [if_neg h1] at h
        cases h
        exact hR.refl s
    · rw [term] at h
      simp only [bind_def] at h
      obtain ⟨s1, hs1, h⟩ := bind_eq_ok.1 h
      exact hR.trans _ _ _ (ihf _ _ hs1) (ihtl _ _ h)
    · rw [expressionLoop] at h
      simp only [bind_def, pure_def] at h
      by_cases h1 : s.type = TOK_PLUS ∨ s.type = TOK_MINUS
      · rw [if_pos h1] at h
        obtain ⟨s1, hs1, h⟩ := bind_eq_ok.1 h
        obtain ⟨s2, hs2, h⟩ := bind_eq_ok.1 h
        exact hR.trans _ _ _ (hR.of_cg_symbol s) (hR.trans _ _ _ (hR.lex _ _ hs1)
          (hR.trans _ _ _ (iht _ _ hs2) (ihel _ _ h)))
      · rw [if_neg h1] at h
        cases h
        exact hR.refl s
    · rw [expression] at h
      simp only [bind_def, pure_def] at h
      by_cases h1 : s.type = TOK_PLUS ∨ s.type = TOK_MINUS
      · rw [if_pos h1] at h
        obtain ⟨s1, hs1, h⟩ := bind_eq_ok.1 h
        obtain ⟨s2, hs2, h⟩ := bind_eq_ok.1 h
        exact hR.trans _ _ _ (hR.of_cg_symbol s) (hR.trans _ _ _ (hR.lex _ _ hs1)
          (hR.trans _ _ _ (iht _ _ hs2) (ihel _ _ h)))
      · rw [if_neg h1, ok_bind] at h
        obtain ⟨s2, hs2, h⟩ := bind_eq_ok.1 h
        exact hR.trans _ _ _ (iht _ _ hs2) (ihel _ _ h)

theorem StepRel.of_expression (hR : StepRel R) (n : Nat) (s s' : State)
    (h : expression n s = .ok s') : R s s' :=
  (hR.expression_rules n).2.2.2.2 s s' h

theorem StepRel.of_condition (hR : StepRel R) (n : Nat) (s s' : State)
    (h : condition n s = .ok s') : R s s' := by
  unfold condition at h
  simp only [bind_def, pure_def] at h
  by_cases h1 : s.type = TOK_ODD
  · rw [if_pos h1] at h
    obtain ⟨s1, hs1, h⟩ := bind_eq_ok.1 h
    obtain ⟨s2, hs2, h⟩ := bind_eq_ok.1 h
    cases h
    exact hR.trans _ _ _ (hR.of_cg_symbol s) (hR.trans _ _ _ (hR.of_expect _ _ _ hs1)
      (hR.trans _ _ _ (hR.of_expression _ _ _ hs2) (hR.of_cg_odd s2)))
  · rw [if_neg h1] at h
    obtain ⟨s1, hs1, h⟩ := bind_eq_ok.1 h
    refine hR.trans _ _ _ (hR.of_expression _ _ _ hs1) ?_
    split at h
    · obtain ⟨s2, hs2, h⟩ := bind_eq_ok.1 h
      exact hR.trans _ _ _ (hR.of_cg_symbol s1) (hR.trans _ _ _ (hR.lex _ _ hs2)
        (hR.of_expression _ _ _ h))
    · cases h

end StepRel

section StepRel

variable {R : State → State → Prop}

theorem StepRel.expect_at (hR : StepRel R) {m : Char} {s x s' : State} (hx : R s x)
    (h : expect m x = .ok s') : R s s' :=
  hR.trans _ _ _ hx (hR.of_expect _ _ _ h)

theorem StepRel.expect_sym (hR : StepRel R) {m k : Char} {s s' : State}
    (h : expect m (if s.type = k then cg_symbol s else s) = .ok s') : R s s' :=
  hR.expect_at (rel_ite (hR.of_cg_symbol s) (hR.refl s)) h

theorem StepRel.write_arg (hR : StepRel R) (f : State → State) (msg : String)
    (hf : ∀ s, R s (f s)) (hft : ∀ s, (f s).type = s.type) (s s' : State)
    (h : (if s.type = TOK_IDENT ∨ s.type = TOK_NUMBER then
            if s.type = TOK_IDENT then
              (symcheck CHECK_RHS s).bind fun y =>
                (Result.ok (f y)).bind fun y =>
                  if y.type = TOK_IDENT then expect TOK_IDENT y
                  else if y.type = TOK_NUMBER then expect TOK_NUMBER y else error y msg
            else
              (Result.ok s).bind fun y =>
                (Result.ok (f y)).bind fun y =>
                  if y.type = TOK_IDENT then expect TOK_IDENT y
                  else if y.type = TOK_NUMBER then expect TOK_NUMBER y else error y msg
          else
            (Result.ok s).bind fun y =>
              if y.type = TOK_IDENT then expect TOK_IDENT y
              else if y.type = TOK_NUMBER then expect TOK_NUMBER y else error y msg)
        = .ok s') : R s s' := by
  by_cases h1 : s.type = TOK_IDENT
  · have h2 : s.type = TOK_IDENT ∨ s.type = TOK_NUMBER := Or.inl h1
    rw [if_pos h2, if_pos h1] at h
    obtain ⟨s1, hs1, h⟩ := bind_eq_ok.1 h
    cases symcheck_ok _ _ _ hs1
    rw [ok_bind, if_pos ((hft s).trans h1)] at h
    exact hR.expect_at (hf s) h
  · by_cases h2 : s.type = TOK_NUMBER
    · rw [if_pos (Or.inr h2), if_neg h1, ok_bind, ok_bind, if_neg (by rw [hft]; exact h1),
        if_pos ((hft s).trans h2)] at h
      exact hR.expect_at (hf s) h
    · rw [if_neg (by simp [h1, h2]), ok_bind, if_neg h1, if_neg h2] at h
      cases h

theorem StepRel.read_target (hR : StepRel R) (f : State → State) (hf : ∀ s, R s (f s))
    (s s' : State)
    (h : (if s.type = TOK_INTO then
            (expect TOK_INTO s).bind fun y =>
              if y.type = TOK_IDENT then
                ((symcheck CHECK_LHS y).bind fun s => Result.ok (f s)).bind fun y =>
                  expect TOK_IDENT y
              else (Result.ok y).bind fun y => expect TOK_IDENT y
          else
            (Result.ok s).bind fun y =>
              if y.type = TOK_IDENT then
                ((symcheck CHECK_LHS y).bind fun s => Result.ok (f s)).bind fun y =>
                  expect TOK_IDENT y
              else (Result.ok y).bind fun y => expect TOK_IDENT y)
        = .ok s') : R s s' := by
  have key : ∀ y, (if y.type = TOK_IDENT then
                ((symcheck CHECK_LHS y).bind fun s => Result.ok (f s)).bind fun y =>
                  expect TOK_IDENT y
              else (Result.ok y).bind fun y => expect TOK_IDENT y) = .ok s' → R y s' := by
    intro y hy
    split at hy
    · obtain ⟨s2, hs2, hy⟩ := bind_eq_ok.1 hy
      exact hR.trans _ _ _ (symcheck_then _ f _ _ (hf y) hs2) (hR.of_expect _ _ _ hy)
    · exact hR.of_expect _ _ _ hy
  split at h
  · obtain ⟨s1, hs1, h⟩ := bind_eq_ok.1 h
    exact hR.trans _ _ _ (hR.of_expect _ _ _ hs1) (key _ h)
  · exact key _ h

theorem StepRel.statement_rules (hR : StepRel R) (n : Nat) :
    (∀ s s', statementLoop n s = .ok s' → R s s') ∧
    (∀ s s', statement n s = .ok s' → R s s') := by
  induction n with
  | zero =>
    refine ⟨?_, ?_⟩ <;> intro s s' h
    · simp [statementLoop] at h
    · simp [statement] at h
  | succ n ih =>
    obtain ⟨ihl, ihs⟩ := ih
    refine ⟨?_, ?_⟩ <;> intro s s' h
    · rw [statementLoop] at h
      simp only [bind_def, pure_def] at h
      split at h
      · obtain ⟨s1, hs1, h⟩ := bind_eq_ok.1 h
        obtain ⟨s2, hs2, h⟩ := bind_eq_ok.1 h
        exact hR.trans _ _ _ (hR.expect_at (hR.of_cg_semicolon s) hs1)
          (hR.trans _ _ _ (ihs _ _ hs2) (ihl _ _ h))
      · cases h
        exact hR.refl s
    · rw [statement] at h
      simp only [bind_def, pure_def] at h
      by_cases c1 : s.type = TOK_IDENT
      · rw [if_pos c1] at h
        obtain ⟨s1, hs1, h⟩ := bind_eq_ok.1 h
        cases symcheck_ok _ _ _ hs1
        obtain ⟨s2, hs2, h⟩ := bind_eq_ok.1 h
        obtain ⟨s3, hs3, h⟩ := bind_eq_ok.1 h
        exact hR.trans _ _ _ (hR.expect_at (hR.of_cg_symbol s) hs2)
          (hR.trans _ _ _ (hR.expect_sym hs3) (hR.of_expression _ _ _ h))
      rw [if_neg c1] at h
      by_cases c2 : s.type = TOK_CALL
      · rw [if_pos c2] at h
        obtain ⟨s1, hs1, h⟩ := bind_eq_ok.1 h
        refine hR.trans _ _ _ (hR.of_expect _ _ _ hs1) ?_
        split at h
        · obtain ⟨s2, hs2, h⟩ := bind_eq_ok.1 h
          obtain ⟨hs3, e⟩ := symcheck_bind_ok _ _ _ _ hs2
          subst e
          exact hR.trans _ _ _ (hR.call _ hs3) (hR.of_expect _ _ _ h)
        · exact hR.of_expect _ _ _ h
      rw [if_neg c2] at h
      by_cases c3 : s.type = TOK_BEGIN
      · rw [if_pos c3] at h
        obtain ⟨s1, hs1, h⟩ := bind_eq_ok.1 h
        obtain ⟨s2, hs2, h⟩ := bind_eq_ok.1 h
        obtain ⟨s3, hs3, h⟩ := bind_eq_ok.1 h
        exact hR.trans _ _ _ (hR.expect_at (hR.of_cg_symbol s) hs1)
          (hR.trans _ _ _ (ihs _ _ hs2) (hR.trans _ _ _ (ihl _ _ hs3) (hR.expect_sym h)))
      rw [if_neg c3] at h
      by_cases c4 : s.type = TOK_IF
      · rw [if_pos c4] at h
        obtain ⟨s1, hs1, h⟩ := bind_eq_ok.1 h
        obtain ⟨s2, hs2, h⟩ := bind_eq_ok.1 h
        obtain ⟨s3, hs3, h⟩ := bind_eq_ok.1 h
        exact hR.trans _ _ _ (hR.expect_at (hR.of_cg_symbol s) hs1)
          (hR.trans _ _ _ (hR.of_condition _ _ _ hs2)
            (hR.trans _ _ _ (hR.expect_sym hs3) (ihs _ _ h)))
      rw [if_neg c4] at h
      by_cases c5 : s.type = TOK_WHILE
      · rw [if_pos c5] at h
        obtain ⟨s1, hs1, h⟩ := bind_eq_ok.1 h
        obtain ⟨s2, hs2, h⟩ := bind_eq_ok.1 h
        obtain ⟨s3, hs3, h⟩ := bind_eq_ok.1 h
        exact hR.trans _ _ _ (hR.expect_at (hR.of_cg_symbol s) hs1)
          (hR.trans _ _ _ (hR.of_condition _ _ _ hs2)
            (hR.trans _ _ _ (hR.expect_sym hs3) (ihs _ _ h)))
      rw [if_neg c5] at h
      by_cases c6 : s.type = TOK_WRITEINT
      · rw [if_pos c6] at h
        obtain ⟨s1, hs1, h⟩ := bind_eq_ok.1 h
        exact hR.trans _ _ _ (hR.of_expect _ _ _ hs1)
          (hR.write_arg cg_writeint _ hR.of_cg_writeint (fun _ => rfl) _ _ h)
      rw [if_neg c6] at h
      by_cases c7 : s.type = TOK_WRITECHAR
      · rw [if_pos c7] at h
        obtain ⟨s1, hs1, h⟩ := bind_eq_ok.1 h
        exact hR.trans _ _ _ (hR.of_expect _ _ _ hs1)
          (hR.write_arg cg_writechar _ hR.of_cg_writechar (fun _ => rfl) _ _ h)
      rw [if_neg c7] at h
      by_cases c8 : s.type = TOK_READINT
      · rw [if_pos c8] at h
        obtain ⟨s1, hs1, h⟩ := bind_eq_ok.1 h
        exact hR.trans _ _ _ (hR.of_expect _ _ _ hs1)
          (hR.read_target cg_readint hR.of_cg_readint _ _ h)
      rw [if_neg c8] at h
      by_cases c9 : s.type = TOK_READCHAR
      · rw [if_pos c9] at h
        obtain ⟨s1, hs1, h⟩ := bind_eq_ok.1 h
        exact hR.trans _ _ _ (hR.of_expect _ _ _ hs1)
          (hR.read_target cg_readchar hR.of_cg_readchar _ _ h)
      rw [if_neg c9] at h
      cases h
      exact hR.refl s

theorem StepRel.of_statement (hR : StepRel R) (n : Nat) (s s' : State)
    (h : statement n s = .ok s') : R s s' :=
  (hR.statement_rules n).2 s s' h

end StepRel

/-! ## Basic steps of `block` and `parse` -/

section BlockRel

variable {R : State → State → Prop}

theorem PlainRel.plain_fixed (hR : PlainRel R) (s : State) (f : String)
    (hf : f ∈ fixedFragments) : R s (aout f s) :=
  hR.emit s f (mem_plain_of_fixed _ hf)

theorem PlainRel.plain_cg_const (hR : PlainRel R) (s : State) : R s (cg_const s) :=
  hR.emit s _ (mem_plain_of_token _ (by simp [tokenFragments]))

theorem PlainRel.plain_cg_var (hR : PlainRel R) (s : State) : R s (cg_var s) :=
  hR.emit s _ (mem_plain_of_token _ (by simp [tokenFragments]))

theorem PlainRel.plain_cg_newline (hR : PlainRel R) (s : State) : R s (cg_newline s) :=
  hR.plain_fixed s _ (by decide)

theorem PlainRel.plain_cg_epilogue (hR : PlainRel R) (s : State) : R s (cg_epilogue s) := by
  unfold cg_epilogue
  refine hR.trans _ _ _ (hR.trans _ _ _ (hR.plain_fixed s ";" (by decide)) ?_)
    (hR.plain_fixed _ _ (by decide))
  exact rel_ite (hR.plain_fixed _ _ (by decide)) (hR.refl _)

theorem PlainRel.plain_cg_init (hR : PlainRel R) (s : State) : R s (cg_init s) := by
  unfold cg_init
  exact hR.trans _ _ _ (hR.trans _ _ _ (hR.trans _ _ _ (hR.trans _ _ _ (hR.trans _ _ _
    (hR.plain_fixed _ _ (by decide)) (hR.plain_fixed _ _ (by decide)))
    (hR.plain_fixed _ _ (by decide))) (hR.plain_fixed _ _ (by decide)))
    (hR.plain_fixed _ _ (by decide))) (hR.plain_fixed _ _ (by decide))

theorem PlainRel.plain_cg_procedure_main (hR : PlainRel R) (s : State) (h : s.proc = 0) :
    R s (cg_procedure s) := by
  unfold cg_procedure
  simp only [h, if_true]
  exact hR.trans _ _ _ (hR.trans _ _ _ (hR.plain_fixed _ _ (by decide))
    (hR.plain_fixed _ _ (by decide))) (hR.plain_fixed _ _ (by decide))

theorem stmtFixed_subset : ∀ f ∈ stmtFixed, f ∈ fixedFragments := by
  decide

theorem stmt_subset_plain (token f : String) (h : f ∈ stmtFragments token) :
    f ∈ plainFragments token := by
  rcases List.mem_append.1 h with h1 | h1
  · refine mem_plain_of_token _ ?_
    simp only [stmtToken, List.mem_cons, List.mem_singleton, List.not_mem_nil, or_false] at h1
    rcases h1 with e | e | e | e | e <;> rw [e] <;> simp [tokenFragments]
  · exact mem_plain_of_fixed _ (stmtFixed_subset f h1)

theorem PlainRel.toStepRel (hR : PlainRel R) : StepRel R where
  refl := hR.refl
  trans := hR.trans
  lex := hR.lex
  emit := fun s f hf => hR.emit s f (stmt_subset_plain _ f hf)
  call := hR.call

theorem PlainRel.toDeclRel (hR : PlainRel R)
    (hd : ∀ ty s s', ty = TOK_CONST ∨ ty = TOK_VAR → addsymbol ty s = .ok s' → R s s') :
    DeclRel R where
  step := hR.toStepRel
  declare := hd
  cgConst := hR.plain_cg_const
  cgVar := hR.plain_cg_var
  cgNewline := hR.plain_cg_newline

theorem PlainRel.toBlockRel (hR : PlainRel R)
    (hd : ∀ ty s s', ty = TOK_CONST ∨ ty = TOK_VAR → addsymbol ty s = .ok s' → R s s')
    (hh : ∀ s s', s.proc = 1 → addsymbol TOK_PROCEDURE s = .ok s' → R s (cg_procedure s'))
    (hon : ∀ s, R s { s with proc := 1 }) (hoff : ∀ s, R s { s with proc := 0 })
    (he : ∀ s, s.depth ≤ 1 → R s { s with depth := s.depth + 1 })
    (hl : ∀ s, 0 ≤ s.depth - 1 → R s { s with depth := s.depth - 1 })
    (hdes : ∀ s s', destroysymbols s = .ok s' → R s s') : BlockRel R where
  proc :=
    { decl := hR.toDeclRel hd
      header := hh
      procOn := hon
      procOff := hoff
      destroy := hdes }
  enter := he
  leave := hl
  mainHeader := hR.plain_cg_procedure_main
  epilogue := hR.plain_cg_epilogue
  init := hR.plain_cg_init

theorem DeclRel.of_declare (hR : DeclRel R) (ty : Char) (hty : ty = TOK_CONST ∨ ty = TOK_VAR)
    (f : State → State) (hf : ∀ s, R s (f s)) (s s' : State)
    (h : (if s.type = TOK_IDENT then
            ((addsymbol ty s).bind fun s => Result.ok (f s)).bind fun y => expect TOK_IDENT y
          else (Result.ok s).bind fun y => expect TOK_IDENT y) = .ok s') : R s s' := by
  split at h
  · obtain ⟨s1, hs1, h⟩ := bind_eq_ok.1 h
    obtain ⟨s2, hs2, hs1⟩ := bind_eq_ok.1 hs1
    cases hs1
    exact hR.step.trans _ _ _ (hR.declare ty _ _ hty hs2)
      (hR.step.trans _ _ _ (hf s2) (hR.step.of_expect _ _ _ h))
  · exact hR.step.of_expect _ _ _ h

theorem DeclRel.of_constItem (hR : DeclRel R) (s s' : State) (h : constItem s = .ok s') :
    R s s' := by
  unfold constItem at h
  simp only [bind_def, pure_def] at h
  have key : ∀ y, ((expect TOK_EQUAL y).bind fun s =>
      expect TOK_NUMBER (if s.type = TOK_NUMBER then cg_semicolon (cg_symbol s) else s))
        = .ok s' → R y s' := by
    intro y hy
    obtain ⟨s1, hs1, hy⟩ := bind_eq_ok.1 hy
    refine hR.step.trans _ _ _ (hR.step.of_expect _ _ _ hs1) (hR.step.expect_at ?_ hy)
    exact rel_ite (hR.step.trans _ _ _ (hR.step.of_cg_symbol s1) (hR.step.of_cg_semicolon _))
      (hR.step.refl s1)
  split at h
  · obtain ⟨s1, hs1, h⟩ := bind_eq_ok.1 h
    obtain ⟨s2, hs2, hs1⟩ := bind_eq_ok.1 hs1
    cases hs1
    obtain ⟨s3, hs3, h⟩ := bind_eq_ok.1 h
    exact hR.step.trans _ _ _ (hR.declare _ _ _ (Or.inl rfl) hs2)
      (hR.step.trans _ _ _ (hR.cgConst s2)
        (hR.step.trans _ _ _ (hR.step.of_expect _ _ _ hs3) (key _ h)))
  · rw [ok_bind] at h
    obtain ⟨s3, hs3, h⟩ := bind_eq_ok.1 h
    exact hR.step.trans _ _ _ (hR.step.of_expect _ _ _ hs3) (key _ h)

theorem DeclRel.of_constLoop (hR : DeclRel R) (n : Nat) (s s' : State)
    (h : constLoop n s = .ok s') : R s s' := by
  induction n generalizing s with
  | zero => simp [constLoop] at h
  | succ n ih =>
    rw [constLoop] at h
    simp only [bind_def, pure_def] at h
    split at h
    · obtain ⟨s1, hs1, h⟩ := bind_eq_ok.1 h
      obtain ⟨s2, hs2, h⟩ := bind_eq_ok.1 h
      exact hR.step.trans _ _ _ (hR.step.of_expect _ _ _ hs1)
        (hR.step.trans _ _ _ (hR.of_constItem _ _ hs2) (ih _ h))
    · cases h
      exact hR.step.refl _

theorem DeclRel.of_constPart (hR : DeclRel R) (n : Nat) (s s' : State)
    (h : constPart n s = .ok s') : R s s' := by
  unfold constPart at h
  simp only [bind_def, pure_def] at h
  split at h
  · obtain ⟨s1, hs1, h⟩ := bind_eq_ok.1 h
    obtain ⟨s2, hs2, h⟩ := bind_eq_ok.1 h
    obtain ⟨s3, hs3, h⟩ := bind_eq_ok.1 h
    exact hR.step.trans _ _ _ (hR.step.of_expect _ _ _ hs1)
      (hR.step.trans _ _ _ (hR.of_constItem _ _ hs2)
        (hR.step.trans _ _ _ (hR.of_constLoop _ _ _ hs3) (hR.step.of_expect _ _ _ h)))
  · cases h
    exact hR.step.refl s

theorem DeclRel.of_varItem (hR : DeclRel R) (s s' : State) (h : varItem s = .ok s') :
    R s s' := by
  unfold varItem at h
  simp only [bind_def, pure_def] at h
  exact hR.of_declare TOK_VAR (Or.inr rfl) cg_var hR.cgVar s s' h

theorem DeclRel.of_varLoop (hR : DeclRel R) (n : Nat) (s s' : State)
    (h : varLoop n s = .ok s') : R s s' := by
  induction n generalizing s with
  | zero => simp [varLoop] at h
  | succ n ih =>
    rw [varLoop] at h
    simp only [bind_def, pure_def] at h
    split at h
    · obtain ⟨s1, hs1, h⟩ := bind_eq_ok.1 h
      obtain ⟨s2, hs2, h⟩ := bind_eq_ok.1 h
      exact hR.step.trans _ _ _ (hR.step.of_expect _ _ _ hs1)
        (hR.step.trans _ _ _ (hR.of_varItem _ _ hs2) (ih _ h))
    · cases h
      exact hR.step.refl _

theorem DeclRel.of_varPart (hR : DeclRel R) (n : Nat) (s s' : State)
    (h : varPart n s = .ok s') : R s s' := by
  unfold varPart at h
  simp only [bind_def, pure_def] at h
  split at h
  · obtain ⟨s1, hs1, h⟩ := bind_eq_ok.1 h
    obtain ⟨s2, hs2, h⟩ := bind_eq_ok.1 h
    obtain ⟨s3, hs3, h⟩ := bind_eq_ok.1 h
    obtain ⟨s4, hs4, h⟩ := bind_eq_ok.1 h
    cases h
    exact hR.step.trans _ _ _ (hR.step.of_expect _ _ _ hs1)
      (hR.step.trans _ _ _ (hR.of_varItem _ _ hs2)
        (hR.step.trans _ _ _ (hR.of_varLoop _ _ _ hs3)
          (hR.step.trans _ _ _ (hR.step.of_expect _ _ _ hs4) (hR.cgNewline s4))))
  · cases h
    exact hR.step.refl s

end BlockRel

section BlockRel

variable {R : State → State → Prop}

theorem ProcRel.of_procDecl (hR : ProcRel R) (blk : State → Result State)
    (hblk : ∀ s s', blk s = .ok s' → R s s') (s s' : State)
    (h : procDecl blk s = .ok s') : R s s' := by
  unfold procDecl at h
  simp only [bind_def, pure_def] at h
  obtain ⟨s1, hs1, h⟩ := bind_eq_ok.1 h
  have hp1 : s1.proc = 1 := (expect_frame _ _ _ hs1).2.2.1
  refine hR.decl.step.trans _ _ _ (hR.procOn s) (hR.decl.step.trans _ _ _ (hR.decl.step.of_expect _ _ _ hs1) ?_)
  have key : ∀ y, ((expect TOK_IDENT y).bind fun s => (expect TOK_SEMICOLON s).bind fun s =>
      (blk s).bind fun s => (expect TOK_SEMICOLON s).bind fun s =>
        destroysymbols { s with proc := 0 }) = .ok s' → R y s' := by
    intro y hy
    obtain ⟨s2, hs2, hy⟩ := bind_eq_ok.1 hy
    obtain ⟨s3, hs3, hy⟩ := bind_eq_ok.1 hy
    obtain ⟨s4, hs4, hy⟩ := bind_eq_ok.1 hy
    obtain ⟨s5, hs5, hy⟩ := bind_eq_ok.1 hy
    exact hR.decl.step.trans _ _ _ (hR.decl.step.of_expect _ _ _ hs2)
      (hR.decl.step.trans _ _ _ (hR.decl.step.of_expect _ _ _ hs3)
        (hR.decl.step.trans _ _ _ (hblk _ _ hs4)
          (hR.decl.step.trans _ _ _ (hR.decl.step.of_expect _ _ _ hs5)
            (hR.decl.step.trans _ _ _ (hR.procOff s5) (hR.destroy _ _ hy)))))
  split at h
  · obtain ⟨s2, hs2, h⟩ := bind_eq_ok.1 h
    obtain ⟨s3, hs3, hs2⟩ := bind_eq_ok.1 hs2
    cases hs2
    exact hR.decl.step.trans _ _ _ (hR.header _ _ hp1 hs3) (key _ h)
  · rw [ok_bind] at h
    exact key _ h

theorem BlockRel.block_rules (hR : BlockRel R) (n : Nat) :
    (∀ s s', procLoop n s = .ok s' → R s s') ∧ (∀ s s', block n s = .ok s' → R s s') := by
  induction n with
  | zero =>
    refine ⟨?_, ?_⟩ <;> intro s s' h
    · simp [procLoop] at h
    · simp [block] at h
  | succ n ih =>
    obtain ⟨ihp, ihb⟩ := ih
    refine ⟨?_, ?_⟩ <;> intro s s' h
    · rw [procLoop] at h
      simp only [bind_def, pure_def] at h
      split at h
      · obtain ⟨s1, hs1, h⟩ := bind_eq_ok.1 h
        exact hR.proc.decl.step.trans _ _ _ (hR.proc.of_procDecl _ ihb _ _ hs1) (ihp _ _ h)
      · cases h
        exact hR.proc.decl.step.refl _
    · rw [block] at h
      simp only [bind_def, pure_def] at h
      split at h
      · cases h
      · rename_i hd
        obtain ⟨s1, hs1, h⟩ := bind_eq_ok.1 h
        obtain ⟨s2, hs2, h⟩ := bind_eq_ok.1 h
        obtain ⟨s3, hs3, h⟩ := bind_eq_ok.1 h
        obtain ⟨s4, hs4, h⟩ := bind_eq_ok.1 h
        split at h
        · cases h
        · rename_i hl
          cases h
          refine hR.proc.decl.step.trans _ _ _ (hR.enter s (not_lt.1 hd))
            (hR.proc.decl.step.trans _ _ _ (hR.proc.decl.of_constPart _ _ _ hs1)
              (hR.proc.decl.step.trans _ _ _ (hR.proc.decl.of_varPart _ _ _ hs2)
                (hR.proc.decl.step.trans _ _ _ (ihp _ _ hs3)
                  (hR.proc.decl.step.trans _ _ _ ?_
                    (hR.proc.decl.step.trans _ _ _ (hR.proc.decl.step.of_statement _ _ _ hs4)
                      (hR.proc.decl.step.trans _ _ _ (hR.epilogue s4)
                        (hR.leave _ (not_lt.1 hl))))))))
          split
          · rename_i hp
            exact hR.mainHeader s3 hp
          · exact hR.proc.decl.step.refl _

theorem BlockRel.of_block (hR : BlockRel R) (n : Nat) (s s' : State)
    (h : block n s = .ok s') : R s s' :=
  (hR.block_rules n).2 s s' h

theorem BlockRel.of_parse (hR : BlockRel R) (n : Nat) (s s' : State)
    (h : parse n s = .ok s') : R s s' := by
  unfold parse at h
  simp only [bind_def, pure_def] at h
  obtain ⟨s1, hs1, h⟩ := bind_eq_ok.1 h
  obtain ⟨s2, hs2, h⟩ := bind_eq_ok.1 h
  obtain ⟨s3, hs3, h⟩ := bind_eq_ok.1 h
  split at h
  · cases h
  · cases h
    exact hR.proc.decl.step.trans _ _ _ (hR.init s)
      (hR.proc.decl.step.trans _ _ _ (hR.proc.decl.step.lex _ _ hs1)
        (hR.proc.decl.step.trans _ _ _ (hR.of_block _ _ _ hs2) (hR.proc.decl.step.of_expect _ _ _ hs3)))

end BlockRel

/-! ## Lifetime of the symbols of a procedure -/

theorem tableFrame_stepRel : StepRel TableFrame where
  refl := fun _ => ⟨rfl, rfl, rfl⟩
  trans := fun _ _ _ h1 h2 => ⟨h2.1.trans h1.1, h2.2.1.trans h1.2.1, h2.2.2.trans h1.2.2⟩
  lex := fun s s' h => ⟨(next_frame s s' h).1, (next_frame s s' h).2.1, (next_frame s s' h).2.2.1⟩
  emit := fun _ _ _ => ⟨rfl, rfl, rfl⟩
  call := fun _ _ => ⟨rfl, rfl, rfl⟩

theorem extends_of_frame {s s' : State} (h : TableFrame s s') : Extends s s' :=
  ⟨h.2.1, h.2.2, [], by rw [h.1, List.append_nil], fun x hx => by cases hx⟩

theorem extends_trans {a b c : State} (h1 : Extends a b) (h2 : Extends b c) : Extends a c := by
  obtain ⟨d1, p1, e1, he1, hx1⟩ := h1
  obtain ⟨d2, p2, e2, he2, hx2⟩ := h2
  refine ⟨d2.trans d1, p2.trans p1, e1 ++ e2, by rw [he2, he1, List.append_assoc], ?_⟩
  intro x hx
  rcases List.mem_append.1 hx with h | h
  · exact hx1 x h
  · exact hx2 x h

theorem extends_declRel : DeclRel Extends where
  step :=
    { refl := fun s => extends_of_frame (tableFrame_stepRel.refl s)
      trans := fun _ _ _ h1 h2 => extends_trans h1 h2
      lex := fun s s' h => extends_of_frame (tableFrame_stepRel.lex s s' h)
      emit := fun s f hf => extends_of_frame (tableFrame_stepRel.emit s f hf)
      call := fun s h => extends_of_frame (tableFrame_stepRel.call s h) }
  declare := by
    intro ty s s' hty h
    obtain ⟨_, e⟩ := addsymbol_ok_eq ty s s' h
    subst e
    refine ⟨rfl, rfl, [_], rfl, ?_⟩
    intro x hx
    rw [List.mem_singleton] at hx
    subst hx
    rcases hty with e | e
    · subst e; exact (by decide : TOK_CONST ≠ TOK_PROCEDURE)
    · subst e; exact (by decide : TOK_VAR ≠ TOK_PROCEDURE)
  cgConst := fun _ => extends_of_frame ⟨rfl, rfl, rfl⟩
  cgVar := fun _ => extends_of_frame ⟨rfl, rfl, rfl⟩
  cgNewline := fun _ => extends_of_frame ⟨rfl, rfl, rfl⟩

theorem cg_procedure_frame (s : State) : TableFrame s (cg_procedure s) := by
  unfold cg_procedure
  split <;> exact ⟨rfl, rfl, rfl⟩

theorem cg_epilogue_frame (s : State) : TableFrame s (cg_epilogue s) := by
  unfold cg_epilogue
  simp only
  split <;> exact ⟨rfl, rfl, rfl⟩

theorem block_deep (n : Nat) (s s' : State) (hd : 1 < s.depth) : block n s ≠ .ok s' := by
  intro h
  cases n with
  | zero => simp [block] at h
  | succ n =>
    rw [block] at h
    simp only [bind_def, pure_def] at h
    rw [if_pos hd] at h
    cases h

theorem procDecl_inner (blk : State → Result State) (s s' : State)
    (h : procDecl blk s = .ok s') : ∃ y y', blk y = .ok y' ∧ y.depth = s.depth := by
  unfold procDecl at h
  simp only [bind_def, pure_def] at h
  obtain ⟨s1, hs1, h⟩ := bind_eq_ok.1 h
  have d1 : s1.depth = s.depth := (expect_frame _ _ _ hs1).2.1
  have key : ∀ y, y.depth = s.depth →
      ((expect TOK_IDENT y).bind fun s => (expect TOK_SEMICOLON s).bind fun s =>
        (blk s).bind fun s => (expect TOK_SEMICOLON s).bind fun s =>
          destroysymbols { s with proc := 0 }) = .ok s' →
      ∃ y y', blk y = .ok y' ∧ y.depth = s.depth := by
    intro y hyd hy
    obtain ⟨s2, hs2, hy⟩ := bind_eq_ok.1 hy
    obtain ⟨s3, hs3, hy⟩ := bind_eq_ok.1 hy
    obtain ⟨s4, hs4, hy⟩ := bind_eq_ok.1 hy
    exact ⟨s3, s4, hs4,
      ((expect_frame _ _ _ hs3).2.1.trans (expect_frame _ _ _ hs2).2.1).trans hyd⟩
  split at h
  · obtain ⟨s2, hs2, h⟩ := bind_eq_ok.1 h
    obtain ⟨s3, hs3, hs2⟩ := bind_eq_ok.1 hs2
    cases hs2
    obtain ⟨_, e⟩ := addsymbol_ok_eq _ _ _ hs3
    exact key _ (by rw [e]; exact (cg_procedure_frame _).2.1.trans d1) h
  · rw [ok_bind] at h
    exact key _ d1 h

theorem procLoop_deep (n : Nat) (s s' : State) (hd : 1 < s.depth)
    (h : procLoop n s = .ok s') : s' = s := by
  cases n with
  | zero => simp [procLoop] at h
  | succ n =>
    rw [procLoop] at h
    simp only [bind_def, pure_def] at h
    split at h
    · obtain ⟨s1, hs1, h⟩ := bind_eq_ok.1 h
      obtain ⟨y, y', hy, hyd⟩ := procDecl_inner _ _ _ hs1
      exact absurd hy (block_deep n y y' (by rw [hyd]; exact hd))
    · cases h
      rfl

theorem block_extends (n : Nat) (s s' : State) (hd : 1 ≤ s.depth)
    (h : block n s = .ok s') : Extends s s' := by
  cases n with
  | zero => simp [block] at h
  | succ n =>
    rw [block] at h
    simp only [bind_def, pure_def] at h
    split at h
    · cases h
    · rename_i hd1
      obtain ⟨s1, hs1, h⟩ := bind_eq_ok.1 h
      obtain ⟨s2, hs2, h⟩ := bind_eq_ok.1 h
      obtain ⟨s3, hs3, h⟩ := bind_eq_ok.1 h
      obtain ⟨s4, hs4, h⟩ := bind_eq_ok.1 h
      split at h
      · cases h
      · cases h
        have e1 := extends_declRel.of_constPart _ _ _ hs1
        have e2 := extends_declRel.of_varPart _ _ _ hs2
        have e12 := extends_trans e1 e2
        have hd2 : 1 < s2.depth := by
          rw [e12.1]
          show 1 < s.depth + 1
          omega
        have e3 := procLoop_deep n s2 s3 hd2 hs3
        rw [e3] at hs4
        have f3 : TableFrame s2 (if s2.proc = 0 then cg_procedure s2 else s2) :=
          rel_ite (cg_procedure_frame s2) (tableFrame_stepRel.refl s2)
        have f4 : TableFrame s2 s4 :=
          tableFrame_stepRel.trans _ _ _ f3 (tableFrame_stepRel.of_statement _ _ _ hs4)
        have f5 : TableFrame s2 (cg_epilogue s4) :=
          tableFrame_stepRel.trans _ _ _ f4 (cg_epilogue_frame s4)
        obtain ⟨_, hp, ext, hext, hx⟩ := e12
        refine ⟨?_, ?_, ext, ?_, hx⟩
        · show (cg_epilogue s4).depth - 1 = s.depth
          rw [f5.2.1, (extends_trans e1 e2).1]
          show s.depth + 1 - 1 = s.depth
          omega
        · show (cg_epilogue s4).proc = s.proc
          rw [f5.2.2, hp]
        · show (cg_epilogue s4).head = s.head ++ ext
          rw [f5.1, hext]

theorem symcheckLoop_concat (tok : String) (l : List Symtab) (c : Symtab) (ret : Option Symtab) :
    symcheckLoop tok (l ++ [c]) ret =
      if tok = c.name then some c else symcheckLoop tok l ret := by
  induction l generalizing ret with
  | nil => simp [symcheckLoop]
  | cons a l ih =>
    show symcheckLoop tok (l ++ [c]) _ = _
    rw [ih]
    rfl

/-- C6 (amended): when one procedure declaration `procedure p ; block ;` is
parsed to completion inside a block (`depth` at least 1), the symbol table
afterwards is the table before the declaration followed by the one symbol
(`p`, procedure); so every name other than `p` resolves afterwards exactly as
before the declaration, and `p` resolves to the procedure. -/
theorem procedure_declaration_frame (n : Nat) (s s' : State) (hd : 1 ≤ s.depth)
    (h : procDecl (block n) s = .ok s') :
    ∃ s1, expect TOK_PROCEDURE { s with proc := 1 } = .ok s1 ∧ s1.type = TOK_IDENT ∧
      s'.head = s.head ++ [{ depth := s.depth - 1, type := TOK_PROCEDURE, name := s1.token }] ∧
      (∀ name, name ≠ s1.token →
        symcheckLoop name s'.head none = symcheckLoop name s.head none) ∧
      symcheckLoop s1.token s'.head none
        = some { depth := s.depth - 1, type := TOK_PROCEDURE, name := s1.token } := by
  unfold procDecl at h
  simp only [bind_def, pure_def] at h
  obtain ⟨s1, hs1, h⟩ := bind_eq_ok.1 h
  have f1 := expect_frame _ _ _ hs1
  have hh1 : s1.head = s.head := f1.1
  have hd1 : s1.depth = s.depth := f1.2.1
  by_cases ht : s1.type = TOK_IDENT
  · rw [if_pos ht] at h
    obtain ⟨s2, hs2, h⟩ := bind_eq_ok.1 h
    obtain ⟨s2', hadd, hs2⟩ := bind_eq_ok.1 hs2
    cases hs2
    obtain ⟨_, e⟩ := addsymbol_ok_eq _ _ _ hadd
    obtain ⟨s3, hs3, h⟩ := bind_eq_ok.1 h
    obtain ⟨s4, hs4, h⟩ := bind_eq_ok.1 h
    obtain ⟨s5, hs5, h⟩ := bind_eq_ok.1 h
    obtain ⟨s6, hs6, h⟩ := bind_eq_ok.1 h
    have f2 := cg_procedure_frame s2'
    have f3 := expect_frame _ _ _ hs3
    have f4 := expect_frame _ _ _ hs4
    have f6 := expect_frame _ _ _ hs6
    have hh4 : s4.head
        = s.head ++ [{ depth := s.depth - 1, type := TOK_PROCEDURE, name := s1.token }] := by
      rw [f4.1, f3.1, f2.1, e]
      show s1.head ++ [{ depth := s1.depth - 1, type := TOK_PROCEDURE, name := s1.token }] = _
      rw [hh1, hd1]
    have hd4 : s4.depth = s.depth := by
      rw [f4.2.1, f3.2.1, f2.2.1, e]
      exact hd1
    obtain ⟨_, _, ext, hext, hx⟩ := block_extends n s4 s5 (by rw [hd4]; exact hd) hs5
    have hh6 : s6.head = s.head ++
        { depth := s.depth - 1, type := TOK_PROCEDURE, name := s1.token } :: ext := by
      rw [f6.1, hext, hh4]
      simp
    have hdes := destroysymbols_spec { s6 with proc := 0 } s.head _ ext hh6 rfl hx
    rw [hdes] at h
    cases h
    refine ⟨s1, hs1, ht, rfl, ?_, ?_⟩
    · intro name hne
      show symcheckLoop name (s.head ++ [_]) none = _
      rw [symcheckLoop_concat, if_neg hne]
    · show symcheckLoop s1.token (s.head ++ [_]) none = _
      rw [symcheckLoop_concat, if_pos rfl]
  · rw [if_neg ht, ok_bind] at h
    obtain ⟨s3, hs3, h⟩ := bind_eq_ok.1 h
    exact absurd (expect_ok _ _ _ hs3).1 ht

/-- C6 (amended) for a procedure `p` with a constant and two variables of its own. -/
theorem procedure_declaration_frame_witness :
    ∃ s1, expect TOK_PROCEDURE
          { atFirstProcedure "procedure p; const c = 1; var x, y; x := c; ." with proc := 1 }
        = .ok s1 ∧ s1.type = TOK_IDENT ∧
      ((procDecl (block 9) (atFirstProcedure "procedure p; const c = 1; var x, y; x := c; .")).getD
          (initial "")).head
        = [sentinel] ++ [{ depth := (1 : Int) - 1, type := TOK_PROCEDURE, name := s1.token }] ∧
      (∀ name, name ≠ s1.token →
        symcheckLoop name
          ((procDecl (block 9)
            (atFirstProcedure "procedure p; const c = 1; var x, y; x := c; .")).getD
              (initial "")).head none
          = symcheckLoop name [sentinel] none) ∧
      symcheckLoop s1.token
          ((procDecl (block 9)
            (atFirstProcedure "procedure p; const c = 1; var x, y; x := c; .")).getD
              (initial "")).head none
        = some { depth := (1 : Int) - 1, type := TOK_PROCEDURE, name := s1.token } :=
  procedure_declaration_frame 9
    (atFirstProcedure "procedure p; const c = 1; var x, y; x := c; .")
    ((procDecl (block 9) (atFirstProcedure "procedure p; const c = 1; var x, y; x := c; .")).getD
      (initial "")) (by decide!) (by decide!)

/-- C6 (as stated, refuted): a variable named `p` declared inside the block of
procedure `p` does not resolve afterwards as it did before the declaration.
Before the declaration `p` is undefined; inside the block `p := 1` is accepted;
after the declaration `p` resolves to the procedure, so `p := 1` fails with
"must be a variable" and not with "undefined symbol". -/
theorem local_named_as_its_procedure :
    compile "p := 1." = .fatal 1 "undefined symbol: p" ∧
    (compile "procedure p; var p; p := 1; .").isOk = true ∧
    compile "procedure p; var p; ; p := 1." = .fatal 1 "must be a variable: p" ∧
    symcheckLoop "p" (atFirstProcedure "procedure p; var p; ; .").head none = none ∧
    symcheckLoop "p"
        ((procDecl (block 9) (atFirstProcedure "procedure p; var p; ; .")).getD (initial "")).head
        none
      = some { depth := 0, type := TOK_PROCEDURE, name := "p" } := by
  refine ⟨?_, ?_, ?_, ?_, ?_⟩ <;> decide!

/-! ## Calls come after the header of their target -/

theorem callText_endsLikeCall (X : String) : endsLikeCall (callText X) = true := by
  simp [endsLikeCall, callText, String.data_append]

theorem callText_injective (X Y : String) (h : callText X = callText Y) : X = Y := by
  have h1 := congrArg String.data h
  simp only [callText, String.data_append] at h1
  exact String.ext (List.append_cancel_right h1)

theorem fixed_not_call : ∀ f ∈ fixedFragments, endsLikeCall f = false := by
  decide

theorem word_not_newline (c : Char) (h : c.isAlphanum = true ∨ c = '_') :
    c ≠ '\n' ∧ c ≠ ')' ∧ c ≠ '(' ∧ c ≠ ';' := by
  refine ⟨?_, ?_, ?_, ?_⟩ <;> rintro rfl <;> revert h <;> decide

theorem token_not_call (token : String) (h : TokenOK token) :
    ∀ f ∈ tokenFragments token, endsLikeCall f = false := by
  intro f hf
  simp only [tokenFragments, List.mem_cons, List.mem_singleton, List.not_mem_nil, or_false] at hf
  rcases hf with e | e | e | e | e | e | e <;> rw [e]
  · cases hd : token.data.reverse with
    | nil => simp [endsLikeCall, hd]
    | cons c r =>
      have hc : c ∈ token.data := by
        rw [← List.mem_reverse, hd]; exact List.mem_cons_self _ _
      have := (word_not_newline c (h c hc)).1
      simp [endsLikeCall, hd, this]
  · simp [endsLikeCall, String.data_append]
  · cases hd : token.data.reverse with
    | nil => simp [endsLikeCall, String.data_append, hd]
    | cons c r =>
      have hc : c ∈ token.data := by
        rw [← List.mem_reverse, hd]; exact List.mem_cons_self _ _
      have := (word_not_newline c (h c hc)).2.1
      simp [endsLikeCall, String.data_append, hd, this]
  · simp [endsLikeCall, String.data_append]
  · simp [endsLikeCall, String.data_append]
  · simp [endsLikeCall, String.data_append]
  · simp [endsLikeCall, String.data_append]

theorem headerText_not_call (X : String) : endsLikeCall (headerText X) = false := by
  simp [endsLikeCall, headerText, String.data_append]

theorem identRun_word (l : List Char) :
    ∀ c ∈ l.take (identRun l), c.isAlphanum = true ∨ c = '_' := by
  induction l with
  | nil => intro c hc; simp [identRun] at hc
  | cons a l ih =>
    intro c hc
    by_cases ha : (a.isAlphanum || a == '_') = true
    · simp only [identRun, if_pos ha, List.take_succ_cons, List.mem_cons] at hc
      rcases hc with e | hc
      · subst e
        simpa using ha
      · exact ih c hc
    · simp [identRun, ha] at hc

theorem ident_token (s : State) : TokenOK (ident s).2.token := by
  intro c hc
  exact identRun_word (s.buf.drop s.raw) c hc

theorem number_token (s s' : State) (t : Char) (h : number s = .ok (t, s')) :
    TokenOK s'.token := by
  unfold number at h
  simp only at h
  split at h
  · cases h
  · cases h
    intro c hc
    have hd : c.isDigit = true := (List.mem_filter.1 hc).2
    left
    simp [Char.isAlphanum, hd]

theorem comment_token (s s' : State) (h : comment s = .ok s') : s'.token = s.token := by
  unfold comment at h
  split at h
  · cases h
  · cases h; rfl

theorem lexerLoop_token (n : Nat) (s s' : State) (t : Char) (hs : TokenOK s.token)
    (h : lexerLoop n s = .ok (t, s')) : TokenOK s'.token := by
  induction n generalizing s with
  | zero => cases h
  | succ n ih =>
    unfold lexerLoop at h
    simp only at h
    split_ifs at h
    · cases h; exact ident_token _
    · exact number_token _ _ _ h
    · obtain ⟨s1, h1, h2⟩ := bind_eq_ok.1 h
      exact ih s1 (by rw [comment_token _ _ h1]; exact hs) h2
    · cases h; exact hs
    · cases h
    · cases h; exact hs
    · cases h; exact hs
    · cases h

theorem next_token (s s' : State) (hs : TokenOK s.token) (h : next s = .ok s') :
    TokenOK s'.token := by
  unfold next lexer at h
  obtain ⟨⟨t, s1⟩, h1, h2⟩ := bind_eq_ok.1 h
  cases h2
  have ht := lexerLoop_token _ _ _ _ hs h1
  exact ht

theorem snoc_eq_append_cons {α : Type} (out pre post : List α) (f x : α)
    (h : out ++ [f] = pre ++ x :: post) :
    (post = [] ∧ out = pre ∧ f = x) ∨ ∃ post', post = post' ++ [f] ∧ out = pre ++ x :: post' := by
  rcases List.eq_nil_or_concat post with e | ⟨post', g, e⟩
  · subst e
    have h1 : out ++ [f] = pre ++ [x] := h
    have h2 := List.append_inj' h1 rfl
    exact Or.inl ⟨rfl, h2.1, by simpa using h2.2⟩
  · rw [List.concat_eq_append] at e
    subst e
    have h1 : out ++ [f] = (pre ++ x :: post') ++ [g] := by rw [h]; simp
    have h2 := List.append_inj' h1 rfl
    have h3 : f = g := by simpa using h2.2
    subst h3
    exact Or.inr ⟨post', rfl, h2.1⟩

theorem callsDeclared_plain (out : List String) (f : String) (h : CallsDeclared out)
    (hf : endsLikeCall f = false) : CallsDeclared (out ++ [f]) := by
  intro pre post X e
  rcases snoc_eq_append_cons out pre post f _ e with ⟨_, _, e3⟩ | ⟨post', _, e2⟩
  · rw [e3, callText_endsLikeCall] at hf
    cases hf
  · exact h pre post' X e2

theorem callsDeclared_call (out : List String) (Y : String) (h : CallsDeclared out)
    (hY : Y = "main" ∨ headerText Y ∈ out) : CallsDeclared (out ++ [callText Y]) := by
  intro pre post X e
  rcases snoc_eq_append_cons out pre post _ _ e with ⟨_, e2, e3⟩ | ⟨post', _, e2⟩
  · have e4 := callText_injective _ _ e3
    subst e4
    subst e2
    exact hY
  · exact h pre post' X e2

theorem plain_not_call (token : String) (h : TokenOK token) (f : String)
    (hf : f ∈ plainFragments token) : endsLikeCall f = false := by
  rcases List.mem_append.1 hf with h1 | h1
  · exact token_not_call token h f h1
  · exact fixed_not_call f h1

theorem callInv_aout (s : State) (f : String) (h : CallInv s) (hf : endsLikeCall f = false) :
    CallInv (aout f s) := by
  obtain ⟨h1, h2, h3⟩ := h
  refine ⟨h1, callsDeclared_plain s.out f h2 hf, ?_⟩
  intro c hc hp
  rcases h3 c hc hp with e | e
  · exact Or.inl e
  · exact Or.inr (List.mem_append_left _ e)

theorem symcheckLoop_mem (tok : String) (l : List Symtab) (ret : Option Symtab) (c : Symtab)
    (h : symcheckLoop tok l ret = some c) : (c ∈ l ∧ c.name = tok) ∨ ret = some c := by
  induction l generalizing ret with
  | nil => exact Or.inr h
  | cons a l ih =>
    rcases ih _ h with ⟨hm, hn⟩ | hr
    · exact Or.inl ⟨List.mem_cons_of_mem _ hm, hn⟩
    · by_cases ha : tok = a.name
      · rw [if_pos ha] at hr
        cases hr
        exact Or.inl ⟨List.mem_cons_self _ _, ha.symm⟩
      · rw [if_neg ha] at hr
        exact Or.inr hr

theorem symcheck_call_ok (s : State) (h : symcheck CHECK_CALL s = .ok s) :
    ∃ c ∈ s.head, c.name = s.token ∧ c.type = TOK_PROCEDURE := by
  unfold symcheck at h
  split at h
  · cases h
  · rename_i ret hret
    rcases symcheckLoop_mem _ _ _ _ hret with ⟨hm, hn⟩ | hr
    · refine ⟨ret, hm, hn, ?_⟩
      by_contra hne
      simp +decide [rolecheck, hne, error] at h
    · cases hr

theorem destroyLoop_prefix (n : Nat) (l l' : List Symtab) (h : destroyLoop n l = .ok l') :
    ∃ removed, l = l' ++ removed := by
  induction n generalizing l with
  | zero => cases h
  | succ n ih =>
    unfold destroyLoop at h
    split at h
    · cases h
    · split at h
      · split at h
        · cases h
        · obtain ⟨r, hr⟩ := ih _ h
          rename_i current hlast _ _
          refine ⟨r ++ [current], ?_⟩
          have := List.dropLast_append_getLast? current hlast
          rw [← this, hr]
          simp
      · cases h
        exact ⟨[], by simp⟩

theorem destroysymbols_ok (s s' : State) (h : destroysymbols s = .ok s') :
    ∃ removed, s.head = s'.head ++ removed ∧ s' = { s with head := s'.head } := by
  unfold destroysymbols at h
  obtain ⟨l, hl, h⟩ := bind_eq_ok.1 h
  cases h
  obtain ⟨r, hr⟩ := destroyLoop_prefix _ _ _ hl
  exact ⟨r, hr, rfl⟩

theorem callRel_plainRel : PlainRel CallRel where
  refl := fun _ h => h
  trans := fun _ _ _ h1 h2 h => h2 (h1 h)
  lex := by
    intro s s' h ⟨h1, h2, h3⟩
    have f := next_frame s s' h
    refine ⟨next_token s s' h1 h, by rw [f.2.2.2.1]; exact h2, ?_⟩
    rw [f.1, f.2.2.2.1]
    exact h3
  emit := fun s f hf h => callInv_aout s f h (plain_not_call s.token h.1 f hf)
  call := by
    intro s hs ⟨h1, h2, h3⟩
    obtain ⟨c, hc, hn, hp⟩ := symcheck_call_ok s hs
    refine ⟨h1, ?_, ?_⟩
    · refine callsDeclared_call s.out s.token h2 ?_
      rw [← hn]
      exact h3 c hc hp
    · intro c hc hp
      rcases h3 c hc hp with e | e
      · exact Or.inl e
      · exact Or.inr (List.mem_append_left _ e)

theorem callRel_blockRel : BlockRel CallRel := by
  refine callRel_plainRel.toBlockRel ?_ ?_ (fun _ h => h) (fun _ h => h) (fun _ _ h => h)
    (fun _ _ h => h) ?_
  · intro ty s s' hty h ⟨h1, h2, h3⟩
    obtain ⟨_, e⟩ := addsymbol_ok_eq ty s s' h
    subst e
    refine ⟨h1, h2, ?_⟩
    intro c hc hp
    rcases List.mem_append.1 hc with hc | hc
    · exact h3 c hc hp
    · rw [List.mem_singleton] at hc
      subst hc
      rcases hty with e | e
      · subst e; exact absurd hp (by decide : ¬ TOK_CONST = TOK_PROCEDURE)
      · subst e; exact absurd hp (by decide : ¬ TOK_VAR = TOK_PROCEDURE)
  · intro s s' hproc h ⟨h1, h2, h3⟩
    obtain ⟨_, e⟩ := addsymbol_ok_eq _ s s' h
    subst e
    have hne : ¬ ((1 : Int) = 0) := by decide
    simp only [cg_procedure, hproc, hne, if_false]
    refine ⟨h1, ?_, ?_⟩
    · refine callsDeclared_plain _ _ (callsDeclared_plain _ _ (callsDeclared_plain _ _ h2 ?_) ?_) ?_
      · decide
      · exact headerText_not_call s.token
      · decide
    · intro c hc hp
      rcases List.mem_append.1 hc with hc | hc
      · rcases h3 c hc hp with e | e
        · exact Or.inl e
        · right
          show headerText c.name ∈ ((s.out ++ _) ++ _) ++ _
          simp [e]
      · rw [List.mem_singleton] at hc
        subst hc
        right
        show headerText s.token ∈ ((s.out ++ _) ++ [s.token ++ "(void)\n"]) ++ _
        simp [headerText]
  · intro s s' h ⟨h1, h2, h3⟩
    obtain ⟨r, hr, e⟩ := destroysymbols_ok s s' h
    rw [e]
    refine ⟨h1, h2, ?_⟩
    intro c hc hp
    exact h3 c (by rw [hr]; exact List.mem_append_left _ hc) hp

theorem callInv_initial (src : String) : CallInv (initsymtab (initial src)) := by
  refine ⟨?_, ?_, ?_⟩
  · intro c hc
    cases hc
  · intro pre post X e
    have : ([] : List String) = pre ++ callText X :: post := e
    simp at this
  · intro c hc _
    have : c ∈ [sentinel] := hc
    rw [List.mem_singleton] at this
    subst this
    exact Or.inl rfl

/-- C10 (as stated, refuted): `call main.` compiles without error although the
source holds no procedure declaration (its tokens are `call`, an identifier
and `.`); the output holds the call `main();` and no subroutine header for
`main`. -/
theorem call_of_sentinel_compiles :
    (compile "call main.").isOk = true ∧
    sourceTokens "call main." = .ok [TOK_CALL, TOK_IDENT, TOK_DOT] ∧
    callText "main" ∈ ((compile "call main.").getD (initial "")).out ∧
    headerText "main" ∉ ((compile "call main.").getD (initial "")).out := by
  refine ⟨?_, ?_, ?_, ?_⟩ <;> decide!

/-! ## Supplements -/

/-- The grammar derives the tokens of `var x; begin x := 1; writeInt x end.`. -/
theorem derives_sample_program :
    Derives .program
      [TOK_VAR, TOK_IDENT, TOK_SEMICOLON, TOK_BEGIN, TOK_IDENT, TOK_ASSIGN, TOK_NUMBER,
        TOK_SEMICOLON, TOK_WRITEINT, TOK_IDENT, TOK_END, TOK_DOT] :=
  Derives.program
    (Derives.block Derives.constNone (Derives.varSome Derives.varItem) Derives.procNone
      (Derives.stmtBegin
        (Derives.stmtsMore
          (Derives.stmtsOne
            (Derives.stmtAssign (Derives.exprTerm (Derives.termFactor Derives.factorNumber))))
          Derives.stmtWriteIntIdent)))

theorem reachable_plainRel : PlainRel (fun s s' => Reachable s → Reachable s') where
  refl := fun _ h => h
  trans := fun _ _ _ h1 h2 h => h2 (h1 h)
  lex := fun s s' h hr => Reachable.other hr (next_frame s s' h).1
  emit := fun _ _ _ hr => Reachable.other hr rfl
  call := fun _ _ hr => Reachable.other hr rfl

theorem reachable_blockRel : BlockRel (fun s s' => Reachable s → Reachable s') :=
  reachable_plainRel.toBlockRel
    (fun ty _ _ _ h hr => Reachable.declare ty hr h)
    (fun _ _ _ h hr =>
      Reachable.other (Reachable.declare TOK_PROCEDURE hr h) (cg_procedure_frame _).1)
    (fun _ hr => Reachable.other hr rfl) (fun _ hr => Reachable.other hr rfl)
    (fun _ _ hr => Reachable.other hr rfl) (fun _ _ hr => Reachable.other hr rfl)
    (fun _ _ h hr => Reachable.teardown hr h)

/-- The states from which `block` and `parse` return are reachable in the sense
of `Reachable`: the parser changes the symbol table by `addsymbol` and
`destroysymbols` only. -/
theorem parser_reachable (n : Nat) (s s' : State) (hr : Reachable s) :
    (block n s = .ok s' → Reachable s') ∧ (parse n s = .ok s' → Reachable s') :=
  ⟨fun h => reachable_blockRel.of_block n s s' h hr,
   fun h => reachable_blockRel.of_parse n s s' h hr⟩

theorem compile_reachable (src : String) (s' : State) (h : compile src = .ok s') :
    Reachable s' :=
  (parser_reachable _ _ s' (Reachable.init (initial src))).2 h

/-! ## Numeric literals and the bare underscore -/

theorem digit_facts (c : Char) (h : c.isDigit = true) :
    c.isAlpha = false ∧ c ≠ '_' ∧ c ≠ ' ' ∧ c ≠ '\t' ∧ c ≠ '\n' ∧ c ≠ '\x00' := by
  refine ⟨?_, ?_, ?_, ?_, ?_, ?_⟩
  · simp only [Char.isDigit, Char.isAlpha, Char.isUpper, Char.isLower, Bool.and_eq_true,
      decide_eq_true_eq, Bool.or_eq_false_iff, Bool.and_eq_false_iff, decide_eq_false_iff_not,
      ge_iff_le, UInt32.le_def, BitVec.le_def] at h ⊢
    have e1 : (UInt32.toBitVec 48).toNat = 48 := rfl
    have e2 : (UInt32.toBitVec 57).toNat = 57 := rfl
    have e3 : (UInt32.toBitVec 65).toNat = 65 := rfl
    have e4 : (UInt32.toBitVec 90).toNat = 90 := rfl
    have e5 : (UInt32.toBitVec 97).toNat = 97 := rfl
    have e6 : (UInt32.toBitVec 122).toNat = 122 := rfl
    rw [e1, e2] at h
    rw [e3, e4, e5, e6]
    omega
  all_goals (rintro rfl; revert h; decide)

theorem drop_cur (s : State) (h : s.cur ≠ '\x00') :
    s.buf.drop s.raw = s.cur :: s.buf.drop (s.raw + 1) := by
  unfold State.cur at h ⊢
  by_cases hlt : s.raw < s.buf.length
  · rw [List.getD_eq_getElem _ _ hlt]
    exact List.drop_eq_getElem_cons hlt
  · rw [List.getD_eq_default _ _ (not_lt.1 hlt)] at h
    exact absurd rfl h

theorem numberRun_spec (l : List Char) :
    (∀ c ∈ l.take (numberRun l), c.isDigit = true ∨ c = '_') ∧
    (∀ c, (l.drop (numberRun l)).head? = some c → ¬ (c.isDigit = true ∨ c = '_')) := by
  induction l with
  | nil => simp [numberRun]
  | cons a l ih =>
    by_cases ha : (a.isDigit || a == '_') = true
    · simp only [numberRun, if_pos ha, List.take_succ_cons, List.mem_cons, List.drop_succ_cons]
      refine ⟨?_, ih.2⟩
      rintro c (e | hc)
      · subst e; simpa using ha
      · exact ih.1 c hc
    · simp only [numberRun, if_neg ha, List.take_zero, List.not_mem_nil, false_implies,
        implies_true, List.drop_zero, List.head?_cons, Option.some.injEq, true_and]
      rintro c rfl
      simpa using ha

theorem filter_digits_eq_strip (run : List Char)
    (h : ∀ c ∈ run, c.isDigit = true ∨ c = '_') :
    run.filter Char.isDigit = stripUnderscores run := by
  unfold stripUnderscores
  apply List.filter_congr
  intro c hc
  rcases h c hc with hd | rfl
  · simp [hd, (digit_facts c hd).2.1]
  · decide

theorem lexer_at_digit (s : State) (h : s.cur.isDigit = true) : lexer s = number s := by
  have hf := digit_facts _ h
  have hd := drop_cur s hf.2.2.2.2.2
  have hsk : skipWhitespace (s.buf.drop s.raw) s.raw s.line = (s.raw, s.line) := by
    rw [hd]
    simp [skipWhitespace, hf.2.2.1, hf.2.2.2.1, hf.2.2.2.2.1]
  have hs : ({ s with raw := s.raw, line := s.line } : State) = s := rfl
  simp only [lexer, lexerLoop, hsk, hs, hf.1, h, Bool.false_or, beq_iff_eq, hf.2.1, if_false,
    if_true]

theorem number_at_digit (s : State) (h : s.cur.isDigit = true) :
    (∃ rest, s.numberRunText = s.cur :: rest) ∧
    number s =
      if LONG_MAX < digitsValue (stripUnderscores s.numberRunText) then
        .fatal s.line ("invalid number: " ++ String.mk (stripUnderscores s.numberRunText))
      else
        .ok (TOK_NUMBER, { s with raw := s.raw + s.numberRunText.length - 1,
                                  token := String.mk (stripUnderscores s.numberRunText) }) := by
  have hf := digit_facts _ h
  have hd := drop_cur s hf.2.2.2.2.2
  have hrun : ∃ rest, s.numberRunText = s.cur :: rest := by
    unfold State.numberRunText
    rw [hd]
    simp [numberRun, h]
  obtain ⟨rest, hrest⟩ := hrun
  have hall := (numberRun_spec (s.buf.drop s.raw)).1
  have hfilter : (s.numberRunText).filter Char.isDigit = stripUnderscores s.numberRunText :=
    filter_digits_eq_strip _ hall
  have hlen : s.numberRunText.length = numberRun (s.buf.drop s.raw) := by
    unfold State.numberRunText
    rw [List.length_take, Nat.min_eq_left]
    clear hd hrest hall hfilter
    generalize s.buf.drop s.raw = l
    induction l with
    | nil => simp [numberRun]
    | cons a l ih =>
      by_cases ha : (a.isDigit || a == '_') = true
      · simp only [numberRun, if_pos ha, List.length_cons]; omega
      · simp [numberRun, ha]
  have hmem : s.cur ∈ stripUnderscores s.numberRunText := by
    rw [← hfilter, hrest]
    simp [h]
  have hdig : ∀ c ∈ stripUnderscores s.numberRunText, c.isDigit = true := by
    intro c hc
    rw [← hfilter] at hc
    exact (List.mem_filter.1 hc).2
  have hfail : strtonumFails (String.mk (stripUnderscores s.numberRunText))
      = decide (LONG_MAX < digitsValue (stripUnderscores s.numberRunText)) := by
    unfold strtonumFails
    have h1 : (stripUnderscores s.numberRunText).isEmpty = false := by
      cases hl : stripUnderscores s.numberRunText with
      | nil => rw [hl] at hmem; cases hmem
      | cons a l => rfl
    have h2 : (stripUnderscores s.numberRunText).all Char.isDigit = true :=
      List.all_eq_true.2 hdig
    simp [h1, h2]
  refine ⟨⟨rest, hrest⟩, ?_⟩
  unfold number
  simp only
  have e1 : (List.take (numberRun (List.drop s.raw s.buf)) (List.drop s.raw s.buf))
      = s.numberRunText := rfl
  rw [e1, hfilter, hfail, ← hlen]
  by_cases hbig : LONG_MAX < digitsValue (stripUnderscores s.numberRunText)
  · simp [hbig, error]
  · simp [hbig]

/-- C12: at a cursor that stands on a digit, the lexer scans the maximal run of
digits and underscores; it fails with "invalid number" exactly when the value of
the digits of the run exceeds `LONG_MAX` (2^63 - 1), and otherwise returns a
number token whose text is the run without its underscores.  The texts `123`,
`1_000` and `99999999999999999999` give 123, 1000 and the error. -/
theorem number_literal_scanning :
    (∀ s : State, s.cur.isDigit = true →
      (∃ rest, s.numberRunText = s.cur :: rest) ∧
      (∀ c ∈ s.numberRunText, c.isDigit = true ∨ c = '_') ∧
      (∀ c, ((s.buf.drop s.raw).drop s.numberRunText.length).head? = some c →
        ¬ (c.isDigit = true ∨ c = '_')) ∧
      (lexer s = .fatal s.line ("invalid number: " ++ String.mk (stripUnderscores s.numberRunText))
        ↔ LONG_MAX < digitsValue (stripUnderscores s.numberRunText)) ∧
      (¬ LONG_MAX < digitsValue (stripUnderscores s.numberRunText) →
        lexer s = .ok (TOK_NUMBER,
          { s with raw := s.raw + s.numberRunText.length - 1,
                   token := String.mk (stripUnderscores s.numberRunText) }))) ∧
    lexer (initial "123") = .ok (TOK_NUMBER, { initial "123" with raw := 2, token := "123" }) ∧
    lexer (initial "1_000")
      = .ok (TOK_NUMBER, { initial "1_000" with raw := 4, token := "1000" }) ∧
    lexer (initial "99999999999999999999")
      = .fatal 1 "invalid number: 99999999999999999999" ∧
    LONG_MAX = 9223372036854775807 := by
  refine ⟨?_, by decide!, by decide!, by decide!, by decide!⟩
  intro s h
  obtain ⟨hrun, hnum⟩ := number_at_digit s h
  have hspec := numberRun_spec (s.buf.drop s.raw)
  have hlen : s.numberRunText.length = numberRun (s.buf.drop s.raw) := by
    have hle : ∀ l : List Char, numberRun l ≤ l.length := by
      intro l
      induction l with
      | nil => simp [numberRun]
      | cons a l ih =>
        by_cases ha : (a.isDigit || a == '_') = true
        · simp only [numberRun, if_pos ha, List.length_cons]; omega
        · simp [numberRun, ha]
    unfold State.numberRunText
    rw [List.length_take, Nat.min_eq_left (hle _)]
  refine ⟨hrun, hspec.1, ?_, ?_, ?_⟩
  · rw [hlen]; exact hspec.2
  · rw [lexer_at_digit s h, hnum]
    by_cases hbig : LONG_MAX < digitsValue (stripUnderscores s.numberRunText)
    · simp [hbig]
    · simp [hbig]
  · intro hbig
    rw [lexer_at_digit s h, hnum, if_neg hbig]

/-- C12 at the text `12_3x`: the run is `12_3`, the token text `123`. -/
theorem number_literal_scanning_witness :
    lexer (initial "12_3x") = .ok (TOK_NUMBER, { initial "12_3x" with raw := 3, token := "123" }) :=
  (number_literal_scanning.1 (initial "12_3x") (by decide)).2.2.2.2 (by decide!)

/-- C13 (as stated, refuted): on the text `_` the lexer returns an identifier
token with the text `_`; there is no lexical error. -/
theorem bare_underscore_is_identifier :
    lexer (initial "_") = .ok (TOK_IDENT, { initial "_" with token := "_" }) ∧
    (next (initial "_")).isOk = true := by
  constructor <;> decide!

/-- C13 (amended): at a cursor that stands on an underscore not followed by a
letter, digit or underscore, the lexer returns an identifier token whose text
is `_` (the test in `lexer` sends a leading underscore to `ident`). -/
theorem underscore_lexes_as_identifier (s : State) (h : s.cur = '_')
    (hn : ¬ ((s.buf.getD (s.raw + 1) '\x00').isAlphanum = true
              ∨ s.buf.getD (s.raw + 1) '\x00' = '_')) :
    lexer s = .ok (TOK_IDENT, { s with token := "_" }) := by
  have hd := drop_cur s (by rw [h]; decide)
  rw [h] at hd
  have hsk : skipWhitespace (s.buf.drop s.raw) s.raw s.line = (s.raw, s.line) := by
    rw [hd]
    simp [skipWhitespace]
  have hs : ({ s with raw := s.raw, line := s.line } : State) = s := rfl
  have hrun : identRun (s.buf.drop (s.raw + 1)) = 0 := by
    cases hl : s.buf.drop (s.raw + 1) with
    | nil => rfl
    | cons a l =>
      have ha : s.buf.getD (s.raw + 1) '\x00' = a := by
        have h1 : (s.buf.drop (s.raw + 1)).head? = some a := by rw [hl]; rfl
        rw [List.head?_drop] at h1
        rw [List.getD_eq_getElem?_getD, h1]
        rfl
      rw [ha] at hn
      have : ¬ ((a.isAlphanum || a == '_') = true) := by simpa using hn
      simp [identRun, this]
  have hid : ident s = (TOK_IDENT, { s with token := "_" }) := by
    unfold ident
    simp only [hd, identRun, hrun]
    have e1 : (('_' : Char).isAlphanum || '_' == '_') = true := by decide
    simp only [e1, if_true, List.take_succ_cons, List.take_zero]
    have e2 : keyword (String.mk ['_']) = TOK_IDENT := by decide
    rw [e2]
    rfl
  simp only [lexer, lexerLoop, hsk, hs, h]
  have e3 : (('_' : Char).isAlpha || '_' == '_') = true := by decide
  simp only [e3, if_true, hid]

/-- C13 (amended) at the text `_ := 1`: the first token is the identifier `_`. -/
theorem underscore_lexes_as_identifier_witness :
    lexer (initial "_ := 1") = .ok (TOK_IDENT, { initial "_ := 1" with token := "_" }) :=
  underscore_lexes_as_identifier (initial "_ := 1") (by decide) (by decide)

/-- C17: the source `var x; begin x := 1; writeInt x end.` compiles without
error.  After the six texts of the preamble the output is, in order: the
declaration `long x;` and a newline, the entry-point header (`int`, `main(...)`,
brace), the brace of `begin`, the texts `x`, `=`, `1` of the assignment, the
statement separator, the `fprintf` call that prints `x` with `%ld`, the closing
of the compound statement, and the epilogue `;`, `return 0;`, closing brace. -/
theorem end_to_end_example :
    (compile "var x; begin x := 1; writeInt x end.").isOk = true ∧
    ((compile "var x; begin x := 1; writeInt x end.").getD (initial "")).out =
      (cg_init (initial "")).out ++
      [ "long x;\n", "\n",
        "int\n", "main(int argc, char *argv[])\n", "\x7b\n",
        "\x7b\n", "x", "=", "1", ";\n",
        "(void) fprintf(stdout, \"%ld\", (long) x);",
        ";\n\x7d\n",
        ";", "return 0;", "\n\x7d\n\n" ] ∧
    String.join (((compile "var x; begin x := 1; writeInt x end.").getD (initial "")).out.drop 6) =
      "long x;\n\nint\nmain(int argc, char *argv[])\n\x7b\n\x7b\nx=1;\n(void) fprintf(stdout, \"%ld\", (long) x);;\n\x7d\n;return 0;\n\x7d\n\n" := by
  refine ⟨?_, ?_, ?_⟩ <;> decide!

/-! ## Where fatal errors come from -/

theorem bind_eq_fatal {α β : Type} {r : Result α} {f : α → Result β} {l : Nat} {m : String} :
    r.bind f = .fatal l m ↔ r = .fatal l m ∨ ∃ a, r = .ok a ∧ f a = .fatal l m := by
  cases r <;> simp

section Sound

variable {I : State → Prop} {E : Nat → String → Prop}

theorem sound_bind {s : State} {r : Result State} {f : State → Result State}
    (hr : Sound I E s r) (hf : ∀ a, Sound I E a (f a)) : Sound I E s (r.bind f) := by
  intro hI
  obtain ⟨h1, h2⟩ := hr hI
  constructor
  · intro s' h
    obtain ⟨a, ha, hfa⟩ := bind_eq_ok.1 h
    exact (hf a (h1 a ha)).1 s' hfa
  · intro l m h
    rcases bind_eq_fatal.1 h with h | ⟨a, ha, hfa⟩
    · exact h2 l m h
    · exact (hf a (h1 a ha)).2 l m hfa

theorem sound_ite {c : Prop} [Decidable c] {s : State} {a b : Result State}
    (ha : c → Sound I E s a) (hb : ¬ c → Sound I E s b) :
    Sound I E s (if c then a else b) := by
  split
  · exact ha ‹_›
  · exact hb ‹_›

theorem sound_ok {s x : State} (h : I s → I x) : Sound I E s (.ok x) := by
  intro hI
  refine ⟨?_, ?_⟩
  · intro s' e; cases e; exact h hI
  · intro l m e; cases e

theorem sound_from {s x : State} {r : Result State} (h : I s → I x) (hr : Sound I E x r) :
    Sound I E s r :=
  fun hI => hr (h hI)

theorem sound_from_ite {c : Prop} [Decidable c] {s x : State} {f : State → Result State}
    (h : I s → I x) (hx : Sound I E x (f x)) (hs : Sound I E s (f s)) :
    Sound I E s (f (if c then x else s)) := by
  split
  · exact sound_from h hx
  · exact hs

theorem StepErr.sound_next (hE : StepErr I E) (s : State) : Sound I E s (next s) :=
  fun hI => ⟨fun s' h => hE.keep.lex s s' h hI, fun l m h => hE.lex s l m hI h⟩

theorem StepErr.sound_error (hE : StepErr I E) (s : State) (m : String) (hm : m ∈ stmtMessages) :
    Sound I E s (error s m) := by
  intro hI
  refine ⟨?_, ?_⟩
  · intro s' e; cases e
  · intro l m' e
    cases e
    exact hE.msg s m hI hm

theorem StepErr.sound_expect (hE : StepErr I E) (k : Char) (s : State) :
    Sound I E s (expect k s) := by
  unfold expect
  exact sound_ite (fun _ => hE.sound_error s _ (by decide)) (fun _ => hE.sound_next s)

theorem StepErr.sound_symcheck (hE : StepErr I E) (c : Nat) (s : State) (ht : s.type = TOK_IDENT) :
    Sound I E s (symcheck c s) := by
  intro hI
  refine ⟨?_, ?_⟩
  · intro s' h
    rw [symcheck_ok _ _ _ h]
    exact hI
  · intro l m h
    exact hE.sym c s l m hI ht h

theorem StepErr.sound_factor_rules (hE : StepErr I E) (n : Nat) :
    (∀ s, Sound I E s (factor n s)) ∧ (∀ s, Sound I E s (termLoop n s)) ∧
    (∀ s, Sound I E s (term n s)) ∧ (∀ s, Sound I E s (expressionLoop n s)) ∧
    (∀ s, Sound I E s (expression n s)) := by
  have hfuel : ∀ s, Sound I E s .fuel := by
    intro s hI
    exact ⟨fun s' e => (by cases e), fun l m e => (by cases e)⟩
  induction n with
  | zero =>
    refine ⟨?_, ?_, ?_, ?_, ?_⟩ <;> intro s
    · simp only [factor]; exact hfuel s
    · simp only [termLoop]; exact hfuel s
    · simp only [term]; exact hfuel s
    · simp only [expressionLoop]; exact hfuel s
    · simp only [expression]; exact hfuel s
  | succ n ih =>
    obtain ⟨ihf, ihtl, iht, ihel, ihe⟩ := ih
    have hsym : ∀ s, Sound I E s (next (cg_symbol s)) := fun s =>
      sound_from (hE.keep.of_cg_symbol s) (hE.sound_next _)
    refine ⟨?_, ?_, ?_, ?_, ?_⟩ <;> intro s
    · rw [factor]
      simp only [bind_def, pure_def]
      refine sound_ite (fun h1 => ?_) (fun _ => sound_ite (fun _ => hsym s) (fun _ =>
        sound_ite (fun _ => ?_) (fun _ => sound_ok id)))
      · exact sound_bind (hE.sound_symcheck _ s h1) hsym
      · refine sound_bind (sound_from (hE.keep.of_cg_symbol s) (hE.sound_expect _ _)) fun a =>
          sound_bind (ihe a) fun b => ?_
        exact sound_from_ite (f := fun x => expect TOK_RPAREN x) (hE.keep.of_cg_symbol b)
          (hE.sound_expect _ _) (hE.sound_expect _ _)
    · rw [termLoop]
      simp only [bind_def, pure_def]
      exact sound_ite (fun _ => sound_bind (hsym s) fun a => sound_bind (ihf a) ihtl)
        (fun _ => sound_ok id)
    · rw [term]
      simp only [bind_def]
      exact sound_bind (ihf s) ihtl
    · rw [expressionLoop]
      simp only [bind_def, pure_def]
      exact sound_ite (fun _ => sound_bind (hsym s) fun a => sound_bind (iht a) ihel)
        (fun _ => sound_ok id)
    · rw [expression]
      simp only [bind_def, pure_def]
      exact sound_ite (fun _ => sound_bind (hsym s) fun a => sound_bind (iht a) ihel)
        (fun _ => sound_bind (sound_ok id) fun a => sound_bind (iht a) ihel)

end Sound

section Sound
variable {I : State → Prop} {E : Nat → String → Prop}

theorem sound_fuel (s : State) : Sound I E s .fuel :=
  fun _ => ⟨fun s' e => (by cases e), fun l m e => (by cases e)⟩

theorem StepErr.sound_expression (hE : StepErr I E) (n : Nat) (s : State) :
    Sound I E s (expression n s) :=
  (hE.sound_factor_rules n).2.2.2.2 s

theorem StepErr.sound_expect_sym (hE : StepErr I E) (k : Char) (s : State) :
    Sound I E s (expect k (cg_symbol s)) :=
  sound_from (hE.keep.of_cg_symbol s) (hE.sound_expect _ _)

theorem StepErr.sound_expect_ite (hE : StepErr I E) (k : Char) (c : Prop) [Decidable c]
    (s : State) : Sound I E s (expect k (if c then cg_symbol s else s)) :=
  sound_from_ite (f := fun x => expect k x) (hE.keep.of_cg_symbol s)
    (hE.sound_expect _ _) (hE.sound_expect _ _)

theorem StepErr.sound_call (hE : StepErr I E) (s : State) (ht : s.type = TOK_IDENT) :
    Sound I E s ((symcheck CHECK_CALL s).bind fun s => .ok (cg_call s)) := by
  intro hI
  refine ⟨?_, ?_⟩
  · intro s' h
    obtain ⟨a, ha, hfa⟩ := bind_eq_ok.1 h
    have e := symcheck_ok _ _ _ ha
    subst e
    cases hfa
    exact hE.keep.call _ ha hI
  · intro l m h
    rcases bind_eq_fatal.1 h with h | ⟨a, _, hfa⟩
    · exact hE.sym _ s l m hI ht h
    · cases hfa

theorem sound_same (s : State) : Sound I E s (.ok s) := sound_ok id

theorem StepErr.sound_next_sym (hE : StepErr I E) (s : State) :
    Sound I E s (next (cg_symbol s)) :=
  sound_from (hE.keep.of_cg_symbol s) (hE.sound_next _)

theorem StepErr.sound_expect_semi (hE : StepErr I E) (k : Char) (s : State) :
    Sound I E s (expect k (cg_semicolon s)) :=
  sound_from (hE.keep.of_cg_semicolon s) (hE.sound_expect _ _)

theorem StepErr.sound_cg_odd (hE : StepErr I E) (s : State) :
    Sound I E s (.ok (cg_odd s)) := sound_ok (hE.keep.of_cg_odd _)

theorem StepErr.sound_cg_writeint (hE : StepErr I E) (s : State) :
    Sound I E s (.ok (cg_writeint s)) := sound_ok (hE.keep.of_cg_writeint _)

theorem StepErr.sound_cg_writechar (hE : StepErr I E) (s : State) :
    Sound I E s (.ok (cg_writechar s)) := sound_ok (hE.keep.of_cg_writechar _)

theorem StepErr.sound_cg_readint (hE : StepErr I E) (s : State) :
    Sound I E s (.ok (cg_readint s)) := sound_ok (hE.keep.of_cg_readint _)

theorem StepErr.sound_cg_readchar (hE : StepErr I E) (s : State) :
    Sound I E s (.ok (cg_readchar s)) := sound_ok (hE.keep.of_cg_readchar _)

theorem StepErr.sound_condition (hE : StepErr I E) (n : Nat) (s : State) :
    Sound I E s (condition n s) := by
  unfold condition
  simp only [bind_def, pure_def]
  have hm : ∀ a, Sound I E a (error a "invalid conditional") := fun a =>
    hE.sound_error _ _ (by decide)
  with_reducible repeat' first
    | refine sound_ite (fun h => ?_) (fun h => ?_)
    | refine sound_bind ?_ (fun a => ?_)
    | exact hE.sound_expression _ _
    | exact hE.sound_expect_sym _ _
    | exact hE.sound_cg_odd _
    | exact hE.sound_next_sym _
    | exact hm _

theorem StepErr.sound_statement_rules (hE : StepErr I E) (n : Nat) :
    (∀ s, Sound I E s (statementLoop n s)) ∧ (∀ s, Sound I E s (statement n s)) := by
  have hm1 : ∀ a, Sound I E a (error a "writeInt takes an identifier or a number") := fun a =>
    hE.sound_error _ _ (by decide)
  have hm2 : ∀ a, Sound I E a (error a "writeChar takes an identifier or a number") := fun a =>
    hE.sound_error _ _ (by decide)
  induction n with
  | zero =>
    refine ⟨?_, ?_⟩ <;> intro s
    · simp only [statementLoop]; exact sound_fuel s
    · simp only [statement]; exact sound_fuel s
  | succ n ih =>
    obtain ⟨ihl, ihs⟩ := ih
    refine ⟨?_, ?_⟩ <;> intro s
    · rw [statementLoop]
      simp only [bind_def, pure_def]
      with_reducible repeat' first
        | refine sound_ite (fun h => ?_) (fun h => ?_)
        | refine sound_bind ?_ (fun a => ?_)
        | exact ihl _
        | exact ihs _
        | exact hE.sound_expect_semi _ _
        | exact sound_same _
    · rw [statement]
      simp only [bind_def, pure_def]
      with_reducible repeat' first
        | refine sound_ite (fun h => ?_) (fun h => ?_)
        | exact hE.sound_call _ h
        | refine sound_bind ?_ (fun a => ?_)
        | exact ihl _
        | exact ihs _
        | exact hE.sound_expression _ _
        | exact hE.sound_condition _ _
        | exact hE.sound_expect_ite _ _ _
        | exact hE.sound_expect_sym _ _
        | exact hE.sound_expect _ _
        | exact hE.sound_symcheck _ _ h
        | exact hm1 _
        | exact hm2 _
        | exact hE.sound_cg_writeint _
        | exact hE.sound_cg_writechar _
        | exact hE.sound_cg_readint _
        | exact hE.sound_cg_readchar _
        | exact sound_same _

theorem StepErr.sound_statement (hE : StepErr I E) (n : Nat) (s : State) :
    Sound I E s (statement n s) :=
  (hE.sound_statement_rules n).2 s

end Sound

theorem procDecl_eq (blk : State → Result State) (s : State) :
    procDecl blk s = (procHeader s).bind fun y => (blk y).bind procFooter := by
  unfold procDecl procHeader procFooter
  simp only [bind_def, pure_def]
  cases expect TOK_PROCEDURE { s with proc := 1 } with
  | ok a =>
    simp only [ok_bind]
    split
    · cases addsymbol TOK_PROCEDURE a with
      | ok b =>
        simp only [ok_bind]
        cases expect TOK_IDENT (cg_procedure b) with
        | ok c => rfl
        | _ => rfl
      | _ => rfl
    · try simp only [ok_bind]
      cases expect TOK_IDENT a with
      | ok c => rfl
      | _ => rfl
  | _ => rfl

theorem destroysymbols_not_fatal (s : State) (l : Nat) (m : String) :
    destroysymbols s ≠ .fatal l m := by
  have h : ∀ n (t : List Symtab), destroyLoop n t ≠ .fatal l m := by
    intro n
    induction n with
    | zero => intro t e; simp [destroyLoop] at e
    | succ n ih =>
      intro t e
      rw [destroyLoop] at e
      split at e
      · cases e
      · split at e
        · split at e
          · cases e
          · exact ih _ e
        · cases e
  intro e
  unfold destroysymbols at e
  rcases bind_eq_fatal.1 e with e | ⟨a, _, e⟩
  · exact h _ _ e
  · cases e

section Sound

variable {I : State → Prop} {E : Nat → String → Prop}

theorem DeclErr.sound_declare (hE : DeclErr I E) (ty : Char) (hty : ty = TOK_CONST ∨ ty = TOK_VAR)
    (s : State) (ht : s.type = TOK_IDENT) : Sound I E s (addsymbol ty s) :=
  fun hI => ⟨fun s' h => hE.keep.decl.declare ty s s' hty h hI, fun l m h => hE.add ty s l m hI ht h⟩

theorem DeclErr.sound_const (hE : DeclErr I E) (s : State) (ht : s.type = TOK_IDENT) :
    Sound I E s (addsymbol TOK_CONST s) :=
  hE.sound_declare _ (Or.inl rfl) s ht

theorem DeclErr.sound_var (hE : DeclErr I E) (s : State) (ht : s.type = TOK_IDENT) :
    Sound I E s (addsymbol TOK_VAR s) :=
  hE.sound_declare _ (Or.inr rfl) s ht

theorem DeclErr.sound_cg_const (hE : DeclErr I E) (s : State) :
    Sound I E s (.ok (cg_const s)) := sound_ok (hE.keep.decl.cgConst s)

theorem DeclErr.sound_cg_var (hE : DeclErr I E) (s : State) :
    Sound I E s (.ok (cg_var s)) := sound_ok (hE.keep.decl.cgVar s)

theorem DeclErr.sound_cg_newline (hE : DeclErr I E) (s : State) :
    Sound I E s (.ok (cg_newline s)) := sound_ok (hE.keep.decl.cgNewline s)

theorem DeclErr.sound_expect_number (hE : DeclErr I E) (c : Prop) [Decidable c] (s : State) :
    Sound I E s (expect TOK_NUMBER (if c then cg_semicolon (cg_symbol s) else s)) :=
  sound_from_ite (f := fun x => expect TOK_NUMBER x)
    (fun h => hE.step.keep.of_cg_semicolon _ (hE.step.keep.of_cg_symbol s h))
    (hE.step.sound_expect _ _) (hE.step.sound_expect _ _)

theorem DeclErr.sound_constItem (hE : DeclErr I E) (s : State) : Sound I E s (constItem s) := by
  unfold constItem
  simp only [bind_def, pure_def]
  with_reducible repeat' first
    | refine sound_ite (fun h => ?_) (fun h => ?_)
    | refine sound_bind ?_ (fun a => ?_)
    | exact hE.sound_expect_number _ _
    | exact hE.step.sound_expect _ _
    | exact hE.sound_const _ h
    | exact hE.sound_cg_const _
    | exact sound_same _

theorem DeclErr.sound_constLoop (hE : DeclErr I E) (n : Nat) :
    ∀ s, Sound I E s (constLoop n s) := by
  induction n with
  | zero => intro s; simp only [constLoop]; exact sound_fuel s
  | succ n ih =>
    intro s
    rw [constLoop]
    simp only [bind_def, pure_def]
    with_reducible repeat' first
      | refine sound_ite (fun h => ?_) (fun h => ?_)
      | refine sound_bind ?_ (fun a => ?_)
      | exact ih _
      | exact hE.sound_constItem _
      | exact hE.step.sound_expect _ _
      | exact sound_same _

theorem DeclErr.sound_constPart (hE : DeclErr I E) (n : Nat) (s : State) :
    Sound I E s (constPart n s) := by
  unfold constPart
  simp only [bind_def, pure_def]
  with_reducible repeat' first
    | refine sound_ite (fun h => ?_) (fun h => ?_)
    | refine sound_bind ?_ (fun a => ?_)
    | exact hE.sound_constLoop _ _
    | exact hE.sound_constItem _
    | exact hE.step.sound_expect _ _
    | exact sound_same _

theorem DeclErr.sound_varItem (hE : DeclErr I E) (s : State) : Sound I E s (varItem s) := by
  unfold varItem
  simp only [bind_def, pure_def]
  with_reducible repeat' first
    | refine sound_ite (fun h => ?_) (fun h => ?_)
    | refine sound_bind ?_ (fun a => ?_)
    | exact hE.step.sound_expect _ _
    | exact hE.sound_var _ h
    | exact hE.sound_cg_var _
    | exact sound_same _

theorem DeclErr.sound_varLoop (hE : DeclErr I E) (n : Nat) :
    ∀ s, Sound I E s (varLoop n s) := by
  induction n with
  | zero => intro s; simp only [varLoop]; exact sound_fuel s
  | succ n ih =>
    intro s
    rw [varLoop]
    simp only [bind_def, pure_def]
    with_reducible repeat' first
      | refine sound_ite (fun h => ?_) (fun h => ?_)
      | refine sound_bind ?_ (fun a => ?_)
      | exact ih _
      | exact hE.sound_varItem _
      | exact hE.step.sound_expect _ _
      | exact sound_same _

theorem DeclErr.sound_varPart (hE : DeclErr I E) (n : Nat) (s : State) :
    Sound I E s (varPart n s) := by
  unfold varPart
  simp only [bind_def, pure_def]
  with_reducible repeat' first
    | refine sound_ite (fun h => ?_) (fun h => ?_)
    | refine sound_bind ?_ (fun a => ?_)
    | exact hE.sound_varLoop _ _
    | exact hE.sound_varItem _
    | exact hE.step.sound_expect _ _
    | exact hE.sound_cg_newline _
    | exact sound_same _

end Sound

/-! ## The messages of the errors raised below `block` -/

theorem msgHead_append (a b : String) (h : 3 ≤ a.length) : msgHead (a ++ b) = msgHead a := by
  unfold msgHead
  rw [String.data_append]
  exact List.take_append_of_le_length h

theorem comment_fatal (s : State) (l : Nat) (m : String) (h : comment s = .fatal l m) :
    m = "unterminated comment" := by
  unfold comment at h
  split at h
  · cases h; rfl
  · cases h

theorem number_fatal (s : State) (l : Nat) (m : String) (h : number s = .fatal l m) :
    ∃ t, m = "invalid number: " ++ t := by
  unfold number at h
  simp only at h
  split at h
  · cases h; exact ⟨_, rfl⟩
  · cases h

theorem lexerLoop_fatal_lex (n : Nat) : ∀ (s : State) (l : Nat) (m : String),
    lexerLoop n s = .fatal l m → msgHead m ∈ lexHeads := by
  induction n with
  | zero => intro s l m h; simp [lexerLoop] at h
  | succ n ih =>
    intro s l m h
    rw [lexerLoop] at h
    simp only at h
    split at h
    · cases h
    · split at h
      · obtain ⟨t, e⟩ := number_fatal _ _ _ h
        rw [e, msgHead_append _ _ (by decide)]
        decide
      · split at h
        · rcases bind_eq_fatal.1 h with h | ⟨a, _, h⟩
          · rw [comment_fatal _ _ _ h]
            decide
          · exact ih _ _ _ h
        · split at h
          · cases h
          · split at h
            · split at h
              · cases h
                rw [String.append_assoc, msgHead_append _ _ (by decide)]
                decide
              · cases h
            · split at h
              · cases h
              · cases h
                rw [String.append_assoc, msgHead_append _ _ (by decide)]
                decide

theorem next_fatal_lex (s : State) (l : Nat) (m : String) (h : next s = .fatal l m) :
    msgHead m ∈ lexHeads := by
  unfold next lexer at h
  rcases bind_eq_fatal.1 h with h | ⟨a, _, h⟩
  · exact lexerLoop_fatal_lex _ _ _ _ h
  · cases h

theorem lexHeads_low : ∀ x ∈ lexHeads, x ∈ lowHeads := by
  decide

theorem next_fatal_head (s : State) (l : Nat) (m : String) (h : next s = .fatal l m) :
    msgHead m ∈ lowHeads :=
  lexHeads_low _ (next_fatal_lex s l m h)

theorem symcheck_fatal_head (c : Nat) (s : State) (l : Nat) (m : String)
    (h : symcheck c s = .fatal l m) : msgHead m ∈ lowHeads := by
  unfold symcheck at h
  split at h
  · cases h
    rw [msgHead_append _ _ (by decide)]
    decide
  · unfold rolecheck at h
    split_ifs at h <;> cases h <;> rw [msgHead_append _ _ (by decide)] <;> decide

theorem addsymbol_fatal_head (ty : Char) (s : State) (l : Nat) (m : String)
    (h : addsymbol ty s = .fatal l m) : msgHead m ∈ lowHeads := by
  unfold addsymbol at h
  split_ifs at h
  cases h
  rw [msgHead_append _ _ (by decide)]
  decide


section Sound

variable {I : State → Prop} {E : Nat → String → Prop}

theorem sound_bind_ok {s : State} {r : Result State} {f : State → Result State}
    (hr : Sound I E s r) (hf : ∀ a, r = .ok a → Sound I E a (f a)) : Sound I E s (r.bind f) := by
  intro hI
  obtain ⟨h1, h2⟩ := hr hI
  constructor
  · intro s' h
    obtain ⟨a, ha, hfa⟩ := bind_eq_ok.1 h
    exact (hf a ha (h1 a ha)).1 s' hfa
  · intro l m h
    rcases bind_eq_fatal.1 h with h | ⟨a, ha, hfa⟩
    · exact h2 l m h
    · exact (hf a ha (h1 a ha)).2 l m hfa

theorem DeclErr.sound_header (hE : DeclErr I E) (s : State) (hp : s.proc = 1)
    (ht : s.type = TOK_IDENT) :
    Sound I E s ((addsymbol TOK_PROCEDURE s).bind fun s => .ok (cg_procedure s)) := by
  intro hI
  refine ⟨?_, ?_⟩
  · intro s' h
    obtain ⟨a, ha, hfa⟩ := bind_eq_ok.1 h
    cases hfa
    exact hE.keep.header s a hp ha hI
  · intro l m h
    rcases bind_eq_fatal.1 h with h | ⟨a, _, hfa⟩
    · exact hE.add _ s l m hI ht h
    · cases hfa

theorem DeclErr.sound_procHeader (hE : DeclErr I E) (s : State) :
    Sound I E s (procHeader s) := by
  unfold procHeader
  simp only [bind_def, pure_def]
  refine sound_from (hE.keep.procOn s) ?_
  refine sound_bind_ok (hE.step.sound_expect _ _) fun a ha => ?_
  have hp : a.proc = 1 := (expect_frame _ _ _ ha).2.2.1
  with_reducible repeat' first
    | refine sound_ite (fun h => ?_) (fun h => ?_)
    | exact hE.sound_header _ hp h
    | refine sound_bind ?_ (fun a => ?_)
    | exact hE.step.sound_expect _ _
    | exact sound_same _

theorem DeclErr.sound_destroy (hE : DeclErr I E) (s : State) :
    Sound I E s (destroysymbols { s with proc := 0 }) := by
  intro hI
  refine ⟨?_, ?_⟩
  · intro s' h
    exact hE.keep.destroy _ s' h (hE.keep.procOff s hI)
  · intro l m h
    exact absurd h (destroysymbols_not_fatal _ _ _)

theorem DeclErr.sound_procFooter (hE : DeclErr I E) (s : State) :
    Sound I E s (procFooter s) := by
  unfold procFooter
  simp only [bind_def]
  exact sound_bind (hE.step.sound_expect _ _) fun a => hE.sound_destroy a

end Sound

theorem stepRel_true : StepRel (fun _ _ => True → True) where
  refl := fun _ _ => trivial
  trans := fun _ _ _ _ _ _ => trivial
  lex := fun _ _ _ _ => trivial
  emit := fun _ _ _ _ => trivial
  call := fun _ _ _ => trivial

theorem procRel_true : ProcRel (fun _ _ => True → True) where
  decl :=
    { step := stepRel_true
      declare := fun _ _ _ _ _ _ => trivial
      cgConst := fun _ _ => trivial
      cgVar := fun _ _ => trivial
      cgNewline := fun _ _ => trivial }
  header := fun _ _ _ _ _ => trivial
  procOn := fun _ _ => trivial
  procOff := fun _ _ => trivial
  destroy := fun _ _ _ _ => trivial

theorem lowHeads_declErr : DeclErr (fun _ => True) (fun _ m => msgHead m ∈ lowHeads) where
  step :=
    { keep := stepRel_true
      lex := fun s l m _ h => next_fatal_head s l m h
      sym := fun c s l m _ _ h => symcheck_fatal_head c s l m h
      msg := by
        intro s m _ hm
        simp only [stmtMessages, List.mem_cons, List.mem_singleton, List.not_mem_nil,
          or_false] at hm
        rcases hm with e | e | e | e <;> subst e <;> decide }
  keep := procRel_true
  add := fun ty s l m _ _ h => addsymbol_fatal_head ty s l m h

theorem statement_fatal_head (n : Nat) (s : State) (l : Nat) (m : String)
    (h : statement n s = .fatal l m) : msgHead m ∈ lowHeads :=
  (lowHeads_declErr.step.sound_statement n s trivial).2 l m h

theorem constPart_fatal_head (n : Nat) (s : State) (l : Nat) (m : String)
    (h : constPart n s = .fatal l m) : msgHead m ∈ lowHeads :=
  (lowHeads_declErr.sound_constPart n s trivial).2 l m h

theorem varPart_fatal_head (n : Nat) (s : State) (l : Nat) (m : String)
    (h : varPart n s = .fatal l m) : msgHead m ∈ lowHeads :=
  (lowHeads_declErr.sound_varPart n s trivial).2 l m h

theorem procHeader_fatal_head (s : State) (l : Nat) (m : String)
    (h : procHeader s = .fatal l m) : msgHead m ∈ lowHeads :=
  (lowHeads_declErr.sound_procHeader s trivial).2 l m h

theorem procFooter_fatal_head (s : State) (l : Nat) (m : String)
    (h : procFooter s = .fatal l m) : msgHead m ∈ lowHeads :=
  (lowHeads_declErr.sound_procFooter s trivial).2 l m h


/-! ## The depth counter -/

theorem ProcRel.invariant {R : State → State → Prop} {I : State → Prop} (hR : ProcRel R)
    (h : ∀ a b, R a b → I a → I b) : ProcRel (fun s s' => I s → I s') where
  decl :=
    { step :=
        { refl := fun _ hI => hI
          trans := fun _ _ _ h1 h2 hI => h2 (h1 hI)
          lex := fun s s' e => h _ _ (hR.decl.step.lex s s' e)
          emit := fun s f hf => h _ _ (hR.decl.step.emit s f hf)
          call := fun s e => h _ _ (hR.decl.step.call s e) }
      declare := fun ty s s' hty e => h _ _ (hR.decl.declare ty s s' hty e)
      cgConst := fun s => h _ _ (hR.decl.cgConst s)
      cgVar := fun s => h _ _ (hR.decl.cgVar s)
      cgNewline := fun s => h _ _ (hR.decl.cgNewline s) }
  header := fun s s' hp e => h _ _ (hR.header s s' hp e)
  procOn := fun s => h _ _ (hR.procOn s)
  procOff := fun s => h _ _ (hR.procOff s)
  destroy := fun s s' e => h _ _ (hR.destroy s s' e)

theorem sameDepth_procRel : ProcRel (fun s s' => s'.depth = s.depth) where
  decl :=
    { step :=
        { refl := fun _ => rfl
          trans := fun _ _ _ h1 h2 => h2.trans h1
          lex := fun s s' h => (next_frame s s' h).2.1
          emit := fun _ _ _ => rfl
          call := fun _ _ => rfl }
      declare := by
        intro ty s s' _ h
        rw [(addsymbol_ok_eq ty s s' h).2]
      cgConst := fun _ => rfl
      cgVar := fun _ => rfl
      cgNewline := fun _ => rfl }
  header := by
    intro s s' _ h
    rw [(cg_procedure_frame s').2.1, (addsymbol_ok_eq _ s s' h).2]
  procOn := fun _ => rfl
  procOff := fun _ => rfl
  destroy := by
    intro s s' h
    obtain ⟨_, _, e⟩ := destroysymbols_ok s s' h
    rw [e]

theorem block_depth_rules (n : Nat) :
    (∀ s s', procLoop n s = .ok s' → s'.depth = s.depth) ∧
    (∀ s s', block n s = .ok s' → s'.depth = s.depth) := by
  induction n with
  | zero =>
    refine ⟨?_, ?_⟩ <;> intro s s' h
    · simp [procLoop] at h
    · simp [block] at h
  | succ n ih =>
    obtain ⟨ihp, ihb⟩ := ih
    refine ⟨?_, ?_⟩ <;> intro s s' h
    · rw [procLoop] at h
      simp only [bind_def, pure_def] at h
      split at h
      · obtain ⟨s1, hs1, h⟩ := bind_eq_ok.1 h
        exact (ihp _ _ h).trans (sameDepth_procRel.of_procDecl _ ihb _ _ hs1)
      · cases h
        rfl
    · rw [block] at h
      simp only [bind_def, pure_def] at h
      split at h
      · cases h
      · obtain ⟨s1, hs1, h⟩ := bind_eq_ok.1 h
        obtain ⟨s2, hs2, h⟩ := bind_eq_ok.1 h
        obtain ⟨s3, hs3, h⟩ := bind_eq_ok.1 h
        obtain ⟨s4, hs4, h⟩ := bind_eq_ok.1 h
        split at h
        · cases h
        · cases h
          have d1 : s1.depth = s.depth + 1 := sameDepth_procRel.decl.of_constPart _ _ _ hs1
          have d2 := sameDepth_procRel.decl.of_varPart _ _ _ hs2
          have d3 := ihp _ _ hs3
          have d3x : (if s3.proc = 0 then cg_procedure s3 else s3).depth = s3.depth :=
            rel_ite (R := fun s s' => s'.depth = s.depth) (cg_procedure_frame s3).2.1 rfl
          have d4 := sameDepth_procRel.decl.step.of_statement _ _ _ hs4
          show (cg_epilogue s4).depth - 1 = s.depth
          rw [(cg_epilogue_frame s4).2.1, d4, d3x, d3, d2, d1]
          omega

theorem cg_init_frame (s : State) : TableFrame s (cg_init s) := by
  unfold cg_init
  simp only [aout]
  exact ⟨rfl, rfl, rfl⟩

theorem parse_depth (n : Nat) (s s' : State) (h : parse n s = .ok s') :
    s'.depth = s.depth := by
  unfold parse at h
  simp only [bind_def, pure_def] at h
  obtain ⟨s1, hs1, h⟩ := bind_eq_ok.1 h
  obtain ⟨s2, hs2, h⟩ := bind_eq_ok.1 h
  obtain ⟨s3, hs3, h⟩ := bind_eq_ok.1 h
  split at h
  · cases h
  · cases h
    have d0 : (cg_init s).depth = s.depth := (cg_init_frame s).2.1
    have d1 : s1.depth = (cg_init s).depth := (next_frame _ _ hs1).2.1
    have d2 : s2.depth = s1.depth := (block_depth_rules n).2 _ _ hs2
    have d3 : s'.depth = s2.depth := (expect_frame _ _ _ hs3).2.1
    rw [d3, d2, d1, d0]

theorem procHeader_depth (s y : State) (h : procHeader s = .ok y) : y.depth = s.depth := by
  have hE : DeclErr (fun a : State => a.depth = s.depth) (fun _ _ => True) :=
    { step :=
        { keep := (sameDepth_procRel.invariant (fun a b hab ha => hab.trans ha)).decl.step
          lex := fun _ _ _ _ _ => trivial
          sym := fun _ _ _ _ _ _ _ => trivial
          msg := fun _ _ _ _ => trivial }
      keep := sameDepth_procRel.invariant (fun a b hab ha => hab.trans ha)
      add := fun _ _ _ _ _ _ _ => trivial }
  exact (hE.sound_procHeader s rfl).1 y h

theorem loopReaches_facts {n k : Nat} {s y : State} (h : LoopReaches n s k y) :
    k < n ∧ y.depth = s.depth := by
  induction h with
  | here _ hy => exact ⟨Nat.lt_succ_self _, procHeader_depth _ _ hy⟩
  | later _ hd _ ih =>
    exact ⟨Nat.lt_succ_of_lt ih.1,
      ih.2.trans (sameDepth_procRel.of_procDecl _ (block_depth_rules _).2 _ _ hd)⟩

theorem blockReaches_facts {n k : Nat} {s y : State} (h : BlockReaches n s k y) :
    k < n ∧ y.depth = s.depth + 1 ∧ s.depth ≤ 1 := by
  obtain ⟨m, s1, s2, e, hd, hs1, hs2, hr⟩ := h
  have d1 : s1.depth = s.depth + 1 := sameDepth_procRel.decl.of_constPart _ _ _ hs1
  have d2 := sameDepth_procRel.decl.of_varPart _ _ _ hs2
  obtain ⟨hk, dy⟩ := loopReaches_facts hr
  exact ⟨by omega, by rw [dy, d2, d1], hd⟩

theorem procLoop_fatal (n : Nat) : ∀ (s : State) (l : Nat) (m : String),
    procLoop n s = .fatal l m →
    msgHead m ∈ lowHeads ∨ ∃ k y, LoopReaches n s k y ∧ block k y = .fatal l m := by
  induction n with
  | zero => intro s l m h; simp [procLoop] at h
  | succ n ih =>
    intro s l m h
    rw [procLoop] at h
    simp only [bind_def, pure_def] at h
    split at h
    · rename_i ht
      rcases bind_eq_fatal.1 h with h | ⟨s1, hs1, h⟩
      · rw [procDecl_eq] at h
        rcases bind_eq_fatal.1 h with h | ⟨y, hy, h⟩
        · exact Or.inl (procHeader_fatal_head _ _ _ h)
        rcases bind_eq_fatal.1 h with h | ⟨b, _, h⟩
        · exact Or.inr ⟨n, y, .here ht hy, h⟩
        · exact Or.inl (procFooter_fatal_head _ _ _ h)
      · rcases ih _ _ _ h with hh | ⟨k, y, hr, hb⟩
        · exact Or.inl hh
        · exact Or.inr ⟨k, y, .later ht hs1 hr, hb⟩
    · cases h

theorem block_fatal (n : Nat) (s : State) (l : Nat) (m : String)
    (h : block n s = .fatal l m) :
    (1 < s.depth ∧ m = "nesting depth exceeded" ∧ l = s.line) ∨
    (s.depth < 0 ∧ m = "nesting depth fell below 0") ∨
    msgHead m ∈ lowHeads ∨ ∃ k y, BlockReaches n s k y ∧ block k y = .fatal l m := by
  cases n with
  | zero => simp [block] at h
  | succ n =>
    rw [block] at h
    simp only [bind_def, pure_def] at h
    split at h
    · rename_i hd
      cases h
      exact Or.inl ⟨hd, rfl, rfl⟩
    · rename_i hd
      rcases bind_eq_fatal.1 h with h | ⟨s1, hs1, h⟩
      · exact Or.inr (Or.inr (Or.inl (constPart_fatal_head _ _ _ _ h)))
      rcases bind_eq_fatal.1 h with h | ⟨s2, hs2, h⟩
      · exact Or.inr (Or.inr (Or.inl (varPart_fatal_head _ _ _ _ h)))
      rcases bind_eq_fatal.1 h with h | ⟨s3, hs3, h⟩
      · rcases procLoop_fatal _ _ _ _ h with hh | ⟨k, y, hr, hb⟩
        · exact Or.inr (Or.inr (Or.inl hh))
        · exact Or.inr (Or.inr (Or.inr ⟨k, y, ⟨n, s1, s2, rfl, not_lt.1 hd, hs1, hs2, hr⟩, hb⟩))
      rcases bind_eq_fatal.1 h with h | ⟨s4, hs4, h⟩
      · exact Or.inr (Or.inr (Or.inl (statement_fatal_head _ _ _ _ h)))
      split at h
      · rename_i hl
        cases h
        refine Or.inr (Or.inl ⟨?_, rfl⟩)
        have d1 : s1.depth = s.depth + 1 := sameDepth_procRel.decl.of_constPart _ _ _ hs1
        have d2 := sameDepth_procRel.decl.of_varPart _ _ _ hs2
        have d3 := (block_depth_rules n).1 _ _ hs3
        have d3x : (if s3.proc = 0 then cg_procedure s3 else s3).depth = s3.depth :=
          rel_ite (R := fun s s' => s'.depth = s.depth) (cg_procedure_frame s3).2.1 rfl
        have d4 := sameDepth_procRel.decl.step.of_statement _ _ _ hs4
        have hl2 : (cg_epilogue s4).depth - 1 < 0 := hl
        rw [(cg_epilogue_frame s4).2.1, d4, d3x, d3, d2, d1] at hl2
        omega
      · cases h

theorem block_never_below (n : Nat) : ∀ (s : State) (l : Nat), 0 ≤ s.depth →
    block n s ≠ .fatal l "nesting depth fell below 0" := by
  induction n using Nat.strong_induction_on with
  | _ n ih =>
    intro s l hd h
    rcases block_fatal n s l _ h with ⟨_, e, _⟩ | ⟨hlt, _⟩ | hh | ⟨k, y, hr, hb⟩
    · exact absurd e (by decide)
    · omega
    · exact absurd hh (by decide)
    · obtain ⟨hk, dy, _⟩ := blockReaches_facts hr
      exact ih k hk y l (by omega) hb

theorem parse_never_below (n : Nat) (s : State) (l : Nat) (hd : 0 ≤ s.depth) :
    parse n s ≠ .fatal l "nesting depth fell below 0" := by
  intro h
  unfold parse at h
  simp only [bind_def, pure_def] at h
  rcases bind_eq_fatal.1 h with h | ⟨s1, hs1, h⟩
  · exact absurd (next_fatal_head _ _ _ h) (by decide)
  rcases bind_eq_fatal.1 h with h | ⟨s2, _, h⟩
  · have d0 : (cg_init s).depth = s.depth := (cg_init_frame s).2.1
    have d1 : s1.depth = (cg_init s).depth := (next_frame _ _ hs1).2.1
    refine block_never_below n s1 l ?_ h
    rw [d1, d0]
    exact hd
  rcases bind_eq_fatal.1 h with h | ⟨s3, _, h⟩
  · exact absurd ((lowHeads_declErr.step.sound_expect _ _ trivial).2 _ _ h) (by decide)
  split at h
  · exact absurd (Result.fatal.inj h).2 (by decide)
  · cases h

/-- C19: every call of `block` that returns without error leaves `depth` at its
value on entry; so does `parse`, and `depth` is 0 in the final state of every
compilation that returns without error; from a state with `depth` at least 0,
and so from the initial state, neither `block` nor the whole compilation raises
"nesting depth fell below 0".  The statement is not empty: a source with a
procedure compiles. -/
theorem depth_counter_discipline :
    (∀ n s s', block n s = .ok s' → s'.depth = s.depth) ∧
    (∀ n s s', parse n s = .ok s' → s'.depth = s.depth) ∧
    (∀ src s', compile src = .ok s' → s'.depth = 0) ∧
    (∀ n s l, 0 ≤ s.depth → block n s ≠ .fatal l "nesting depth fell below 0") ∧
    (∀ src l, compile src ≠ .fatal l "nesting depth fell below 0") ∧
    (compile "procedure p; ; .").isOk = true := by
  refine ⟨fun n => (block_depth_rules n).2, parse_depth, ?_, fun n => block_never_below n,
    ?_, by decide!⟩
  · intro src s' h
    exact parse_depth _ _ _ h
  · intro src l
    exact parse_never_below _ _ l (le_refl _)


/-! ## The nesting limit -/

theorem loopReaches_fatal {n k : Nat} {s y : State} {l : Nat} {m : String}
    (h : LoopReaches n s k y) (hb : block k y = .fatal l m) : procLoop n s = .fatal l m := by
  induction h with
  | here ht hy =>
    rw [procLoop]
    simp only [bind_def, pure_def]
    rw [if_pos ht, procDecl_eq, hy, ok_bind, hb]
    rfl
  | later ht hd _ ih =>
    rw [procLoop]
    simp only [bind_def, pure_def]
    rw [if_pos ht, hd, ok_bind]
    exact ih hb

theorem blockReaches_fatal {n k : Nat} {s y : State} {l : Nat} {m : String}
    (h : BlockReaches n s k y) (hb : block k y = .fatal l m) : block n s = .fatal l m := by
  obtain ⟨j, s1, s2, e, hd, hs1, hs2, hr⟩ := h
  subst e
  rw [block]
  simp only [bind_def, pure_def]
  rw [if_neg (not_lt.2 hd), hs1, ok_bind, hs2, ok_bind, loopReaches_fatal hr hb]
  rfl

theorem block_too_deep (n : Nat) (s : State) (hd : 1 < s.depth) :
    block (n + 1) s = .fatal s.line "nesting depth exceeded" := by
  rw [block]
  simp only [bind_def, pure_def]
  rw [if_pos hd]
  rfl

theorem block_exceeded_iff (n : Nat) (s : State) (l : Nat) (hd : s.depth = 0) :
    block n s = .fatal l "nesting depth exceeded" ↔
      ∃ n1 y1 n2 y2, BlockReaches n s n1 y1 ∧ BlockReaches n1 y1 (n2 + 1) y2 ∧ l = y2.line := by
  have hne : ¬ "nesting depth exceeded" = "nesting depth fell below 0" := by decide
  have hlow : ¬ msgHead "nesting depth exceeded" ∈ lowHeads := by decide
  constructor
  · intro h
    rcases block_fatal n s l _ h with ⟨h1, _⟩ | ⟨_, e⟩ | hh | ⟨n1, y1, hr1, hb1⟩
    · omega
    · exact absurd e hne
    · exact absurd hh hlow
    obtain ⟨_, d1, _⟩ := blockReaches_facts hr1
    rcases block_fatal n1 y1 l _ hb1 with ⟨h1, _⟩ | ⟨_, e⟩ | hh | ⟨k, y2, hr2, hb2⟩
    · omega
    · exact absurd e hne
    · exact absurd hh hlow
    obtain ⟨_, d2, _⟩ := blockReaches_facts hr2
    rcases block_fatal k y2 l _ hb2 with ⟨_, _, e⟩ | ⟨_, e⟩ | hh | ⟨k3, y3, hr3, _⟩
    · cases k with
      | zero => simp [block] at hb2
      | succ n2 => exact ⟨n1, y1, n2, y2, hr1, hr2, e⟩
    · exact absurd e hne
    · exact absurd hh hlow
    · obtain ⟨_, _, d3⟩ := blockReaches_facts hr3
      omega
  · rintro ⟨n1, y1, n2, y2, hr1, hr2, e⟩
    obtain ⟨_, d1, _⟩ := blockReaches_facts hr1
    obtain ⟨_, d2, _⟩ := blockReaches_facts hr2
    rw [e]
    exact blockReaches_fatal hr1 (blockReaches_fatal hr2 (block_too_deep n2 y2 (by omega)))

theorem compile_exceeded_iff (src : String) (l : Nat) :
    compile src = .fatal l "nesting depth exceeded" ↔
      ∃ s0 n1 y1 n2 y2, next (cg_init (initsymtab (initial src))) = .ok s0 ∧
        BlockReaches (budget src) s0 n1 y1 ∧ BlockReaches n1 y1 (n2 + 1) y2 ∧ l = y2.line := by
  have hlow : ¬ msgHead "nesting depth exceeded" ∈ lowHeads := by decide
  have d0 : ∀ s0, next (cg_init (initsymtab (initial src))) = .ok s0 → s0.depth = 0 := by
    intro s0 h
    rw [(next_frame _ _ h).2.1, (cg_init_frame _).2.1]
    rfl
  unfold compile parse
  simp only [bind_def, pure_def]
  constructor
  · intro h
    rcases bind_eq_fatal.1 h with h | ⟨s0, hs0, h⟩
    · exact absurd (next_fatal_head _ _ _ h) hlow
    rcases bind_eq_fatal.1 h with h | ⟨s2, _, h⟩
    · obtain ⟨n1, y1, n2, y2, h1, h2, e⟩ := (block_exceeded_iff _ s0 l (d0 s0 hs0)).1 h
      exact ⟨s0, n1, y1, n2, y2, hs0, h1, h2, e⟩
    rcases bind_eq_fatal.1 h with h | ⟨s3, _, h⟩
    · exact absurd ((lowHeads_declErr.step.sound_expect _ _ trivial).2 _ _ h) hlow
    split at h
    · exact absurd (Result.fatal.inj h).2 (by decide)
    · cases h
  · rintro ⟨s0, n1, y1, n2, y2, hs0, h1, h2, e⟩
    rw [hs0, ok_bind, (block_exceeded_iff _ s0 l (d0 s0 hs0)).2 ⟨n1, y1, n2, y2, h1, h2, e⟩]
    rfl

/-- C11: compilation fails with "nesting depth exceeded" exactly when the block
of a procedure declared in the top-level block gets, with no earlier error, to
the end of the header `"procedure" ident ";"` of a procedure declared in it,
and the line reported is the line at the end of that header; so the error is not
raised when no procedure is declared inside the block of another.  The same
holds of every call of `block` at depth 0.  The source
`procedure p; procedure q; ; ; .` fails with this error and
`procedure p; ; .` compiles. -/
theorem nesting_limit :
    (∀ src l, compile src = .fatal l "nesting depth exceeded" ↔
      ∃ s0 n1 y1 n2 y2, next (cg_init (initsymtab (initial src))) = .ok s0 ∧
        BlockReaches (budget src) s0 n1 y1 ∧ BlockReaches n1 y1 (n2 + 1) y2 ∧ l = y2.line) ∧
    (∀ n s l, s.depth = 0 → (block n s = .fatal l "nesting depth exceeded" ↔
      ∃ n1 y1 n2 y2, BlockReaches n s n1 y1 ∧ BlockReaches n1 y1 (n2 + 1) y2 ∧ l = y2.line)) ∧
    compile "procedure p; procedure q; ; ; ." = .fatal 1 "nesting depth exceeded" ∧
    (compile "procedure p; ; .").isOk = true :=
  ⟨compile_exceeded_iff, fun n s l hd => block_exceeded_iff n s l hd, by decide!, by decide!⟩


/-! ## The names of the procedures -/

theorem addsymbol_ok_fresh (ty : Char) (s s' : State) (h : addsymbol ty s = .ok s') :
    addsymbolLoop s.token (s.depth - 1) s.head = false := by
  unfold addsymbol at h
  split at h
  · cases h
  · split at h
    · cases h
    · rename_i hf
      exact Bool.eq_false_iff.2 hf

theorem procDecl_table (n : Nat) (s s' : State) (hd : 1 ≤ s.depth)
    (h : procDecl (block n) s = .ok s') :
    ∃ a, expect TOK_PROCEDURE { s with proc := 1 } = .ok a ∧ a.type = TOK_IDENT ∧
      addsymbolLoop a.token (s.depth - 1) s.head = false ∧
      s'.head = s.head ++ [{ depth := s.depth - 1, type := TOK_PROCEDURE, name := a.token }] := by
  unfold procDecl at h
  simp only [bind_def, pure_def] at h
  obtain ⟨s1, hs1, h⟩ := bind_eq_ok.1 h
  have f1 := expect_frame _ _ _ hs1
  have hh1 : s1.head = s.head := f1.1
  have hd1 : s1.depth = s.depth := f1.2.1
  by_cases ht : s1.type = TOK_IDENT
  · rw [if_pos ht] at h
    obtain ⟨s2, hs2, h⟩ := bind_eq_ok.1 h
    obtain ⟨s2', hadd, hs2⟩ := bind_eq_ok.1 hs2
    cases hs2
    obtain ⟨_, e⟩ := addsymbol_ok_eq _ _ _ hadd
    have hfresh := addsymbol_ok_fresh _ _ _ hadd
    rw [hh1, hd1] at hfresh
    obtain ⟨s3, hs3, h⟩ := bind_eq_ok.1 h
    obtain ⟨s4, hs4, h⟩ := bind_eq_ok.1 h
    obtain ⟨s5, hs5, h⟩ := bind_eq_ok.1 h
    obtain ⟨s6, hs6, h⟩ := bind_eq_ok.1 h
    have f2 := cg_procedure_frame s2'
    have f3 := expect_frame _ _ _ hs3
    have f4 := expect_frame _ _ _ hs4
    have f6 := expect_frame _ _ _ hs6
    have hh4 : s4.head
        = s.head ++ [{ depth := s.depth - 1, type := TOK_PROCEDURE, name := s1.token }] := by
      rw [f4.1, f3.1, f2.1, e]
      show s1.head ++ [{ depth := s1.depth - 1, type := TOK_PROCEDURE, name := s1.token }] = _
      rw [hh1, hd1]
    have hd4 : s4.depth = s.depth := by
      rw [f4.2.1, f3.2.1, f2.2.1, e]
      exact hd1
    obtain ⟨_, _, ext, hext, hx⟩ := block_extends n s4 s5 (by rw [hd4]; exact hd) hs5
    have hh6 : s6.head = s.head ++
        { depth := s.depth - 1, type := TOK_PROCEDURE, name := s1.token } :: ext := by
      rw [f6.1, hext, hh4]
      simp
    have hdes := destroysymbols_spec { s6 with proc := 0 } s.head _ ext hh6 rfl hx
    rw [hdes] at h
    cases h
    exact ⟨s1, hs1, ht, hfresh, rfl⟩
  · rw [if_neg ht, ok_bind] at h
    obtain ⟨s3, hs3, h⟩ := bind_eq_ok.1 h
    exact absurd (expect_ok _ _ _ hs3).1 ht

theorem procNames_append (l ext : List Symtab) :
    procNames (l ++ ext) = procNames l ++ procNames ext := by
  simp [procNames]

theorem procNames_plain (ext : List Symtab) (h : ∀ x ∈ ext, x.type ≠ TOK_PROCEDURE) :
    procNames ext = [] := by
  unfold procNames
  rw [List.filter_eq_nil_iff.2]
  · rfl
  · intro x hx
    simpa using h x hx

theorem mem_procNames {l : List Symtab} {X : String} (h : X ∈ procNames l) :
    ∃ x ∈ l, x.type = TOK_PROCEDURE ∧ x.name = X := by
  unfold procNames at h
  obtain ⟨x, hx, e⟩ := List.mem_map.1 h
  obtain ⟨hm, ht⟩ := List.mem_filter.1 hx
  exact ⟨x, hm, by simpa using ht, e⟩

theorem topTable_extend {l ext : List Symtab} (h : TopTable l)
    (hx : ∀ x ∈ ext, x.type ≠ TOK_PROCEDURE) : TopTable (l ++ ext) := by
  obtain ⟨h1, h2, h3⟩ := h
  refine ⟨?_, ?_, ?_⟩
  · cases l with
    | nil => cases h1
    | cons a l => exact h1
  · intro x hm ht
    rcases List.mem_append.1 hm with hm | hm
    · exact h2 x hm ht
    · exact absurd ht (hx x hm)
  · rw [procNames_append, procNames_plain ext hx, List.append_nil]
    exact h3

theorem topTable_declare {l : List Symtab} {X : String} (h : TopTable l)
    (hf : addsymbolLoop X 0 l = false) :
    TopTable (l ++ [{ depth := 0, type := TOK_PROCEDURE, name := X }]) ∧
      procNames (l ++ [{ depth := 0, type := TOK_PROCEDURE, name := X }]) = procNames l ++ [X] := by
  obtain ⟨h1, h2, h3⟩ := h
  have e : procNames (l ++ [{ depth := 0, type := TOK_PROCEDURE, name := X }])
      = procNames l ++ [X] := by
    rw [procNames_append]
    rfl
  refine ⟨⟨?_, ?_, ?_⟩, e⟩
  · cases l with
    | nil => cases h1
    | cons a l => exact h1
  · intro x hm ht
    rcases List.mem_append.1 hm with hm | hm
    · exact h2 x hm ht
    · rw [List.mem_singleton.1 hm]
  · rw [e]
    refine List.Nodup.append h3 (List.nodup_singleton X) ?_
    intro Y hY hY'
    rw [List.mem_singleton.1 hY'] at hY
    obtain ⟨x, hm, ht, hn⟩ := mem_procNames hY
    have : addsymbolLoop X 0 l = true := (addsymbolLoop_iff X 0 l).2 ⟨x, hm, hn, h2 x hm ht⟩
    rw [hf] at this
    cases this

theorem topTable_sentinel : TopTable [sentinel] :=
  ⟨rfl, by decide, by decide⟩

theorem procLoop_top (n : Nat) : ∀ s s', s.depth = 1 → TopTable s.head →
    procLoop n s = .ok s' → TopTable s'.head := by
  induction n with
  | zero => intro s s' _ _ h; simp [procLoop] at h
  | succ n ih =>
    intro s s' hd hT h
    rw [procLoop] at h
    simp only [bind_def, pure_def] at h
    split at h
    · obtain ⟨s1, hs1, h⟩ := bind_eq_ok.1 h
      obtain ⟨a, _, _, hf, e⟩ := procDecl_table n s s1 (by omega) hs1
      have d1 : s1.depth = s.depth :=
        sameDepth_procRel.of_procDecl _ (block_depth_rules n).2 _ _ hs1
      rw [hd] at hf e
      refine ih s1 s' (d1.trans hd) ?_ h
      rw [e]
      exact (topTable_declare hT hf).1
    · cases h
      exact hT

theorem block_top (n : Nat) (s s' : State) (hd : s.depth = 0) (hT : TopTable s.head)
    (h : block n s = .ok s') : TopTable s'.head := by
  cases n with
  | zero => simp [block] at h
  | succ n =>
    rw [block] at h
    simp only [bind_def, pure_def] at h
    split at h
    · cases h
    · obtain ⟨s1, hs1, h⟩ := bind_eq_ok.1 h
      obtain ⟨s2, hs2, h⟩ := bind_eq_ok.1 h
      obtain ⟨s3, hs3, h⟩ := bind_eq_ok.1 h
      obtain ⟨s4, hs4, h⟩ := bind_eq_ok.1 h
      split at h
      · cases h
      · cases h
        have e1 := extends_declRel.of_constPart _ _ _ hs1
        have e2 := extends_declRel.of_varPart _ _ _ hs2
        obtain ⟨d12, _, ext, hext, hx⟩ := extends_trans e1 e2
        have hT2 : TopTable s2.head := by
          rw [hext]
          exact topTable_extend hT hx
        have hd2 : s2.depth = 1 := by
          rw [d12]
          show s.depth + 1 = 1
          omega
        have hT3 := procLoop_top n s2 s3 hd2 hT2 hs3
        have f3 : TableFrame s3 (if s3.proc = 0 then cg_procedure s3 else s3) :=
          rel_ite (cg_procedure_frame s3) (tableFrame_stepRel.refl s3)
        have f4 : TableFrame s3 s4 :=
          tableFrame_stepRel.trans _ _ _ f3 (tableFrame_stepRel.of_statement _ _ _ hs4)
        have f5 : TableFrame s3 (cg_epilogue s4) :=
          tableFrame_stepRel.trans _ _ _ f4 (cg_epilogue_frame s4)
        show TopTable (cg_epilogue s4).head
        rw [f5.1]
        exact hT3

theorem compile_top (src : String) (s' : State) (h : compile src = .ok s') :
    TopTable s'.head := by
  unfold compile parse at h
  simp only [bind_def, pure_def] at h
  obtain ⟨s1, hs1, h⟩ := bind_eq_ok.1 h
  obtain ⟨s2, hs2, h⟩ := bind_eq_ok.1 h
  obtain ⟨s3, hs3, h⟩ := bind_eq_ok.1 h
  split at h
  · cases h
  · cases h
    have f1 := next_frame _ _ hs1
    have hT1 : TopTable s1.head := by
      rw [f1.1, (cg_init_frame _).1]
      exact topTable_sentinel
    have d1 : s1.depth = 0 := by
      rw [f1.2.1, (cg_init_frame _).2.1]
      rfl
    have hT2 := block_top _ s1 s2 d1 hT1 hs2
    rw [(expect_frame _ _ _ hs3).1]
    exact hT2

theorem procDecl_duplicate (blk : State → Result State) (s a : State)
    (ha : expect TOK_PROCEDURE { s with proc := 1 } = .ok a) (ht : a.type = TOK_IDENT)
    (hx : ∃ x ∈ a.head, x.name = a.token ∧ x.depth = a.depth - 1) :
    procDecl blk s = .fatal a.line ("duplicate symbol: " ++ a.token) := by
  have hadd : addsymbol TOK_PROCEDURE a = .fatal a.line ("duplicate symbol: " ++ a.token) := by
    unfold addsymbol
    obtain ⟨x, hm, hn, hdx⟩ := hx
    rw [if_neg (List.ne_nil_of_mem hm), if_pos ((addsymbolLoop_iff _ _ _).2 ⟨x, hm, hn, hdx⟩)]
    rfl
  unfold procDecl
  simp only [bind_def, pure_def]
  rw [ha, ok_bind, if_pos ht, hadd]
  rfl

/-- C15: in the final state of every compilation that returns without error the
names of the procedure symbols of the table are `main` (the sentinel, first)
followed by names that are pairwise different and different from `main`; every
procedure declaration completed in the top-level block appends its name to these
names; and a procedure declaration whose name is that of a symbol of the same
depth, as an earlier procedure or the sentinel is in the top-level block, fails
with "duplicate symbol".  The sources `procedure main; ; .` and
`procedure p; ; procedure p; ; .` fail in this way. -/
theorem procedure_names_distinct :
    (∀ src s', compile src = .ok s' →
      ∃ ps, procNames s'.head = "main" :: ps ∧ ("main" :: ps).Nodup) ∧
    (∀ n s s', s.depth = 1 → procDecl (block n) s = .ok s' →
      ∃ a, expect TOK_PROCEDURE { s with proc := 1 } = .ok a ∧ a.type = TOK_IDENT ∧
        procNames s'.head = procNames s.head ++ [a.token]) ∧
    (∀ blk s a, expect TOK_PROCEDURE { s with proc := 1 } = .ok a → a.type = TOK_IDENT →
      (∃ x ∈ a.head, x.name = a.token ∧ x.depth = a.depth - 1) →
      procDecl blk s = .fatal a.line ("duplicate symbol: " ++ a.token)) ∧
    compile "procedure main; ; ." = .fatal 1 "duplicate symbol: main" ∧
    compile "procedure p; ; procedure p; ; ." = .fatal 1 "duplicate symbol: p" ∧
    (∃ s', compile "procedure p; ; procedure q; ; ." = .ok s' ∧
      procNames s'.head = ["main", "p", "q"]) := by
  refine ⟨?_, ?_, procDecl_duplicate, by decide!, by decide!, ?_⟩
  · intro src s' h
    obtain ⟨h1, _, h3⟩ := compile_top src s' h
    cases hh : s'.head with
    | nil => rw [hh] at h1; cases h1
    | cons x rest =>
      rw [hh] at h1 h3
      cases h1
      exact ⟨procNames rest, rfl, h3⟩
  · intro n s s' hd h
    obtain ⟨a, ha, ht, _, e⟩ := procDecl_table n s s' (by omega) h
    refine ⟨a, ha, ht, ?_⟩
    rw [e, procNames_append]
    rfl
  · exact ⟨(compile "procedure p; ; procedure q; ; .").getD (initial ""), by decide!, by decide!⟩


/-! ## The line counter follows the scan position -/

theorem lineAt_add (buf : List Char) (raw k : Nat) :
    lineAt buf (raw + k) = lineAt buf raw + ((buf.drop raw).take k).count '\n' := by
  unfold lineAt
  rw [List.take_add, List.count_append]
  omega

theorem lineAt_skip (buf : List Char) (raw k : Nat)
    (h : ∀ c ∈ (buf.drop raw).take k, c ≠ '\n') : lineAt buf (raw + k) = lineAt buf raw := by
  rw [lineAt_add, List.count_eq_zero.2]
  · rfl
  · intro hm
    exact h _ hm rfl

theorem skipWhitespace_spec (cs : List Char) : ∀ raw line,
    ∃ k, skipWhitespace cs raw line = (raw + k, line + (cs.take k).count '\n') := by
  induction cs with
  | nil => intro raw line; exact ⟨0, rfl⟩
  | cons c cs ih =>
    intro raw line
    unfold skipWhitespace
    split
    · obtain ⟨k, hk⟩ := ih (raw + 1) (if c = '\n' then line + 1 else line)
      refine ⟨k + 1, ?_⟩
      rw [hk, List.take_succ_cons, List.count_cons]
      split <;> simp_all <;> omega
    · exact ⟨0, rfl⟩

theorem commentLoop_spec (cs : List Char) : ∀ raw line raw' line',
    commentLoop cs raw line = .inr (raw', line') →
    ∃ k, raw' = raw + k ∧ line' = line + (cs.take k).count '\n' := by
  induction cs with
  | nil => intro raw line raw' line' h; simp [commentLoop] at h
  | cons c cs ih =>
    intro raw line raw' line' h
    unfold commentLoop at h
    split at h
    · rename_i hc
      cases h
      refine ⟨1, rfl, ?_⟩
      rw [hc]
      simp
    · split at h
      · cases h
      · obtain ⟨k, h1, h2⟩ := ih _ _ _ _ h
        refine ⟨k + 1, by omega, ?_⟩
        rw [h2, List.take_succ_cons, List.count_cons]
        split
        · simp_all
          omega
        · simp_all


theorem lineAt_succ (buf : List Char) (raw : Nat) (h : buf.getD raw '\x00' ≠ '\n') :
    lineAt buf (raw + 1) = lineAt buf raw := by
  apply lineAt_skip
  intro c hc
  by_cases hlt : raw < buf.length
  · rw [List.drop_eq_getElem_cons hlt] at hc
    simp only [List.take_succ_cons, List.take_zero, List.mem_singleton] at hc
    rw [List.getD_eq_getElem _ _ hlt] at h
    rw [hc]
    exact h
  · rw [List.drop_eq_nil_of_le (not_lt.1 hlt)] at hc
    simp at hc

theorem cur_lt (s : State) (h : s.cur ≠ '\x00') : s.raw < s.buf.length := by
  by_contra hlt
  unfold State.cur at h
  rw [List.getD_eq_default _ _ (not_lt.1 hlt)] at h
  exact h rfl

theorem identRun_le (l : List Char) : identRun l ≤ l.length := by
  induction l with
  | nil => simp [identRun]
  | cons a l ih =>
    unfold identRun
    split
    · simp only [List.length_cons]; omega
    · omega

theorem numberRun_le (l : List Char) : numberRun l ≤ l.length := by
  induction l with
  | nil => simp [numberRun]
  | cons a l ih =>
    unfold numberRun
    split
    · simp only [List.length_cons]; omega
    · omega

theorem alpha_facts (c : Char) (h : (c.isAlpha || c == '_') = true) :
    c ≠ '\x00' ∧ (c.isAlphanum || c == '_') = true := by
  refine ⟨?_, ?_⟩
  · rintro rfl
    revert h
    decide
  · simp only [Char.isAlphanum, Bool.or_eq_true] at h ⊢
    rcases h with h | h
    · exact Or.inl (Or.inl h)
    · exact Or.inr h

theorem ident_pos (a : State) (hc : (a.cur.isAlpha || a.cur == '_') = true)
    (hl : a.line = lineAt a.buf a.raw) :
    (ident a).2.line = lineAt a.buf ((ident a).2.raw + 1) ∧
      TokenAt a.buf ((ident a).2.raw + 1) (ident a).2.token := by
  obtain ⟨h0, hw⟩ := alpha_facts _ hc
  have hd := drop_cur a h0
  have hlt := cur_lt a h0
  have hrun : 1 ≤ identRun (a.buf.drop a.raw) := by
    rw [hd, identRun, if_pos hw]
    omega
  have hle := identRun_le (a.buf.drop a.raw)
  have hraw : (ident a).2.raw + 1 = a.raw + identRun (a.buf.drop a.raw) := by
    show a.raw + identRun (a.buf.drop a.raw) - 1 + 1 = _
    omega
  rw [hraw]
  refine ⟨?_, ?_⟩
  · show a.line = _
    rw [hl, lineAt_skip]
    intro c hm
    exact (word_not_newline c (identRun_word _ c hm)).1
  · refine ⟨a.buf.take a.raw, (a.buf.drop a.raw).drop (identRun (a.buf.drop a.raw)), ?_, ?_, ?_⟩
    · show a.buf = a.buf.take a.raw ++ (a.buf.drop a.raw).take _ ++ _
      rw [List.append_assoc, List.take_append_drop, List.take_append_drop]
    · show _ = _ + ((a.buf.drop a.raw).take _).length
      rw [List.length_take, List.length_take, min_eq_left hle, min_eq_left (le_of_lt hlt)]
    · show identRun ((a.buf.drop a.raw).take _ ++ _) = ((a.buf.drop a.raw).take _).length
      rw [List.take_append_drop, List.length_take, min_eq_left hle]

theorem number_pos (a a' : State) (t : Char) (hc : a.cur.isDigit = true)
    (hl : a.line = lineAt a.buf a.raw) (h : number a = .ok (t, a')) :
    a'.line = lineAt a.buf (a'.raw + 1) ∧ t = TOK_NUMBER := by
  have hf := digit_facts _ hc
  have hd := drop_cur a hf.2.2.2.2.2
  have hrun : 1 ≤ numberRun (a.buf.drop a.raw) := by
    rw [hd, numberRun]
    simp [hc]
  unfold number at h
  simp only at h
  split at h
  · cases h
  · cases h
    refine ⟨?_, rfl⟩
    show a.line = lineAt a.buf (a.raw + numberRun (a.buf.drop a.raw) - 1 + 1)
    have e : a.raw + numberRun (a.buf.drop a.raw) - 1 + 1
        = a.raw + numberRun (a.buf.drop a.raw) := by omega
    rw [e, hl, lineAt_skip]
    intro c hm
    rcases (numberRun_spec _).1 c hm with hdg | hu
    · exact (digit_facts c hdg).2.2.2.2.1
    · rw [hu]
      decide

theorem comment_pos (a a' : State) (hl : a.line = lineAt a.buf a.raw)
    (h : comment a = .ok a') : a'.line = lineAt a'.buf a'.raw := by
  unfold comment at h
  split at h
  · cases h
  · rename_i raw line hc
    cases h
    obtain ⟨k, h1, h2⟩ := commentLoop_spec _ _ _ _ _ hc
    show line = lineAt a.buf raw
    rw [h1, h2, lineAt_add, hl]

theorem punctuation_facts : ∀ c ∈ punctuation, c ≠ '\n' ∧ c ≠ TOK_IDENT := by
  decide

theorem lexerLoop_pos (n : Nat) : ∀ (s s' : State) (t : Char),
    s.line = lineAt s.buf s.raw → lexerLoop n s = .ok (t, s') →
    s'.line = lineAt s'.buf (s'.raw + 1) ∧
      (t = TOK_IDENT → TokenAt s'.buf (s'.raw + 1) s'.token) := by
  induction n with
  | zero => intro s s' t _ h; cases h
  | succ n ih =>
    intro s s' t hl h
    unfold lexerLoop at h
    obtain ⟨k, hk⟩ := skipWhitespace_spec (s.buf.drop s.raw) s.raw s.line
    rw [hk] at h
    simp only at h
    have hla : s.line + ((s.buf.drop s.raw).take k).count '\n' = lineAt s.buf (s.raw + k) := by
      rw [lineAt_add, hl]
    split_ifs at h with c1 c2 c3 c4 c5 c6 c7
    · cases h
      obtain ⟨h1, h2⟩ := ident_pos _ c1 hla
      exact ⟨h1, fun _ => h2⟩
    · obtain ⟨h1, h2⟩ := number_pos _ _ _ c2 hla h
      have hb : s'.buf = s.buf := (number_frame _ _ _ h).2.2.2.2
      rw [hb]
      exact ⟨h1, fun e => absurd (h2.symm.trans e) (by decide)⟩
    · obtain ⟨s1, h1, h2⟩ := bind_eq_ok.1 h
      exact ih _ _ _ (comment_pos _ _ hla h1) h2
    · cases h
      obtain ⟨p1, p2⟩ := punctuation_facts _ c4
      refine ⟨?_, fun e => absurd e p2⟩
      show s.line + _ = lineAt s.buf (s.raw + k + 1)
      rw [lineAt_succ _ _ p1, lineAt_add, hl]
    · cases h
    · cases h
      have c6' := not_not.1 c6
      refine ⟨?_, fun e => absurd e (by decide)⟩
      show s.line + _ = lineAt s.buf (s.raw + k + 1 + 1)
      have e1 : s.buf.getD (s.raw + k) '\x00' ≠ '\n' := by
        have : s.buf.getD (s.raw + k) '\x00' = ':' := c5
        rw [this]
        decide
      have e2 : s.buf.getD (s.raw + k + 1) '\x00' ≠ '\n' := by
        have : s.buf.getD (s.raw + k + 1) '\x00' = '=' := c6'
        rw [this]
        decide
      rw [lineAt_succ _ _ e2, lineAt_succ _ _ e1, lineAt_add, hl]
    · cases h
      refine ⟨?_, fun e => absurd e (by decide)⟩
      show s.line + _ = lineAt s.buf (s.raw + k + 1)
      have e1 : s.buf.getD (s.raw + k) '\x00' ≠ '\n' := by
        have : s.buf.getD (s.raw + k) '\x00' = '\x00' := c7
        rw [this]
        decide
      rw [lineAt_succ _ _ e1, lineAt_add, hl]
    · cases h

theorem next_pos (s s' : State) (hl : s.line = lineAt s.buf s.raw) (h : next s = .ok s') :
    s'.line = lineAt s'.buf s'.raw ∧ (s'.type = TOK_IDENT → TokenAt s'.buf s'.raw s'.token) := by
  unfold next lexer at h
  obtain ⟨⟨t, s1⟩, h1, h2⟩ := bind_eq_ok.1 h
  cases h2
  exact lexerLoop_pos _ _ _ _ hl h1


/-! ## Fatal errors of `block` and `parse` -/

section Sound

variable {I : State → Prop} {E : Nat → String → Prop}

theorem BlockErr.sound_procDecl (hE : BlockErr I E) (blk : State → Result State)
    (hblk : ∀ s, Sound I E s (blk s)) (s : State) : Sound I E s (procDecl blk s) := by
  rw [procDecl_eq]
  exact sound_bind (hE.decl.sound_procHeader s) fun y =>
    sound_bind (hblk y) fun b => hE.decl.sound_procFooter b

theorem BlockErr.sound_block_rules (hE : BlockErr I E) (n : Nat) :
    (∀ s, Sound I E s (procLoop n s)) ∧ (∀ s, Sound I E s (block n s)) := by
  induction n with
  | zero =>
    refine ⟨?_, ?_⟩ <;> intro s
    · simp only [procLoop]; exact sound_fuel s
    · simp only [block]; exact sound_fuel s
  | succ n ih =>
    obtain ⟨ihp, ihb⟩ := ih
    refine ⟨?_, ?_⟩ <;> intro s
    · rw [procLoop]
      simp only [bind_def, pure_def]
      exact sound_ite (fun _ => sound_bind (hE.sound_procDecl _ ihb s) ihp)
        (fun _ => sound_same s)
    · rw [block]
      simp only [bind_def, pure_def]
      refine sound_ite (fun _ => ?_) (fun hd => ?_)
      · intro hI
        refine ⟨fun s' e => (by cases e), fun l m e => ?_⟩
        cases e
        exact hE.msg s _ hI (by decide)
      · refine sound_from (hE.keep.enter s (not_lt.1 hd)) ?_
        refine sound_bind (hE.decl.sound_constPart _ _) fun s1 => ?_
        refine sound_bind (hE.decl.sound_varPart _ _) fun s2 => ?_
        refine sound_bind (ihp _) fun s3 => ?_
        have h3 : I s3 → I (if s3.proc = 0 then cg_procedure s3 else s3) := by
          split
          · rename_i hp
            exact hE.keep.mainHeader s3 hp
          · exact id
        refine sound_bind (sound_from h3 (hE.decl.step.sound_statement _ _)) fun s4 => ?_
        intro hI
        have hI4 := hE.keep.epilogue s4 hI
        split
        · refine ⟨fun s' e => (by cases e), fun l m e => ?_⟩
          cases e
          exact hE.msg (cg_epilogue s4) _ hI4 (by decide)
        · rename_i hl
          refine ⟨fun s' e => ?_, fun l m e => (by cases e)⟩
          cases e
          exact hE.keep.leave _ (not_lt.1 hl) hI4

theorem BlockErr.sound_parse (hE : BlockErr I E) (n : Nat) (s : State) :
    Sound I E s (parse n s) := by
  unfold parse
  simp only [bind_def, pure_def]
  refine sound_bind (sound_from (hE.keep.init s) (hE.decl.step.sound_next _)) fun s1 => ?_
  refine sound_bind ((hE.sound_block_rules n).2 s1) fun s2 => ?_
  refine sound_bind (hE.decl.step.sound_expect _ _) fun s3 => ?_
  intro hI
  split
  · refine ⟨fun s' e => (by cases e), fun l m e => ?_⟩
    cases e
    exact hE.msg s3 _ hI (by decide)
  · refine ⟨fun s' e => ?_, fun l m e => (by cases e)⟩
    cases e
    exact hI

end Sound


/-! ## The line of an undefined symbol -/

theorem lexSame_inStep {B : List Char} {s s' : State} (h : LexSame s s') (hI : InStep B s) :
    InStep B s' := by
  obtain ⟨hb, hr, hl, ht, hk⟩ := h
  obtain ⟨h1, h2, h3⟩ := hI
  refine ⟨hb.trans h1, ?_, ?_⟩
  · rw [hl, hb, hr]
    exact h2
  · intro e
    rw [hb, hr, hk]
    exact h3 (ht.symm.trans e)

theorem lexSame_cg_procedure (s : State) : LexSame s (cg_procedure s) := by
  unfold cg_procedure
  split <;> exact ⟨rfl, rfl, rfl, rfl, rfl⟩

theorem lexSame_cg_epilogue (s : State) : LexSame s (cg_epilogue s) := by
  unfold cg_epilogue
  simp only
  split <;> exact ⟨rfl, rfl, rfl, rfl, rfl⟩

theorem lexSame_cg_init (s : State) : LexSame s (cg_init s) := by
  unfold cg_init
  simp only [aout]
  exact ⟨rfl, rfl, rfl, rfl, rfl⟩

theorem inStep_blockRel (B : List Char) : BlockRel (fun s s' => InStep B s → InStep B s') where
  proc :=
    { decl :=
        { step :=
            { refl := fun _ h => h
              trans := fun _ _ _ h1 h2 h => h2 (h1 h)
              lex := by
                intro s s' h hI
                obtain ⟨h1, h2⟩ := next_pos s s' hI.2.1 h
                exact ⟨((next_frame s s' h).2.2.2.2).trans hI.1, h1, h2⟩
              emit := fun _ _ _ => lexSame_inStep ⟨rfl, rfl, rfl, rfl, rfl⟩
              call := fun _ _ => lexSame_inStep ⟨rfl, rfl, rfl, rfl, rfl⟩ }
          declare := by
            intro ty s s' _ h
            rw [(addsymbol_ok_eq ty s s' h).2]
            exact lexSame_inStep ⟨rfl, rfl, rfl, rfl, rfl⟩
          cgConst := fun _ => lexSame_inStep ⟨rfl, rfl, rfl, rfl, rfl⟩
          cgVar := fun _ => lexSame_inStep ⟨rfl, rfl, rfl, rfl, rfl⟩
          cgNewline := fun _ => lexSame_inStep ⟨rfl, rfl, rfl, rfl, rfl⟩ }
      header := by
        intro s s' _ h hI
        refine lexSame_inStep (lexSame_cg_procedure s') ?_
        rw [(addsymbol_ok_eq _ s s' h).2]
        exact lexSame_inStep ⟨rfl, rfl, rfl, rfl, rfl⟩ hI
      procOn := fun _ => lexSame_inStep ⟨rfl, rfl, rfl, rfl, rfl⟩
      procOff := fun _ => lexSame_inStep ⟨rfl, rfl, rfl, rfl, rfl⟩
      destroy := by
        intro s s' h
        obtain ⟨_, _, e⟩ := destroysymbols_ok s s' h
        rw [e]
        exact lexSame_inStep ⟨rfl, rfl, rfl, rfl, rfl⟩ }
  enter := fun _ _ => lexSame_inStep ⟨rfl, rfl, rfl, rfl, rfl⟩
  leave := fun _ _ => lexSame_inStep ⟨rfl, rfl, rfl, rfl, rfl⟩
  mainHeader := fun s _ => lexSame_inStep (lexSame_cg_procedure s)
  epilogue := fun s => lexSame_inStep (lexSame_cg_epilogue s)
  init := fun s => lexSame_inStep (lexSame_cg_init s)

theorem undefinedAt_of_head (B : List Char) (l : Nat) (m : String)
    (h : msgHead m ≠ "und".data) : UndefinedAt B l m := by
  intro N e
  exfalso
  apply h
  rw [e, msgHead_append _ _ (by decide)]
  decide

theorem string_append_cancel (a x y : String) (h : a ++ x = a ++ y) : x = y := by
  have h1 := congrArg String.data h
  simp only [String.data_append] at h1
  exact String.ext (List.append_cancel_left h1)

theorem symcheck_fatal (c : Nat) (s : State) (l : Nat) (m : String)
    (h : symcheck c s = .fatal l m) :
    (l = s.line ∧ m = "undefined symbol: " ++ s.token) ∨ msgHead m = "mus".data := by
  unfold symcheck at h
  split at h
  · cases h
    exact Or.inl ⟨rfl, rfl⟩
  · unfold rolecheck at h
    right
    split_ifs at h <;> cases h <;> rw [msgHead_append _ _ (by decide)] <;> decide

theorem addsymbol_fatal (ty : Char) (s : State) (l : Nat) (m : String)
    (h : addsymbol ty s = .fatal l m) : msgHead m = "dup".data := by
  unfold addsymbol at h
  split_ifs at h
  cases h
  rw [msgHead_append _ _ (by decide)]
  decide

theorem tokenAt_line (buf : List Char) (raw : Nat) (token : String)
    (h : TokenAt buf raw token) :
    ∃ pre post, buf = pre ++ token.data ++ post ∧ lineAt buf raw = 1 + pre.count '\n' ∧
      identRun (token.data ++ post) = token.length := by
  obtain ⟨pre, post, e, hr, hrun⟩ := h
  refine ⟨pre, post, e, ?_, hrun⟩
  have hw : ∀ c ∈ token.data, c ≠ '\n' := by
    intro c hc
    have := identRun_word (token.data ++ post) c (by
      rw [hrun]
      show c ∈ (token.data ++ post).take token.data.length
      rw [List.take_left]
      exact hc)
    exact (word_not_newline c this).1
  unfold lineAt
  have ht : buf.take raw = pre ++ token.data := by
    rw [e, hr, List.append_assoc]
    show List.take (pre.length + token.data.length) _ = _
    rw [← List.length_append, ← List.append_assoc, List.take_left]
  rw [ht, List.count_append, List.count_eq_zero.2 (fun hm => hw _ hm rfl)]
  rfl

theorem inStep_blockErr (B : List Char) : BlockErr (InStep B) (UndefinedAt B) where
  decl :=
    { step :=
        { keep := (inStep_blockRel B).proc.decl.step
          lex := by
            intro s l m _ h
            apply undefinedAt_of_head
            have hm := next_fatal_lex s l m h
            intro e
            rw [e] at hm
            revert hm
            decide
          sym := by
            intro c s l m hI ht h
            rcases symcheck_fatal c s l m h with ⟨hl, hm⟩ | hm
            · intro N e
              have eN : s.token = N := string_append_cancel _ _ _ (hm.symm.trans e)
              obtain ⟨pre, post, h1, h2, h3⟩ := tokenAt_line _ _ _ (hI.2.2 ht)
              rw [← eN, hl, hI.2.1, ← hI.1]
              exact ⟨pre, post, h1, h2, h3⟩
            · apply undefinedAt_of_head
              rw [hm]
              decide
          msg := by
            intro s m _ hm
            apply undefinedAt_of_head
            simp only [stmtMessages, List.mem_cons, List.mem_singleton, List.not_mem_nil,
              or_false] at hm
            rcases hm with e | e | e | e <;> subst e <;> decide }
      keep := (inStep_blockRel B).proc
      add := by
        intro ty s l m _ _ h
        apply undefinedAt_of_head
        rw [addsymbol_fatal ty s l m h]
        decide }
  keep := inStep_blockRel B
  msg := by
    intro s m _ hm
    apply undefinedAt_of_head
    simp only [blockMessages, List.mem_cons, List.mem_singleton, List.not_mem_nil,
      or_false] at hm
    rcases hm with e | e | e <;> subst e <;> decide

theorem inStep_initial (src : String) : InStep src.data (initsymtab (initial src)) :=
  ⟨rfl, rfl, fun e => absurd e (by decide : ¬ ('\x00' : Char) = TOK_IDENT)⟩

/-! ## The text written for expressions and conditions -/

theorem cg_symbol_expr (s : State) (h : s.type ∈ exprKinds) :
    cg_symbol s = aout (exprText s.type s.token) s := by
  simp only [exprKinds, List.mem_cons, List.mem_singleton, List.not_mem_nil, or_false] at h
  unfold cg_symbol exprText
  rcases h with e | e | e | e | e | e | e | e <;> rw [e] <;> simp +decide

theorem emits_out {s s' : State} {fs : List String} (h : Emits s fs s') :
    s'.out = s.out ++ fs := by
  induction h with
  | nil s => simp
  | cons _ hn _ ih =>
    rw [ih, (next_frame _ _ hn).2.2.2.1]
    simp [aout]

theorem emits_append {a b c : State} {fs gs : List String} (h1 : Emits a fs b)
    (h2 : Emits b gs c) : Emits a (fs ++ gs) c := by
  induction h1 with
  | nil s => exact h2
  | cons hk hn _ ih => exact Emits.cons hk hn (ih h2)

theorem emits_one {s s' : State} (hk : s.type ∈ exprKinds) (h : next (cg_symbol s) = .ok s') :
    Emits s [exprText s.type s.token] s' := by
  rw [cg_symbol_expr s hk] at h
  exact Emits.cons hk h (Emits.nil s')

theorem expression_emits_rules (n : Nat) :
    (∀ s s', factor n s = .ok s' → ∃ fs, Emits s fs s') ∧
    (∀ s s', termLoop n s = .ok s' → ∃ fs, Emits s fs s') ∧
    (∀ s s', term n s = .ok s' → ∃ fs, Emits s fs s') ∧
    (∀ s s', expressionLoop n s = .ok s' → ∃ fs, Emits s fs s') ∧
    (∀ s s', expression n s = .ok s' → ∃ fs, Emits s fs s') := by
  induction n with
  | zero =>
    refine ⟨?_, ?_, ?_, ?_, ?_⟩ <;> intro s s' h
    · simp [factor] at h
    · simp [termLoop] at h
    · simp [term] at h
    · simp [expressionLoop] at h
    · simp [expression] at h
  | succ n ih =>
    obtain ⟨ihf, ihtl, iht, ihel, ihe⟩ := ih
    have mem : ∀ {s : State} {k : Char}, s.type = k → k ∈ exprKinds → s.type ∈ exprKinds :=
      fun e hk => e ▸ hk
    refine ⟨?_, ?_, ?_, ?_, ?_⟩ <;> intro s s' h
    · rw [factor] at h
      simp only [bind_def, pure_def] at h
      by_cases h1 : s.type = TOK_IDENT
      · rw [if_pos h1] at h
        obtain ⟨s1, hs, hn⟩ := bind_eq_ok.1 h
        cases symcheck_ok _ _ _ hs
        exact ⟨_, emits_one (mem h1 (by decide)) hn⟩
      · rw [if_neg h1] at h
        by_cases h2 : s.type = TOK_NUMBER
        · rw [if_pos h2] at h
          exact ⟨_, emits_one (mem h2 (by decide)) h⟩
        · rw [if_neg h2] at h
          by_cases h3 : s.type = TOK_LPAREN
          · rw [if_pos h3] at h
            obtain ⟨s1, hs1, h⟩ := bind_eq_ok.1 h
            obtain ⟨s2, hs2, h⟩ := bind_eq_ok.1 h
            obtain ⟨fs, hfs⟩ := ihe _ _ hs2
            have e1 := emits_one (mem h3 (by decide)) (expect_ok _ _ _ hs1).2
            by_cases h4 : s2.type = TOK_RPAREN
            · rw [if_pos h4] at h
              have e3 := emits_one (mem h4 (by decide)) (expect_ok _ _ _ h).2
              exact ⟨_, emits_append e1 (emits_append hfs e3)⟩
            · rw [if_neg h4] at h
              exact absurd (expect_ok _ _ _ h).1 h4
          · rw [if_neg h3] at h
            cases h
            exact ⟨[], Emits.nil _⟩
    · rw [termLoop] at h
      simp only [bind_def, pure_def] at h
      split at h
      · rename_i hk
        obtain ⟨s1, hs1, h⟩ := bind_eq_ok.1 h
        obtain ⟨s2, hs2, h⟩ := bind_eq_ok.1 h
        have hk' : s.type ∈ exprKinds := by
          rcases hk with e | e
          · exact mem e (by decide)
          · exact mem e (by decide)
        obtain ⟨fs, hfs⟩ := ihf _ _ hs2
        obtain ⟨gs, hgs⟩ := ihtl _ _ h
        exact ⟨_, emits_append (emits_one hk' hs1) (emits_append hfs hgs)⟩
      · cases h
        exact ⟨[], Emits.nil _⟩
    · rw [term] at h
      simp only [bind_def] at h
      obtain ⟨s1, hs1, h⟩ := bind_eq_ok.1 h
      obtain ⟨fs, hfs⟩ := ihf _ _ hs1
      obtain ⟨gs, hgs⟩ := ihtl _ _ h
      exact ⟨_, emits_append hfs hgs⟩
    · rw [expressionLoop] at h
      simp only [bind_def, pure_def] at h
      split at h
      · rename_i hk
        obtain ⟨s1, hs1, h⟩ := bind_eq_ok.1 h
        obtain ⟨s2, hs2, h⟩ := bind_eq_ok.1 h
        have hk' : s.type ∈ exprKinds := by
          rcases hk with e | e
          · exact mem e (by decide)
          · exact mem e (by decide)
        obtain ⟨fs, hfs⟩ := iht _ _ hs2
        obtain ⟨gs, hgs⟩ := ihel _ _ h
        exact ⟨_, emits_append (emits_one hk' hs1) (emits_append hfs hgs)⟩
      · cases h
        exact ⟨[], Emits.nil _⟩
    · rw [expression] at h
      simp only [bind_def, pure_def] at h
      split at h
      · rename_i hk
        obtain ⟨s1, hs1, h⟩ := bind_eq_ok.1 h
        obtain ⟨s2, hs2, h⟩ := bind_eq_ok.1 h
        have hk' : s.type ∈ exprKinds := by
          rcases hk with e | e
          · exact mem e (by decide)
          · exact mem e (by decide)
        obtain ⟨fs, hfs⟩ := iht _ _ hs2
        obtain ⟨gs, hgs⟩ := ihel _ _ h
        exact ⟨_, emits_append (emits_one hk' hs1) (emits_append hfs hgs)⟩
      · obtain ⟨s1, hs1, h⟩ := bind_eq_ok.1 h
        cases hs1
        obtain ⟨s2, hs2, h⟩ := bind_eq_ok.1 h
        obtain ⟨fs, hfs⟩ := iht _ _ hs2
        obtain ⟨gs, hgs⟩ := ihel _ _ h
        exact ⟨_, emits_append hfs hgs⟩

theorem expression_emits (n : Nat) (s s' : State) (h : expression n s = .ok s') :
    ∃ fs, Emits s fs s' :=
  (expression_emits_rules n).2.2.2.2 s s' h


theorem cg_symbol_odd (s : State) (h : s.type = TOK_ODD) : cg_symbol s = aout "(" s := by
  unfold cg_symbol
  rw [h]
  simp +decide

theorem cg_symbol_rel (s : State)
    (h : s.type = TOK_EQUAL ∨ s.type = TOK_HASH ∨ s.type = TOK_LESSTHAN
      ∨ s.type = TOK_GREATERTHAN) :
    ∃ op, relText s.type = some op ∧ cg_symbol s = aout op s := by
  unfold cg_symbol relText
  rcases h with e | e | e | e <;> rw [e] <;> simp +decide

/-- C18: an accepted condition is either `odd E`, for which `(` is written,
then the texts of the tokens of `E` one by one in source order, then `)&1`; or
`E1 op E2` with a relational operator, for which the texts of the tokens of `E1`
are written, then the operator as `==` for `=`, `!=` for `#`, `<` for `<` and
`>` for `>`, then the texts of the tokens of `E2`.  The text of a token of an
expression is the text of the identifier or number, the operator or the
parenthesis (`Emits`, `exprText`). -/
theorem condition_emission (n : Nat) (s s' : State) (h : condition n s = .ok s') :
    (s.type = TOK_ODD ∧ ∃ s1 fs s2, next (aout "(" s) = .ok s1 ∧ Emits s1 fs s2 ∧
        s' = aout ")&1" s2 ∧ s'.out = s.out ++ ["("] ++ fs ++ [")&1"]) ∨
    (s.type ≠ TOK_ODD ∧ ∃ fs1 s1 op s2 fs2, Emits s fs1 s1 ∧ relText s1.type = some op ∧
        next (aout op s1) = .ok s2 ∧ Emits s2 fs2 s' ∧
        s'.out = s.out ++ fs1 ++ [op] ++ fs2) := by
  unfold condition at h
  simp only [bind_def, pure_def] at h
  by_cases hodd : s.type = TOK_ODD
  · rw [if_pos hodd] at h
    obtain ⟨s1, hs1, h⟩ := bind_eq_ok.1 h
    obtain ⟨s2, hs2, h⟩ := bind_eq_ok.1 h
    cases h
    have hn := (expect_ok _ _ _ hs1).2
    rw [cg_symbol_odd s hodd] at hn
    obtain ⟨fs, hfs⟩ := expression_emits _ _ _ hs2
    refine Or.inl ⟨hodd, s1, fs, s2, hn, hfs, rfl, ?_⟩
    show s2.out ++ [")&1"] = _
    rw [emits_out hfs, (next_frame _ _ hn).2.2.2.1]
    simp [aout]
  · rw [if_neg hodd] at h
    obtain ⟨s1, hs1, h⟩ := bind_eq_ok.1 h
    split at h
    · rename_i hk
      obtain ⟨s2, hs2, h⟩ := bind_eq_ok.1 h
      obtain ⟨op, hop, hcg⟩ := cg_symbol_rel s1 hk
      rw [hcg] at hs2
      obtain ⟨fs1, hfs1⟩ := expression_emits _ _ _ hs1
      obtain ⟨fs2, hfs2⟩ := expression_emits _ _ _ h
      refine Or.inr ⟨hodd, fs1, s1, op, s2, fs2, hfs1, hop, hs2, hfs2, ?_⟩
      rw [emits_out hfs2, (next_frame _ _ hs2).2.2.2.1, show (aout op s1).out = s1.out ++ [op] from rfl,
        emits_out hfs1]
    · cases h

/-- C18 for the conditions `odd (1_0 + 2) * 3` and `1 # 2_0 + 3`, with the text
written for each. -/
theorem condition_emission_witness :
    ((condition 9 (atFirstToken "odd (1_0 + 2) * 3 then")).getD (initial "")).out
      = ["(", "(", "10", "+", "2", ")", "*", "3", ")&1"] ∧
    ((condition 9 (atFirstToken "1 # 2_0 + 3 then")).getD (initial "")).out
      = ["1", "!=", "20", "+", "3"] ∧
    (((atFirstToken "1 # 2_0 + 3 then").type = TOK_ODD ∧ ∃ s1 fs s2,
        next (aout "(" (atFirstToken "1 # 2_0 + 3 then")) = .ok s1 ∧ Emits s1 fs s2 ∧
        (condition 9 (atFirstToken "1 # 2_0 + 3 then")).getD (initial "") = aout ")&1" s2 ∧
        ((condition 9 (atFirstToken "1 # 2_0 + 3 then")).getD (initial "")).out
          = (atFirstToken "1 # 2_0 + 3 then").out ++ ["("] ++ fs ++ [")&1"]) ∨
    ((atFirstToken "1 # 2_0 + 3 then").type ≠ TOK_ODD ∧ ∃ fs1 s1 op s2 fs2,
        Emits (atFirstToken "1 # 2_0 + 3 then") fs1 s1 ∧ relText s1.type = some op ∧
        next (aout op s1) = .ok s2 ∧
        Emits s2 fs2 ((condition 9 (atFirstToken "1 # 2_0 + 3 then")).getD (initial "")) ∧
        ((condition 9 (atFirstToken "1 # 2_0 + 3 then")).getD (initial "")).out
          = (atFirstToken "1 # 2_0 + 3 then").out ++ fs1 ++ [op] ++ fs2)) :=
  ⟨by decide!, by decide!,
    condition_emission 9 (atFirstToken "1 # 2_0 + 3 then")
      ((condition 9 (atFirstToken "1 # 2_0 + 3 then")).getD (initial "")) (by decide!)⟩


/-! ## The structure of the output -/

theorem marks_snoc (out : List String) (f : String) :
    marks (out ++ [f]) = marks out ++ (if isMark f then [f] else []) := by
  unfold marks
  rw [List.filter_append]
  by_cases h : isMark f = true <;> simp [List.filter, h]

theorem marks_plain (out : List String) (f : String) (h : isMark f = false) :
    marks (out ++ [f]) = marks out := by
  rw [marks_snoc, h]
  simp

theorem token_not_mark (token : String) (h : TokenOK token) : isMark token = false := by
  cases hd : token.data.reverse with
  | nil => simp [isMark, hd]
  | cons c r =>
    have hc : c ∈ token.data := by
      rw [← List.mem_reverse, hd]; exact List.mem_cons_self _ _
    have h1 := (word_not_newline c (h c hc)).1
    have h2 := (word_not_newline c (h c hc)).2.2.2
    unfold isMark
    rw [hd]
    split <;> first | rfl | skip
    all_goals
      rename_i heq
      have := (List.cons.inj heq).1
      first | exact absurd this h1 | exact absurd this h2

theorem stmtFixed_not_mark : ∀ f ∈ stmtFixed, isMark f = false := by
  decide

theorem stmtFragments_not_mark (token : String) (h : TokenOK token) :
    ∀ f ∈ stmtFragments token, isMark f = false := by
  intro f hf
  rcases List.mem_append.1 hf with hf | hf
  · simp only [stmtToken, List.mem_cons, List.mem_singleton, List.not_mem_nil, or_false] at hf
    rcases hf with e | e | e | e | e <;> rw [e]
    · exact token_not_mark token h
    all_goals simp [isMark, String.data_append]
  · exact stmtFixed_not_mark f hf

theorem markRel_aout (s : State) (f : String) (hf : isMark f = false) : MarkRel s (aout f s) :=
  fun h => ⟨h, marks_plain s.out f hf⟩

theorem markRel_same {s s' : State} (ht : s'.token = s.token) (ho : s'.out = s.out) :
    MarkRel s s' := by
  intro h
  rw [ht, ho]
  exact ⟨h, rfl⟩

theorem markRel_declRel : DeclRel MarkRel where
  step :=
    { refl := fun _ h => ⟨h, rfl⟩
      trans := fun _ _ _ h1 h2 h => ⟨(h2 (h1 h).1).1, ((h2 (h1 h).1).2).trans (h1 h).2⟩
      lex := by
        intro s s' h ht
        refine ⟨next_token s s' ht h, ?_⟩
        rw [(next_frame s s' h).2.2.2.1]
      emit := fun s f hf h => markRel_aout s f (stmtFragments_not_mark s.token h f hf) h
      call := fun s _ =>
        markRel_aout s _ (by simp [isMark, String.data_append]) }
  declare := by
    intro ty s s' _ h
    rw [(addsymbol_ok_eq ty s s' h).2]
    exact markRel_same rfl rfl
  cgConst := fun s => markRel_aout s _ (by simp [isMark, String.data_append])
  cgVar := fun s => markRel_aout s _ (by simp [isMark, String.data_append])
  cgNewline := fun s => markRel_aout s _ (by decide)


theorem marks_append (a b : List String) : marks (a ++ b) = marks a ++ marks b := by
  unfold marks
  rw [List.filter_append]

theorem headerText_mark (X : String) : isMark (headerText X) = true := by
  simp [isMark, headerText, String.data_append]

theorem cg_procedure_out (s : State) :
    (cg_procedure s).out = s.out ++
      (if s.proc = 0 then ["int\n", "main(int argc, char *argv[])\n", "\x7b\n"]
        else ["void\n", headerText s.token, "\x7b\n"]) ∧
    (cg_procedure s).token = s.token := by
  unfold cg_procedure
  split <;> simp [aout, headerText]

theorem cg_epilogue_out (s : State) :
    (cg_epilogue s).out = s.out ++
      (if s.proc = 0 then [";", "return 0;", "\n\x7d\n\n"] else [";", "\n\x7d\n\n"]) ∧
    (cg_epilogue s).token = s.token := by
  unfold cg_epilogue
  simp only
  split <;> rename_i h <;> simp [aout] at h ⊢ <;> simp [h]

theorem marks_subroutine (X : String) :
    marks ["void\n", headerText X, "\x7b\n"] = ["void\n", headerText X] := by
  have h1 : isMark "void\n" = true := by decide
  have h3 : isMark "\x7b\n" = false := by decide
  simp [marks, List.filter, h1, h3, headerText_mark X]

theorem marks_main :
    marks ["int\n", "main(int argc, char *argv[])\n", "\x7b\n"]
      = ["int\n", "main(int argc, char *argv[])\n"] := by
  decide

theorem marks_epilogue_main : marks [";", "return 0;", "\n\x7d\n\n"] = ["return 0;"] := by
  decide

theorem marks_epilogue_sub : marks [";", "\n\x7d\n\n"] = [] := by
  decide

theorem marks_preamble : marks preamble = [] := by
  decide

theorem block_inner_marks (n : Nat) (s s' : State) (hd : s.depth = 1) (hp : s.proc = 1)
    (ht : TokenOK s.token) (h : block n s = .ok s') :
    TokenOK s'.token ∧ marks s'.out = marks s.out := by
  cases n with
  | zero => simp [block] at h
  | succ n =>
    rw [block] at h
    simp only [bind_def, pure_def] at h
    split at h
    · cases h
    · obtain ⟨s1, hs1, h⟩ := bind_eq_ok.1 h
      obtain ⟨s2, hs2, h⟩ := bind_eq_ok.1 h
      obtain ⟨s3, hs3, h⟩ := bind_eq_ok.1 h
      obtain ⟨s4, hs4, h⟩ := bind_eq_ok.1 h
      split at h
      · cases h
      · cases h
        have e12 := extends_trans (extends_declRel.of_constPart _ _ _ hs1)
          (extends_declRel.of_varPart _ _ _ hs2)
        have m1 := markRel_declRel.of_constPart _ _ _ hs1 ht
        have m2 := markRel_declRel.of_varPart _ _ _ hs2 m1.1
        have hd2 : 1 < s2.depth := by
          rw [e12.1]
          show 1 < s.depth + 1
          omega
        have hp2 : s2.proc = 1 := e12.2.1.trans hp
        have e3 := procLoop_deep n s2 s3 hd2 hs3
        rw [e3] at hs4
        have hne : ¬ s2.proc = 0 := by rw [hp2]; decide
        rw [if_neg hne] at hs4
        have m4 := markRel_declRel.step.of_statement _ _ _ hs4 m2.1
        have hp4 : s4.proc = 1 := ((tableFrame_stepRel.of_statement _ _ _ hs4).2.2).trans hp2
        have hne4 : ¬ s4.proc = 0 := by rw [hp4]; decide
        obtain ⟨o5, t5⟩ := cg_epilogue_out s4
        rw [if_neg hne4] at o5
        refine ⟨?_, ?_⟩
        · show TokenOK (cg_epilogue s4).token
          rw [t5]
          exact m4.1
        · show marks (cg_epilogue s4).out = marks s.out
          rw [o5, marks_append, marks_epilogue_sub, List.append_nil, m4.2, m2.2, m1.2]

theorem procHeader_marks (s y : State) (ht : TokenOK s.token) (h : procHeader s = .ok y) :
    ∃ a, expect TOK_PROCEDURE { s with proc := 1 } = .ok a ∧ TokenOK y.token ∧
      marks y.out = marks s.out ++ ["void\n", headerText a.token] ∧ y.proc = 1 := by
  unfold procHeader at h
  simp only [bind_def, pure_def] at h
  obtain ⟨a, ha, h⟩ := bind_eq_ok.1 h
  have fa := expect_frame _ _ _ ha
  have ht1 : TokenOK ({ s with proc := 1 } : State).token := ht
  have ta : TokenOK a.token := next_token _ _ ht1 (expect_ok _ _ _ ha).2
  have pa : a.proc = 1 := fa.2.2.1
  by_cases hi : a.type = TOK_IDENT
  · rw [if_pos hi] at h
    obtain ⟨b, hb, h⟩ := bind_eq_ok.1 h
    obtain ⟨b', hadd, hb⟩ := bind_eq_ok.1 hb
    cases hb
    obtain ⟨c, hc, h⟩ := bind_eq_ok.1 h
    obtain ⟨_, e⟩ := addsymbol_ok_eq _ _ _ hadd
    have pb : b'.proc = 1 := by rw [e]; exact pa
    have tb : b'.token = a.token := by rw [e]
    have ob : b'.out = s.out := by rw [e]; exact fa.2.2.2.1
    obtain ⟨o1, t1⟩ := cg_procedure_out b'
    have hne : ¬ b'.proc = 0 := by rw [pb]; decide
    rw [if_neg hne, tb, ob] at o1
    have fc := expect_frame _ _ _ hc
    have fy := expect_frame _ _ _ h
    have tcg : TokenOK (cg_procedure b').token := by rw [t1, tb]; exact ta
    have tc : TokenOK c.token := next_token _ _ tcg (expect_ok _ _ _ hc).2
    refine ⟨a, ha, next_token _ _ tc (expect_ok _ _ _ h).2, ?_, ?_⟩
    · rw [fy.2.2.2.1, fc.2.2.2.1, o1, marks_append, marks_subroutine]
    · rw [fy.2.2.1, fc.2.2.1, (cg_procedure_frame b').2.2, pb]
  · rw [if_neg hi, ok_bind] at h
    obtain ⟨c, hc, h⟩ := bind_eq_ok.1 h
    exact absurd (expect_ok _ _ _ hc).1 hi

theorem procFooter_marks (s s' : State) (ht : TokenOK s.token) (h : procFooter s = .ok s') :
    TokenOK s'.token ∧ marks s'.out = marks s.out ∧ s'.proc = 0 := by
  unfold procFooter at h
  simp only [bind_def] at h
  obtain ⟨c, hc, h⟩ := bind_eq_ok.1 h
  obtain ⟨_, _, e⟩ := destroysymbols_ok _ _ h
  have fc := expect_frame _ _ _ hc
  have tk : s'.token = c.token := by rw [e]
  have ok : s'.out = c.out := by rw [e]
  have pk : s'.proc = 0 := by rw [e]
  refine ⟨?_, ?_, pk⟩
  · rw [tk]
    exact next_token _ _ ht (expect_ok _ _ _ hc).2
  · rw [ok, fc.2.2.2.1]

theorem procDecl_marks (n : Nat) (s s' : State) (hd : s.depth = 1) (ht : TokenOK s.token)
    (h : procDecl (block n) s = .ok s') :
    ∃ a, expect TOK_PROCEDURE { s with proc := 1 } = .ok a ∧ TokenOK s'.token ∧
      marks s'.out = marks s.out ++ ["void\n", headerText a.token] ∧ s'.proc = 0 := by
  rw [procDecl_eq] at h
  obtain ⟨y, hy, h⟩ := bind_eq_ok.1 h
  obtain ⟨b, hb, h⟩ := bind_eq_ok.1 h
  obtain ⟨a, ha, ty, my, py⟩ := procHeader_marks s y ht hy
  have dy : y.depth = 1 := (procHeader_depth s y hy).trans hd
  obtain ⟨tb, mb⟩ := block_inner_marks n y b dy py ty hb
  obtain ⟨ts, ms, ps⟩ := procFooter_marks b s' tb h
  exact ⟨a, ha, ts, by rw [ms, mb, my], ps⟩


theorem subroutineMarks_cons (p : String) (ps : List String) :
    subroutineMarks (p :: ps) = ["void\n", headerText p] ++ subroutineMarks ps := by
  simp [subroutineMarks, List.flatMap]

theorem procLoop_marks (n : Nat) : ∀ s s', s.depth = 1 → s.proc = 0 → TokenOK s.token →
    procLoop n s = .ok s' →
    ∃ ps, procNames s'.head = procNames s.head ++ ps ∧
      marks s'.out = marks s.out ++ subroutineMarks ps ∧ TokenOK s'.token ∧ s'.proc = 0 := by
  induction n with
  | zero => intro s s' _ _ _ h; simp [procLoop] at h
  | succ n ih =>
    intro s s' hd hp ht h
    rw [procLoop] at h
    simp only [bind_def, pure_def] at h
    split at h
    · obtain ⟨s1, hs1, h⟩ := bind_eq_ok.1 h
      obtain ⟨a, ha, _, _, e⟩ := procDecl_table n s s1 (by omega) hs1
      obtain ⟨a', ha', t1, m1, p1⟩ := procDecl_marks n s s1 hd ht hs1
      have ea : a' = a := by
        rw [ha] at ha'
        cases ha'
        rfl
      subst ea
      have d1 : s1.depth = 1 :=
        (sameDepth_procRel.of_procDecl _ (block_depth_rules n).2 _ _ hs1).trans hd
      obtain ⟨ps, hn, hm, t2, p2⟩ := ih s1 s' d1 p1 t1 h
      refine ⟨a'.token :: ps, ?_, ?_, t2, p2⟩
      · rw [hn, e, procNames_append]
        simp [procNames]
      · rw [hm, m1, subroutineMarks_cons, List.append_assoc]
    · cases h
      exact ⟨[], by simp, by simp [subroutineMarks], ht, hp⟩

theorem block_top_marks (n : Nat) (s s' : State) (hd : s.depth = 0) (hp : s.proc = 0)
    (ht : TokenOK s.token) (h : block n s = .ok s') :
    ∃ ps, procNames s'.head = procNames s.head ++ ps ∧
      marks s'.out = marks s.out ++ subroutineMarks ps ++
        ["int\n", "main(int argc, char *argv[])\n", "return 0;"] ∧
      ∃ pre, s'.out = pre ++ [";", "return 0;", "\n\x7d\n\n"] := by
  cases n with
  | zero => simp [block] at h
  | succ n =>
    rw [block] at h
    simp only [bind_def, pure_def] at h
    split at h
    · cases h
    · obtain ⟨s1, hs1, h⟩ := bind_eq_ok.1 h
      obtain ⟨s2, hs2, h⟩ := bind_eq_ok.1 h
      obtain ⟨s3, hs3, h⟩ := bind_eq_ok.1 h
      obtain ⟨s4, hs4, h⟩ := bind_eq_ok.1 h
      split at h
      · cases h
      · cases h
        obtain ⟨d12, p12, ext, hext, hx⟩ := extends_trans (extends_declRel.of_constPart _ _ _ hs1)
          (extends_declRel.of_varPart _ _ _ hs2)
        have m1 := markRel_declRel.of_constPart _ _ _ hs1 ht
        have m2 := markRel_declRel.of_varPart _ _ _ hs2 m1.1
        have hd2 : s2.depth = 1 := by
          rw [d12]
          show s.depth + 1 = 1
          omega
        have hp2 : s2.proc = 0 := p12.trans hp
        obtain ⟨ps, hn, hm, t3, p3⟩ := procLoop_marks n s2 s3 hd2 hp2 m2.1 hs3
        rw [if_pos p3] at hs4
        obtain ⟨o3, k3⟩ := cg_procedure_out s3
        rw [if_pos p3] at o3
        have t3' : TokenOK (cg_procedure s3).token := by rw [k3]; exact t3
        have m4 := markRel_declRel.step.of_statement _ _ _ hs4 t3'
        have hp4 : s4.proc = 0 :=
          ((tableFrame_stepRel.of_statement _ _ _ hs4).2.2).trans
            (((cg_procedure_frame s3).2.2).trans p3)
        obtain ⟨o5, _⟩ := cg_epilogue_out s4
        rw [if_pos hp4] at o5
        refine ⟨ps, ?_, ?_, s4.out, o5⟩
        · have f3 : TableFrame s3 (cg_procedure s3) := cg_procedure_frame s3
          have f4 : TableFrame s3 s4 :=
            tableFrame_stepRel.trans _ _ _ f3 (tableFrame_stepRel.of_statement _ _ _ hs4)
          have f5 : TableFrame s3 (cg_epilogue s4) :=
            tableFrame_stepRel.trans _ _ _ f4 (cg_epilogue_frame s4)
          show procNames (cg_epilogue s4).head = _
          rw [f5.1, hn, hext]
          show procNames (s.head ++ ext) ++ ps = _
          rw [procNames_append, procNames_plain ext hx, List.append_nil]
        · show marks (cg_epilogue s4).out = _
          rw [o5, marks_append, marks_epilogue_main, m4.2, o3, marks_append, marks_main, hm,
            m2.2, m1.2]
          show marks s.out ++ subroutineMarks ps ++ _ ++ _ = _
          simp

theorem outGrows_blockRel : BlockRel (fun a b : State => ∃ body, b.out = a.out ++ body) := by
  refine PlainRel.toBlockRel
    { refl := fun a => ⟨[], by simp⟩
      trans := ?_
      lex := fun a b e => ⟨[], by rw [(next_frame a b e).2.2.2.1]; simp⟩
      emit := fun a f _ => ⟨[f], rfl⟩
      call := fun a _ => ⟨[_], rfl⟩ } ?_ ?_ (fun a => ⟨[], by simp⟩) (fun a => ⟨[], by simp⟩)
    (fun a _ => ⟨[], by simp⟩) (fun a _ => ⟨[], by simp⟩) ?_
  · rintro a b c ⟨x, hx⟩ ⟨y, hy⟩
    exact ⟨x ++ y, by rw [hy, hx, List.append_assoc]⟩
  · intro ty a b _ e
    rw [(addsymbol_ok_eq ty a b e).2]
    exact ⟨[], by simp⟩
  · intro a b _ e
    obtain ⟨o, _⟩ := cg_procedure_out b
    have ob : b.out = a.out := by rw [(addsymbol_ok_eq _ a b e).2]
    exact ⟨_, by rw [o, ob]⟩
  · intro a b e
    obtain ⟨_, _, e'⟩ := destroysymbols_ok a b e
    have ob : b.out = a.out := by rw [e']
    exact ⟨[], by rw [ob]; simp⟩

theorem compile_marks (src : String) (s' : State) (h : compile src = .ok s') :
    ∃ ps, procNames s'.head = "main" :: ps ∧
      marks s'.out = subroutineMarks ps ++
        ["int\n", "main(int argc, char *argv[])\n", "return 0;"] ∧
      (∃ body, s'.out = preamble ++ body) ∧
      ∃ pre, s'.out = pre ++ [";", "return 0;", "\n\x7d\n\n"] := by
  unfold compile parse at h
  simp only [bind_def, pure_def] at h
  obtain ⟨s1, hs1, h⟩ := bind_eq_ok.1 h
  obtain ⟨s2, hs2, h⟩ := bind_eq_ok.1 h
  obtain ⟨s3, hs3, h⟩ := bind_eq_ok.1 h
  split at h
  · cases h
  · cases h
    have f1 := next_frame _ _ hs1
    have f3 := expect_frame _ _ _ hs3
    have o1 : s1.out = preamble := by
      rw [f1.2.2.2.1]
      unfold cg_init
      simp only [aout]
      rfl
    have h1 : s1.head = [sentinel] := by
      rw [f1.1, (cg_init_frame _).1]
      rfl
    have d1 : s1.depth = 0 := by
      rw [f1.2.1, (cg_init_frame _).2.1]
      rfl
    have p1 : s1.proc = 0 := by
      rw [f1.2.2.1, (cg_init_frame _).2.2]
      rfl
    have t0 : TokenOK (cg_init (initsymtab (initial src))).token := by
      rw [(lexSame_cg_init _).2.2.2.2]
      intro c hc
      cases hc
    have t1 : TokenOK s1.token := next_token _ _ t0 hs1
    obtain ⟨ps, hn, hm, pre, hpre⟩ := block_top_marks _ s1 s2 d1 p1 t1 hs2
    refine ⟨ps, ?_, ?_, ?_, pre, ?_⟩
    · rw [f3.1, hn, h1]
      rfl
    · rw [f3.2.2.2.1, hm, o1, marks_preamble]
      simp
    · obtain ⟨body, hbody⟩ := outGrows_blockRel.of_block _ _ _ hs2
      exact ⟨body, by rw [f3.2.2.2.1, hbody, o1]⟩
    · rw [f3.2.2.2.1]
      exact hpre


theorem count_return (ps : List String) :
    (subroutineMarks ps ++ ["int\n", "main(int argc, char *argv[])\n", "return 0;"]).count
      "return 0;" = 1 := by
  have h0 : (subroutineMarks ps).count "return 0;" = 0 := by
    rw [List.count_eq_zero]
    intro hm
    unfold subroutineMarks at hm
    obtain ⟨p, _, hp⟩ := List.mem_flatMap.1 hm
    simp only [List.mem_cons, List.mem_singleton, List.not_mem_nil, or_false] at hp
    rcases hp with e | e
    · exact absurd e (by decide)
    · have := congrArg (fun f : String => f.data.reverse.head?) e
      simp [headerText, String.data_append] at this
  rw [List.count_append, h0]
  decide

/-- C14: in the output of every compilation that returns without error, for the
procedures `ps` of the final symbol table after the sentinel (the procedures
declared, in the order of their declarations, see C15), the marks of the output
are, in this order: `void` and the header `p(void)` for each procedure `p` of
`ps`, then `int` and the header of `main` once, then `return 0;` once.  The
output starts with the preamble and ends with the epilogue `;`, `return 0;`,
closing brace; `return 0;` occurs once in it.  `cg_procedure` writes the three
texts of a header together, and `cg_epilogue` writes `return 0;` only when
`proc` is 0, not in the epilogue of a procedure. -/
theorem output_shape :
    (∀ src s', compile src = .ok s' →
      ∃ ps, procNames s'.head = "main" :: ps ∧
        marks s'.out = subroutineMarks ps ++
          ["int\n", "main(int argc, char *argv[])\n", "return 0;"] ∧
        (∃ body, s'.out = preamble ++ body) ∧
        (∃ pre, s'.out = pre ++ [";", "return 0;", "\n\x7d\n\n"]) ∧
        s'.out.count "return 0;" = 1) ∧
    (∀ s, (cg_procedure s).out = s.out ++
      (if s.proc = 0 then ["int\n", "main(int argc, char *argv[])\n", "\x7b\n"]
        else ["void\n", headerText s.token, "\x7b\n"])) ∧
    (∀ s, (cg_epilogue s).out = s.out ++
      (if s.proc = 0 then [";", "return 0;", "\n\x7d\n\n"] else [";", "\n\x7d\n\n"])) ∧
    (isMark "void\n" = true ∧ isMark "int\n" = true ∧
      isMark "main(int argc, char *argv[])\n" = true ∧ isMark "return 0;" = true ∧
      ∀ X, isMark (headerText X) = true) ∧
    marks ((compile "var x; procedure p; ; procedure q; begin x := 1 end; call q.").getD
        (initial "")).out
      = ["void\n", "p(void)\n", "void\n", "q(void)\n", "int\n",
          "main(int argc, char *argv[])\n", "return 0;"] := by
  refine ⟨?_, fun s => (cg_procedure_out s).1, fun s => (cg_epilogue_out s).1,
    ⟨by decide, by decide, by decide, by decide, headerText_mark⟩, by decide!⟩
  intro src s' h
  obtain ⟨ps, h1, h2, h3, h4⟩ := compile_marks src s' h
  refine ⟨ps, h1, h2, h3, h4, ?_⟩
  have hc : s'.out.count "return 0;" = (marks s'.out).count "return 0;" := by
    unfold marks
    rw [List.count_filter]
    decide
  rw [hc, h2]
  exact count_return ps


/-! ## The lexer makes progress and stays in the buffer -/

theorem skipWhitespace_bound (cs : List Char) : ∀ raw line,
    raw ≤ (skipWhitespace cs raw line).1 ∧ (skipWhitespace cs raw line).1 ≤ raw + cs.length := by
  induction cs with
  | nil => intro raw line; simp [skipWhitespace]
  | cons c cs ih =>
    intro raw line
    unfold skipWhitespace
    split
    · have := ih (raw + 1) (if c = '\n' then line + 1 else line)
      simp only [List.length_cons]
      omega
    · simp

theorem commentLoop_bound (cs : List Char) : ∀ raw line raw' line',
    commentLoop cs raw line = .inr (raw', line') → raw < raw' ∧ raw' ≤ raw + cs.length := by
  induction cs with
  | nil => intro raw line raw' line' h; simp [commentLoop] at h
  | cons c cs ih =>
    intro raw line raw' line' h
    unfold commentLoop at h
    split at h
    · cases h
      simp
    · split at h
      · cases h
      · have := ih _ _ _ _ h
        simp only [List.length_cons]
        omega

theorem punctuation_ne_eof : ∀ c ∈ punctuation, c ≠ '\x00' ∧ c ≠ TOK_EOF := by
  decide

theorem length_drop_raw (s : State) (h : s.raw ≤ s.buf.length) :
    s.raw + (s.buf.drop s.raw).length = s.buf.length := by
  rw [List.length_drop]
  omega

theorem lexerLoop_total (n : Nat) : ∀ (s : State), s.raw ≤ s.buf.length →
    s.buf.length + 1 ≤ n + s.raw →
    lexerLoop n s ≠ .fuel ∧ lexerLoop n s ≠ .undef ∧
      ∀ t s', lexerLoop n s = .ok (t, s') →
        s.raw ≤ s'.raw ∧ s'.raw ≤ s.buf.length ∧ (t ≠ TOK_EOF → s'.raw + 1 ≤ s.buf.length) := by
  induction n with
  | zero => intro s h1 h2; omega
  | succ n ih =>
    intro s h1 h2
    have hb := skipWhitespace_bound (s.buf.drop s.raw) s.raw s.line
    have hlen := length_drop_raw s h1
    unfold lexerLoop
    simp only
    generalize hsk : skipWhitespace (s.buf.drop s.raw) s.raw s.line = p at hb
    obtain ⟨ra, la⟩ := p
    simp only at hb ⊢
    have hra : ra ≤ s.buf.length := by omega
    split_ifs with c1 c2 c3 c4 c5 c6 c7
    · refine ⟨by simp, by simp, ?_⟩
      intro t s' e
      cases e
      have c1' : (State.cur { s with raw := ra, line := la }).isAlpha = true ∨
          State.cur { s with raw := ra, line := la } = '_' := by simpa using c1
      obtain ⟨h0, hw⟩ := alpha_facts _ c1
      have hd := drop_cur { s with raw := ra, line := la } h0
      have hlt := cur_lt { s with raw := ra, line := la } h0
      have hrun : 1 ≤ identRun (s.buf.drop ra) := by
        have hd' : s.buf.drop ra = _ := hd
        rw [hd', identRun, if_pos hw]
        omega
      have hle := identRun_le (s.buf.drop ra)
      have hl2 : (s.buf.drop ra).length = s.buf.length - ra := List.length_drop _ _
      have hlt' : ra < s.buf.length := hlt
      show s.raw ≤ ra + identRun (s.buf.drop ra) - 1 ∧
        ra + identRun (s.buf.drop ra) - 1 ≤ s.buf.length ∧
        (_ → ra + identRun (s.buf.drop ra) - 1 + 1 ≤ s.buf.length)
      refine ⟨by omega, by omega, fun _ => by omega⟩
    · have hf := digit_facts _ c2
      have hd := drop_cur { s with raw := ra, line := la } hf.2.2.2.2.2
      have hlt : ra < s.buf.length := cur_lt { s with raw := ra, line := la } hf.2.2.2.2.2
      have hrun : 1 ≤ numberRun (s.buf.drop ra) := by
        have hd' : s.buf.drop ra = _ := hd
        rw [hd', numberRun]
        simp [c2]
      have hle := numberRun_le (s.buf.drop ra)
      have hl2 : (s.buf.drop ra).length = s.buf.length - ra := List.length_drop _ _
      unfold number
      simp only
      split
      · refine ⟨by simp [error], by simp [error], ?_⟩
        intro t s' e
        cases e
      · refine ⟨by simp, by simp, ?_⟩
        intro t s' e
        cases e
        show s.raw ≤ ra + numberRun (s.buf.drop ra) - 1 ∧
          ra + numberRun (s.buf.drop ra) - 1 ≤ s.buf.length ∧
          (_ → ra + numberRun (s.buf.drop ra) - 1 + 1 ≤ s.buf.length)
        refine ⟨by omega, by omega, fun _ => by omega⟩
    · unfold comment
      split
      · refine ⟨by simp, by simp, ?_⟩
        intro t s' e
        cases e
      · rename_i rb lb hc
        have hcb := commentLoop_bound _ _ _ _ _ hc
        have hl2 : (s.buf.drop ra).length = s.buf.length - ra := List.length_drop _ _
        have hcb' : ra < rb ∧ rb ≤ ra + (s.buf.drop ra).length := hcb
        rw [ok_bind]
        obtain ⟨i1, i2, i3⟩ := ih { s with raw := rb, line := lb } (by show rb ≤ s.buf.length; omega)
          (by show s.buf.length + 1 ≤ n + rb; omega)
        refine ⟨i1, i2, ?_⟩
        intro t s' e
        obtain ⟨j1, j2, j3⟩ := i3 t s' e
        have j1' : rb ≤ s'.raw := j1
        exact ⟨by omega, j2, j3⟩
    · refine ⟨by simp, by simp, ?_⟩
      intro t s' e
      cases e
      have h0 := (punctuation_ne_eof _ c4).1
      have hlt : ra < s.buf.length := cur_lt { s with raw := ra, line := la } h0
      show s.raw ≤ ra ∧ ra ≤ s.buf.length ∧ (_ → ra + 1 ≤ s.buf.length)
      exact ⟨by omega, by omega, fun _ => by omega⟩
    · refine ⟨by simp [error], by simp [error], ?_⟩
      intro t s' e
      cases e
    · refine ⟨by simp, by simp, ?_⟩
      intro t s' e
      cases e
      have c6' : State.cur { s with raw := ra + 1, line := la } = '=' := not_not.1 c6
      have h0 : State.cur { s with raw := ra + 1, line := la } ≠ '\x00' := by
        rw [c6']
        decide
      have hlt : ra + 1 < s.buf.length := cur_lt { s with raw := ra + 1, line := la } h0
      show s.raw ≤ ra + 1 ∧ ra + 1 ≤ s.buf.length ∧ (_ → ra + 1 + 1 ≤ s.buf.length)
      exact ⟨by omega, by omega, fun _ => by omega⟩
    · refine ⟨by simp, by simp, ?_⟩
      intro t s' e
      cases e
      show s.raw ≤ ra ∧ ra ≤ s.buf.length ∧ (_ → ra + 1 ≤ s.buf.length)
      exact ⟨by omega, by omega, fun hne => absurd rfl hne⟩
    · refine ⟨by simp [error], by simp [error], ?_⟩
      intro t s' e
      cases e

theorem next_total (s : State) (h : s.raw ≤ s.buf.length) :
    next s ≠ .fuel ∧ next s ≠ .undef ∧
      ∀ s', next s = .ok s' →
        s.raw < s'.raw ∧ s'.raw ≤ s.buf.length + 1 ∧ (s'.type ≠ TOK_EOF → s'.raw ≤ s.buf.length) := by
  obtain ⟨h1, h2, h3⟩ := lexerLoop_total (s.buf.length + 1) s h (by omega)
  unfold next lexer
  refine ⟨?_, ?_, ?_⟩
  · intro e
    cases hl : lexerLoop (s.buf.length + 1) s with
    | ok a => rw [hl] at e; cases e
    | fatal l m => rw [hl] at e; cases e
    | fuel => exact h1 hl
    | undef => exact h2 hl
  · intro e
    cases hl : lexerLoop (s.buf.length + 1) s with
    | ok a => rw [hl] at e; cases e
    | fatal l m => rw [hl] at e; cases e
    | fuel => exact h1 hl
    | undef => exact h2 hl
  · intro s' e
    obtain ⟨⟨t, s1⟩, hl, e2⟩ := bind_eq_ok.1 e
    cases e2
    obtain ⟨j1, j2, j3⟩ := h3 t s1 hl
    exact ⟨by show s.raw < s1.raw + 1; omega, by show s1.raw + 1 ≤ _; omega, fun hne => j3 hne⟩


theorem lexerLoop_mono (n : Nat) : ∀ (s s' : State) (t : Char),
    lexerLoop n s = .ok (t, s') → s.raw ≤ s'.raw := by
  induction n with
  | zero => intro s s' t h; cases h
  | succ n ih =>
    intro s s' t h
    have hb := skipWhitespace_bound (s.buf.drop s.raw) s.raw s.line
    unfold lexerLoop at h
    simp only at h
    generalize hsk : skipWhitespace (s.buf.drop s.raw) s.raw s.line = p at hb h
    obtain ⟨ra, la⟩ := p
    simp only at hb h
    split_ifs at h with c1 c2 c3 c4 c5 c6 c7
    · cases h
      obtain ⟨h0, hw⟩ := alpha_facts _ c1
      have hd := drop_cur { s with raw := ra, line := la } h0
      have hrun : 1 ≤ identRun (s.buf.drop ra) := by
        have hd' : s.buf.drop ra = _ := hd
        rw [hd', identRun, if_pos hw]
        omega
      show s.raw ≤ ra + identRun (s.buf.drop ra) - 1
      omega
    · have hf := digit_facts _ c2
      have hd := drop_cur { s with raw := ra, line := la } hf.2.2.2.2.2
      have hrun : 1 ≤ numberRun (s.buf.drop ra) := by
        have hd' : s.buf.drop ra = _ := hd
        rw [hd', numberRun]
        simp [c2]
      unfold number at h
      simp only at h
      split at h
      · cases h
      · cases h
        show s.raw ≤ ra + numberRun (s.buf.drop ra) - 1
        omega
    · obtain ⟨s1, h1, h2⟩ := bind_eq_ok.1 h
      unfold comment at h1
      split at h1
      · cases h1
      · rename_i rb lb hc
        cases h1
        have hcb : ra < rb ∧ _ := commentLoop_bound _ _ _ _ _ hc
        have := ih _ _ _ h2
        have h3 : rb ≤ s'.raw := this
        omega
    · cases h
      exact hb.1
    · cases h
    · cases h
      show s.raw ≤ ra + 1
      omega
    · cases h
      exact hb.1
    · cases h

theorem next_progress (s s' : State) (h : next s = .ok s') : s.raw < s'.raw := by
  unfold next lexer at h
  obtain ⟨⟨t, s1⟩, hl, e⟩ := bind_eq_ok.1 h
  cases e
  have := lexerLoop_mono _ _ _ _ hl
  show s.raw < s1.raw + 1
  omega

/-! ## No grammar rule runs out of budget -/

theorem finishes_bind {p : Prop} {r : Result State} {f : State → Result State}
    {Q R : State → Prop} (hr : Finishes p r Q) (hf : ∀ a, Finishes (Q a) (f a) R) :
    Finishes p (r.bind f) R := by
  intro hp
  obtain ⟨h1, h2, h3⟩ := hr hp
  cases hres : r with
  | ok a =>
    rw [ok_bind]
    exact hf a (h1 a hres)
  | fatal l m => exact ⟨fun s' e => (by cases e), fun e => (by cases e), fun e => (by cases e)⟩
  | fuel => exact absurd hres h2
  | undef => exact absurd hres h3

theorem finishes_ite {c : Prop} [Decidable c] {p : Prop} {r1 r2 : Result State}
    {Q : State → Prop} (h1 : c → Finishes p r1 Q) (h2 : ¬ c → Finishes p r2 Q) :
    Finishes p (if c then r1 else r2) Q := by
  split
  · exact h1 ‹_›
  · exact h2 ‹_›

theorem finishes_error {p : Prop} (a : State) (m : String) (Q : State → Prop) :
    Finishes p (error a m) Q :=
  fun _ => ⟨fun s' e => (by cases e), fun e => (by cases e), fun e => (by cases e)⟩

theorem finishes_ok {p : Prop} {Q : State → Prop} {x : State} (h : p → Q x) :
    Finishes p (.ok x) Q := by
  intro hp
  refine ⟨?_, fun e => (by cases e), fun e => (by cases e)⟩
  intro s' e
  cases e
  exact h hp

theorem finishes_from {p q : Prop} {r : Result State} {Q : State → Prop} (h : p → q)
    (hr : Finishes q r Q) : Finishes p r Q :=
  fun hp => hr (h hp)

theorem within_quiet {s0 a x : State} {c c' : Nat} (hx : LexSame a x) (hh : x.head = a.head)
    (hc : c' ≤ c) (h : Within s0 c a) : Within s0 c' x := by
  obtain ⟨⟨⟨i1, i2⟩, rest, hr⟩, hrem⟩ := h
  obtain ⟨e1, e2, _, e4, _⟩ := hx
  refine ⟨⟨⟨?_, ?_⟩, rest, hh.trans hr⟩, ?_⟩
  · rw [e1, e2]; exact i1
  · rw [e1, e2, e4]; exact i2
  · unfold remaining at hrem ⊢
    rw [e1, e2]
    omega

theorem quiet_aout (f : String) (a : State) : LexSame a (aout f a) ∧ (aout f a).head = a.head :=
  ⟨⟨rfl, rfl, rfl, rfl, rfl⟩, rfl⟩

theorem quiet_cg_symbol (a : State) : LexSame a (cg_symbol a) ∧ (cg_symbol a).head = a.head := by
  unfold cg_symbol
  iterate 19 refine rel_ite (R := fun a x => LexSame a x ∧ x.head = a.head) (quiet_aout _ a) ?_
  exact ⟨⟨rfl, rfl, rfl, rfl, rfl⟩, rfl⟩

theorem quiet_cg_readint (a : State) : LexSame a (cg_readint a) ∧ (cg_readint a).head = a.head := by
  unfold cg_readint
  simp [LexSame, aout]

section Within

variable {s0 : State} {c c' : Nat}

theorem fin_next (a : State) (ht : a.type ≠ TOK_EOF) (hc : c' ≤ 1) :
    Finishes (Within s0 c a) (next a) (Within s0 c') := by
  intro ⟨⟨⟨i1, i2⟩, rest, hr⟩, hrem⟩
  obtain ⟨h1, h2, h3⟩ := next_total a (i2 ht)
  refine ⟨?_, h1, h2⟩
  intro s' e
  obtain ⟨j1, j2, j3⟩ := h3 s' e
  have f := next_frame a s' e
  refine ⟨⟨⟨?_, ?_⟩, rest, f.1.trans hr⟩, ?_⟩
  · rw [f.2.2.2.2]; exact j2
  · rw [f.2.2.2.2]; exact j3
  · unfold remaining at hrem ⊢
    rw [f.2.2.2.2]
    have := i2 ht
    omega

theorem fin_next_at {a x : State} (hx : LexSame a x ∧ x.head = a.head) (ht : a.type ≠ TOK_EOF)
    (hc : c' ≤ 1) : Finishes (Within s0 c a) (next x) (Within s0 c') :=
  finishes_from (within_quiet hx.1 hx.2 (le_refl c)) (fin_next x (by rw [hx.1.2.2.2.1]; exact ht) hc)

theorem fin_expect (m : Char) (hm : m ≠ TOK_EOF) (a : State) (hc : c' ≤ 1) :
    Finishes (Within s0 c a) (expect m a) (Within s0 c') := by
  unfold expect
  refine finishes_ite (fun _ => finishes_error _ _ _) (fun h => fin_next a ?_ hc)
  rw [← not_not.1 h]
  exact hm

theorem fin_expect_at (m : Char) (hm : m ≠ TOK_EOF) {a x : State}
    (hx : LexSame a x ∧ x.head = a.head) (hc : c' ≤ 1) :
    Finishes (Within s0 c a) (expect m x) (Within s0 c') :=
  finishes_from (within_quiet hx.1 hx.2 (le_refl c)) (fin_expect m hm x hc)

theorem fin_next_sym (a : State) (ht : a.type ≠ TOK_EOF) (hc : c' ≤ 1) :
    Finishes (Within s0 c a) (next (cg_symbol a)) (Within s0 c') :=
  fin_next_at (quiet_cg_symbol a) ht hc

theorem fin_expect_sym (m : Char) (hm : m ≠ TOK_EOF) (a : State) (hc : c' ≤ 1) :
    Finishes (Within s0 c a) (expect m (cg_symbol a)) (Within s0 c') :=
  fin_expect_at m hm (quiet_cg_symbol a) hc

theorem fin_expect_ite (m : Char) (hm : m ≠ TOK_EOF) (k : Prop) [Decidable k] (a : State)
    (hc : c' ≤ 1) :
    Finishes (Within s0 c a) (expect m (if k then cg_symbol a else a)) (Within s0 c') :=
  fin_expect_at m hm
    (rel_ite (R := fun a x => LexSame a x ∧ x.head = a.head) (quiet_cg_symbol a)
      ⟨⟨rfl, rfl, rfl, rfl, rfl⟩, rfl⟩) hc

theorem fin_expect_semi (m : Char) (hm : m ≠ TOK_EOF) (a : State) (hc : c' ≤ 1) :
    Finishes (Within s0 c a) (expect m (cg_semicolon a)) (Within s0 c') :=
  fin_expect_at m hm (quiet_aout _ a) hc

theorem fin_same (a : State) (hc : c' ≤ c) :
    Finishes (Within s0 c a) (.ok a) (Within s0 c') :=
  finishes_ok (within_quiet ⟨rfl, rfl, rfl, rfl, rfl⟩ rfl hc)

theorem fin_quiet {a x : State} (hx : LexSame a x ∧ x.head = a.head) (hc : c' ≤ c) :
    Finishes (Within s0 c a) (.ok x) (Within s0 c') :=
  finishes_ok (within_quiet hx.1 hx.2 hc)

theorem fin_symcheck_then (k : Nat) (a : State) {f : State → Result State} {Q : State → Prop}
    (hf : Finishes (Within s0 c a) (f a) Q) :
    Finishes (Within s0 c a) ((symcheck k a).bind f) Q := by
  intro hp
  cases hres : symcheck k a with
  | ok b =>
    rw [ok_bind, symcheck_ok _ _ _ hres]
    exact hf hp
  | fatal l m => exact ⟨fun s' e => (by cases e), fun e => (by cases e), fun e => (by cases e)⟩
  | fuel =>
    unfold symcheck at hres
    split at hres
    · cases hres
    · unfold rolecheck at hres
      split_ifs at hres <;> cases hres
  | undef =>
    unfold symcheck at hres
    split at hres
    · cases hres
    · unfold rolecheck at hres
      split_ifs at hres <;> cases hres

theorem fin_call {g : State → Result State} {a : State}
    (hg : Within s0 c a → Finishes (Safe a) (g a) (Within a 0)) (hc : c' ≤ c) :
    Finishes (Within s0 c a) (g a) (Within s0 c') := by
  intro hw
  obtain ⟨h1, h2, h3⟩ := hg hw hw.1
  refine ⟨?_, h2, h3⟩
  intro s' e
  obtain ⟨hs, hr⟩ := h1 s' e
  exact ⟨hs, by have := hw.2; omega⟩

end Within

theorem type_ne_eof {a : State} {k : Char} (h : a.type = k) (hk : k ≠ TOK_EOF) :
    a.type ≠ TOK_EOF := by
  rw [h]
  exact hk

theorem type_ne_eof2 {a : State} {k1 k2 : Char} (h : a.type = k1 ∨ a.type = k2)
    (h1 : k1 ≠ TOK_EOF) (h2 : k2 ≠ TOK_EOF) : a.type ≠ TOK_EOF := by
  rcases h with e | e <;> rw [e] <;> assumption


theorem within_start {s : State} (h : Safe s) : Within s 0 s :=
  ⟨h, le_refl _⟩

theorem expression_finishes_rules (n : Nat) :
    (∀ s, 3 * remaining s + 1 ≤ n → Finishes (Safe s) (factor n s) (Within s 0)) ∧
    (∀ s, 3 * remaining s + 1 ≤ n → Finishes (Safe s) (termLoop n s) (Within s 0)) ∧
    (∀ s, 3 * remaining s + 2 ≤ n → Finishes (Safe s) (term n s) (Within s 0)) ∧
    (∀ s, 3 * remaining s + 1 ≤ n → Finishes (Safe s) (expressionLoop n s) (Within s 0)) ∧
    (∀ s, 3 * remaining s + 3 ≤ n → Finishes (Safe s) (expression n s) (Within s 0)) := by
  induction n with
  | zero =>
    refine ⟨?_, ?_, ?_, ?_, ?_⟩ <;> intro s h <;> omega
  | succ n ih =>
    obtain ⟨ihf, ihtl, iht, ihel, ihe⟩ := ih
    refine ⟨?_, ?_, ?_, ?_, ?_⟩ <;> intro s hfuel <;> refine finishes_from within_start ?_
    · have callE : ∀ (a : State) (c' : Nat), c' ≤ 1 →
          Finishes (Within s 1 a) (expression n a) (Within s c') := fun a c' hc =>
        fin_call (fun hw => ihe a (by have := hw.2; omega)) hc
      rw [factor]
      simp only [bind_def, pure_def]
      with_reducible repeat' first
        | refine finishes_ite (fun h => ?_) (fun h => ?_)
        | apply fin_symcheck_then
        | apply finishes_bind
        | intro a
        | exact callE _ _ (le_refl _)
        | exact callE _ _ (Nat.zero_le _)
        | exact fin_expect_ite _ (by decide) _ _ (le_refl _)
        | exact fin_expect_ite _ (by decide) _ _ (Nat.zero_le _)
        | exact fin_expect_sym _ (by decide) _ (le_refl _)
        | exact fin_next_sym _ (type_ne_eof h (by decide)) (Nat.zero_le _)
        | exact fin_same _ (le_refl _)
    · have callF : ∀ (a : State) (c' : Nat), c' ≤ 1 →
          Finishes (Within s 1 a) (factor n a) (Within s c') := fun a c' hc =>
        fin_call (fun hw => ihf a (by have := hw.2; omega)) hc
      have callTL : ∀ (a : State) (c' : Nat), c' ≤ 1 →
          Finishes (Within s 1 a) (termLoop n a) (Within s c') := fun a c' hc =>
        fin_call (fun hw => ihtl a (by have := hw.2; omega)) hc
      rw [termLoop]
      simp only [bind_def, pure_def]
      with_reducible repeat' first
        | refine finishes_ite (fun h => ?_) (fun h => ?_)
        | apply finishes_bind
        | intro a
        | exact callF _ _ (le_refl _)
        | exact callTL _ _ (Nat.zero_le _)
        | exact fin_next_sym _ (type_ne_eof2 h (by decide) (by decide)) (le_refl _)
        | exact fin_same _ (le_refl _)
    · have callF : ∀ (c : Nat) (a : State) (c' : Nat), c' ≤ c →
          Finishes (Within s c a) (factor n a) (Within s c') := fun c a c' hc =>
        fin_call (fun hw => ihf a (by have := hw.2; omega)) hc
      have callTL : ∀ (c : Nat) (a : State) (c' : Nat), c' ≤ c →
          Finishes (Within s c a) (termLoop n a) (Within s c') := fun c a c' hc =>
        fin_call (fun hw => ihtl a (by have := hw.2; omega)) hc
      rw [term]
      simp only [bind_def]
      exact finishes_bind (callF 0 s 0 (le_refl _)) fun a => callTL 0 a 0 (le_refl _)
    · have callT : ∀ (a : State) (c' : Nat), c' ≤ 1 →
          Finishes (Within s 1 a) (term n a) (Within s c') := fun a c' hc =>
        fin_call (fun hw => iht a (by have := hw.2; omega)) hc
      have callEL : ∀ (a : State) (c' : Nat), c' ≤ 1 →
          Finishes (Within s 1 a) (expressionLoop n a) (Within s c') := fun a c' hc =>
        fin_call (fun hw => ihel a (by have := hw.2; omega)) hc
      rw [expressionLoop]
      simp only [bind_def, pure_def]
      with_reducible repeat' first
        | refine finishes_ite (fun h => ?_) (fun h => ?_)
        | apply finishes_bind
        | intro a
        | exact callT _ _ (le_refl _)
        | exact callEL _ _ (Nat.zero_le _)
        | exact fin_next_sym _ (type_ne_eof2 h (by decide) (by decide)) (le_refl _)
        | exact fin_same _ (le_refl _)
    · have callT : ∀ (c : Nat) (a : State) (c' : Nat), c' ≤ c →
          Finishes (Within s c a) (term n a) (Within s c') := fun c a c' hc =>
        fin_call (fun hw => iht a (by have := hw.2; omega)) hc
      have callEL : ∀ (c : Nat) (a : State) (c' : Nat), c' ≤ c →
          Finishes (Within s c a) (expressionLoop n a) (Within s c') := fun c a c' hc =>
        fin_call (fun hw => ihel a (by have := hw.2; omega)) hc
      rw [expression]
      simp only [bind_def, pure_def]
      with_reducible repeat' first
        | refine finishes_ite (fun h => ?_) (fun h => ?_)
        | apply finishes_bind
        | intro a
        | exact callT _ _ _ (le_refl _)
        | exact callEL _ _ _ (Nat.zero_le _)
        | exact fin_next_sym _ (type_ne_eof2 h (by decide) (by decide)) (le_refl _)
        | exact fin_same _ (le_refl _)


theorem type_ne_eof4 {a : State} {k1 k2 k3 k4 : Char}
    (h : a.type = k1 ∨ a.type = k2 ∨ a.type = k3 ∨ a.type = k4)
    (h1 : k1 ≠ TOK_EOF) (h2 : k2 ≠ TOK_EOF) (h3 : k3 ≠ TOK_EOF) (h4 : k4 ≠ TOK_EOF) :
    a.type ≠ TOK_EOF := by
  rcases h with e | e | e | e <;> rw [e] <;> assumption

section Within

variable {s0 : State} {c c' : Nat}

theorem fin_cg_odd (a : State) (hc : c' ≤ c) :
    Finishes (Within s0 c a) (.ok (cg_odd a)) (Within s0 c') :=
  fin_quiet (quiet_aout _ a) hc

theorem fin_cg_call (a : State) (hc : c' ≤ c) :
    Finishes (Within s0 c a) (.ok (cg_call a)) (Within s0 c') :=
  fin_quiet (quiet_aout _ a) hc

theorem fin_cg_writeint (a : State) (hc : c' ≤ c) :
    Finishes (Within s0 c a) (.ok (cg_writeint a)) (Within s0 c') :=
  fin_quiet (quiet_aout _ a) hc

theorem fin_cg_writechar (a : State) (hc : c' ≤ c) :
    Finishes (Within s0 c a) (.ok (cg_writechar a)) (Within s0 c') :=
  fin_quiet (quiet_aout _ a) hc

theorem fin_cg_readchar (a : State) (hc : c' ≤ c) :
    Finishes (Within s0 c a) (.ok (cg_readchar a)) (Within s0 c') :=
  fin_quiet (quiet_aout _ a) hc

theorem fin_cg_readint (a : State) (hc : c' ≤ c) :
    Finishes (Within s0 c a) (.ok (cg_readint a)) (Within s0 c') :=
  fin_quiet (quiet_cg_readint a) hc

end Within

theorem condition_finishes (n : Nat) (s : State) (hfuel : 3 * remaining s + 3 ≤ n) :
    Finishes (Safe s) (condition n s) (Within s 0) := by
  have callE : ∀ (c : Nat) (a : State) (c' : Nat), c' ≤ c →
      Finishes (Within s c a) (expression n a) (Within s c') := fun c a c' hc =>
    fin_call (fun hw => (expression_finishes_rules n).2.2.2.2 a (by have := hw.2; omega)) hc
  refine finishes_from within_start ?_
  unfold condition
  simp only [bind_def, pure_def]
  with_reducible repeat' first
    | refine finishes_ite (fun h => ?_) (fun h => ?_)
    | apply finishes_bind
    | intro a
    | exact callE _ _ _ (le_refl _)
    | exact callE _ _ _ (Nat.zero_le _)
    | exact fin_expect_sym _ (by decide) _ (le_refl _)
    | exact fin_next_sym _ (type_ne_eof4 h (by decide) (by decide) (by decide) (by decide))
        (le_refl _)
    | exact fin_cg_odd _ (Nat.zero_le _)
    | apply finishes_error

theorem statement_finishes_rules (n : Nat) :
    (∀ s, 3 * remaining s + 1 ≤ n → Finishes (Safe s) (statementLoop n s) (Within s 0)) ∧
    (∀ s, 3 * remaining s + 1 ≤ n → Finishes (Safe s) (statement n s) (Within s 0)) := by
  induction n with
  | zero =>
    refine ⟨?_, ?_⟩ <;> intro s h <;> omega
  | succ n ih =>
    obtain ⟨ihl, ihs⟩ := ih
    refine ⟨?_, ?_⟩ <;> intro s hfuel <;> refine finishes_from within_start ?_
    · have callS : ∀ (a : State) (c' : Nat), c' ≤ 1 →
          Finishes (Within s 1 a) (statement n a) (Within s c') := fun a c' hc =>
        fin_call (fun hw => ihs a (by have := hw.2; omega)) hc
      have callL : ∀ (a : State) (c' : Nat), c' ≤ 1 →
          Finishes (Within s 1 a) (statementLoop n a) (Within s c') := fun a c' hc =>
        fin_call (fun hw => ihl a (by have := hw.2; omega)) hc
      rw [statementLoop]
      simp only [bind_def, pure_def]
      with_reducible repeat' first
        | refine finishes_ite (fun h => ?_) (fun h => ?_)
        | apply finishes_bind
        | intro a
        | exact callS _ _ (le_refl _)
        | exact callL _ _ (Nat.zero_le _)
        | exact fin_expect_semi _ (by decide) _ (le_refl _)
        | exact fin_same _ (le_refl _)
    · have callS : ∀ (a : State) (c' : Nat), c' ≤ 1 →
          Finishes (Within s 1 a) (statement n a) (Within s c') := fun a c' hc =>
        fin_call (fun hw => ihs a (by have := hw.2; omega)) hc
      have callL : ∀ (a : State) (c' : Nat), c' ≤ 1 →
          Finishes (Within s 1 a) (statementLoop n a) (Within s c') := fun a c' hc =>
        fin_call (fun hw => ihl a (by have := hw.2; omega)) hc
      have callE : ∀ (a : State) (c' : Nat), c' ≤ 1 →
          Finishes (Within s 1 a) (expression n a) (Within s c') := fun a c' hc =>
        fin_call (fun hw => (expression_finishes_rules n).2.2.2.2 a (by have := hw.2; omega)) hc
      have callC : ∀ (a : State) (c' : Nat), c' ≤ 1 →
          Finishes (Within s 1 a) (condition n a) (Within s c') := fun a c' hc =>
        fin_call (fun hw => condition_finishes n a (by have := hw.2; omega)) hc
      rw [statement]
      simp only [bind_def, pure_def]
      with_reducible repeat' first
        | refine finishes_ite (fun h => ?_) (fun h => ?_)
        | apply fin_symcheck_then
        | apply finishes_bind
        | intro a
        | exact callS _ _ (le_refl _)
        | exact callS _ _ (Nat.zero_le _)
        | exact callL _ _ (le_refl _)
        | exact callE _ _ (Nat.zero_le _)
        | exact callC _ _ (le_refl _)
        | exact fin_expect_ite _ (by decide) _ _ (le_refl _)
        | exact fin_expect_ite _ (by decide) _ _ (Nat.zero_le _)
        | exact fin_expect_sym _ (by decide) _ (le_refl _)
        | exact fin_expect _ (by decide) _ (le_refl _)
        | exact fin_expect _ (by decide) _ (Nat.zero_le _)
        | exact fin_cg_call _ (le_refl _)
        | exact fin_cg_writeint _ (le_refl _)
        | exact fin_cg_writechar _ (le_refl _)
        | exact fin_cg_readint _ (le_refl _)
        | exact fin_cg_readchar _ (le_refl _)
        | exact fin_same _ (le_refl _)
        | exact fin_same _ (Nat.zero_le _)
        | apply finishes_error


section Within

variable {s0 : State} {c c' : Nat}

theorem fin_addsymbol (ty : Char) (a : State) (hc : c' ≤ c) :
    Finishes (Within s0 c a) (addsymbol ty a) (Within s0 c') := by
  intro hw
  obtain ⟨⟨hb, rest, hr⟩, hrem⟩ := hw
  have hne : a.head ≠ [] := by rw [hr]; exact List.cons_ne_nil _ _
  unfold addsymbol
  rw [if_neg hne]
  split
  · exact ⟨fun s' e => (by cases e), fun e => (by cases e), fun e => (by cases e)⟩
  · refine ⟨?_, fun e => (by cases e), fun e => (by cases e)⟩
    intro s' e
    cases e
    refine ⟨⟨hb, rest ++ [{ depth := a.depth - 1, type := ty, name := a.token }], ?_⟩, ?_⟩
    · show a.head ++ [_] = _
      rw [hr]
      rfl
    · have : remaining a + c ≤ remaining s0 := hrem
      show remaining a + c' ≤ remaining s0
      omega

theorem fin_destroy (a : State) (hc : c' ≤ c) :
    Finishes (Within s0 c a) (destroysymbols { a with proc := 0 }) (Within s0 c') := by
  intro hw
  obtain ⟨⟨hb, rest, hr⟩, hrem⟩ := hw
  obtain ⟨kept, removed, _, _, hd⟩ :=
    destroysymbols_keeps_first { a with proc := 0 } sentinel rest hr rfl
  rw [hd]
  refine ⟨?_, fun e => (by cases e), fun e => (by cases e)⟩
  intro s' e
  cases e
  refine ⟨⟨hb, kept, rfl⟩, ?_⟩
  have : remaining a + c ≤ remaining s0 := hrem
  show remaining a + c' ≤ remaining s0
  omega

theorem fin_cg_const (a : State) (hc : c' ≤ c) :
    Finishes (Within s0 c a) (.ok (cg_const a)) (Within s0 c') :=
  fin_quiet (quiet_aout _ a) hc

theorem fin_cg_var (a : State) (hc : c' ≤ c) :
    Finishes (Within s0 c a) (.ok (cg_var a)) (Within s0 c') :=
  fin_quiet (quiet_aout _ a) hc

theorem fin_cg_newline (a : State) (hc : c' ≤ c) :
    Finishes (Within s0 c a) (.ok (cg_newline a)) (Within s0 c') :=
  fin_quiet (quiet_aout _ a) hc

theorem quiet_cg_procedure (a : State) :
    LexSame a (cg_procedure a) ∧ (cg_procedure a).head = a.head :=
  ⟨lexSame_cg_procedure a, (cg_procedure_frame a).1⟩

theorem fin_cg_procedure (a : State) (hc : c' ≤ c) :
    Finishes (Within s0 c a) (.ok (cg_procedure a)) (Within s0 c') :=
  fin_quiet (quiet_cg_procedure a) hc

theorem fin_expect_number (k : Prop) [Decidable k] (a : State) (hc : c' ≤ 1) :
    Finishes (Within s0 c a)
      (expect TOK_NUMBER (if k then cg_semicolon (cg_symbol a) else a)) (Within s0 c') := by
  refine fin_expect_at _ (by decide) ?_ hc
  split
  · exact ⟨⟨(quiet_cg_symbol a).1.1, (quiet_cg_symbol a).1.2.1, (quiet_cg_symbol a).1.2.2.1,
      (quiet_cg_symbol a).1.2.2.2.1, (quiet_cg_symbol a).1.2.2.2.2⟩, (quiet_cg_symbol a).2⟩
  · exact ⟨⟨rfl, rfl, rfl, rfl, rfl⟩, rfl⟩

theorem constItem_finishes (a : State) :
    Finishes (Within s0 c a) (constItem a) (Within s0 1) := by
  unfold constItem
  simp only [bind_def, pure_def]
  with_reducible repeat' first
    | refine finishes_ite (fun h => ?_) (fun h => ?_)
    | apply finishes_bind
    | intro a
    | exact fin_expect_number _ _ (le_refl _)
    | exact fin_expect _ (by decide) _ (le_refl _)
    | exact fin_addsymbol _ _ (le_refl _)
    | exact fin_cg_const _ (le_refl _)
    | exact fin_same _ (le_refl _)

theorem varItem_finishes (a : State) :
    Finishes (Within s0 c a) (varItem a) (Within s0 1) := by
  unfold varItem
  simp only [bind_def, pure_def]
  with_reducible repeat' first
    | refine finishes_ite (fun h => ?_) (fun h => ?_)
    | apply finishes_bind
    | intro a
    | exact fin_expect _ (by decide) _ (le_refl _)
    | exact fin_addsymbol _ _ (le_refl _)
    | exact fin_cg_var _ (le_refl _)
    | exact fin_same _ (le_refl _)

end Within

theorem constLoop_finishes (n : Nat) : ∀ s, 3 * remaining s + 1 ≤ n →
    Finishes (Safe s) (constLoop n s) (Within s 0) := by
  induction n with
  | zero => intro s h; omega
  | succ n ih =>
    intro s hfuel
    have callL : ∀ (a : State), Finishes (Within s 1 a) (constLoop n a) (Within s 0) :=
      fun a => fin_call (fun hw => ih a (by have := hw.2; omega)) (Nat.zero_le _)
    refine finishes_from within_start ?_
    rw [constLoop]
    simp only [bind_def, pure_def]
    with_reducible repeat' first
      | refine finishes_ite (fun h => ?_) (fun h => ?_)
      | apply finishes_bind
      | intro a
      | exact callL _
      | exact constItem_finishes _
      | exact fin_expect _ (by decide) _ (le_refl _)
      | exact fin_same _ (le_refl _)

theorem varLoop_finishes (n : Nat) : ∀ s, 3 * remaining s + 1 ≤ n →
    Finishes (Safe s) (varLoop n s) (Within s 0) := by
  induction n with
  | zero => intro s h; omega
  | succ n ih =>
    intro s hfuel
    have callL : ∀ (a : State), Finishes (Within s 1 a) (varLoop n a) (Within s 0) :=
      fun a => fin_call (fun hw => ih a (by have := hw.2; omega)) (Nat.zero_le _)
    refine finishes_from within_start ?_
    rw [varLoop]
    simp only [bind_def, pure_def]
    with_reducible repeat' first
      | refine finishes_ite (fun h => ?_) (fun h => ?_)
      | apply finishes_bind
      | intro a
      | exact callL _
      | exact varItem_finishes _
      | exact fin_expect _ (by decide) _ (le_refl _)
      | exact fin_same _ (le_refl _)

theorem constPart_finishes (n : Nat) (s : State) (hfuel : 3 * remaining s + 1 ≤ n) :
    Finishes (Safe s) (constPart n s) (Within s 0) := by
  have callL : ∀ (a : State), Finishes (Within s 1 a) (constLoop n a) (Within s 1) :=
    fun a => fin_call (fun hw => constLoop_finishes n a (by have := hw.2; omega)) (le_refl _)
  refine finishes_from within_start ?_
  unfold constPart
  simp only [bind_def, pure_def]
  with_reducible repeat' first
    | refine finishes_ite (fun h => ?_) (fun h => ?_)
    | apply finishes_bind
    | intro a
    | exact callL _
    | exact constItem_finishes _
    | exact fin_expect _ (by decide) _ (le_refl _)
    | exact fin_expect _ (by decide) _ (Nat.zero_le _)
    | exact fin_same _ (le_refl _)

theorem varPart_finishes (n : Nat) (s : State) (hfuel : 3 * remaining s + 1 ≤ n) :
    Finishes (Safe s) (varPart n s) (Within s 0) := by
  have callL : ∀ (a : State), Finishes (Within s 1 a) (varLoop n a) (Within s 1) :=
    fun a => fin_call (fun hw => varLoop_finishes n a (by have := hw.2; omega)) (le_refl _)
  refine finishes_from within_start ?_
  unfold varPart
  simp only [bind_def, pure_def]
  with_reducible repeat' first
    | refine finishes_ite (fun h => ?_) (fun h => ?_)
    | apply finishes_bind
    | intro a
    | exact callL _
    | exact varItem_finishes _
    | exact fin_expect _ (by decide) _ (le_refl _)
    | exact fin_cg_newline _ (Nat.zero_le _)
    | exact fin_same _ (le_refl _)


section Within

variable {s0 : State} {c : Nat}

theorem procHeader_finishes (a : State) :
    Finishes (Within s0 c a) (procHeader a) (Within s0 1) := by
  unfold procHeader
  simp only [bind_def, pure_def]
  have h1 : Finishes (Within s0 c a) (expect TOK_PROCEDURE { a with proc := 1 }) (Within s0 1) :=
    fin_expect_at _ (by decide) ⟨⟨rfl, rfl, rfl, rfl, rfl⟩, rfl⟩ (le_refl _)
  refine finishes_bind h1 fun b => ?_
  with_reducible repeat' first
    | refine finishes_ite (fun h => ?_) (fun h => ?_)
    | apply finishes_bind
    | intro a
    | exact fin_expect _ (by decide) _ (le_refl _)
    | exact fin_addsymbol _ _ (le_refl _)
    | exact fin_cg_procedure _ (le_refl _)
    | exact fin_same _ (le_refl _)

theorem procFooter_finishes (a : State) :
    Finishes (Within s0 1 a) (procFooter a) (Within s0 1) := by
  unfold procFooter
  simp only [bind_def]
  exact finishes_bind (fin_expect _ (by decide) _ (le_refl _)) fun b => fin_destroy b (le_refl _)

end Within

theorem block_finishes_rules (n : Nat) :
    (∀ s, 3 * remaining s + 1 ≤ n → Finishes (Safe s) (procLoop n s) (Within s 0)) ∧
    (∀ s, 3 * remaining s + 2 ≤ n → Finishes (Safe s) (block n s) (Within s 0)) := by
  induction n with
  | zero =>
    refine ⟨?_, ?_⟩ <;> intro s h <;> omega
  | succ n ih =>
    obtain ⟨ihp, ihb⟩ := ih
    refine ⟨?_, ?_⟩ <;> intro s hfuel <;> refine finishes_from within_start ?_
    · have callB : ∀ (a : State), Finishes (Within s 1 a) (block n a) (Within s 1) :=
        fun a => fin_call (fun hw => ihb a (by have := hw.2; omega)) (le_refl _)
      have callP : ∀ (a : State), Finishes (Within s 1 a) (procLoop n a) (Within s 0) :=
        fun a => fin_call (fun hw => ihp a (by have := hw.2; omega)) (Nat.zero_le _)
      rw [procLoop]
      simp only [bind_def, pure_def]
      refine finishes_ite (fun _ => ?_) (fun _ => fin_same s (le_refl _))
      rw [procDecl_eq]
      exact finishes_bind
        (finishes_bind (procHeader_finishes s) fun y =>
          finishes_bind (callB y) fun b => procFooter_finishes b) callP
    · have callC : ∀ (a : State), Finishes (Within s 0 a) (constPart n a) (Within s 0) :=
        fun a => fin_call (fun hw => constPart_finishes n a (by have := hw.2; omega)) (le_refl _)
      have callV : ∀ (a : State), Finishes (Within s 0 a) (varPart n a) (Within s 0) :=
        fun a => fin_call (fun hw => varPart_finishes n a (by have := hw.2; omega)) (le_refl _)
      have callP : ∀ (a : State), Finishes (Within s 0 a) (procLoop n a) (Within s 0) :=
        fun a => fin_call (fun hw => ihp a (by have := hw.2; omega)) (le_refl _)
      have callS : ∀ (a : State), Finishes (Within s 0 a) (statement n a) (Within s 0) :=
        fun a => fin_call (fun hw => (statement_finishes_rules n).2 a (by have := hw.2; omega))
          (le_refl _)
      rw [block]
      simp only [bind_def, pure_def]
      refine finishes_ite (fun _ => finishes_error _ _ _) (fun _ => ?_)
      have h0 : Within s 0 s → Within s 0 ({ s with depth := s.depth + 1 } : State) :=
        within_quiet ⟨rfl, rfl, rfl, rfl, rfl⟩ rfl (le_refl 0)
      refine finishes_bind (finishes_from h0 (callC _)) fun s1 => ?_
      refine finishes_bind (callV s1) fun s2 => ?_
      refine finishes_bind (callP s2) fun s3 => ?_
      have h3 : Within s 0 s3 → Within s 0 (if s3.proc = 0 then cg_procedure s3 else s3) := by
        split
        · exact within_quiet (quiet_cg_procedure s3).1 (quiet_cg_procedure s3).2 (le_refl 0)
        · exact id
      refine finishes_bind (finishes_from h3 (callS _)) fun s4 => ?_
      have h5 : Within s 0 s4 → Within s 0 (cg_epilogue s4) :=
        within_quiet (lexSame_cg_epilogue s4) (cg_epilogue_frame s4).1 (le_refl 0)
      have h6 : Within s 0 (cg_epilogue s4) →
          Within s 0 ({ cg_epilogue s4 with depth := (cg_epilogue s4).depth - 1 } : State) :=
        within_quiet ⟨rfl, rfl, rfl, rfl, rfl⟩ rfl (le_refl 0)
      exact finishes_ite (fun _ => finishes_error _ _ _)
        (fun _ => finishes_ok fun hw => h6 (h5 hw))

theorem parse_finishes (n : Nat) (s : State) (hs : Safe s) (hraw : s.raw ≤ s.buf.length)
    (hfuel : 3 * remaining s + 2 ≤ n) :
    Finishes True (parse n s) (fun s' => Safe s' ∧ s'.type = TOK_EOF) := by
  have q0 := lexSame_cg_init s
  have hh0 : (cg_init s).head = s.head := (cg_init_frame s).1
  have hraw0 : (cg_init s).raw ≤ (cg_init s).buf.length := by
    rw [q0.1, q0.2.1]
    exact hraw
  obtain ⟨n1, n2, n3⟩ := next_total (cg_init s) hraw0
  have h1 : Finishes True (next (cg_init s)) (Within s 0) := by
    intro _
    refine ⟨?_, n1, n2⟩
    intro s1 e
    obtain ⟨j1, j2, j3⟩ := n3 s1 e
    have f := next_frame _ _ e
    obtain ⟨_, rest, hr⟩ := hs
    refine ⟨⟨⟨?_, ?_⟩, rest, (f.1.trans hh0).trans hr⟩, ?_⟩
    · rw [f.2.2.2.2]; exact j2
    · rw [f.2.2.2.2]; exact j3
    · unfold remaining
      rw [f.2.2.2.2, q0.1]
      rw [q0.2.1] at j1
      omega
  have callB : ∀ (a : State), Finishes (Within s 0 a) (block n a) (Within s 0) :=
    fun a => fin_call (fun hw => (block_finishes_rules n).2 a (by have := hw.2; omega))
      (le_refl _)
  unfold parse
  simp only [bind_def, pure_def]
  refine finishes_bind h1 fun s1 => ?_
  refine finishes_bind (callB s1) fun s2 => ?_
  refine finishes_bind (fin_expect TOK_DOT (by decide) s2 (Nat.zero_le _)) fun s3 => ?_
  refine finishes_ite (fun _ => finishes_error _ _ _) (fun h => finishes_ok fun hw => ?_)
  exact ⟨hw.1, not_not.1 h⟩

theorem compile_finishes (src : String) :
    Finishes True (compile src) (fun s' => Safe s' ∧ s'.type = TOK_EOF) := by
  unfold compile
  refine parse_finishes _ _ ⟨⟨Nat.zero_le _, fun _ => Nat.zero_le _⟩, [], rfl⟩ (Nat.zero_le _) ?_
  show 3 * (src.data.length + 1 - 0) + 2 ≤ 8 * src.length + 16
  show 3 * (src.length + 1 - 0) + 2 ≤ 8 * src.length + 16
  omega


theorem finishes_cases {r : Result State} {Q : State → Prop} (h : Finishes True r Q) :
    (∃ s', r = .ok s' ∧ Q s') ∨ ∃ l m, r = .fatal l m := by
  obtain ⟨h1, h2, h3⟩ := h trivial
  cases hr : r with
  | ok a => exact Or.inl ⟨a, rfl, h1 a hr⟩
  | fatal l m => exact Or.inr ⟨l, m, rfl⟩
  | fuel => exact absurd hr h2
  | undef => exact absurd hr h3

theorem finishes_run {s : State} {r : Result State} {Q : State → Prop}
    (h : Finishes (Safe s) r Q) (hs : Safe s) :
    r ≠ .fuel ∧ r ≠ .undef ∧ ∀ s', r = .ok s' → Q s' :=
  ⟨(h hs).2.1, (h hs).2.2, (h hs).1⟩

/-! ## The depth of the call stack -/

theorem cur_of_drop (s : State) (c : Char) (rest : List Char)
    (h : s.buf.drop s.raw = c :: rest) : s.cur = c := by
  unfold State.cur
  rw [List.getD_eq_getElem?_getD, ← List.head?_drop, h]
  rfl

theorem next_paren (s : State) (rest : List Char) (h : s.buf.drop s.raw = '(' :: rest) :
    next s = .ok { s with type := TOK_LPAREN, raw := s.raw + 1 } := by
  have hc : ({ s with raw := s.raw, line := s.line } : State).cur = '(' := cur_of_drop s _ _ h
  unfold next lexer
  simp only [lexerLoop, h, skipWhitespace]
  simp +decide [hc, Result.bind, punctuation]

theorem expect_paren (m : Char) (s : State) (r : Nat) (rest : List Char) (ht : s.type = m)
    (h : s.buf.drop s.raw = List.replicate (r + 1) '(' ++ rest) :
    ∃ s1, expect m (cg_symbol s) = .ok s1 ∧ s1.type = TOK_LPAREN ∧
      s1.buf.drop s1.raw = List.replicate r '(' ++ rest := by
  obtain ⟨⟨q1, q2, -, q4, -⟩, -⟩ := quiet_cg_symbol s
  have hd : (cg_symbol s).buf.drop (cg_symbol s).raw = '(' :: (List.replicate r '(' ++ rest) := by
    rw [q1, q2, h]
    rfl
  refine ⟨{ cg_symbol s with type := TOK_LPAREN, raw := (cg_symbol s).raw + 1 }, ?_, rfl, ?_⟩
  · unfold expect
    rw [if_neg (by rw [q4, ht]; exact not_not.2 rfl)]
    exact next_paren _ _ hd
  · show (cg_symbol s).buf.drop ((cg_symbol s).raw + 1) = _
    rw [← List.drop_drop, hd]
    rfl

theorem expression_of_factor (n : Nat) (s : State) (ht : s.type = TOK_LPAREN)
    (h : factor n s = .fuel) : expression (n + 2) s = .fuel := by
  have h1 : ¬ (s.type = TOK_PLUS ∨ s.type = TOK_MINUS) := by
    rw [ht]
    decide
  simp only [expression, term, h1, if_false, bind_def, pure_def, ok_bind, h]
  rfl

theorem factor_deep : ∀ (r n : Nat) (s : State), n ≤ 3 * r → s.type = TOK_LPAREN →
    (∃ rest, s.buf.drop s.raw = List.replicate r '(' ++ rest) → factor n s = .fuel := by
  intro r
  induction r with
  | zero =>
    intro n s hn _ _
    obtain rfl : n = 0 := by omega
    rfl
  | succ r ih =>
    intro n s hn ht ⟨rest, h⟩
    cases n with
    | zero => rfl
    | succ m =>
      obtain ⟨s1, e1, t1, d1⟩ := expect_paren _ s r rest ht h
      have h1 : ¬ (s.type = TOK_IDENT) := by rw [ht]; decide
      have h2 : ¬ (s.type = TOK_NUMBER) := by rw [ht]; decide
      have h3 : ¬ (s1.type = TOK_PLUS ∨ s1.type = TOK_MINUS) := by rw [t1]; decide
      have he : expression m s1 = .fuel := by
        match m with
        | 0 => rfl
        | 1 =>
          simp only [expression, term, h3, if_false, bind_def, pure_def, ok_bind]
          rfl
        | k + 2 => exact expression_of_factor k s1 t1 (ih k s1 (by omega) t1 ⟨rest, d1⟩)
      simp only [factor, h1, h2, ht, if_false, if_true, bind_def, e1, ok_bind, he]
      rfl

theorem expression_deep (r n : Nat) (s : State) (hn : n ≤ 3 * r + 2) (ht : s.type = TOK_LPAREN)
    (h : ∃ rest, s.buf.drop s.raw = List.replicate r '(' ++ rest) : expression n s = .fuel := by
  have h3 : ¬ (s.type = TOK_PLUS ∨ s.type = TOK_MINUS) := by rw [ht]; decide
  match n with
  | 0 => rfl
  | 1 =>
    simp only [expression, term, h3, if_false, bind_def, pure_def, ok_bind]
    rfl
  | k + 2 => exact expression_of_factor k s ht (factor_deep r k s (by omega) ht h)

theorem statement_deep (r n : Nat) (s : State) (hn : n ≤ 3 * r + 3) (ht : s.type = TOK_IF)
    (h : ∃ rest, s.buf.drop s.raw = List.replicate (r + 1) '(' ++ rest) :
    statement n s = .fuel := by
  cases n with
  | zero => rfl
  | succ m =>
    obtain ⟨rest, h⟩ := h
    obtain ⟨s1, e1, t1, d1⟩ := expect_paren _ s r rest ht h
    have he : expression m s1 = .fuel := expression_deep r m s1 (by omega) t1 ⟨rest, d1⟩
    have h4 : ¬ (s1.type = TOK_ODD) := by rw [t1]; decide
    simp +decide only [statement, condition, ht, h4, if_false, if_true, bind_def, e1, ok_bind, he]
    rfl

theorem next_if (s : State) (rest : List Char) (h : s.buf.drop s.raw = 'i' :: 'f' :: '(' :: rest) :
    next s = .ok { s with type := TOK_IF, raw := s.raw + 2, token := "if" } := by
  have hc : ({ s with raw := s.raw, line := s.line } : State).cur = 'i' := cur_of_drop s _ _ h
  unfold next lexer
  simp only [lexerLoop, h, skipWhitespace]
  simp +decide [hc, Result.bind, ident, h, identRun, keyword]

theorem block_parens (r n : Nat) (s : State) (hn : n ≤ 3 * r + 4) (ht : s.type = TOK_IF)
    (hd : s.depth = 0) (h : ∃ rest, s.buf.drop s.raw = List.replicate (r + 1) '(' ++ rest) :
    block n s = .fuel := by
  have h1 : ¬ (s.depth > 1) := by rw [hd]; decide
  match n with
  | 0 => rfl
  | 1 =>
    simp +decide only [block, constPart, varPart, procLoop, ht, h1, if_false, bind_def, pure_def,
      ok_bind]
  | m + 2 =>
    have key : ∀ a : State, LexSame s a → statement (m + 1) a = .fuel := by
      rintro a ⟨q1, q2, -, q4, -⟩
      refine statement_deep r (m + 1) a (by omega) (q4.trans ht) ?_
      rw [q1, q2]
      exact h
    simp +decide only [block, constPart, varPart, procLoop, ht, h1, if_false, bind_def, pure_def,
      ok_bind]
    rw [key]
    · rfl
    · split
      · exact ⟨(quiet_cg_procedure _).1.1, (quiet_cg_procedure _).1.2.1,
          (quiet_cg_procedure _).1.2.2.1, ((quiet_cg_procedure _).1.2.2.2.1).trans ht.symm,
          (quiet_cg_procedure _).1.2.2.2.2⟩
      · exact ⟨rfl, rfl, rfl, ht.symm, rfl⟩

theorem compileWith_deep (k D : Nat) (h : D ≤ 3 * k + 4) :
    compileWith D (deepNesting k) = .fuel := by
  have q := lexSame_cg_init (initsymtab (initial (deepNesting k)))
  have h1 : ∃ s1, next (cg_init (initsymtab (initial (deepNesting k)))) = .ok s1 ∧
      s1.type = TOK_IF ∧ s1.depth = 0 ∧
      s1.buf.drop s1.raw = List.replicate (k + 1) '(' ++ [] := by
    refine ⟨_, next_if _ (List.replicate k '(') ?_, rfl, (cg_init_frame _).2.1, ?_⟩
    · rw [q.1, q.2.1]
      rfl
    · show (cg_init (initsymtab (initial (deepNesting k)))).buf.drop
        ((cg_init (initsymtab (initial (deepNesting k)))).raw + 2) = _
      rw [q.1, q.2.1]
      simp [initsymtab, initial, deepNesting, List.replicate_succ]
  obtain ⟨s1, e1, t1, d1, b1⟩ := h1
  unfold compileWith parse
  simp only [bind_def, e1, ok_bind]
  rw [block_parens k D s1 h t1 d1 ⟨[], b1⟩]
  rfl

theorem compileWith_finishes (src : String) (n : Nat) (h : 3 * src.length + 5 ≤ n) :
    Finishes True (compileWith n src) (fun s' => Safe s' ∧ s'.type = TOK_EOF) := by
  unfold compileWith
  refine parse_finishes _ _ ⟨⟨Nat.zero_le _, fun _ => Nat.zero_le _⟩, [], rfl⟩ (Nat.zero_le _) ?_
  show 3 * (src.data.length + 1 - 0) + 2 ≤ n
  show 3 * (src.length + 1 - 0) + 2 ≤ n
  omega

theorem stackLe_refl {α : Type} (r : Result α) : StackLe r r := Or.inr rfl

theorem stackLe_bind {α β : Type} {r r' : Result α} {F F' : α → Result β}
    (h : StackLe r r') (hF : ∀ a, StackLe (F a) (F' a)) : StackLe (r.bind F) (r'.bind F') := by
  rcases h with h | h
  · exact Or.inl (by rw [h]; rfl)
  · subst h
    cases r with
    | ok a => exact hF a
    | fatal l m => exact Or.inr rfl
    | fuel => exact Or.inl rfl
    | undef => exact Or.inr rfl

theorem stackLe_ite {α : Type} {c : Prop} [Decidable c] {a a' b b' : Result α}
    (h1 : c → StackLe a a') (h2 : ¬ c → StackLe b b') :
    StackLe (if c then a else b) (if c then a' else b') := by
  by_cases h : c
  · rw [if_pos h, if_pos h]
    exact h1 h
  · rw [if_neg h, if_neg h]
    exact h2 h

theorem expression_stack_rules : ∀ n m : Nat, n ≤ m →
    (∀ s, StackLe (factor n s) (factor m s)) ∧
    (∀ s, StackLe (termLoop n s) (termLoop m s)) ∧
    (∀ s, StackLe (term n s) (term m s)) ∧
    (∀ s, StackLe (expressionLoop n s) (expressionLoop m s)) ∧
    (∀ s, StackLe (expression n s) (expression m s)) := by
  intro n
  induction n with
  | zero => exact fun _ _ => ⟨fun _ => Or.inl rfl, fun _ => Or.inl rfl, fun _ => Or.inl rfl,
      fun _ => Or.inl rfl, fun _ => Or.inl rfl⟩
  | succ n ih =>
    intro m hm
    cases m with
    | zero => omega
    | succ m =>
      obtain ⟨f, tl, t, el, e⟩ := ih m (by omega)
      refine ⟨?_, ?_, ?_, ?_, ?_⟩ <;> intro s
      all_goals
        simp only [factor, termLoop, term, expressionLoop, expression, bind_def, pure_def]
        with_reducible repeat' first
          | exact f _
          | exact tl _
          | exact t _
          | exact el _
          | exact e _
          | refine stackLe_ite (fun _ => ?_) (fun _ => ?_)
          | refine stackLe_bind ?_ (fun a => ?_)
          | exact stackLe_refl _

theorem condition_stack (n m : Nat) (h : n ≤ m) (s : State) :
    StackLe (condition n s) (condition m s) := by
  have e := (expression_stack_rules n m h).2.2.2.2
  simp only [condition, bind_def, pure_def]
  with_reducible repeat' first
    | exact e _
    | refine stackLe_ite (fun _ => ?_) (fun _ => ?_)
    | refine stackLe_bind ?_ (fun a => ?_)
    | exact stackLe_refl _

theorem statement_stack_rules : ∀ n m : Nat, n ≤ m →
    (∀ s, StackLe (statementLoop n s) (statementLoop m s)) ∧
    (∀ s, StackLe (statement n s) (statement m s)) := by
  intro n
  induction n with
  | zero => exact fun _ _ => ⟨fun _ => Or.inl rfl, fun _ => Or.inl rfl⟩
  | succ n ih =>
    intro m hm
    cases m with
    | zero => omega
    | succ m =>
      obtain ⟨sl, st⟩ := ih m (by omega)
      have e := (expression_stack_rules n m (by omega)).2.2.2.2
      have c := condition_stack n m (by omega)
      refine ⟨?_, ?_⟩ <;> intro s
      all_goals
        simp only [statementLoop, statement, bind_def, pure_def]
        with_reducible repeat' first
          | exact sl _
          | exact st _
          | exact e _
          | exact c _
          | refine stackLe_ite (fun _ => ?_) (fun _ => ?_)
          | refine stackLe_bind ?_ (fun a => ?_)
          | exact stackLe_refl _

theorem constLoop_stack : ∀ n m : Nat, n ≤ m → ∀ s, StackLe (constLoop n s) (constLoop m s) := by
  intro n
  induction n with
  | zero => exact fun _ _ _ => Or.inl rfl
  | succ n ih =>
    intro m hm s
    cases m with
    | zero => omega
    | succ m =>
      have c := ih m (by omega)
      simp only [constLoop, bind_def, pure_def]
      with_reducible repeat' first
        | exact c _
        | refine stackLe_ite (fun _ => ?_) (fun _ => ?_)
        | refine stackLe_bind ?_ (fun a => ?_)
        | exact stackLe_refl _

theorem varLoop_stack : ∀ n m : Nat, n ≤ m → ∀ s, StackLe (varLoop n s) (varLoop m s) := by
  intro n
  induction n with
  | zero => exact fun _ _ _ => Or.inl rfl
  | succ n ih =>
    intro m hm s
    cases m with
    | zero => omega
    | succ m =>
      have c := ih m (by omega)
      simp only [varLoop, bind_def, pure_def]
      with_reducible repeat' first
        | exact c _
        | refine stackLe_ite (fun _ => ?_) (fun _ => ?_)
        | refine stackLe_bind ?_ (fun a => ?_)
        | exact stackLe_refl _

theorem block_stack_rules : ∀ n m : Nat, n ≤ m →
    (∀ s, StackLe (procLoop n s) (procLoop m s)) ∧
    (∀ s, StackLe (block n s) (block m s)) := by
  intro n
  induction n with
  | zero => exact fun _ _ => ⟨fun _ => Or.inl rfl, fun _ => Or.inl rfl⟩
  | succ n ih =>
    intro m hm
    cases m with
    | zero => omega
    | succ m =>
      obtain ⟨pl, bl⟩ := ih m (by omega)
      have st := (statement_stack_rules n m (by omega)).2
      have cl := constLoop_stack n m (by omega)
      have vl := varLoop_stack n m (by omega)
      refine ⟨?_, ?_⟩ <;> intro s
      all_goals
        simp only [procLoop, block, procDecl, constPart, varPart, bind_def, pure_def]
        with_reducible repeat' first
          | exact pl _
          | exact bl _
          | exact st _
          | exact cl _
          | exact vl _
          | refine stackLe_ite (fun _ => ?_) (fun _ => ?_)
          | refine stackLe_bind ?_ (fun a => ?_)
          | exact stackLe_refl _

theorem parse_stack (n m : Nat) (h : n ≤ m) (s : State) : StackLe (parse n s) (parse m s) := by
  have bl := (block_stack_rules n m h).2
  simp only [parse, bind_def, pure_def]
  with_reducible repeat' first
    | exact bl _
    | refine stackLe_ite (fun _ => ?_) (fun _ => ?_)
    | refine stackLe_bind ?_ (fun a => ?_)
    | exact stackLe_refl _

theorem compileWith_stack (src : String) (n m : Nat) (hn : 3 * src.length + 5 ≤ n)
    (hm : 3 * src.length + 5 ≤ m) : compileWith n src = compileWith m src := by
  have h1 := (compileWith_finishes src n hn trivial).2.1
  have h2 := (compileWith_finishes src m hm trivial).2.1
  rcases Nat.le_total n m with h | h
  · exact (parse_stack n m h _).resolve_left h1
  · exact ((parse_stack m n h _).resolve_left h2).symm

/-- C20 (as stated, refuted): the program `if ((((1)))) = 1 then .` is compiled
on a stack that admits 17 nested calls of the grammar rules, and on a stack
that admits 16 its compilation neither completes nor stops at an error: the
chain of calls `factor`, `expression`, `term`, `factor` of the parentheses
goes deeper than the stack.  No depth is enough for every source: whatever
the depth `D`, the compilation of `if(` followed by `D` opening parentheses is
cut off in the same way. -/
theorem deep_nesting_exhausts_stack :
    compileWith 16 "if ((((1)))) = 1 then ." = .fuel ∧
    (compileWith 17 "if ((((1)))) = 1 then .").isOk = true ∧
    (∀ D, compileWith D (deepNesting D) = .fuel) ∧
    (∀ D k, D ≤ 3 * k + 4 → compileWith D (deepNesting k) = .fuel) :=
  ⟨by decide!, by decide!, fun D => compileWith_deep D D (by omega),
   fun D k h => compileWith_deep k D h⟩

/-- C20 (amended): on a call stack that admits three nested calls of the
grammar rules for every character of the source, and five more, the
compilation of every source text ends, either with a normal return at the end
of input, the scan position at most one past the terminator, or with a fatal
error; the outcome is the same on every stack at least that deep, and it is
the outcome of `compile`.  A deeper stack changes no outcome but the cut-off.
Every call of the lexer moves the scan position forward; from a position in
the buffer it ends and leaves the position in the buffer, or one past the
terminator with the end-of-input token; `expect` does not call the lexer when
the current token is the end of input.  From a safe state a depth of three
times the number of characters left, plus 1, 2 or 3, is enough for
`statement`, `block` and `expression`, whose recursive calls all follow the
reading of a token; they leave the state safe and no character is given back. -/
theorem single_pass_total :
    (∀ src n, 3 * src.length + 5 ≤ n →
      (∃ s', compileWith n src = .ok s' ∧ s'.type = TOK_EOF ∧ s'.buf = src.data ∧
        s'.raw ≤ src.length + 1) ∨ ∃ l m, compileWith n src = .fatal l m) ∧
    (∀ src n, 3 * src.length + 5 ≤ n → compileWith n src = compile src) ∧
    (∀ n m s, n ≤ m → parse n s = .fuel ∨ parse n s = parse m s) ∧
    (∀ s s', next s = .ok s' → s.raw < s'.raw) ∧
    (∀ m s s', expect m s = .ok s' → s.raw < s'.raw) ∧
    (∀ s, s.raw ≤ s.buf.length → next s ≠ .fuel ∧ next s ≠ .undef ∧
      ∀ s', next s = .ok s' →
        s'.raw ≤ s.buf.length + 1 ∧ (s'.type ≠ TOK_EOF → s'.raw ≤ s.buf.length)) ∧
    (∀ m s, m ≠ TOK_EOF → s.type = TOK_EOF → expect m s = .fatal s.line "syntax error") ∧
    (∀ n s, Safe s → 3 * remaining s + 3 ≤ n →
      expression n s ≠ .fuel ∧ expression n s ≠ .undef ∧
        ∀ s', expression n s = .ok s' → Safe s' ∧ remaining s' ≤ remaining s) ∧
    (∀ n s, Safe s → 3 * remaining s + 1 ≤ n →
      statement n s ≠ .fuel ∧ statement n s ≠ .undef ∧
        ∀ s', statement n s = .ok s' → Safe s' ∧ remaining s' ≤ remaining s) ∧
    (∀ n s, Safe s → 3 * remaining s + 2 ≤ n →
      block n s ≠ .fuel ∧ block n s ≠ .undef ∧
        ∀ s', block n s = .ok s' → Safe s' ∧ remaining s' ≤ remaining s) ∧
    compile "" = .fatal 1 "syntax error" ∧ (compile ".").isOk = true := by
  refine ⟨?_, ?_, ?_, next_progress, ?_, ?_, ?_, ?_, ?_, ?_, by decide!, by decide!⟩
  · intro src n hn
    rcases finishes_cases (compileWith_finishes src n hn) with ⟨s', h, hs, ht⟩ | h
    · have hb : s'.buf = src.data :=
        (((inStep_blockErr src.data).sound_parse n _ (inStep_initial src)).1 s' h).1
      refine Or.inl ⟨s', h, ht, hb, ?_⟩
      have := hs.1.1
      rw [hb] at this
      exact this
    · exact Or.inr h
  · intro src n hn
    refine compileWith_stack src n (budget src) hn ?_
    unfold budget
    omega
  · intro n m s h
    exact parse_stack n m h s
  · intro m s s' h
    exact next_progress s s' (expect_ok m s s' h).2
  · intro s h
    obtain ⟨h1, h2, h3⟩ := next_total s h
    exact ⟨h1, h2, fun s' e => (h3 s' e).2⟩
  · intro m s hm ht
    unfold expect
    rw [if_pos (by rw [ht]; exact hm)]
    rfl
  · intro n s hs hf
    obtain ⟨h1, h2, h3⟩ := finishes_run ((expression_finishes_rules n).2.2.2.2 s hf) hs
    exact ⟨h1, h2, fun s' e => ⟨(h3 s' e).1, by have := (h3 s' e).2; omega⟩⟩
  · intro n s hs hf
    obtain ⟨h1, h2, h3⟩ := finishes_run ((statement_finishes_rules n).2 s hf) hs
    exact ⟨h1, h2, fun s' e => ⟨(h3 s' e).1, by have := (h3 s' e).2; omega⟩⟩
  · intro n s hs hf
    obtain ⟨h1, h2, h3⟩ := finishes_run ((block_finishes_rules n).2 s hf) hs
    exact ⟨h1, h2, fun s' e => ⟨(h3 s' e).1, by have := (h3 s' e).2; omega⟩⟩

/-! ## The part of the source that a run has read -/

theorem agree_mono {B B' : List Char} {k j : Nat} (h : Agree B B' k) (hj : j ≤ k) :
    Agree B B' j := by
  unfold Agree at h ⊢
  have := congrArg (List.take j) h
  rwa [List.take_take, List.take_take, Nat.min_eq_left hj] at this

theorem agree_drop {B B' : List Char} {r k : Nat} (h : Agree B B' (r + k)) :
    (B.drop r).take k = (B'.drop r).take k := by
  unfold Agree at h
  have := congrArg (List.drop r) h
  rwa [List.drop_take, List.drop_take, Nat.add_sub_cancel_left] at this

theorem agree_getD {B B' : List Char} {r k : Nat} (h : Agree B B' k) (hr : r < k) :
    B.getD r '\x00' = B'.getD r '\x00' := by
  unfold Agree at h
  have := congrArg (fun l => l.getD r '\x00') h
  simp only [List.getD_eq_getElem?_getD, List.getElem?_take, if_pos hr] at this
  simpa [List.getD_eq_getElem?_getD] using this

theorem skipWhitespace_agree : ∀ (cs cs' : List Char) (raw line : Nat),
    cs.take ((skipWhitespace cs raw line).1 - raw + 1)
      = cs'.take ((skipWhitespace cs raw line).1 - raw + 1) →
    skipWhitespace cs' raw line = skipWhitespace cs raw line := by
  intro cs
  induction cs with
  | nil =>
    intro cs' raw line h
    cases cs' with
    | nil => rfl
    | cons c t => simp [skipWhitespace] at h
  | cons c t ih =>
    intro cs' raw line h
    by_cases hc : c = ' ' ∨ c = '\t' ∨ c = '\n'
    · have hb := (skipWhitespace_bound t (raw + 1) (if c = '\n' then line + 1 else line)).1
      rw [skipWhitespace, if_pos hc] at h ⊢
      have e : (skipWhitespace t (raw + 1) (if c = '\n' then line + 1 else line)).1 - raw + 1
          = ((skipWhitespace t (raw + 1) (if c = '\n' then line + 1 else line)).1
              - (raw + 1) + 1) + 1 := by omega
      rw [e] at h
      cases cs' with
      | nil => simp at h
      | cons c' t' =>
        rw [List.take_succ_cons, List.take_succ_cons] at h
        obtain ⟨rfl, h2⟩ := List.cons.inj h
        rw [skipWhitespace, if_pos hc]
        exact ih t' _ _ h2
    · rw [skipWhitespace, if_neg hc] at h ⊢
      simp only [Nat.sub_self, Nat.zero_add, List.take_succ_cons, List.take_zero] at h
      cases cs' with
      | nil => simp at h
      | cons c' t' =>
        rw [List.take_succ_cons, List.take_zero] at h
        obtain ⟨rfl, -⟩ := List.cons.inj h
        rw [skipWhitespace, if_neg hc]

theorem identRun_agree : ∀ (cs cs' : List Char),
    cs.take (identRun cs + 1) = cs'.take (identRun cs + 1) → identRun cs' = identRun cs := by
  intro cs
  induction cs with
  | nil =>
    intro cs' h
    cases cs' with
    | nil => rfl
    | cons c t => simp [identRun] at h
  | cons c t ih =>
    intro cs' h
    by_cases hc : (c.isAlphanum || c == '_') = true
    · rw [identRun, if_pos hc] at h ⊢
      cases cs' with
      | nil => simp at h
      | cons c' t' =>
        rw [List.take_succ_cons, List.take_succ_cons] at h
        obtain ⟨rfl, h2⟩ := List.cons.inj h
        rw [identRun, if_pos hc, ih t' h2]
    · rw [identRun, if_neg hc] at h ⊢
      cases cs' with
      | nil => simp at h
      | cons c' t' =>
        rw [List.take_succ_cons, List.take_succ_cons] at h
        obtain ⟨rfl, -⟩ := List.cons.inj h
        rw [identRun, if_neg hc]

theorem numberRun_agree : ∀ (cs cs' : List Char),
    cs.take (numberRun cs + 1) = cs'.take (numberRun cs + 1) → numberRun cs' = numberRun cs := by
  intro cs
  induction cs with
  | nil =>
    intro cs' h
    cases cs' with
    | nil => rfl
    | cons c t => simp [numberRun] at h
  | cons c t ih =>
    intro cs' h
    by_cases hc : (c.isDigit || c == '_') = true
    · rw [numberRun, if_pos hc] at h ⊢
      cases cs' with
      | nil => simp at h
      | cons c' t' =>
        rw [List.take_succ_cons, List.take_succ_cons] at h
        obtain ⟨rfl, h2⟩ := List.cons.inj h
        rw [numberRun, if_pos hc, ih t' h2]
    · rw [numberRun, if_neg hc] at h ⊢
      cases cs' with
      | nil => simp at h
      | cons c' t' =>
        rw [List.take_succ_cons, List.take_succ_cons] at h
        obtain ⟨rfl, -⟩ := List.cons.inj h
        rw [numberRun, if_neg hc]

theorem commentLoop_agree : ∀ (cs cs' : List Char) (raw line raw' line' : Nat),
    commentLoop cs raw line = .inr (raw', line') →
    cs.take (raw' - raw) = cs'.take (raw' - raw) →
    commentLoop cs' raw line = .inr (raw', line') := by
  intro cs
  induction cs with
  | nil => intro cs' raw line raw' line' h; simp [commentLoop] at h
  | cons c t ih =>
    intro cs' raw line raw' line' h ha
    have hb := commentLoop_bound _ _ _ _ _ h
    obtain ⟨k, hk⟩ : ∃ k, raw' - raw = k + 1 := ⟨raw' - raw - 1, by omega⟩
    rw [hk] at ha
    cases cs' with
    | nil => simp at ha
    | cons c' t' =>
      rw [List.take_succ_cons, List.take_succ_cons] at ha
      obtain ⟨rfl, h2⟩ := List.cons.inj ha
      rw [commentLoop] at h ⊢
      by_cases c1 : c = '}'
      · rw [if_pos c1] at h ⊢
        exact h
      · rw [if_neg c1] at h ⊢
        by_cases c2 : c = '\x00'
        · rw [if_pos c2] at h
          cases h
        · rw [if_neg c2] at h ⊢
          refine ih t' _ _ _ _ h ?_
          have : raw' - (raw + 1) = k := by omega
          rw [this]
          exact h2

theorem lexerLoop_skip_le (n : Nat) (s s' : State) (t : Char)
    (h : lexerLoop (n + 1) s = .ok (t, s')) :
    (skipWhitespace (s.buf.drop s.raw) s.raw s.line).1 ≤ s'.raw := by
  unfold lexerLoop at h
  simp only at h
  generalize hsk : skipWhitespace (s.buf.drop s.raw) s.raw s.line = p at h
  obtain ⟨ra, la⟩ := p
  simp only at h
  show ra ≤ s'.raw
  split_ifs at h with c1 c2 c3 c4 c5 c6 c7
  · cases h
    obtain ⟨h0, hw⟩ := alpha_facts _ c1
    have hd := drop_cur { s with raw := ra, line := la } h0
    have hrun : 1 ≤ identRun (s.buf.drop ra) := by
      have hd' : s.buf.drop ra = _ := hd
      rw [hd', identRun, if_pos hw]
      omega
    show ra ≤ ra + identRun (s.buf.drop ra) - 1
    omega
  · have hf := digit_facts _ c2
    have hd := drop_cur { s with raw := ra, line := la } hf.2.2.2.2.2
    have hrun : 1 ≤ numberRun (s.buf.drop ra) := by
      have hd' : s.buf.drop ra = _ := hd
      rw [hd', numberRun]
      simp [c2]
    unfold number at h
    simp only at h
    split at h
    · cases h
    · cases h
      show ra ≤ ra + numberRun (s.buf.drop ra) - 1
      omega
  · obtain ⟨s1, h1, h2⟩ := bind_eq_ok.1 h
    unfold comment at h1
    split at h1
    · cases h1
    · rename_i rb lb hc
      cases h1
      have hcb : ra < rb ∧ _ := commentLoop_bound _ _ _ _ _ hc
      have := lexerLoop_mono _ _ _ _ h2
      have h3 : rb ≤ s'.raw := this
      omega
  · cases h
    exact Nat.le_refl _
  · cases h
  · cases h
    show ra ≤ ra + 1
    omega
  · cases h
    exact Nat.le_refl _
  · cases h

theorem lexerLoop_agree (n : Nat) : ∀ (m : Nat) (s a : State) (t : Char) (B' : List Char),
    lexerLoop n s = .ok (t, a) → Agree s.buf B' (a.raw + 2) → s.raw ≤ B'.length →
    B'.length + 1 ≤ m + s.raw →
    lexerLoop m (withBuf s B') = .ok (t, withBuf a B') := by
  induction n with
  | zero => intro m s a t B' h; cases h
  | succ n ih =>
    intro m s a t B' h hA hr hm
    obtain ⟨m, rfl⟩ : ∃ k, m = k + 1 := ⟨m - 1, by omega⟩
    have hle := lexerLoop_skip_le n s a t h
    have hb := skipWhitespace_bound (s.buf.drop s.raw) s.raw s.line
    have hsk' : skipWhitespace (B'.drop s.raw) s.raw s.line
        = skipWhitespace (s.buf.drop s.raw) s.raw s.line := by
      apply skipWhitespace_agree
      apply agree_drop
      exact agree_mono hA (by omega)
    unfold lexerLoop at h ⊢
    simp only at h ⊢
    rw [hsk']
    generalize hsk : skipWhitespace (s.buf.drop s.raw) s.raw s.line = p at h hle hb ⊢
    obtain ⟨ra, la⟩ := p
    simp only at h hle hb ⊢
    have hcur : ({ s with buf := B', raw := ra, line := la } : State).cur
        = ({ s with raw := ra, line := la } : State).cur :=
      (agree_getD hA (by omega : ra < a.raw + 2)).symm
    rw [hcur]
    split_ifs at h with c1 c2 c3 c4 c5 c6 c7
    · cases h
      rw [if_pos c1]
      have e1 : identRun (B'.drop ra) = identRun (s.buf.drop ra) := by
        apply identRun_agree
        apply agree_drop
        refine agree_mono hA ?_
        show ra + (identRun (s.buf.drop ra) + 1) ≤ ra + identRun (s.buf.drop ra) - 1 + 2
        omega
      have e2 : (B'.drop ra).take (identRun (s.buf.drop ra))
          = (s.buf.drop ra).take (identRun (s.buf.drop ra)) := by
        symm
        apply agree_drop
        refine agree_mono hA ?_
        show ra + identRun (s.buf.drop ra) ≤ ra + identRun (s.buf.drop ra) - 1 + 2
        omega
      simp only [ident, e1, e2]
    · rw [if_neg c1, if_pos c2]
      unfold number at h ⊢
      simp only at h ⊢
      split at h
      · cases h
      · rename_i hs
        cases h
        have e1 : numberRun (B'.drop ra) = numberRun (s.buf.drop ra) := by
          apply numberRun_agree
          apply agree_drop
          refine agree_mono hA ?_
          show ra + (numberRun (s.buf.drop ra) + 1) ≤ ra + numberRun (s.buf.drop ra) - 1 + 2
          omega
        have e2 : (B'.drop ra).take (numberRun (s.buf.drop ra))
            = (s.buf.drop ra).take (numberRun (s.buf.drop ra)) := by
          symm
          apply agree_drop
          refine agree_mono hA ?_
          show ra + numberRun (s.buf.drop ra) ≤ ra + numberRun (s.buf.drop ra) - 1 + 2
          omega
        simp only [e1, e2]
        rw [if_neg hs]
    · rw [if_neg c1, if_neg c2, if_pos c3]
      obtain ⟨s1, h1, h2⟩ := bind_eq_ok.1 h
      unfold comment at h1
      split at h1
      · cases h1
      · rename_i rb lb hc
        cases h1
        have hcb : ra < rb ∧ rb ≤ ra + (s.buf.drop ra).length := commentLoop_bound _ _ _ _ _ hc
        have hmono : rb ≤ a.raw := lexerLoop_mono _ _ _ _ h2
        have hc' : commentLoop (B'.drop ra) ra la = .inr (rb, lb) := by
          refine commentLoop_agree _ _ _ _ _ _ hc ?_
          apply agree_drop
          refine agree_mono hA ?_
          show ra + (rb - ra) ≤ a.raw + 2
          omega
        have hcb' : ra < rb ∧ rb ≤ ra + (B'.drop ra).length := commentLoop_bound _ _ _ _ _ hc'
        rw [List.length_drop] at hcb'
        have hi := ih m ({ s with raw := rb, line := lb } : State) a t B' h2 hA
          (by show rb ≤ B'.length; omega) (by show B'.length + 1 ≤ m + rb; omega)
        unfold comment
        simp only [hc', ok_bind]
        exact hi
    · cases h
      rw [if_neg c1, if_neg c2, if_neg c3, if_pos c4]
    · cases h
    · cases h
      have hcur2 : ({ s with buf := B', raw := ra + 1, line := la } : State).cur
          = ({ s with raw := ra + 1, line := la } : State).cur :=
        (agree_getD hA (by show ra + 1 < ra + 1 + 2; omega)).symm
      rw [if_neg c1, if_neg c2, if_neg c3, if_neg c4, if_pos c5]
      rw [hcur2, if_neg c6]
    · cases h
      rw [if_neg c1, if_neg c2, if_neg c3, if_neg c4, if_neg c5, if_pos c7]
    · cases h

theorem next_agree (s a : State) (B' : List Char) (h : next s = .ok a)
    (hA : Agree s.buf B' (a.raw + 1)) : next (withBuf s B') = .ok (withBuf a B') := by
  have hp := next_progress s a h
  have hf := (next_frame s a h).2.2.2.2
  by_cases hr : s.raw ≤ B'.length
  · unfold next lexer at h ⊢
    obtain ⟨⟨t, s1⟩, hl, e⟩ := bind_eq_ok.1 h
    cases e
    have := lexerLoop_agree _ (B'.length + 1) s s1 t B' hl hA hr (by omega)
    show (lexerLoop (B'.length + 1) (withBuf s B')).bind _ = _
    rw [this]
    rfl
  · have e : B' = s.buf := by
      unfold Agree at hA
      have h1 : B'.take (a.raw + 1) = B' := List.take_of_length_le (by omega)
      rw [h1] at hA
      have h2 := congrArg List.length hA
      rw [List.length_take] at h2
      have h3 : s.buf.length ≤ a.raw + 1 := by omega
      rw [List.take_of_length_le h3] at hA
      exact hA.symm
    subst e
    have e2 : withBuf a s.buf = a := by
      show ({ a with buf := s.buf } : State) = a
      rw [← hf]
    rw [e2]
    exact h

section Stable

variable {s : State}

theorem inStep_self {B : List Char} {a : State} (h : InStep B a) : InStep a.buf a :=
  ⟨rfl, h.2.1, h.2.2⟩

theorem stable_bind {A F : State → Result State}
    (hA : Stable A s) (hF : ∀ a, Stable F a) : Stable (fun x => (A x).bind F) s := by
  intro hI
  obtain ⟨h1, h2⟩ := hA hI
  constructor
  · intro b hb
    obtain ⟨a, ha, hfb⟩ := bind_eq_ok.1 hb
    obtain ⟨hIa, hra, hag⟩ := h1 a ha
    have hab : a.buf = s.buf := hIa.1
    obtain ⟨g1, -⟩ := hF a (inStep_self hIa)
    obtain ⟨hIb, hrb, hbg⟩ := g1 b hfb
    rw [hab] at hIb hbg
    refine ⟨hIb, by omega, ?_⟩
    intro B' hB
    show (A (withBuf s B')).bind F = _
    rw [hag B' (agree_mono hB (by omega))]
    exact hbg B' hB
  · intro l N h
    rcases bind_eq_fatal.1 h with h | ⟨a, ha, hfa⟩
    · obtain ⟨p, hp, ht, hl, hB⟩ := h2 l N h
      refine ⟨p, hp, ht, hl, ?_⟩
      intro B' hA'
      show (A (withBuf s B')).bind F = _
      rw [hB B' hA']
      rfl
    · obtain ⟨hIa, hra, hag⟩ := h1 a ha
      have hab : a.buf = s.buf := hIa.1
      obtain ⟨-, g2⟩ := hF a (inStep_self hIa)
      obtain ⟨p, hp, ht, hl, hB⟩ := g2 l N hfa
      rw [hab] at ht hl hB
      refine ⟨p, by omega, ht, hl, ?_⟩
      intro B' hA'
      show (A (withBuf s B')).bind F = _
      rw [hag B' (agree_mono hA' (by omega))]
      exact hB B' hA'

theorem stable_ite {c : State → Prop} [DecidablePred c] {C1 C2 : State → Result State}
    (hc : ∀ B', c (withBuf s B') ↔ c s) (h1 : c s → Stable C1 s) (h2 : ¬ c s → Stable C2 s) :
    Stable (fun x => if c x then C1 x else C2 x) s := by
  intro hI
  by_cases h : c s
  · obtain ⟨g1, g2⟩ := h1 h hI
    simp only [if_pos h, if_pos ((hc _).2 h)]
    exact ⟨g1, g2⟩
  · obtain ⟨g1, g2⟩ := h2 h hI
    have hn : ∀ B', ¬ c (withBuf s B') := fun B' e => h ((hc B').1 e)
    simp only [if_neg h, if_neg (hn _)]
    exact ⟨g1, g2⟩

theorem stable_pre {g : State → State} (hg : QuietFn g) {C : State → Result State}
    (h : Stable C (g s)) : Stable (fun x => C (g x)) s := by
  obtain ⟨⟨q1, q2, q3, q4, q5⟩, qc⟩ := hg s
  intro hI
  have hI' : InStep (g s).buf (g s) := inStep_self (lexSame_inStep ⟨q1, q2, q3, q4, q5⟩ hI)
  obtain ⟨h1, h2⟩ := h hI'
  rw [q1, q2] at h1 h2
  constructor
  · intro a ha
    obtain ⟨k1, k2, k3⟩ := h1 a ha
    refine ⟨k1, k2, ?_⟩
    intro B' hB
    show C (g (withBuf s B')) = _
    rw [qc B']
    exact k3 B' hB
  · intro l N hf
    obtain ⟨p, k1, k2, k3, k4⟩ := h2 l N hf
    refine ⟨p, k1, k2, k3, ?_⟩
    intro B' hB
    show C (g (withBuf s B')) = _
    rw [qc B']
    exact k4 B' hB

theorem stable_ok {g : State → State} (hg : QuietFn g) : Stable (fun x => .ok (g x)) s := by
  obtain ⟨⟨q1, q2, q3, q4, q5⟩, qc⟩ := hg s
  intro hI
  constructor
  · intro a ha
    cases ha
    refine ⟨lexSame_inStep ⟨q1, q2, q3, q4, q5⟩ hI, by rw [q2], ?_⟩
    intro B' _
    show Result.ok (g (withBuf s B')) = _
    rw [qc B']
  · intro l N hf
    cases hf

theorem stable_same : Stable (fun x => .ok x) s :=
  stable_ok (g := fun x => x) (fun _ => ⟨⟨rfl, rfl, rfl, rfl, rfl⟩, fun _ => rfl⟩)

theorem stable_next : Stable next s := by
  intro hI
  constructor
  · intro a ha
    have hf := (next_frame s a ha).2.2.2.2
    have hp := next_pos s a hI.2.1 ha
    refine ⟨⟨hf, hp.1, hp.2⟩, Nat.le_of_lt (next_progress s a ha), ?_⟩
    intro B' hB
    exact next_agree s a B' ha hB
  · intro l N hf
    exfalso
    have := next_fatal_lex s l _ hf
    rw [msgHead_append _ _ (by decide)] at this
    revert this
    decide

theorem stable_error (m : String) (hm : msgHead m ≠ "und".data) :
    Stable (fun x => error x m) s := by
  intro _
  constructor
  · intro a ha
    cases ha
  · intro l N hf
    exfalso
    apply hm
    have e : m = "undefined symbol: " ++ N := (Result.fatal.inj hf).2
    rw [e, msgHead_append _ _ (by decide)]
    decide

theorem stable_fuel : Stable (fun _ => Result.fuel) s := by
  intro _
  exact ⟨fun a h => (by cases h), fun l N h => (by cases h)⟩

end Stable

section Stable

variable {s : State}

theorem stable_expect (m : Char) : Stable (expect m) s := by
  show Stable (fun x => expect m x) s
  unfold expect
  exact stable_ite (c := fun x => m ≠ x.type) (fun _ => Iff.rfl)
    (fun _ => stable_error _ (by decide)) (fun _ => stable_next)

theorem symcheck_withBuf (c : Nat) (s : State) (B' : List Char) :
    symcheck c (withBuf s B') = (symcheck c s).bind fun a => .ok (withBuf a B') := by
  unfold symcheck
  show (match symcheckLoop s.token s.head none with
    | none => error (withBuf s B') ("undefined symbol: " ++ s.token)
    | some ret => rolecheck c ret (withBuf s B')) = _
  cases symcheckLoop s.token s.head none with
  | none => rfl
  | some ret =>
    show rolecheck c ret (withBuf s B') = (rolecheck c ret s).bind _
    unfold rolecheck
    split_ifs <;> rfl

theorem stable_symcheck (c : Nat) (ht : s.type = TOK_IDENT) : Stable (symcheck c) s := by
  intro hI
  constructor
  · intro a ha
    have e := symcheck_ok _ _ _ ha
    subst e
    refine ⟨hI, Nat.le_refl _, ?_⟩
    intro B' _
    rw [symcheck_withBuf, ha]
    rfl
  · intro l N hf
    rcases symcheck_fatal c s l _ hf with ⟨hl, hm⟩ | hm
    · have hN : N = s.token := string_append_cancel _ _ _ hm
      subst hN
      refine ⟨s.raw, Nat.le_refl _, hI.2.2 ht, ?_, ?_⟩
      · rw [hl]
        exact hI.2.1
      · intro B' _
        rw [symcheck_withBuf, hf]
        rfl
    · exfalso
      rw [msgHead_append _ _ (by decide)] at hm
      revert hm
      decide

theorem addsymbol_withBuf (ty : Char) (s : State) (B' : List Char) :
    addsymbol ty (withBuf s B') = (addsymbol ty s).bind fun a => .ok (withBuf a B') := by
  unfold addsymbol
  show (if s.head = [] then Result.undef
    else if addsymbolLoop s.token (s.depth - 1) s.head = true then
      error (withBuf s B') ("duplicate symbol: " ++ s.token)
    else .ok { withBuf s B' with
      head := s.head ++ [({ depth := s.depth - 1, type := ty, name := s.token } : Symtab)] }) = _
  split_ifs <;> rfl

theorem stable_addsymbol (ty : Char) : Stable (addsymbol ty) s := by
  intro hI
  constructor
  · intro a ha
    have e := (addsymbol_ok_eq _ _ _ ha).2
    have hq : LexSame s a := by
      rw [e]
      exact ⟨rfl, rfl, rfl, rfl, rfl⟩
    refine ⟨lexSame_inStep hq hI, by rw [hq.2.1], ?_⟩
    · intro B' _
      rw [addsymbol_withBuf, ha]
      rfl
  · intro l N hf
    exfalso
    have hm := addsymbol_fatal ty s l _ hf
    rw [msgHead_append _ _ (by decide)] at hm
    revert hm
    decide

theorem destroysymbols_withBuf (s : State) (B' : List Char) :
    destroysymbols (withBuf s B') = (destroysymbols s).bind fun a => .ok (withBuf a B') := by
  unfold destroysymbols
  show (destroyLoop s.head.length s.head).bind (fun l => .ok { withBuf s B' with head := l }) = _
  cases destroyLoop s.head.length s.head <;> rfl

theorem stable_destroy : Stable destroysymbols s := by
  intro hI
  constructor
  · intro a ha
    have hq : LexSame s a := by
      unfold destroysymbols at ha
      obtain ⟨l, _, e⟩ := bind_eq_ok.1 ha
      cases e
      exact ⟨rfl, rfl, rfl, rfl, rfl⟩
    refine ⟨lexSame_inStep hq hI, by rw [hq.2.1], ?_⟩
    intro B' _
    rw [destroysymbols_withBuf, ha]
    rfl
  · intro l N hf
    exact absurd hf (destroysymbols_not_fatal s l _)

end Stable

theorem quietFn_aout (f : State → String) (hf : ∀ s B', f (withBuf s B') = f s) :
    QuietFn (fun x => aout (f x) x) := by
  intro s
  refine ⟨⟨rfl, rfl, rfl, rfl, rfl⟩, ?_⟩
  intro B'
  show aout (f (withBuf s B')) (withBuf s B') = _
  rw [hf]
  rfl

theorem quietFn_ite {c : State → Prop} [DecidablePred c] {g1 g2 : State → State}
    (hc : ∀ s B', c (withBuf s B') ↔ c s) (h1 : QuietFn g1) (h2 : QuietFn g2) :
    QuietFn (fun x => if c x then g1 x else g2 x) := by
  intro s
  by_cases h : c s
  · have hn : ∀ B', c (withBuf s B') := fun B' => (hc s B').2 h
    simp only [if_pos h, if_pos (hn _)]
    exact h1 s
  · have hn : ∀ B', ¬ c (withBuf s B') := fun B' e => h ((hc s B').1 e)
    simp only [if_neg h, if_neg (hn _)]
    exact h2 s

theorem quietFn_id : QuietFn (fun x => x) :=
  fun _ => ⟨⟨rfl, rfl, rfl, rfl, rfl⟩, fun _ => rfl⟩

theorem quietFn_comp {f g : State → State} (h1 : QuietFn f) (h2 : QuietFn g) :
    QuietFn (fun x => g (f x)) := by
  intro s
  obtain ⟨⟨a1, a2, a3, a4, a5⟩, ac⟩ := h1 s
  obtain ⟨⟨b1, b2, b3, b4, b5⟩, bc⟩ := h2 (f s)
  refine ⟨⟨b1.trans a1, b2.trans a2, b3.trans a3, b4.trans a4, b5.trans a5⟩, ?_⟩
  intro B'
  show g (f (withBuf s B')) = _
  rw [ac, bc]

theorem quietFn_cg_symbol : QuietFn cg_symbol := by
  show QuietFn (fun x => cg_symbol x)
  unfold cg_symbol
  iterate 19 refine quietFn_ite (fun _ _ => Iff.rfl) (quietFn_aout _ (fun _ _ => rfl)) ?_
  exact quietFn_id

section Stable

variable {s : State}

theorem stable_next_sym : Stable (fun x => next (cg_symbol x)) s :=
  stable_pre quietFn_cg_symbol stable_next

theorem stable_expect_sym (m : Char) : Stable (fun x => expect m (cg_symbol x)) s :=
  stable_pre quietFn_cg_symbol (stable_expect m)

theorem stable_expect_ite (m k : Char) :
    Stable (fun x => expect m (if x.type = k then cg_symbol x else x)) s :=
  stable_pre (g := fun x => if x.type = k then cg_symbol x else x)
    (quietFn_ite (fun _ _ => Iff.rfl) quietFn_cg_symbol quietFn_id) (stable_expect m)

end Stable

theorem expression_stable_rules (n : Nat) :
    (∀ s, Stable (factor n) s) ∧ (∀ s, Stable (termLoop n) s) ∧
    (∀ s, Stable (term n) s) ∧ (∀ s, Stable (expressionLoop n) s) ∧
    (∀ s, Stable (expression n) s) := by
  induction n with
  | zero =>
    refine ⟨?_, ?_, ?_, ?_, ?_⟩ <;> intro s
    · show Stable (fun x => factor 0 x) s
      simp only [factor]; exact stable_fuel
    · show Stable (fun x => termLoop 0 x) s
      simp only [termLoop]; exact stable_fuel
    · show Stable (fun x => term 0 x) s
      simp only [term]; exact stable_fuel
    · show Stable (fun x => expressionLoop 0 x) s
      simp only [expressionLoop]; exact stable_fuel
    · show Stable (fun x => expression 0 x) s
      simp only [expression]; exact stable_fuel
  | succ n ih =>
    obtain ⟨ihf, ihtl, iht, ihel, ihe⟩ := ih
    refine ⟨?_, ?_, ?_, ?_, ?_⟩ <;> intro s
    · show Stable (fun x => factor (n + 1) x) s
      simp only [factor, bind_def, pure_def]
      with_reducible repeat' first
        | refine stable_ite (fun _ => Iff.rfl) (fun h => ?_) (fun h => ?_)
        | refine stable_bind ?_ (fun a => ?_)
        | exact ihe _
        | exact stable_symcheck _ h
        | exact stable_next_sym
        | exact stable_expect_sym _
        | exact stable_expect_ite _ _
        | exact stable_same
    · show Stable (fun x => termLoop (n + 1) x) s
      simp only [termLoop, bind_def, pure_def]
      with_reducible repeat' first
        | refine stable_ite (fun _ => Iff.rfl) (fun h => ?_) (fun h => ?_)
        | refine stable_bind ?_ (fun a => ?_)
        | exact ihf _
        | exact ihtl _
        | exact stable_next_sym
        | exact stable_same
    · show Stable (fun x => term (n + 1) x) s
      simp only [term, bind_def, pure_def]
      with_reducible repeat' first
        | refine stable_bind ?_ (fun a => ?_)
        | exact ihf _
        | exact ihtl _
    · show Stable (fun x => expressionLoop (n + 1) x) s
      simp only [expressionLoop, bind_def, pure_def]
      with_reducible repeat' first
        | refine stable_ite (fun _ => Iff.rfl) (fun h => ?_) (fun h => ?_)
        | refine stable_bind ?_ (fun a => ?_)
        | exact iht _
        | exact ihel _
        | exact stable_next_sym
        | exact stable_same
    · show Stable (fun x => expression (n + 1) x) s
      simp only [expression, bind_def, pure_def]
      with_reducible repeat' first
        | refine stable_ite (fun _ => Iff.rfl) (fun h => ?_) (fun h => ?_)
        | refine stable_bind ?_ (fun a => ?_)
        | exact iht _
        | exact ihel _
        | exact stable_next_sym
        | exact stable_same

theorem quietFn_cg_odd : QuietFn cg_odd := fun _ => ⟨⟨rfl, rfl, rfl, rfl, rfl⟩, fun _ => rfl⟩

theorem quietFn_cg_call : QuietFn cg_call := fun _ => ⟨⟨rfl, rfl, rfl, rfl, rfl⟩, fun _ => rfl⟩

theorem quietFn_cg_writeint : QuietFn cg_writeint :=
  fun _ => ⟨⟨rfl, rfl, rfl, rfl, rfl⟩, fun _ => rfl⟩

theorem quietFn_cg_writechar : QuietFn cg_writechar :=
  fun _ => ⟨⟨rfl, rfl, rfl, rfl, rfl⟩, fun _ => rfl⟩

theorem quietFn_cg_readchar : QuietFn cg_readchar :=
  fun _ => ⟨⟨rfl, rfl, rfl, rfl, rfl⟩, fun _ => rfl⟩

theorem quietFn_cg_readint : QuietFn cg_readint :=
  fun s => ⟨(quiet_cg_readint s).1, fun _ => rfl⟩

theorem quietFn_cg_semicolon : QuietFn cg_semicolon :=
  fun _ => ⟨⟨rfl, rfl, rfl, rfl, rfl⟩, fun _ => rfl⟩

theorem quietFn_cg_const : QuietFn cg_const := fun _ => ⟨⟨rfl, rfl, rfl, rfl, rfl⟩, fun _ => rfl⟩

theorem quietFn_cg_var : QuietFn cg_var := fun _ => ⟨⟨rfl, rfl, rfl, rfl, rfl⟩, fun _ => rfl⟩

theorem quietFn_cg_newline : QuietFn cg_newline :=
  fun _ => ⟨⟨rfl, rfl, rfl, rfl, rfl⟩, fun _ => rfl⟩

section Stable

variable {s : State}

theorem stable_expect_semi (m : Char) : Stable (fun x => expect m (cg_semicolon x)) s :=
  stable_pre quietFn_cg_semicolon (stable_expect m)

theorem stable_cg_odd : Stable (fun x => .ok (cg_odd x)) s := stable_ok quietFn_cg_odd

theorem stable_cg_call : Stable (fun x => .ok (cg_call x)) s := stable_ok quietFn_cg_call

theorem stable_cg_writeint : Stable (fun x => .ok (cg_writeint x)) s :=
  stable_ok quietFn_cg_writeint

theorem stable_cg_writechar : Stable (fun x => .ok (cg_writechar x)) s :=
  stable_ok quietFn_cg_writechar

theorem stable_cg_readint : Stable (fun x => .ok (cg_readint x)) s :=
  stable_ok quietFn_cg_readint

theorem stable_cg_readchar : Stable (fun x => .ok (cg_readchar x)) s :=
  stable_ok quietFn_cg_readchar

theorem stable_cg_const : Stable (fun x => .ok (cg_const x)) s := stable_ok quietFn_cg_const

theorem stable_cg_var : Stable (fun x => .ok (cg_var x)) s := stable_ok quietFn_cg_var

theorem stable_cg_newline : Stable (fun x => .ok (cg_newline x)) s :=
  stable_ok quietFn_cg_newline

theorem stable_conditional : Stable (fun x => error x "invalid conditional") s :=
  stable_error _ (by decide)

theorem stable_writeint_error :
    Stable (fun x => error x "writeInt takes an identifier or a number") s :=
  stable_error _ (by decide)

theorem stable_writechar_error :
    Stable (fun x => error x "writeChar takes an identifier or a number") s :=
  stable_error _ (by decide)

end Stable

theorem condition_stable (n : Nat) (s : State) : Stable (condition n) s := by
  have ihe := (expression_stable_rules n).2.2.2.2
  show Stable (fun x => condition n x) s
  unfold condition
  simp only [bind_def, pure_def]
  with_reducible repeat' first
    | refine stable_ite (fun _ => Iff.rfl) (fun h => ?_) (fun h => ?_)
    | refine stable_bind ?_ (fun a => ?_)
    | exact ihe _
    | exact stable_next_sym
    | exact stable_expect_sym _
    | exact stable_cg_odd
    | exact stable_conditional

theorem statement_stable_rules (n : Nat) :
    (∀ s, Stable (statementLoop n) s) ∧ (∀ s, Stable (statement n) s) := by
  induction n with
  | zero =>
    refine ⟨?_, ?_⟩ <;> intro s
    · show Stable (fun x => statementLoop 0 x) s
      simp only [statementLoop]; exact stable_fuel
    · show Stable (fun x => statement 0 x) s
      simp only [statement]; exact stable_fuel
  | succ n ih =>
    obtain ⟨ihl, ihs⟩ := ih
    have ihe := (expression_stable_rules n).2.2.2.2
    have ihc := condition_stable n
    refine ⟨?_, ?_⟩ <;> intro s
    · show Stable (fun x => statementLoop (n + 1) x) s
      simp only [statementLoop, bind_def, pure_def]
      with_reducible repeat' first
        | refine stable_ite (fun _ => Iff.rfl) (fun h => ?_) (fun h => ?_)
        | refine stable_bind ?_ (fun a => ?_)
        | exact ihl _
        | exact ihs _
        | exact stable_expect_semi _
        | exact stable_same
    · show Stable (fun x => statement (n + 1) x) s
      simp only [statement, bind_def, pure_def]
      with_reducible repeat' first
        | refine stable_ite (fun _ => Iff.rfl) (fun h => ?_) (fun h => ?_)
        | refine stable_bind ?_ (fun a => ?_)
        | exact ihl _
        | exact ihs _
        | exact ihe _
        | exact ihc _
        | exact stable_symcheck _ h
        | exact stable_expect_ite _ _
        | exact stable_expect_sym _
        | exact stable_expect _
        | exact stable_writeint_error
        | exact stable_writechar_error
        | exact stable_cg_call
        | exact stable_cg_writeint
        | exact stable_cg_writechar
        | exact stable_cg_readint
        | exact stable_cg_readchar
        | exact stable_same

theorem stable_expect_number {s : State} :
    Stable (fun x => expect TOK_NUMBER
      (if x.type = TOK_NUMBER then cg_semicolon (cg_symbol x) else x)) s :=
  stable_pre (g := fun x => if x.type = TOK_NUMBER then cg_semicolon (cg_symbol x) else x)
    (quietFn_ite (fun _ _ => Iff.rfl) (quietFn_comp quietFn_cg_symbol quietFn_cg_semicolon)
      quietFn_id) (stable_expect _)

theorem constItem_stable (s : State) : Stable constItem s := by
  show Stable (fun x => constItem x) s
  unfold constItem
  simp only [bind_def, pure_def]
  with_reducible repeat' first
    | refine stable_ite (fun _ => Iff.rfl) (fun h => ?_) (fun h => ?_)
    | refine stable_bind ?_ (fun a => ?_)
    | exact stable_addsymbol _
    | exact stable_expect_number
    | exact stable_expect _
    | exact stable_cg_const
    | exact stable_same

theorem varItem_stable (s : State) : Stable varItem s := by
  show Stable (fun x => varItem x) s
  unfold varItem
  simp only [bind_def, pure_def]
  with_reducible repeat' first
    | refine stable_ite (fun _ => Iff.rfl) (fun h => ?_) (fun h => ?_)
    | refine stable_bind ?_ (fun a => ?_)
    | exact stable_addsymbol _
    | exact stable_expect _
    | exact stable_cg_var
    | exact stable_same

theorem constLoop_stable (n : Nat) : ∀ s, Stable (constLoop n) s := by
  induction n with
  | zero =>
    intro s
    show Stable (fun x => constLoop 0 x) s
    simp only [constLoop]; exact stable_fuel
  | succ n ih =>
    intro s
    show Stable (fun x => constLoop (n + 1) x) s
    simp only [constLoop, bind_def, pure_def]
    with_reducible repeat' first
      | refine stable_ite (fun _ => Iff.rfl) (fun h => ?_) (fun h => ?_)
      | refine stable_bind ?_ (fun a => ?_)
      | exact ih _
      | exact constItem_stable _
      | exact stable_expect _
      | exact stable_same

theorem varLoop_stable (n : Nat) : ∀ s, Stable (varLoop n) s := by
  induction n with
  | zero =>
    intro s
    show Stable (fun x => varLoop 0 x) s
    simp only [varLoop]; exact stable_fuel
  | succ n ih =>
    intro s
    show Stable (fun x => varLoop (n + 1) x) s
    simp only [varLoop, bind_def, pure_def]
    with_reducible repeat' first
      | refine stable_ite (fun _ => Iff.rfl) (fun h => ?_) (fun h => ?_)
      | refine stable_bind ?_ (fun a => ?_)
      | exact ih _
      | exact varItem_stable _
      | exact stable_expect _
      | exact stable_same

theorem constPart_stable (n : Nat) (s : State) : Stable (constPart n) s := by
  show Stable (fun x => constPart n x) s
  unfold constPart
  simp only [bind_def, pure_def]
  with_reducible repeat' first
    | refine stable_ite (fun _ => Iff.rfl) (fun h => ?_) (fun h => ?_)
    | refine stable_bind ?_ (fun a => ?_)
    | exact constLoop_stable _ _
    | exact constItem_stable _
    | exact stable_expect _
    | exact stable_same

theorem varPart_stable (n : Nat) (s : State) : Stable (varPart n) s := by
  show Stable (fun x => varPart n x) s
  unfold varPart
  simp only [bind_def, pure_def]
  with_reducible repeat' first
    | refine stable_ite (fun _ => Iff.rfl) (fun h => ?_) (fun h => ?_)
    | refine stable_bind ?_ (fun a => ?_)
    | exact varLoop_stable _ _
    | exact varItem_stable _
    | exact stable_expect _
    | exact stable_cg_newline
    | exact stable_same

theorem quietFn_cg_procedure : QuietFn cg_procedure := by
  intro s
  refine ⟨lexSame_cg_procedure s, ?_⟩
  intro B'
  unfold cg_procedure
  show (aout "\x7b\n" (if s.proc = 0 then _ else _) : State) = _
  split <;> rfl

theorem quietFn_cg_epilogue : QuietFn cg_epilogue := by
  intro s
  refine ⟨lexSame_cg_epilogue s, ?_⟩
  intro B'
  have e : ∀ x : State, cg_epilogue x =
      if x.proc = 0 then aout "\n\x7d\n\n" (aout "return 0;" (aout ";" x))
      else aout "\n\x7d\n\n" (aout ";" x) := by
    intro x
    unfold cg_epilogue
    show (aout "\n\x7d\n\n" (if x.proc = 0 then _ else _) : State) = _
    split <;> rfl
  rw [e, e]
  show (if s.proc = 0 then _ else _ : State) = _
  split <;> rfl

theorem quietFn_cg_init : QuietFn cg_init :=
  fun s => ⟨lexSame_cg_init s, fun _ => rfl⟩

theorem quietFn_procOn : QuietFn (fun x => { x with proc := 1 }) :=
  fun _ => ⟨⟨rfl, rfl, rfl, rfl, rfl⟩, fun _ => rfl⟩

theorem quietFn_procOff : QuietFn (fun x => { x with proc := 0 }) :=
  fun _ => ⟨⟨rfl, rfl, rfl, rfl, rfl⟩, fun _ => rfl⟩

theorem quietFn_enter : QuietFn (fun x => { x with depth := x.depth + 1 }) :=
  fun _ => ⟨⟨rfl, rfl, rfl, rfl, rfl⟩, fun _ => rfl⟩

theorem quietFn_leave :
    QuietFn (fun x => { cg_epilogue x with depth := (cg_epilogue x).depth - 1 }) :=
  quietFn_comp (g := fun x => { x with depth := x.depth - 1 }) quietFn_cg_epilogue
    (fun _ => ⟨⟨rfl, rfl, rfl, rfl, rfl⟩, fun _ => rfl⟩)

section Stable

variable {s : State}

theorem stable_expect_procOn (m : Char) : Stable (fun x => expect m { x with proc := 1 }) s :=
  stable_pre quietFn_procOn (stable_expect m)

theorem stable_destroy_procOff : Stable (fun x => destroysymbols { x with proc := 0 }) s :=
  stable_pre quietFn_procOff stable_destroy

theorem stable_cg_procedure : Stable (fun x => .ok (cg_procedure x)) s :=
  stable_ok quietFn_cg_procedure

theorem stable_exceeded :
    Stable (fun x => error { x with depth := x.depth + 1 } "nesting depth exceeded") s :=
  stable_pre (C := fun x => error x "nesting depth exceeded") quietFn_enter
    (stable_error _ (by decide))

theorem stable_constPart_enter (n : Nat) :
    Stable (fun x => constPart n { x with depth := x.depth + 1 }) s :=
  stable_pre quietFn_enter (constPart_stable n _)

theorem stable_statement_main (n : Nat) :
    Stable (fun x => statement n (if x.proc = 0 then cg_procedure x else x)) s :=
  stable_pre (g := fun x => if x.proc = 0 then cg_procedure x else x)
    (quietFn_ite (fun _ _ => Iff.rfl) quietFn_cg_procedure quietFn_id)
    ((statement_stable_rules n).2 _)

theorem stable_leave :
    Stable (fun x => if (cg_epilogue x).depth - 1 < 0
      then error { cg_epilogue x with depth := (cg_epilogue x).depth - 1 }
        "nesting depth fell below 0"
      else .ok { cg_epilogue x with depth := (cg_epilogue x).depth - 1 }) s := by
  refine stable_ite (c := fun x => (cg_epilogue x).depth - 1 < 0) ?_ (fun _ => ?_) (fun _ => ?_)
  · intro B'
    show (cg_epilogue (withBuf s B')).depth - 1 < 0 ↔ _
    rw [(quietFn_cg_epilogue s).2]
  · exact stable_pre (C := fun x => error x "nesting depth fell below 0") quietFn_leave
      (stable_error _ (by decide))
  · exact stable_ok quietFn_leave

theorem stable_next_init : Stable (fun x => next (cg_init x)) s :=
  stable_pre quietFn_cg_init stable_next

theorem stable_extra : Stable (fun x => error x "extra tokens at end of file") s :=
  stable_error _ (by decide)

end Stable

theorem block_stable_rules (n : Nat) :
    (∀ s, Stable (procLoop n) s) ∧ (∀ s, Stable (block n) s) := by
  induction n with
  | zero =>
    refine ⟨?_, ?_⟩ <;> intro s
    · show Stable (fun x => procLoop 0 x) s
      simp only [procLoop]; exact stable_fuel
    · show Stable (fun x => block 0 x) s
      simp only [block]; exact stable_fuel
  | succ n ih =>
    obtain ⟨ihp, ihb⟩ := ih
    refine ⟨?_, ?_⟩ <;> intro s
    · show Stable (fun x => procLoop (n + 1) x) s
      simp only [procLoop, procDecl, bind_def, pure_def]
      with_reducible repeat' first
        | refine stable_ite (fun _ => Iff.rfl) (fun h => ?_) (fun h => ?_)
        | refine stable_bind ?_ (fun a => ?_)
        | exact ihp _
        | exact ihb _
        | exact stable_addsymbol _
        | exact stable_expect_procOn _
        | exact stable_destroy_procOff
        | exact stable_expect _
        | exact stable_cg_procedure
        | exact stable_same
    · show Stable (fun x => block (n + 1) x) s
      simp only [block, bind_def, pure_def]
      with_reducible repeat' first
        | exact stable_leave
        | refine stable_ite (fun _ => Iff.rfl) (fun h => ?_) (fun h => ?_)
        | refine stable_bind ?_ (fun a => ?_)
        | exact ihp _
        | exact stable_exceeded
        | exact stable_constPart_enter _
        | exact varPart_stable _ _
        | exact stable_statement_main _

theorem parse_stable (n : Nat) (s : State) : Stable (parse n) s := by
  show Stable (fun x => parse n x) s
  simp only [parse, bind_def, pure_def]
  with_reducible repeat' first
    | refine stable_ite (fun _ => Iff.rfl) (fun h => ?_) (fun h => ?_)
    | refine stable_bind ?_ (fun a => ?_)
    | exact (block_stable_rules n).2 _
    | exact stable_next_init
    | exact stable_expect _
    | exact stable_extra
    | exact stable_same

theorem lineAt_token (buf pre post : List Char) (raw : Nat) (token : String)
    (e : buf = pre ++ token.data ++ post) (hr : raw = pre.length + token.length)
    (hrun : identRun (token.data ++ post) = token.length) :
    lineAt buf raw = 1 + pre.count '\n' := by
  have hw : ∀ c ∈ token.data, c ≠ '\n' := by
    intro c hc
    have := identRun_word (token.data ++ post) c (by
      rw [hrun]
      show c ∈ (token.data ++ post).take token.data.length
      rw [List.take_left]
      exact hc)
    exact (word_not_newline c this).1
  unfold lineAt
  have ht : buf.take raw = pre ++ token.data := by
    rw [e, hr, List.append_assoc]
    show List.take (pre.length + token.data.length) _ = _
    rw [← List.length_append, ← List.append_assoc, List.take_left]
  rw [ht, List.count_append, List.count_eq_zero.2 (fun hm => hw _ hm rfl)]
  rfl

theorem compile_undefined_at (src : String) (l : Nat) (N : String)
    (h : compile src = .fatal l ("undefined symbol: " ++ N)) :
    ∃ pre post, src.data = pre ++ N.data ++ post ∧ l = 1 + pre.count '\n' ∧
      identRun (N.data ++ post) = N.length ∧
      ∀ src' : String,
        src'.data.take (pre.length + N.length + 1) = src.data.take (pre.length + N.length + 1) →
        compile src' = .fatal l ("undefined symbol: " ++ N) := by
  have hI : InStep (initsymtab (initial src)).buf (initsymtab (initial src)) := inStep_initial src
  obtain ⟨p, -, ⟨pre, post, e, hp, hrun⟩, hl, hB⟩ := (parse_stable (budget src) _ hI).2 l N h
  refine ⟨pre, post, e, hl.trans (lineAt_token _ pre post p N e hp hrun), hrun, ?_⟩
  intro src' hA
  have h1 : parse (budget src) (initsymtab (initial src')) =
      .fatal l ("undefined symbol: " ++ N) := by
    refine hB src'.data ?_
    rw [hp]
    exact hA.symm
  have h2 := (compile_finishes src' trivial).2.1
  unfold compile at h2 ⊢
  rcases Nat.le_total (budget src) (budget src') with hle | hle
  · rcases parse_stack _ _ hle (initsymtab (initial src')) with hf | he
    · rw [h1] at hf
      cases hf
    · rw [← he]
      exact h1
  · rcases parse_stack _ _ hle (initsymtab (initial src')) with hf | he
    · exact absurd hf h2
    · rw [he]
      exact h1

/-- C16: when the compilation of `src` fails with "undefined symbol: N", the
line reported is 1 plus the number of newline characters of `src` before the
occurrence of `N` at which the compiler stops (the text of a skipped comment
counts like any other text before it): `N` stands there as one identifier up
to its last character, and every source text with the same characters up to
and including the one after this occurrence fails with the same message at the
same line, whatever follows.  The check that raises the error in a state in
step with the source raises it for the current token, at the line of that
occurrence.  The source `var x; begin y := 1 end.` fails with
"undefined symbol: y" at line 1, a source with the undeclared `y` on its fifth
line, after a comment of two lines, fails at line 5, and a source that declares
`xy` on its first line and uses `y` on its fourth fails at line 4. -/
theorem undefined_symbol_line :
    (∀ src l N, compile src = .fatal l ("undefined symbol: " ++ N) →
      ∃ pre post, src.data = pre ++ N.data ++ post ∧ l = 1 + pre.count '\n' ∧
        identRun (N.data ++ post) = N.length ∧
        ∀ src' : String,
          src'.data.take (pre.length + N.length + 1)
            = src.data.take (pre.length + N.length + 1) →
          compile src' = .fatal l ("undefined symbol: " ++ N)) ∧
    (∀ B c s l N, InStep B s → s.type = TOK_IDENT →
      symcheck c s = .fatal l ("undefined symbol: " ++ N) →
      N = s.token ∧ ∃ pre post, B = pre ++ N.data ++ post ∧
        s.raw = pre.length + N.length ∧ l = 1 + pre.count '\n') ∧
    compile "var x; begin y := 1 end." = .fatal 1 "undefined symbol: y" ∧
    compile "var x;\n\x7b a\n b \x7d\nbegin\n  y := 1\nend." = .fatal 5 "undefined symbol: y" ∧
    compile "var xy;\n\nbegin\n y := 1\nend." = .fatal 4 "undefined symbol: y" := by
  refine ⟨compile_undefined_at, ?_, by decide!, by decide!, by decide!⟩
  intro B c s l N hI ht h
  rcases symcheck_fatal c s l _ h with ⟨hl, hm⟩ | hm
  · have hN : N = s.token := string_append_cancel _ _ _ hm
    subst hN
    obtain ⟨hb, hline, htok⟩ := hI
    obtain ⟨pre, post, e, hp, hrun⟩ := htok ht
    refine ⟨rfl, pre, post, hb ▸ e, hp, ?_⟩
    rw [hl, hline]
    exact lineAt_token _ pre post _ _ e hp hrun
  · exfalso
    rw [msgHead_append _ _ (by decide)] at hm
    revert hm
    decide

/-! ## Calls and declarations in the token sequence -/

theorem lexerLoop_withRest (n : Nat) : ∀ (s o : State),
    lexerLoop n (withRest s o) = (lexerLoop n s).bind fun r => .ok (r.1, withRest r.2 o) := by
  induction n with
  | zero => intro s o; rfl
  | succ n ih =>
    intro s o
    unfold lexerLoop
    simp only
    show (let p := skipWhitespace (s.buf.drop s.raw) s.raw s.line; _) = _
    generalize skipWhitespace (s.buf.drop s.raw) s.raw s.line = p
    obtain ⟨ra, la⟩ := p
    simp only
    simp only [State.cur]
    split_ifs with c1 c2 c3 c4 c5 c6 c7
    · rfl
    · unfold number
      simp only
      split_ifs <;> rfl
    · unfold comment
      show (match commentLoop (s.buf.drop ra) ra la with
        | .inl line => Result.fatal line "unterminated comment"
        | .inr (raw, line) => Result.ok { withRest s o with raw := raw, line := line }).bind _ = _
      cases commentLoop (s.buf.drop ra) ra la with
      | inl line => rfl
      | inr p =>
        obtain ⟨rb, lb⟩ := p
        exact ih { s with raw := rb, line := lb } o
    all_goals rfl

theorem next_withRest (s o : State) :
    next (withRest s o) = (next s).bind fun a => .ok (withRest a o) := by
  unfold next lexer
  show (lexerLoop (s.buf.length + 1) (withRest s o)).bind _ = _
  rw [lexerLoop_withRest]
  cases lexerLoop (s.buf.length + 1) s <;> rfl

theorem next_lexSame (a s s' : State) (hq : LexSame a s) (h : next s = .ok s') :
    ∃ a', next a = .ok a' ∧ LexSame a' s' := by
  obtain ⟨q1, q2, q3, q4, q5⟩ := hq
  have e : s = withRest a s := by
    cases s
    cases a
    simp only at q1 q2 q3 q4 q5
    subst q1 q2 q3 q4 q5
    rfl
  rw [e, next_withRest] at h
  obtain ⟨a', ha, e'⟩ := bind_eq_ok.1 h
  cases e'
  exact ⟨a', ha, ⟨rfl, rfl, rfl, rfl, rfl⟩⟩

theorem atToken_next {src : String} {i : Nat} {s s' : State} (h : AtToken src i s)
    (ht : s.type ≠ TOK_EOF) (hn : next s = .ok s') : AtToken src (i + 1) s' := by
  obtain ⟨a, ha, hq⟩ := h
  obtain ⟨a', ha', hq'⟩ := next_lexSame a s s' hq hn
  refine ⟨a', ?_, hq'⟩
  rw [scanned, ha]
  show (if a.type = TOK_EOF then _ else _) = _
  rw [if_neg (by rw [← hq.2.2.2.1]; exact ht)]
  exact ha'

theorem atToken_type {src : String} {i : Nat} {s b : State} (h : AtToken src i s)
    (hb : scanned src i = .ok b) : b.type = s.type ∧ b.token = s.token := by
  obtain ⟨a, ha, hq⟩ := h
  rw [ha] at hb
  cases hb
  exact ⟨hq.2.2.2.1.symm, hq.2.2.2.2.symm⟩

theorem atToken_lexSame {src : String} {i : Nat} {s s' : State} (h : AtToken src i s)
    (hq : LexSame s s') : AtToken src i s' := by
  obtain ⟨a, ha, q1, q2, q3, q4, q5⟩ := h
  obtain ⟨p1, p2, p3, p4, p5⟩ := hq
  exact ⟨a, ha, p1.trans q1, p2.trans q2, p3.trans q3, p4.trans q4, p5.trans q5⟩

theorem declaredBefore_mono {src : String} {i k : Nat} {X : String}
    (h : DeclaredBefore src i X) (hk : i ≤ k) : DeclaredBefore src k X := by
  rcases h with h | ⟨j, hj, h⟩
  · exact Or.inl h
  · exact Or.inr ⟨j, by omega, h⟩

theorem tokInv_of {src : String} {s s' : State} (hq : LexSame s s')
    (hh : ∀ c ∈ s'.head, c.type = TOK_PROCEDURE → c ∈ s.head) (h : TokInv src s) :
    TokInv src s' := by
  obtain ⟨i, h1, h2, h3, h4⟩ := h
  exact ⟨i, atToken_lexSame h1 hq, h2, fun c hc ht => h3 c (hh c hc ht) ht, h4⟩

theorem tokInv_quiet {src : String} {s s' : State} (hq : LexSame s s' ∧ s'.head = s.head)
    (h : TokInv src s) : TokInv src s' :=
  tokInv_of hq.1 (fun _ hc _ => hq.2 ▸ hc) h

theorem tokInv_next {src : String} {s s' : State} (h : TokInv src s)
    (h1 : s.type ≠ TOK_CALL) (h2 : s.type ≠ TOK_EOF) (hn : next s = .ok s') :
    TokInv src s' := by
  obtain ⟨i, hat, hc, htab, hp⟩ := h
  refine ⟨i + 1, atToken_next hat h2 hn, ?_, ?_, ?_⟩
  · intro k X hk hf
    rcases Nat.lt_or_ge (k + 1) i with hlt | hge
    · exact hc k X hlt hf
    · obtain ⟨a, b, ha, hta, -⟩ := hf
      exact absurd hta (hp k a (by omega) ha)
  · intro c hm ht
    rw [(next_frame s s' hn).1] at hm
    exact declaredBefore_mono (htab c hm ht) (by omega)
  · intro k b hk hb
    obtain rfl : k = i := by omega
    rw [(atToken_type hat hb).1]
    exact h1

theorem tokInv_call {src : String} {s0 s1 s2 : State} (h : TokInv src s0)
    (h0 : s0.type = TOK_CALL) (hn : next s0 = .ok s1) (h1 : s1.type = TOK_IDENT)
    (hs : symcheck CHECK_CALL s1 = .ok s1) (hn2 : next (cg_call s1) = .ok s2) :
    TokInv src s2 := by
  obtain ⟨i, hat, hc, htab, hp⟩ := h
  have hat1 : AtToken src (i + 1) s1 := atToken_next hat (by rw [h0]; decide) hn
  have hat1' : AtToken src (i + 1) (cg_call s1) :=
    atToken_lexSame hat1 ⟨rfl, rfl, rfl, rfl, rfl⟩
  have hat2 : AtToken src (i + 1 + 1) s2 :=
    atToken_next hat1' (by show s1.type ≠ TOK_EOF; rw [h1]; decide) hn2
  have hh1 : s1.head = s0.head := (next_frame s0 s1 hn).1
  have hh2 : s2.head = s0.head := ((next_frame _ s2 hn2).1).trans hh1
  refine ⟨i + 1 + 1, hat2, ?_, ?_, ?_⟩
  · intro k X hk hf
    rcases Nat.lt_or_ge (k + 1) i with hlt | hge
    · exact hc k X hlt hf
    · rcases Nat.eq_or_lt_of_le hge with he | hgt
      · obtain ⟨a, b, ha, hta, -⟩ := hf
        exact absurd hta (hp k a (by omega) ha)
      · obtain rfl : k = i := by omega
        obtain ⟨a, b, ha, hta, hb, htb, hX⟩ := hf
        obtain ⟨c, hm, hname, hty⟩ := symcheck_call_ok s1 hs
        rw [hh1] at hm
        have := htab c hm hty
        rw [hname, ← (atToken_type hat1 hb).2, hX] at this
        exact this
  · intro c hm ht
    rw [hh2] at hm
    exact declaredBefore_mono (htab c hm ht) (by omega)
  · intro k b hk hb
    obtain rfl : k = i + 1 := by omega
    rw [(atToken_type hat1 hb).1, h1]
    decide

theorem tokInv_header {src : String} {s s1 s1' : State} (h : TokInv src s)
    (h0 : s.type = TOK_PROCEDURE) (hn : next s = .ok s1) (h1 : s1.type = TOK_IDENT)
    (ha : addsymbol TOK_PROCEDURE s1 = .ok s1') : TokInv src s1' := by
  obtain ⟨i, hat, hc, htab, hp⟩ := h
  have hat1 : AtToken src (i + 1) s1 := atToken_next hat (by rw [h0]; decide) hn
  have e := (addsymbol_ok_eq _ _ _ ha).2
  have hq : LexSame s1 s1' := by
    rw [e]
    exact ⟨rfl, rfl, rfl, rfl, rfl⟩
  have hf : FollowedBy src TOK_PROCEDURE i s1.token := by
    obtain ⟨a, ha0, hqa⟩ := hat
    obtain ⟨b, hb0, hqb⟩ := hat1
    exact ⟨a, b, ha0, hqa.2.2.2.1.symm ▸ h0, hb0, hqb.2.2.2.1.symm ▸ h1, hqb.2.2.2.2.symm ▸ rfl⟩
  refine ⟨i + 1, atToken_lexSame hat1 hq, ?_, ?_, ?_⟩
  · intro k X hk hf'
    rcases Nat.lt_or_ge (k + 1) i with hlt | hge
    · exact hc k X hlt hf'
    · obtain ⟨a, b, ha', hta, -⟩ := hf'
      exact absurd hta (hp k a (by omega) ha')
  · intro c hm ht
    rw [e] at hm
    rcases List.mem_append.1 hm with hm | hm
    · rw [(next_frame s s1 hn).1] at hm
      exact declaredBefore_mono (htab c hm ht) (by omega)
    · rw [List.mem_singleton] at hm
      subst hm
      exact Or.inr ⟨i, by omega, hf⟩
  · intro k b hk hb
    obtain rfl : k = i := by omega
    rw [(atToken_type hat hb).1, h0]
    decide

section Keeps

variable {src : String} {s : State}

theorem keeps_bind {r : Result State} {f : State → Result State}
    (hr : Keeps src s r) (hf : ∀ a, Keeps src a (f a)) : Keeps src s (r.bind f) := by
  intro hI s' h
  obtain ⟨a, ha, hfa⟩ := bind_eq_ok.1 h
  exact hf a (hr hI a ha) s' hfa

theorem keeps_bind_ok {r : Result State} {f : State → Result State}
    (hr : Keeps src s r) (hf : ∀ a, r = .ok a → Keeps src a (f a)) :
    Keeps src s (r.bind f) := by
  intro hI s' h
  obtain ⟨a, ha, hfa⟩ := bind_eq_ok.1 h
  exact hf a ha (hr hI a ha) s' hfa

theorem keeps_ite {c : Prop} [Decidable c] {a b : Result State}
    (ha : c → Keeps src s a) (hb : ¬ c → Keeps src s b) :
    Keeps src s (if c then a else b) := by
  split
  · exact ha ‹_›
  · exact hb ‹_›

theorem keeps_ok {x : State} (h : TokInv src s → TokInv src x) : Keeps src s (.ok x) := by
  intro hI s' e
  cases e
  exact h hI

theorem keeps_same : Keeps src s (.ok s) := keeps_ok id

theorem keeps_from {x : State} {r : Result State} (h : TokInv src s → TokInv src x)
    (hr : Keeps src x r) : Keeps src s r :=
  fun hI => hr (h hI)

theorem keeps_error (x : State) (m : String) : Keeps src s (error x m) := by
  intro _ s' e
  cases e

theorem keeps_fuel : Keeps src s .fuel := by
  intro _ s' e
  cases e

theorem keeps_next (h1 : s.type ≠ TOK_CALL) (h2 : s.type ≠ TOK_EOF) : Keeps src s (next s) :=
  fun hI _ h => tokInv_next hI h1 h2 h

theorem keeps_expect (m : Char) (h1 : m ≠ TOK_CALL) (h2 : m ≠ TOK_EOF) :
    Keeps src s (expect m s) := by
  intro hI s' h
  obtain ⟨ht, hn⟩ := expect_ok m s s' h
  exact tokInv_next hI (by rw [ht]; exact h1) (by rw [ht]; exact h2) hn

theorem keeps_quiet {g : State → State} (hg : ∀ x, LexSame x (g x) ∧ (g x).head = x.head) :
    TokInv src s → TokInv src (g s) :=
  tokInv_quiet (hg s)

theorem keeps_cg_symbol : TokInv src s → TokInv src (cg_symbol s) :=
  tokInv_quiet (quiet_cg_symbol s)

theorem keeps_next_sym (h1 : s.type ≠ TOK_CALL) (h2 : s.type ≠ TOK_EOF) :
    Keeps src s (next (cg_symbol s)) := by
  have hq := (quiet_cg_symbol s).1.2.2.2.1
  exact keeps_from keeps_cg_symbol (keeps_next (by rw [hq]; exact h1) (by rw [hq]; exact h2))

theorem keeps_expect_sym (m : Char) (h1 : m ≠ TOK_CALL) (h2 : m ≠ TOK_EOF) :
    Keeps src s (expect m (cg_symbol s)) :=
  keeps_from keeps_cg_symbol (keeps_expect m h1 h2)

theorem keeps_expect_ite (m : Char) (c : Prop) [Decidable c] (h1 : m ≠ TOK_CALL)
    (h2 : m ≠ TOK_EOF) : Keeps src s (expect m (if c then cg_symbol s else s)) := by
  split
  · exact keeps_expect_sym m h1 h2
  · exact keeps_expect m h1 h2

theorem keeps_expect_semi (m : Char) (h1 : m ≠ TOK_CALL) (h2 : m ≠ TOK_EOF) :
    Keeps src s (expect m (cg_semicolon s)) :=
  keeps_from (tokInv_quiet (quiet_aout _ s)) (keeps_expect m h1 h2)

theorem keeps_symcheck (c : Nat) : Keeps src s (symcheck c s) := by
  intro hI s' h
  rw [symcheck_ok _ _ _ h]
  exact hI

theorem keeps_symcheck_next (c : Nat) (ht : s.type = TOK_IDENT) :
    Keeps src s ((symcheck c s).bind fun s => next (cg_symbol s)) := by
  refine keeps_bind_ok (keeps_symcheck c) ?_
  intro a ha
  have e := symcheck_ok _ _ _ ha
  subst e
  exact keeps_next_sym (by rw [ht]; decide) (by rw [ht]; decide)

theorem keeps_cg_odd : Keeps src s (.ok (cg_odd s)) := keeps_ok (tokInv_quiet (quiet_aout _ s))

theorem keeps_cg_writeint : Keeps src s (.ok (cg_writeint s)) :=
  keeps_ok (tokInv_quiet (quiet_aout _ s))

theorem keeps_cg_writechar : Keeps src s (.ok (cg_writechar s)) :=
  keeps_ok (tokInv_quiet (quiet_aout _ s))

theorem keeps_cg_readchar : Keeps src s (.ok (cg_readchar s)) :=
  keeps_ok (tokInv_quiet (quiet_aout _ s))

theorem keeps_cg_readint : Keeps src s (.ok (cg_readint s)) :=
  keeps_ok (tokInv_quiet (quiet_cg_readint s))

end Keeps

theorem expression_keeps_rules (src : String) (n : Nat) :
    (∀ s, Keeps src s (factor n s)) ∧ (∀ s, Keeps src s (termLoop n s)) ∧
    (∀ s, Keeps src s (term n s)) ∧ (∀ s, Keeps src s (expressionLoop n s)) ∧
    (∀ s, Keeps src s (expression n s)) := by
  induction n with
  | zero =>
    exact ⟨fun _ => keeps_fuel, fun _ => keeps_fuel, fun _ => keeps_fuel, fun _ => keeps_fuel,
      fun _ => keeps_fuel⟩
  | succ n ih =>
    obtain ⟨ihf, ihtl, iht, ihel, ihe⟩ := ih
    refine ⟨?_, ?_, ?_, ?_, ?_⟩ <;> intro s
    all_goals
      simp only [factor, termLoop, term, expressionLoop, expression, bind_def, pure_def]
      repeat' first
        | with_reducible refine keeps_ite (fun h => ?_) (fun h => ?_)
        | with_reducible exact keeps_symcheck_next _ h
        | with_reducible refine keeps_bind ?_ (fun a => ?_)
        | with_reducible exact ihf _
        | with_reducible exact ihtl _
        | with_reducible exact iht _
        | with_reducible exact ihel _
        | with_reducible exact ihe _
        | (with_reducible refine keeps_next_sym ?_ ?_) <;>
            (intro e; rw [e] at h; revert h; decide)
        | (with_reducible refine keeps_expect_sym _ ?_ ?_) <;> decide
        | (with_reducible refine keeps_expect_ite _ _ ?_ ?_) <;> decide
        | with_reducible exact keeps_same

theorem keeps_call_branch {src : String} {s : State} (h0 : s.type = TOK_CALL) :
    Keeps src s ((expect TOK_CALL s).bind fun s =>
      if s.type = TOK_IDENT then
        ((symcheck CHECK_CALL s).bind fun s => Result.ok (cg_call s)).bind fun y =>
          expect TOK_IDENT y
      else (Result.ok s).bind fun y => expect TOK_IDENT y) := by
  intro hI s' hr
  obtain ⟨s1, h1, hr⟩ := bind_eq_ok.1 hr
  have hn := (expect_ok _ _ _ h1).2
  by_cases ht : s1.type = TOK_IDENT
  · rw [if_pos ht] at hr
    obtain ⟨a, ha, hr⟩ := bind_eq_ok.1 hr
    obtain ⟨b, hb, hc⟩ := bind_eq_ok.1 ha
    have e := symcheck_ok _ _ _ hb
    subst e
    cases hc
    exact tokInv_call hI h0 hn ht hb (expect_ok _ _ _ hr).2
  · rw [if_neg ht] at hr
    exact absurd (expect_ok _ _ _ hr).1 ht

theorem condition_keeps (src : String) (n : Nat) (s : State) : Keeps src s (condition n s) := by
  have ihe := (expression_keeps_rules src n).2.2.2.2
  unfold condition
  simp only [bind_def, pure_def]
  repeat' first
    | with_reducible refine keeps_ite (fun h => ?_) (fun h => ?_)
    | with_reducible refine keeps_bind ?_ (fun a => ?_)
    | with_reducible exact ihe _
    | (with_reducible refine keeps_next_sym ?_ ?_) <;>
        (intro e; rw [e] at h; revert h; decide)
    | (with_reducible refine keeps_expect_sym _ ?_ ?_) <;> decide
    | with_reducible exact keeps_cg_odd
    | with_reducible exact keeps_error _ _

theorem statement_keeps_rules (src : String) (n : Nat) :
    (∀ s, Keeps src s (statementLoop n s)) ∧ (∀ s, Keeps src s (statement n s)) := by
  induction n with
  | zero => exact ⟨fun _ => keeps_fuel, fun _ => keeps_fuel⟩
  | succ n ih =>
    obtain ⟨ihl, ihs⟩ := ih
    have ihe := (expression_keeps_rules src n).2.2.2.2
    have ihc := condition_keeps src n
    refine ⟨?_, ?_⟩ <;> intro s
    all_goals
      simp only [statementLoop, statement, bind_def, pure_def]
      repeat' first
        | with_reducible refine keeps_ite (fun h => ?_) (fun h => ?_)
        | with_reducible exact keeps_call_branch h
        | with_reducible refine keeps_bind ?_ (fun a => ?_)
        | with_reducible exact ihl _
        | with_reducible exact ihs _
        | with_reducible exact ihe _
        | with_reducible exact ihc _
        | with_reducible exact keeps_symcheck _
        | (with_reducible refine keeps_expect_ite _ _ ?_ ?_) <;> decide
        | (with_reducible refine keeps_expect_sym _ ?_ ?_) <;> decide
        | (with_reducible refine keeps_expect_semi _ ?_ ?_) <;> decide
        | (with_reducible refine keeps_expect _ ?_ ?_) <;> decide
        | with_reducible exact keeps_error _ _
        | with_reducible exact keeps_cg_writeint
        | with_reducible exact keeps_cg_writechar
        | with_reducible exact keeps_cg_readint
        | with_reducible exact keeps_cg_readchar
        | with_reducible exact keeps_same

section Keeps

variable {src : String} {s : State}

theorem keeps_declare (ty : Char) (hty : ty ≠ TOK_PROCEDURE) :
    Keeps src s (addsymbol ty s) := by
  intro hI s' h
  have e := (addsymbol_ok_eq _ _ _ h).2
  refine tokInv_of ?_ ?_ hI
  · rw [e]
    exact ⟨rfl, rfl, rfl, rfl, rfl⟩
  · intro c hc ht
    rw [e] at hc
    rcases List.mem_append.1 hc with hc | hc
    · exact hc
    · rw [List.mem_singleton] at hc
      subst hc
      exact absurd ht hty

theorem keeps_cg_const : Keeps src s (.ok (cg_const s)) :=
  keeps_ok (tokInv_quiet (quiet_aout _ s))

theorem keeps_cg_var : Keeps src s (.ok (cg_var s)) :=
  keeps_ok (tokInv_quiet (quiet_aout _ s))

theorem keeps_cg_newline : Keeps src s (.ok (cg_newline s)) :=
  keeps_ok (tokInv_quiet (quiet_aout _ s))

theorem keeps_expect_number (c : Prop) [Decidable c] :
    Keeps src s (expect TOK_NUMBER (if c then cg_semicolon (cg_symbol s) else s)) := by
  split
  · refine keeps_from (fun hI => ?_) (keeps_expect _ (by decide) (by decide))
    exact tokInv_quiet (quiet_aout _ _) (keeps_cg_symbol hI)
  · exact keeps_expect _ (by decide) (by decide)

theorem keeps_destroy : Keeps src s (destroysymbols s) := by
  intro hI s' h
  obtain ⟨removed, hr, e⟩ := destroysymbols_ok s s' h
  refine tokInv_of ?_ ?_ hI
  · rw [e]
    exact ⟨rfl, rfl, rfl, rfl, rfl⟩
  · intro c hc _
    rw [hr]
    exact List.mem_append_left _ hc

end Keeps

theorem constItem_keeps (src : String) (s : State) : Keeps src s (constItem s) := by
  unfold constItem
  simp only [bind_def, pure_def]
  repeat' first
    | with_reducible refine keeps_ite (fun h => ?_) (fun h => ?_)
    | with_reducible refine keeps_bind ?_ (fun a => ?_)
    | (with_reducible refine keeps_declare _ ?_) <;> decide
    | with_reducible exact keeps_expect_number _
    | (with_reducible refine keeps_expect _ ?_ ?_) <;> decide
    | with_reducible exact keeps_cg_const
    | with_reducible exact keeps_same

theorem varItem_keeps (src : String) (s : State) : Keeps src s (varItem s) := by
  unfold varItem
  simp only [bind_def, pure_def]
  repeat' first
    | with_reducible refine keeps_ite (fun h => ?_) (fun h => ?_)
    | with_reducible refine keeps_bind ?_ (fun a => ?_)
    | (with_reducible refine keeps_declare _ ?_) <;> decide
    | (with_reducible refine keeps_expect _ ?_ ?_) <;> decide
    | with_reducible exact keeps_cg_var
    | with_reducible exact keeps_same

theorem constLoop_keeps (src : String) (n : Nat) : ∀ s, Keeps src s (constLoop n s) := by
  induction n with
  | zero => exact fun _ => keeps_fuel
  | succ n ih =>
    intro s
    simp only [constLoop, bind_def, pure_def]
    repeat' first
      | with_reducible refine keeps_ite (fun h => ?_) (fun h => ?_)
      | with_reducible refine keeps_bind ?_ (fun a => ?_)
      | with_reducible exact ih _
      | with_reducible exact constItem_keeps _ _
      | (with_reducible refine keeps_expect _ ?_ ?_) <;> decide
      | with_reducible exact keeps_same

theorem varLoop_keeps (src : String) (n : Nat) : ∀ s, Keeps src s (varLoop n s) := by
  induction n with
  | zero => exact fun _ => keeps_fuel
  | succ n ih =>
    intro s
    simp only [varLoop, bind_def, pure_def]
    repeat' first
      | with_reducible refine keeps_ite (fun h => ?_) (fun h => ?_)
      | with_reducible refine keeps_bind ?_ (fun a => ?_)
      | with_reducible exact ih _
      | with_reducible exact varItem_keeps _ _
      | (with_reducible refine keeps_expect _ ?_ ?_) <;> decide
      | with_reducible exact keeps_same

theorem constPart_keeps (src : String) (n : Nat) (s : State) : Keeps src s (constPart n s) := by
  unfold constPart
  simp only [bind_def, pure_def]
  repeat' first
    | with_reducible refine keeps_ite (fun h => ?_) (fun h => ?_)
    | with_reducible refine keeps_bind ?_ (fun a => ?_)
    | with_reducible exact constLoop_keeps _ _ _
    | with_reducible exact constItem_keeps _ _
    | (with_reducible refine keeps_expect _ ?_ ?_) <;> decide
    | with_reducible exact keeps_same

theorem varPart_keeps (src : String) (n : Nat) (s : State) : Keeps src s (varPart n s) := by
  unfold varPart
  simp only [bind_def, pure_def]
  repeat' first
    | with_reducible refine keeps_ite (fun h => ?_) (fun h => ?_)
    | with_reducible refine keeps_bind ?_ (fun a => ?_)
    | with_reducible exact varLoop_keeps _ _ _
    | with_reducible exact varItem_keeps _ _
    | (with_reducible refine keeps_expect _ ?_ ?_) <;> decide
    | with_reducible exact keeps_cg_newline
    | with_reducible exact keeps_same

theorem procHeader_keeps (src : String) (s : State) (h0 : s.type = TOK_PROCEDURE) :
    Keeps src s (procHeader s) := by
  intro hI s' hr
  unfold procHeader at hr
  simp only [bind_def, pure_def] at hr
  obtain ⟨s1, h1, hr⟩ := bind_eq_ok.1 hr
  have hI0 : TokInv src ({ s with proc := 1 } : State) :=
    tokInv_quiet (s := s) ⟨⟨rfl, rfl, rfl, rfl, rfl⟩, rfl⟩ hI
  have hn := (expect_ok _ _ _ h1).2
  have key : ∀ s2, TokInv src s2 →
      (expect TOK_IDENT s2).bind (fun s => expect TOK_SEMICOLON s) = .ok s' → TokInv src s' := by
    intro s2 hI2 hr
    obtain ⟨s3, h3, hr⟩ := bind_eq_ok.1 hr
    have hI3 := (keeps_expect TOK_IDENT (by decide) (by decide) : Keeps src s2 _) hI2 s3 h3
    exact (keeps_expect TOK_SEMICOLON (by decide) (by decide) : Keeps src s3 _) hI3 s' hr
  by_cases ht : s1.type = TOK_IDENT
  · rw [if_pos ht] at hr
    obtain ⟨s2, h2, hr⟩ := bind_eq_ok.1 hr
    obtain ⟨a, ha, hc⟩ := bind_eq_ok.1 h2
    cases hc
    exact key _ (tokInv_quiet (quiet_cg_procedure a) (tokInv_header hI0 h0 hn ht ha)) hr
  · rw [if_neg ht] at hr
    obtain ⟨s2, h2, hr⟩ := bind_eq_ok.1 hr
    cases h2
    exact absurd (expect_ok _ _ _ (bind_eq_ok.1 hr).choose_spec.1).1 ht

theorem procFooter_keeps (src : String) (s : State) : Keeps src s (procFooter s) := by
  unfold procFooter
  simp only [bind_def, pure_def]
  refine keeps_bind (keeps_expect _ (by decide) (by decide)) fun a => ?_
  exact keeps_from (x := { a with proc := 0 })
    (tokInv_quiet (s := a) ⟨⟨rfl, rfl, rfl, rfl, rfl⟩, rfl⟩) keeps_destroy

theorem block_keeps_rules (src : String) (n : Nat) :
    (∀ s, Keeps src s (procLoop n s)) ∧ (∀ s, Keeps src s (block n s)) := by
  induction n with
  | zero => exact ⟨fun _ => keeps_fuel, fun _ => keeps_fuel⟩
  | succ n ih =>
    obtain ⟨ihp, ihb⟩ := ih
    refine ⟨?_, ?_⟩ <;> intro s
    · rw [procLoop]
      refine keeps_ite (fun h => ?_) (fun _ => keeps_same)
      simp only [bind_def, procDecl_eq]
      refine keeps_bind (keeps_bind (procHeader_keeps src s h) fun a =>
        keeps_bind (ihb a) (procFooter_keeps src)) ihp
    · rw [block]
      simp only [bind_def, pure_def]
      refine keeps_ite (fun _ => keeps_error _ _) (fun _ => ?_)
      refine keeps_bind (keeps_from (x := { s with depth := s.depth + 1 })
        (tokInv_quiet (s := s) ⟨⟨rfl, rfl, rfl, rfl, rfl⟩, rfl⟩)
        (constPart_keeps src n _)) fun a => ?_
      refine keeps_bind (varPart_keeps src n a) fun b => ?_
      refine keeps_bind (ihp b) fun c => ?_
      refine keeps_bind (keeps_from ?_ ((statement_keeps_rules src n).2 _)) fun d => ?_
      · split
        · exact tokInv_quiet (quiet_cg_procedure c)
        · exact id
      · refine keeps_ite (fun _ => keeps_error _ _) (fun _ => keeps_ok ?_)
        intro hI
        have hq := lexSame_cg_epilogue d
        have hh : (cg_epilogue d).head = d.head := (cg_epilogue_frame d).1
        exact tokInv_quiet (s := cg_epilogue d) ⟨⟨rfl, rfl, rfl, rfl, rfl⟩, rfl⟩
          (tokInv_quiet ⟨hq, hh⟩ hI)

theorem scanned_eof (src : String) (i : Nat) (a : State) (h : scanned src i = .ok a)
    (ht : a.type = TOK_EOF) : ∀ d, scanned src (i + d) = .ok a := by
  intro d
  induction d with
  | zero => exact h
  | succ d ih =>
    show scanned src (i + d + 1) = _
    rw [scanned, ih]
    show (if a.type = TOK_EOF then _ else _) = _
    rw [if_pos ht]

theorem parse_keeps (src : String) (n : Nat) (s' : State)
    (h : parse n (initsymtab (initial src)) = .ok s') : TokInv src s' ∧ s'.type = TOK_EOF := by
  unfold parse at h
  simp only [bind_def, pure_def] at h
  obtain ⟨s1, h1, h⟩ := bind_eq_ok.1 h
  obtain ⟨s2, h2, h⟩ := bind_eq_ok.1 h
  obtain ⟨s3, h3, h⟩ := bind_eq_ok.1 h
  have hq : LexSame (initial src) (cg_init (initsymtab (initial src))) :=
    lexSame_cg_init (initsymtab (initial src))
  obtain ⟨a', ha', hq'⟩ := next_lexSame _ _ _ hq h1
  have hh : s1.head = [sentinel] :=
    ((next_frame _ _ h1).1).trans (cg_init_frame (initsymtab (initial src))).1
  have hI1 : TokInv src s1 := by
    refine ⟨0, ⟨a', ha', hq'⟩, ?_, ?_, ?_⟩
    · intro k X hk
      omega
    · intro c hc _
      rw [hh, List.mem_singleton] at hc
      subst hc
      exact Or.inl rfl
    · intro k b hk
      omega
  have hI2 := (block_keeps_rules src n).2 s1 hI1 s2 h2
  have hI3 := (keeps_expect TOK_DOT (by decide) (by decide) : Keeps src s2 _) hI2 s3 h3
  split at h
  · cases h
  · rename_i ht
    cases h
    exact ⟨hI3, not_not.1 ht⟩

theorem compile_calls (src : String) (s' : State) (h : compile src = .ok s') (i : Nat)
    (X : String) (hc : FollowedBy src TOK_CALL i X) :
    X = "main" ∨ ∃ j, j < i ∧ FollowedBy src TOK_PROCEDURE j X := by
  obtain ⟨⟨k, ⟨a, ha, hq⟩, hcalls, -, -⟩, ht⟩ := parse_keeps src _ s' h
  rcases Nat.lt_or_ge (i + 1) k with hlt | hge
  · exact hcalls i X hlt hc
  · exfalso
    obtain ⟨x, b, -, -, hb, htb, -⟩ := hc
    have := scanned_eof src k a ha (hq.2.2.2.1.symm.trans ht) (i + 1 - k)
    rw [show k + (i + 1 - k) = i + 1 by omega, hb] at this
    cases this
    have hta : a.type = TOK_EOF := hq.2.2.2.1.symm.trans ht
    rw [hta] at htb
    revert htb
    decide

/-- C10 (amended): in a source that compiles without error, an identifier `X`
that follows the keyword `call` in the token sequence of the source, as the
target of a `call X` statement, is `main`, the name of the sentinel of
`initsymtab`, or it follows the keyword `procedure` at an earlier place of the
token sequence, as the name of a `procedure X` declaration.  In the output the
call `X();` of a name other than `main` comes after the subroutine header
`X(void)`. -/
theorem call_targets_declared (src : String) (s' : State) (h : compile src = .ok s') :
    (∀ i X, FollowedBy src TOK_CALL i X →
      X = "main" ∨ ∃ j, j < i ∧ FollowedBy src TOK_PROCEDURE j X) ∧
    (∀ pre post X, s'.out = pre ++ callText X :: post → X = "main" ∨ headerText X ∈ pre) :=
  ⟨compile_calls src s' h,
   (callRel_blockRel.of_parse _ _ _ h (callInv_initial src)).2.1⟩

/-- C10 (amended) for `procedure p; ; call p.`: the target `p` of the call at
token 4 follows the keyword `procedure` at an earlier token. -/
theorem call_targets_declared_witness :
    "p" = "main" ∨ ∃ j, j < 4 ∧ FollowedBy "procedure p; ; call p." TOK_PROCEDURE j "p" :=
  (call_targets_declared "procedure p; ; call p."
    ((compile "procedure p; ; call p.").getD (initial "")) (by decide!)).1 4 "p"
    ⟨(scanned "procedure p; ; call p." 4).getD (initial ""),
     (scanned "procedure p; ; call p." 5).getD (initial ""),
     by decide!, by decide!, by decide!, by decide!, by decide!⟩
end Pl0c
